import Mathlib

/-!
# Wifly_Light: script engine and bootloader client

A shallow embedding of `src/ScriptCtrl.c` (the device-resident script buffer) and of the
range-checked bootloader transfers of `src/library/WiflyControl.cpp`, followed by the
properties proved about them.

Conventions of the embedding
* `uns8` values are natural numbers reduced modulo 256 wherever the C code stores a wider
  value into a byte.
* The globals `gScriptBuf` and `nextCmd`, the EEPROM and the LED strip driver are the fields
  of one explicit `World` value that every operation transforms.
* The EEPROM is a store of `led_cmd` blocks, keyed by the slot index `x` whose byte address
  is `ScriptBufAddr(x)`, plus the three separate cells `EEPROM_SCRIPTBUF_INLOOP`,
  `EEPROM_SCRIPTBUF_READ` and `EEPROM_SCRIPTBUF_WRITE`.
* Constants whose header is not part of the sources are parameters (`ScriptCfg`, `BlCfg`).
* Host integers wrap: a `size_t` sum is taken modulo `2 ^ SIZE_T_BITS`, a `uint32_t` address
  modulo `2 ^ 32`.
* The transport and the device behind it are a response function plus the log of the requests
  sent (`Proxy`); a method returns its result or exception together with the new proxy.
* `Trace_String` / `Trace_Hex` / `Trace` calls only print diagnostics and are left out.
-/

set_option maxRecDepth 8192

namespace WiflyLight

/-! ## Data model of the script engine -/

/-- Constants used by `ScriptCtrl.c` that are defined in headers outside the sources. -/
structure ScriptCfg where
  /-- Mask applied by `ScriptBufInc`; the ring has the slots `0 .. SCRIPTCTRL_NUM_CMD_MAX`. -/
  SCRIPTCTRL_NUM_CMD_MAX : Nat
  /-- Value that `ScriptCtrl_Clear` assigns to the read and write index. -/
  EEPROM_SCRIPTBUF_BASE : Nat
  /-- Sentinel of `loopEnd.counter` that marks an endless loop. -/
  LOOP_INFINITE : Nat
deriving DecidableEq

/-- Truncation of a value stored into an `uns8` variable. -/
def uns8 (x : Nat) : Nat := x % 256

/-- The command byte `led_cmd.cmd`. The five kinds that `ScriptCtrl.c` names have their own
constructor, `WAIT` is the kind the host sends with `FwSetWait`, and `OTHER` carries every
further command byte. -/
inductive CmdCode where
  | DELETE
  | LOOP_ON
  | LOOP_OFF
  | SET_COLOR
  | SET_FADE
  | WAIT
  | OTHER (code : Nat)
deriving DecidableEq

/-- The `loopEnd` member of the command payload (`struct cmd_loop_end`); all fields are bytes. -/
structure cmd_loop_end where
  startIndex : Nat
  depth : Nat
  counter : Nat
  numLoops : Nat
deriving DecidableEq

/-- One command (`struct led_cmd`). The C payload is a union; the engine reads and writes its
`loopEnd` member only for `LOOP_OFF` commands and hands the `set_color` / `set_fade` member to
the LED strip driver only for those two kinds, so the two views are kept as separate fields:
`payload` holds the bytes of the colour or fade request. -/
structure led_cmd where
  cmd : CmdCode
  payload : List Nat
  loopEnd : cmd_loop_end
deriving DecidableEq

/-- The global `gScriptBuf` (`struct ScriptBuf`). `loopStart` is indexed by a byte. -/
structure ScriptBuf where
  loopStart : Nat → Nat
  loopDepth : Nat
  read : Nat
  write : Nat
  execute : Nat
  inLoop : Bool
  isClearing : Bool

/-- Persistent storage: one `led_cmd` block per slot and the three index cells. -/
structure Eeprom where
  slot : Nat → led_cmd
  cellInLoop : Bool
  cellRead : Nat
  cellWrite : Nat

/-- A call into the LED strip driver, with the payload it was given. -/
inductive LedstripCall where
  | SetColor (payload : List Nat)
  | SetFade (payload : List Nat)
deriving DecidableEq

/-- Everything `ScriptCtrl.c` reads or changes: its two globals, the EEPROM and the log of the
calls made to `Ledstrip_SetColor` / `Ledstrip_SetFade` (oldest first). -/
structure World where
  buf : ScriptBuf
  nextCmd : led_cmd
  eeprom : Eeprom
  ledstrip : List LedstripCall

/-! ## Operations of `ScriptCtrl.c` -/

/-- Macro `ScriptBufInc(x)`: `((x + 1) & SCRIPTCTRL_NUM_CMD_MAX)`, stored into a byte. -/
def ScriptBufInc (cfg : ScriptCfg) (x : Nat) : Nat :=
  uns8 ((x + 1) &&& cfg.SCRIPTCTRL_NUM_CMD_MAX)

/-- Macro `ScriptBufSetInLoop(x)`: persist the flag, then set it in memory. -/
def ScriptBufSetInLoop (x : Bool) (w : World) : World :=
  { w with eeprom := { w.eeprom with cellInLoop := x }, buf := { w.buf with inLoop := x } }

/-- Macro `ScriptBufSetRead(x)`: persist the index, then set it in memory. -/
def ScriptBufSetRead (x : Nat) (w : World) : World :=
  { w with eeprom := { w.eeprom with cellRead := uns8 x }, buf := { w.buf with read := uns8 x } }

/-- Macro `ScriptBufSetWrite(x)`: persist the index, then set it in memory. -/
def ScriptBufSetWrite (x : Nat) (w : World) : World :=
  { w with eeprom := { w.eeprom with cellWrite := uns8 x }, buf := { w.buf with write := uns8 x } }

/-- Library call `Eeprom_WriteBlock` for the block of slot `x`. -/
def Eeprom_WriteBlock (e : Eeprom) (x : Nat) (c : led_cmd) : Eeprom :=
  { e with slot := fun y => if y = x then c else e.slot y }

/-- Function `ScriptCtrl_Write`: store the command at `write` unless the ring is full. -/
def ScriptCtrl_Write (cfg : ScriptCfg) (pCmd : led_cmd) (w : World) : World :=
  let writeNext := ScriptBufInc cfg w.buf.write
  if writeNext ≠ w.buf.read then
    ScriptBufSetWrite writeNext { w with eeprom := Eeprom_WriteBlock w.eeprom w.buf.write pCmd }
  else
    w

/-- Function `ScriptCtrl_Add`. The `LOOP_OFF` branch fills in the `loopEnd` fields of the
command before it is stored. -/
def ScriptCtrl_Add (cfg : ScriptCfg) (pCmd : led_cmd) (w : World) : World :=
  if w.buf.isClearing then
    w
  else
    match pCmd.cmd with
    | .DELETE => { w with buf := { w.buf with isClearing := true } }
    | .LOOP_ON =>
      let w1 : World := { w with buf := { w.buf with
        loopStart := fun i => if i = w.buf.loopDepth then w.buf.write else w.buf.loopStart i } }
      let w2 : World := { w1 with buf := { w1.buf with loopDepth := uns8 (w1.buf.loopDepth + 1) } }
      ScriptCtrl_Write cfg pCmd w2
    | .LOOP_OFF =>
      let w1 : World := { w with buf := { w.buf with loopDepth := uns8 (w.buf.loopDepth + 255) } }
      let loopStart := w1.buf.loopStart w1.buf.loopDepth
      let cmd1 : led_cmd := { pCmd with loopEnd :=
        { startIndex := ScriptBufInc cfg loopStart
          depth := w1.buf.loopDepth
          counter := pCmd.loopEnd.numLoops
          numLoops := pCmd.loopEnd.numLoops } }
      ScriptCtrl_Write cfg cmd1 w1
    | _ => ScriptCtrl_Write cfg pCmd w

/-- Function `ScriptCtrl_Clear`. -/
def ScriptCtrl_Clear (cfg : ScriptCfg) (w : World) : World :=
  let w1 := ScriptBufSetInLoop false w
  let w2 := ScriptBufSetRead cfg.EEPROM_SCRIPTBUF_BASE w1
  let w3 := ScriptBufSetWrite cfg.EEPROM_SCRIPTBUF_BASE w2
  { w3 with buf := { w3.buf with execute := w3.buf.read, isClearing := false } }

/-- Function `ScriptCtrl_Init`: reload the persisted fields into `gScriptBuf`. -/
def ScriptCtrl_Init (w : World) : World :=
  { w with buf := { w.buf with
      inLoop := w.eeprom.cellInLoop
      read := w.eeprom.cellRead
      write := w.eeprom.cellWrite
      execute := w.eeprom.cellRead } }

/-- Function `ScriptCtrl_Run`: one scheduler tick. -/
def ScriptCtrl_Run (cfg : ScriptCfg) (w0 : World) : World :=
  let w := if w0.buf.isClearing then ScriptCtrl_Clear cfg w0 else w0
  if w.buf.execute = w.buf.write then
    w
  else
    let c := w.eeprom.slot w.buf.execute
    let w1 : World := { w with nextCmd := c }
    match c.cmd with
    | .LOOP_ON =>
      ScriptBufSetInLoop true
        { w1 with buf := { w1.buf with execute := ScriptBufInc cfg w1.buf.execute } }
    | .LOOP_OFF =>
      if c.loopEnd.counter = cfg.LOOP_INFINITE then
        { w1 with buf := { w1.buf with execute := c.loopEnd.startIndex } }
      else if c.loopEnd.counter > 1 then
        let c1 : led_cmd :=
          { c with loopEnd := { c.loopEnd with counter := c.loopEnd.counter - 1 } }
        { w1 with
          nextCmd := c1
          eeprom := Eeprom_WriteBlock w1.eeprom w1.buf.execute c1
          buf := { w1.buf with execute := c1.loopEnd.startIndex } }
      else if c.loopEnd.depth = 0 then
        let w2 : World :=
          { w1 with buf := { w1.buf with execute := ScriptBufInc cfg w1.buf.execute } }
        ScriptBufSetInLoop false (ScriptBufSetRead w2.buf.execute w2)
      else
        let c1 : led_cmd := { c with loopEnd := { c.loopEnd with counter := c.loopEnd.numLoops } }
        { w1 with
          nextCmd := c1
          eeprom := Eeprom_WriteBlock w1.eeprom w1.buf.execute c1
          buf := { w1.buf with execute := ScriptBufInc cfg w1.buf.execute } }
    | .SET_COLOR =>
      let w2 : World := { w1 with
        ledstrip := w1.ledstrip ++ [LedstripCall.SetColor c.payload]
        buf := { w1.buf with execute := ScriptBufInc cfg w1.buf.execute } }
      if w2.buf.inLoop then w2 else ScriptBufSetRead w2.buf.execute w2
    | .SET_FADE =>
      let w2 : World := { w1 with
        ledstrip := w1.ledstrip ++ [LedstripCall.SetFade c.payload]
        buf := { w1.buf with execute := ScriptBufInc cfg w1.buf.execute } }
      if w2.buf.inLoop then w2 else ScriptBufSetRead w2.buf.execute w2
    | _ => w1

/-- Add the commands of a list one by one, first element first. -/
def addAll (cfg : ScriptCfg) (cmds : List led_cmd) (w : World) : World :=
  cmds.foldl (fun acc c => ScriptCtrl_Add cfg c acc) w

/-- Call `ScriptCtrl_Run` for `t` consecutive ticks. -/
def runTicks (cfg : ScriptCfg) (t : Nat) (w : World) : World :=
  Nat.iterate (ScriptCtrl_Run cfg) t w

/-! ## Auxiliary definitions used to state the properties -/

/-- The ring of slots has `2 ^ bits` entries: `SCRIPTCTRL_NUM_CMD_MAX` is the mask `2 ^ bits - 1`
of at least one and at most eight bits, so that a slot index fits into a byte. -/
def RingOfBits (cfg : ScriptCfg) (bits : Nat) : Prop :=
  1 ≤ bits ∧ bits ≤ 8 ∧ cfg.SCRIPTCTRL_NUM_CMD_MAX + 1 = 2 ^ bits

/-- A command block with all bytes zero except the command byte. -/
def plainCmd (k : CmdCode) (payload : List Nat) : led_cmd :=
  { cmd := k, payload := payload,
    loopEnd := { startIndex := 0, depth := 0, counter := 0, numLoops := 0 } }

/-- A `LOOP_OFF` request as the host builds it: only `numLoops` is filled in. -/
def loopOffCmd (numLoops : Nat) : led_cmd :=
  { cmd := CmdCode.LOOP_OFF, payload := [],
    loopEnd := { startIndex := 0, depth := 0, counter := 0, numLoops := numLoops } }

/-- An initialized empty script buffer whose indices all sit at slot `r`: the zeroed globals
after `ScriptCtrl_Init` has loaded a persisted empty buffer (`read == write`, not in a loop). -/
def freshWorld (r : Nat) : World :=
  { buf :=
      { loopStart := fun _ => 0, loopDepth := 0, read := r, write := r, execute := r,
        inLoop := false, isClearing := false }
    nextCmd := plainCmd (CmdCode.OTHER 0) []
    eeprom := { slot := fun _ => plainCmd (CmdCode.OTHER 0) [], cellInLoop := false,
                cellRead := r, cellWrite := r }
    ledstrip := [] }

/-- The persistent cells agree with the fields of `gScriptBuf` they back. -/
def Synced (w : World) : Prop :=
  w.eeprom.cellRead = w.buf.read ∧ w.eeprom.cellWrite = w.buf.write ∧
    w.eeprom.cellInLoop = w.buf.inLoop

/-- The operations that change the script buffer after start-up. -/
inductive ScriptOp where
  | Add (pCmd : led_cmd)
  | Run
  | Clear

/-- Perform one operation. -/
def ScriptOp.apply (cfg : ScriptCfg) (w : World) : ScriptOp → World
  | .Add pCmd => ScriptCtrl_Add cfg pCmd w
  | .Run => ScriptCtrl_Run cfg w
  | .Clear => ScriptCtrl_Clear cfg w

/-- Perform a list of operations, first element first. -/
def applyOps (cfg : ScriptCfg) (ops : List ScriptOp) (w : World) : World :=
  ops.foldl (ScriptOp.apply cfg) w

/-- A short run used as a concrete instance: open a loop, add a colour, tick twice. -/
def demoOps : List ScriptOp :=
  [ScriptOp.Add (plainCmd CmdCode.LOOP_ON []), ScriptOp.Add (plainCmd CmdCode.SET_COLOR [9]),
    ScriptOp.Run, ScriptOp.Run]

/-- A power cycle: the EEPROM keeps its content, the globals in RAM come up with the
arbitrary content `ram` / `regs`, and the strip driver starts a new log. -/
def powerCycle (ram : ScriptBuf) (regs : led_cmd) (w : World) : World :=
  { buf := ram, nextCmd := regs, eeprom := w.eeprom, ledstrip := [] }

/-- A small configuration used for concrete instances: four slots, base slot 0, and 0 as
the endless-loop sentinel (the value the host passes to `FwLoopOff` for an endless loop). -/
def demoCfg : ScriptCfg :=
  { SCRIPTCTRL_NUM_CMD_MAX := 3, EEPROM_SCRIPTBUF_BASE := 0, LOOP_INFINITE := 0 }

/-- A buffer of `demoCfg` that is full: three commands are stored from slot 0 on. -/
def fullWorld : World :=
  { freshWorld 0 with buf := { (freshWorld 0).buf with write := 3 } }

/-- The empty buffer at slot 0 after a `DELETE` was added. -/
def clearingWorld : World :=
  { freshWorld 0 with buf := { (freshWorld 0).buf with isClearing := true } }

/-- The slot reached from slot `r` by `i` increments in a ring of `n` slots. -/
def slotAt (n r i : Nat) : Nat := (r + i) % n

/-- The commands of a list sit in consecutive slots, the first one `i` slots after `r`. -/
def Stored (slot : Nat → led_cmd) (n r : Nat) : Nat → List led_cmd → Prop
  | _, [] => True
  | i, c :: cs => slot (slotAt n r i) = c ∧ Stored slot n r (i + 1) cs

/-- The strip calls that executing one command makes. -/
def actuationOf (c : led_cmd) : List LedstripCall :=
  match c.cmd with
  | .SET_COLOR => [LedstripCall.SetColor c.payload]
  | .SET_FADE => [LedstripCall.SetFade c.payload]
  | _ => []

/-- The strip calls of a list of commands executed one after the other. -/
def actuationsOf (cs : List led_cmd) : List LedstripCall :=
  (cs.map actuationOf).flatten

/-- A command that `ScriptCtrl_Run` executes on the strip. -/
def IsSet (c : led_cmd) : Prop :=
  c.cmd = CmdCode.SET_COLOR ∨ c.cmd = CmdCode.SET_FADE

/-- A position-relative description of the script buffer: the stored commands from the slot
`r` the script starts at, the offsets of `execute` and `read` from `r`, the flag, the loop
stack and the strip log. -/
structure Abs where
  prog : List led_cmd
  pc : Nat
  rd : Nat
  inLoop : Bool
  depth : Nat
  stack : Nat → Nat
  log : List LedstripCall

/-- The world `w` is the non-clearing state that `a` describes for a script starting at slot
`r` of a ring with `2 ^ bits` slots. -/
structure View (bits r : Nat) (a : Abs) (w : World) : Prop where
  hread : w.buf.read = slotAt (2 ^ bits) r a.rd
  hwrite : w.buf.write = slotAt (2 ^ bits) r a.prog.length
  hexec : w.buf.execute = slotAt (2 ^ bits) r a.pc
  hinLoop : w.buf.inLoop = a.inLoop
  hclear : w.buf.isClearing = false
  hdepth : w.buf.loopDepth = a.depth
  hstack : w.buf.loopStart = a.stack
  hstored : Stored w.eeprom.slot (2 ^ bits) r 0 a.prog
  hlog : w.ledstrip = a.log

/-- An empty, non-clearing buffer outside any loop whose indices all sit at slot `r`. -/
def EmptyAt (r : Nat) (w : World) : Prop :=
  w.buf.read = r ∧ w.buf.write = r ∧ w.buf.execute = r ∧ w.buf.inLoop = false ∧
    w.buf.isClearing = false ∧ w.buf.loopDepth = 0

/-- The `LOOP_OFF` block that `ScriptCtrl_Add` stores for a loop whose body starts at
`startIndex`, at nesting level `depth`, with `counter` passes left. -/
def storedLoopOff (offCmd : led_cmd) (startIndex depth counter : Nat) : led_cmd :=
  { offCmd with loopEnd :=
      { startIndex := startIndex, depth := depth, counter := counter,
        numLoops := offCmd.loopEnd.numLoops } }

/-- A configuration with eight slots, used for concrete instances with nested loops. -/
def demoCfg8 : ScriptCfg :=
  { SCRIPTCTRL_NUM_CMD_MAX := 7, EEPROM_SCRIPTBUF_BASE := 0, LOOP_INFINITE := 0 }

/-- A nested demo script: two outer passes around two inner passes of one fade. -/
def nestedDemo : List led_cmd :=
  plainCmd CmdCode.LOOP_ON [] :: plainCmd CmdCode.LOOP_ON [] :: [plainCmd CmdCode.SET_FADE [1]]
    ++ [loopOffCmd 2, loopOffCmd 2]

/-! ## Bootloader client (`src/library/WiflyControl.cpp`): range-checked transfers -/

/-- Constants and platform parameters of the bootloader client that come from headers
outside the sources. `SIZE_T_BITS` is the width of `size_t` on the host (32 or 64),
`SIZEOF_BLINFO` is `sizeof(BlInfo)`, and `GetAddress` is the method `BlInfo::GetAddress`
as a function of the bytes of the `BlInfo` received from the device. -/
structure BlCfg where
  FLASH_SIZE : Nat
  EEPROM_SIZE : Nat
  FLASH_READ_BLOCKSIZE : Nat
  EEPROM_READ_BLOCKSIZE : Nat
  FLASH_WRITE_BLOCKSIZE : Nat
  EEPROM_WRITE_BLOCKSIZE : Nat
  SIZE_T_BITS : Nat
  FLASH_ERASE_BLOCKSIZE : Nat
  FLASH_ERASE_BLOCKS : Nat
  BL_AUTOSTART_ADDRESS : Nat
  SIZEOF_BLINFO : Nat
  GetAddress : List Nat → Nat

/-- The requests of the bootloader client, with the arguments handed to
`SetAddressNumBytes` / `SetData` or to the constructor (`BlFlashEraseRequest(endAddress,
numPages)`, `BlInfoRequest()`, `BlRunAppRequest()`). -/
inductive BlRequest where
  | FlashRead (address numBytes : Nat)
  | EepromRead (address numBytes : Nat)
  | FlashWrite (address : Nat) (data : List Nat)
  | EepromWrite (address : Nat) (data : List Nat)
  | FlashErase (endAddress numPages : Nat)
  | Info
  | RunApp
deriving DecidableEq

/-- The exceptions of the bootloader client. `TransferNeverEnds` is not thrown by the code:
the embedding returns it where the chunk loop of the code would run for ever (block size 0). -/
inductive BlError where
  | WiflyControlException
  | BlNoResponseException
  | TransferNeverEnds
deriving DecidableEq

/-- The transport `mProxy` together with the device behind it: `respond` gives the bytes
received for a request after the requests sent so far, `sent` logs the requests (oldest
first). -/
structure Proxy where
  respond : List BlRequest → BlRequest → List Nat
  sent : List BlRequest

/-- Call `mProxy.Send`: transmit the request and receive the response. -/
def Proxy.Send (p : Proxy) (req : BlRequest) : List Nat × Proxy :=
  (p.respond p.sent req, { p with sent := p.sent ++ [req] })

/-- Method `WiflyControl::BlRead`: one round trip; the response must have exactly
`responseSize` bytes. -/
def BlRead (p : Proxy) (req : BlRequest) (responseSize : Nat) :
    Except BlError (List Nat) × Proxy :=
  if responseSize ≠ (p.Send req).1.length then
    (Except.error BlError.BlNoResponseException, (p.Send req).2)
  else
    (Except.ok (p.Send req).1, (p.Send req).2)

/-- The chunk loop shared by `BlReadFlash` and `BlReadEeprom` (the two methods differ in the
block size and the request type only): full blocks while more than one block is left, then
the rest. `address` is a `uint32_t`. Returns `sumBytesRead` and the bytes copied to
`pBuffer`. The first argument bounds the number of loop iterations. -/
def readChunks (blockSize : Nat) (mkReq : Nat → Nat → BlRequest) :
    Nat → Proxy → Nat → Nat → Nat → List Nat → Except BlError (Nat × List Nat) × Proxy
  | 0, p, address, numBytes, sumBytesRead, buffer =>
    if numBytes > blockSize then
      (Except.error BlError.TransferNeverEnds, p)
    else
      match BlRead p (mkReq address numBytes) numBytes with
      | (Except.error e, p1) => (Except.error e, p1)
      | (Except.ok bytes, p1) => (Except.ok (sumBytesRead + numBytes, buffer ++ bytes), p1)
  | fuel + 1, p, address, numBytes, sumBytesRead, buffer =>
    if numBytes > blockSize then
      match BlRead p (mkReq address blockSize) blockSize with
      | (Except.error e, p1) => (Except.error e, p1)
      | (Except.ok bytes, p1) =>
        readChunks blockSize mkReq fuel p1 ((address + blockSize) % 2 ^ 32)
          (numBytes - blockSize) (sumBytesRead + blockSize) (buffer ++ bytes)
    else
      match BlRead p (mkReq address numBytes) numBytes with
      | (Except.error e, p1) => (Except.error e, p1)
      | (Except.ok bytes, p1) => (Except.ok (sumBytesRead + numBytes, buffer ++ bytes), p1)

/-- Method `WiflyControl::BlReadFlash(pBuffer, address, numBytes)`. The range check adds a
`size_t` and a `uint32_t` in `size_t` arithmetic. -/
def BlReadFlash (cfg : BlCfg) (p : Proxy) (address numBytes : Nat) :
    Except BlError (Nat × List Nat) × Proxy :=
  if (numBytes + address) % 2 ^ cfg.SIZE_T_BITS > cfg.FLASH_SIZE then
    (Except.error BlError.WiflyControlException, p)
  else
    readChunks cfg.FLASH_READ_BLOCKSIZE BlRequest.FlashRead numBytes p address numBytes 0 []

/-- Method `WiflyControl::BlReadEeprom(pBuffer, address, numBytes)`. -/
def BlReadEeprom (cfg : BlCfg) (p : Proxy) (address numBytes : Nat) :
    Except BlError (Nat × List Nat) × Proxy :=
  if (numBytes + address) % 2 ^ cfg.SIZE_T_BITS > cfg.EEPROM_SIZE then
    (Except.error BlError.WiflyControlException, p)
  else
    readChunks cfg.EEPROM_READ_BLOCKSIZE BlRequest.EepromRead numBytes p address numBytes 0 []

/-- The chunk loop shared by `BlWriteFlash` and `BlWriteEeprom` (they differ in the block
size, the request type and the acknowledge byte only). `pBuffer` is the memory from the
buffer pointer on, `address` an `unsigned int`. -/
def writeChunks (blockSize ack : Nat) (mkReq : Nat → List Nat → BlRequest) :
    Nat → Proxy → Nat → List Nat → Nat → Except BlError Unit × Proxy
  | 0, p, address, pBuffer, bytesLeft =>
    if bytesLeft > blockSize then
      (Except.error BlError.TransferNeverEnds, p)
    else
      match BlRead p (mkReq address (pBuffer.take bytesLeft)) 1 with
      | (Except.error e, p1) => (Except.error e, p1)
      | (Except.ok response, p1) =>
        if response ≠ [ack] then (Except.error BlError.BlNoResponseException, p1)
        else (Except.ok (), p1)
  | fuel + 1, p, address, pBuffer, bytesLeft =>
    if bytesLeft > blockSize then
      match BlRead p (mkReq address (pBuffer.take blockSize)) 1 with
      | (Except.error e, p1) => (Except.error e, p1)
      | (Except.ok response, p1) =>
        if response ≠ [ack] then (Except.error BlError.BlNoResponseException, p1)
        else
          writeChunks blockSize ack mkReq fuel p1 ((address + blockSize) % 2 ^ 32)
            (pBuffer.drop blockSize) (bytesLeft - blockSize)
    else
      match BlRead p (mkReq address (pBuffer.take bytesLeft)) 1 with
      | (Except.error e, p1) => (Except.error e, p1)
      | (Except.ok response, p1) =>
        if response ≠ [ack] then (Except.error BlError.BlNoResponseException, p1)
        else (Except.ok (), p1)

/-- Method `WiflyControl::BlWriteFlash(address, pBuffer, bufferLength)`; acknowledge `0x04`. -/
def BlWriteFlash (cfg : BlCfg) (p : Proxy) (address : Nat) (pBuffer : List Nat)
    (bufferLength : Nat) : Except BlError Unit × Proxy :=
  if (bufferLength + address) % 2 ^ cfg.SIZE_T_BITS > cfg.FLASH_SIZE then
    (Except.error BlError.WiflyControlException, p)
  else
    writeChunks cfg.FLASH_WRITE_BLOCKSIZE 0x04 BlRequest.FlashWrite bufferLength p address
      pBuffer bufferLength

/-- Method `WiflyControl::BlWriteEeprom(address, pBuffer, bufferLength)`; acknowledge `0x06`. -/
def BlWriteEeprom (cfg : BlCfg) (p : Proxy) (address : Nat) (pBuffer : List Nat)
    (bufferLength : Nat) : Except BlError Unit × Proxy :=
  if (bufferLength + address) % 2 ^ cfg.SIZE_T_BITS > cfg.EEPROM_SIZE then
    (Except.error BlError.WiflyControlException, p)
  else
    writeChunks cfg.EEPROM_WRITE_BLOCKSIZE 0x06 BlRequest.EepromWrite bufferLength p address
      pBuffer bufferLength

/-! ## Auxiliary definitions for the arc invariant of the script buffer -/

/-- Index `ex` lies on the circular arc of a ring with `n` slots that runs from `rd`
(inclusive) forward to `wr` (inclusive): walking forward from `rd`, `ex` is reached no later
than `wr`. -/
def onArc (n rd ex wr : Nat) : Prop :=
  (ex + n - rd) % n ≤ (wr + n - rd) % n

/-- The loop protocol a caller of `ScriptCtrl_Add` has to respect (the code checks none of
it): `LOOP_ON` is only added while the ring has room for it, `LOOP_OFF` only while a loop is
open, `DELETE` only while no loop is open. While the buffer is clearing every command may be
passed (it is ignored). -/
def AddAllowed (cfg : ScriptCfg) (pCmd : led_cmd) (w : World) : Prop :=
  w.buf.isClearing = true ∨
    match pCmd.cmd with
    | .LOOP_ON => ScriptBufInc cfg w.buf.write ≠ w.buf.read
    | .LOOP_OFF => w.buf.loopDepth ≠ 0
    | .DELETE => w.buf.loopDepth = 0
    | _ => True

/-- The states reachable from `w0` by ticks and by adds that respect the loop protocol. -/
inductive WellUsed (cfg : ScriptCfg) (w0 : World) : World → Prop where
  | start : WellUsed cfg w0 w0
  | run (w : World) : WellUsed cfg w0 w → WellUsed cfg w0 (ScriptCtrl_Run cfg w)
  | add (w : World) (pCmd : led_cmd) :
      WellUsed cfg w0 w → AddAllowed cfg pCmd w → WellUsed cfg w0 (ScriptCtrl_Add cfg pCmd w)

/-- The invariant behind the arc property. Positions count the commands stored since the last
clear; position `x` lives in slot `slotAt (2 ^ bits) base x`. `R`, `E` and `W` are the
positions of `read`, `execute` and `write`, `tpos l` is the position of the open `LOOP_ON` at
stack level `l`, and `tq q` is the position of the `LOOP_ON` matching a `LOOP_OFF` stored at
position `q`. `kind`, `start` and `depthF` give the command byte and the `startIndex` and
`depth` fields of the block stored in a slot. -/
structure LoopInv (bits : Nat) (buf : ScriptBuf) (kind : Nat → CmdCode)
    (start depthF : Nat → Nat) (base R E W : Nat) (tpos tq : Nat → Nat) : Prop where
  hRE : R ≤ E
  hEW : E ≤ W
  hWR : W < R + 2 ^ bits
  hread : buf.read = slotAt (2 ^ bits) base R
  hexec : buf.execute = slotAt (2 ^ bits) base E
  hwrite : buf.write = slotAt (2 ^ bits) base W
  hclr : buf.isClearing = true → buf.loopDepth = 0
  hstack : ∀ l, l < buf.loopDepth →
    R ≤ tpos l ∧ tpos l < W ∧ buf.loopStart l = slotAt (2 ^ bits) base (tpos l) ∧
      kind (slotAt (2 ^ bits) base (tpos l)) = CmdCode.LOOP_ON
  hmono : ∀ l l2, l < l2 → l2 < buf.loopDepth → tpos l < tpos l2
  hoff : ∀ q, R ≤ q → q < W → kind (slotAt (2 ^ bits) base q) = CmdCode.LOOP_OFF →
    R ≤ tq q ∧ tq q < q ∧
      start (slotAt (2 ^ bits) base q) = slotAt (2 ^ bits) base (tq q + 1) ∧
      kind (slotAt (2 ^ bits) base (tq q)) = CmdCode.LOOP_ON
  hout : buf.inLoop = false →
    (∀ q, E ≤ q → q < W → kind (slotAt (2 ^ bits) base q) = CmdCode.LOOP_OFF →
      E ≤ tq q) ∧
    (∀ l, l < buf.loopDepth → E ≤ tpos l)
  htop : ∀ q, R ≤ q → q < W → kind (slotAt (2 ^ bits) base q) = CmdCode.LOOP_OFF →
    depthF (slotAt (2 ^ bits) base q) = 0 →
    (∀ q2, q < q2 → q2 < W → kind (slotAt (2 ^ bits) base q2) = CmdCode.LOOP_OFF →
      q < tq q2) ∧
    (∀ l, l < buf.loopDepth → q < tpos l)

/-- The invariant `LoopInv` holds for the buffer and the stored blocks of `w`, for some
positions. -/
def ArcInv (bits : Nat) (w : World) : Prop :=
  ∃ base R E W tpos tq,
    LoopInv bits w.buf (fun x => (w.eeprom.slot x).cmd)
      (fun x => (w.eeprom.slot x).loopEnd.startIndex)
      (fun x => (w.eeprom.slot x).loopEnd.depth) base R E W tpos tq

/-- The operations of the counterexample to the unrestricted arc property: a `DELETE`
requested while a loop is open, then two colours and a `LOOP_OFF`. -/
def arcDemoOps : List ScriptOp :=
  [ScriptOp.Add (plainCmd CmdCode.LOOP_ON []), ScriptOp.Add (plainCmd CmdCode.DELETE []),
    ScriptOp.Run,
    ScriptOp.Add (plainCmd CmdCode.SET_COLOR [1]), ScriptOp.Run,
    ScriptOp.Add (plainCmd CmdCode.SET_COLOR [2]), ScriptOp.Run,
    ScriptOp.Add (loopOffCmd 2), ScriptOp.Run]

/-! ## Bootloader client: boot info, erase and firmware version lookup -/

/-- Method `WiflyControl::BlReadInfo`: one round trip for `sizeof(BlInfo)` bytes; the result
is the received `BlInfo`, as its bytes. -/
def BlReadInfo (cfg : BlCfg) (p : Proxy) : Except BlError (List Nat) × Proxy :=
  BlRead p BlRequest.Info cfg.SIZEOF_BLINFO

/-- Call `info.GetAddress()`, the boot boundary, as the `unsigned int` the callers store. -/
def BlInfo_GetAddress (cfg : BlCfg) (info : List Nat) : Nat :=
  cfg.GetAddress info % 2 ^ 32

/-- Method `WiflyControl::BlFlashErase(endAddress, numPages)`: one erase request, answered by
the single byte `0x03`. -/
def BlFlashErase (p : Proxy) (endAddress numPages : Nat) : Except BlError Unit × Proxy :=
  match BlRead p (BlRequest.FlashErase endAddress numPages) 1 with
  | (Except.error e, p1) => (Except.error e, p1)
  | (Except.ok response, p1) =>
    if response ≠ [0x03] then (Except.error BlError.BlNoResponseException, p1)
    else (Except.ok (), p1)

/-- The `while` loop of `WiflyControl::BlFlashErase(void)`; `address` is an `unsigned int`
that exceeds the step whenever the step is subtracted. The first argument bounds the number of
iterations; the result is the address at which the loop ends. -/
def eraseLoop (cfg : BlCfg) : Nat → Proxy → Nat → Except BlError Nat × Proxy
  | 0, p, address =>
    if address > cfg.FLASH_ERASE_BLOCKSIZE * cfg.FLASH_ERASE_BLOCKS then
      (Except.error BlError.TransferNeverEnds, p)
    else (Except.ok address, p)
  | fuel + 1, p, address =>
    if address > cfg.FLASH_ERASE_BLOCKSIZE * cfg.FLASH_ERASE_BLOCKS then
      match BlFlashErase p address (cfg.FLASH_ERASE_BLOCKS % 256) with
      | (Except.error e, p1) => (Except.error e, p1)
      | (Except.ok _, p1) =>
        eraseLoop cfg fuel p1 (address - cfg.FLASH_ERASE_BLOCKSIZE * cfg.FLASH_ERASE_BLOCKS)
    else (Except.ok address, p)

/-- The part of `WiflyControl::BlFlashErase(void)` that follows the computation of
`firstAddress`: erase downwards from `firstAddress`, then erase the lowest part. The end
address of the last request is `FLASH_ERASE_BLOCKS * FLASH_ERASE_BLOCKSIZE - 1` converted to
`uint32_t`, the page count is converted to `uint8_t`. -/
def eraseFrom (cfg : BlCfg) (p : Proxy) (firstAddress : Nat) : Except BlError Unit × Proxy :=
  match eraseLoop cfg firstAddress p firstAddress with
  | (Except.error e, p2) => (Except.error e, p2)
  | (Except.ok _, p2) =>
    BlFlashErase p2
      ((cfg.FLASH_ERASE_BLOCKS * cfg.FLASH_ERASE_BLOCKSIZE + 2 ^ 32 - 1) % 2 ^ 32)
      (cfg.FLASH_ERASE_BLOCKS % 256)

/-- Method `WiflyControl::BlFlashErase(void)`, the full erase: read the boot boundary and
erase from `firstAddress = info.GetAddress() - 1` (an `unsigned int`) downwards. -/
def BlFlashEraseAll (cfg : BlCfg) (p : Proxy) : Except BlError Unit × Proxy :=
  match BlReadInfo cfg p with
  | (Except.error e, p1) => (Except.error e, p1)
  | (Except.ok info, p1) => eraseFrom cfg p1 ((BlInfo_GetAddress cfg info + 2 ^ 32 - 1) % 2 ^ 32)

/-- Method `WiflyControl::BlEnableAutostart`: write the byte `0xff` to the autostart cell of
the EEPROM. -/
def BlEnableAutostart (cfg : BlCfg) (p : Proxy) : Except BlError Unit × Proxy :=
  BlWriteEeprom cfg p (cfg.BL_AUTOSTART_ADDRESS % 2 ^ 32) [0xff] 1

/-- The search loop of `WiflyControl::BlReadFwVersion`: probe `byteblock = 32` bytes at
`address`, halve `readblock`, step down if the probe was empty and up otherwise. `buffer` is
the local array of 256 bytes, `readblock` and `address` are `uint32_t`. The first argument
bounds the number of iterations. -/
def fwVersionSearch (cfg : BlCfg) :
    Nat → Proxy → List Nat → Nat → Nat → Except BlError (Nat × Nat × List Nat) × Proxy
  | 0, p, buffer, readblock, address =>
    if readblock > 32 then (Except.error BlError.TransferNeverEnds, p)
    else (Except.ok (readblock, address, buffer), p)
  | fuel + 1, p, buffer, readblock, address =>
    if readblock > 32 then
      match BlReadFlash cfg p address 32 with
      | (Except.error e, p1) => (Except.error e, p1)
      | (Except.ok (bytesRead, bytes), p1) =>
        fwVersionSearch cfg fuel p1 (bytes ++ buffer.drop bytes.length) (readblock / 2)
          (if ((bytes ++ buffer.drop bytes.length).take bytesRead).all (fun x => x == 0xff)
            then (address + 2 ^ 32 - readblock / 2) % 2 ^ 32
            else (address + readblock / 2) % 2 ^ 32)
    else (Except.ok (readblock, address, buffer), p)

/-- The backward scan `while(*pString == 0xff) if(pString-- < &buffer[0]) return "ERROR"` of
`WiflyControl::BlReadFwVersion`, started at index `i` of `buffer`: the index at which the scan
stops, or `none` where the pointer leaves the array, in which case the method returns
`"ERROR"` (whatever byte lies in front of the array, one of the two `return "ERROR"`
statements is reached). -/
def scanBack (buffer : List Nat) : Nat → Option Nat
  | 0 => if buffer.getD 0 0 = 0xff then none else some 0
  | i + 1 => if buffer.getD (i + 1) 0 = 0xff then scanBack buffer i else some (i + 1)

/-- The string `"ERROR"`, as its characters. -/
def errorString : List Nat := [0x45, 0x52, 0x52, 0x4f, 0x52]

/-- The end of `WiflyControl::BlReadFwVersion`: scan back from `&buffer[bytesRead]` to the
last byte that is not `0xff` and return the 7 bytes in front of it. -/
def versionString (buffer : List Nat) (bytesRead : Nat) : List Nat :=
  match scanBack buffer bytesRead with
  | none => errorString
  | some j => if j < 7 then errorString else (buffer.drop (j - 7)).take 7

/-- Method `WiflyControl::BlReadFwVersion`; the result is the returned string, as its
characters. -/
def BlReadFwVersion (cfg : BlCfg) (p : Proxy) : Except BlError (List Nat) × Proxy :=
  match BlReadInfo cfg p with
  | (Except.error e, p1) => (Except.error e, p1)
  | (Except.ok info, p1) =>
    match fwVersionSearch cfg 32 p1 (List.replicate 256 0xff)
        (BlInfo_GetAddress cfg info / 2) (BlInfo_GetAddress cfg info / 2) with
    | (Except.error e, p2) => (Except.error e, p2)
    | (Except.ok (readblock, address, buffer), p2) =>
      match BlReadFlash cfg p2 ((address + 2 ^ 32 - readblock * 2) % 2 ^ 32) 64 with
      | (Except.error e, p3) => (Except.error e, p3)
      | (Except.ok (bytesRead, bytes), p3) =>
        (Except.ok (versionString (bytes ++ buffer.drop bytes.length) bytesRead), p3)

/-! ## Bootloader client: programming the flash -/

/-- What `BlProgramFlash` asks of the parsed Intel hex file (class `intelhex`, an external
library): `endAddress(&x)` gives the last address of the program code or fails,
`begin(); currentAddress()` gives the first address, `getData(&b, a)` gives the byte at
address `a` or fails where the file has none. -/
structure HexImage where
  endAddress : Option Nat
  firstAddress : Nat
  getData : Nat → Option Nat

/-- The four bytes of `resetVector` that `BlProgramFlash` computes from the boot boundary:
`bootAddress` is an `unsigned int`, `word1` and `word2` are `unsigned short`. -/
def resetVector (boundary : Nat) : List Nat :=
  [ (0xEF00 ||| (((boundary + 2) % 2 ^ 32 / 2) &&& 0xff)) % 2 ^ 16 % 256,
    (((0xEF00 ||| (((boundary + 2) % 2 ^ 32 / 2) &&& 0xff)) % 2 ^ 16) >>> 8) % 256,
    (0xF000 ||| ((((boundary + 2) % 2 ^ 32 / 2) >>> 8) &&& 0x0FFF)) % 2 ^ 16 % 256,
    (((0xF000 ||| ((((boundary + 2) % 2 ^ 32 / 2) >>> 8) &&& 0x0FFF)) % 2 ^ 16) >>> 8) % 256 ]

/-- The loop that reads `appVector[0..3]` from the hex file in `BlProgramFlash`: `none` where
`getData` fails. -/
def readAppVector (hex : HexImage) : Option (List Nat) :=
  match hex.getData 0, hex.getData 1, hex.getData 2, hex.getData 3 with
  | some b0, some b1, some b2, some b3 => some [b0, b1, b2, b3]
  | _, _, _, _ => none

/-- The content of `flashBuffer` in `BlProgramFlash` from index 0 on: the reset vector, then
for `writeAddress` from 4 to `(unsigned int)endAddress` the byte of the hex file or `0xff`. -/
def flashBuffer (hex : HexImage) (boundary endAddress : Nat) : List Nat :=
  resetVector boundary ++
    (List.range (endAddress % 2 ^ 32 + 1 - 4)).map (fun k => (hex.getData (k + 4)).getD 0xff)

/-- The content of `appVecBuf` in `BlProgramFlash` (for a block size of at least 4, the
place of the `memcpy` lies in front of the array otherwise): `0xff` throughout, the
application vector in the last four places. -/
def appVecBuf (cfg : BlCfg) (appVector : List Nat) : List Nat :=
  List.replicate (cfg.FLASH_WRITE_BLOCKSIZE - 4) 0xff ++ appVector

/-- Method `WiflyControl::BlProgramFlash`, from the parsed hex file on (`none`: the file could
not be opened). `endAddress` is an `unsigned long` that holds the value of the hex file. The
fill loop of `flashBuffer` does not end for `(unsigned int)endAddress = 0xffffffff`. -/
def BlProgramFlash (cfg : BlCfg) (p : Proxy) (hexFile : Option HexImage) :
    Except BlError Unit × Proxy :=
  match hexFile with
  | none => (Except.error BlError.WiflyControlException, p)
  | some hex =>
    match BlReadInfo cfg p with
    | (Except.error e, p1) => (Except.error e, p1)
    | (Except.ok info, p1) =>
      match hex.endAddress with
      | none => (Except.error BlError.WiflyControlException, p1)
      | some endAddress =>
        if endAddress ≥ BlInfo_GetAddress cfg info then
          (Except.error BlError.WiflyControlException, p1)
        else if hex.firstAddress ≠ 0 then
          (Except.error BlError.WiflyControlException, p1)
        else
          match readAppVector hex with
          | none => (Except.error BlError.WiflyControlException, p1)
          | some appVector =>
            match BlEnableAutostart cfg p1 with
            | (Except.error e, p2) => (Except.error e, p2)
            | (Except.ok _, p2) =>
              match BlFlashEraseAll cfg p2 with
              | (Except.error e, p3) => (Except.error e, p3)
              | (Except.ok _, p3) =>
                if endAddress > cfg.FLASH_SIZE then
                  (Except.error BlError.WiflyControlException, p3)
                else if endAddress % 2 ^ 32 = 2 ^ 32 - 1 then
                  (Except.error BlError.TransferNeverEnds, p3)
                else
                  match BlWriteFlash cfg p3 0
                      (flashBuffer hex (BlInfo_GetAddress cfg info) endAddress)
                      ((endAddress + 1) % 2 ^ cfg.SIZE_T_BITS) with
                  | (Except.error e, p4) => (Except.error e, p4)
                  | (Except.ok _, p4) =>
                    BlWriteFlash cfg p4
                      ((BlInfo_GetAddress cfg info + 2 ^ 32
                        - cfg.FLASH_WRITE_BLOCKSIZE % 2 ^ 32) % 2 ^ 32)
                      (appVecBuf cfg appVector) cfg.FLASH_WRITE_BLOCKSIZE

/-! ## Firmware client (`src/library/WiflyControl.cpp`): `FwSend` and `FwSetFade` -/

/-- Constants and platform parameters of the firmware client that come from headers outside
the sources: the divisor `calibrationValue`, `sizeof(cmd_set_fade)` and the byte order of the
host, on which `htons` depends. -/
structure FwCfg where
  calibrationValue : Nat
  SIZEOF_CMD_SET_FADE : Nat
  hostLittleEndian : Bool

/-- The fields of `struct cmd_set_fade` that `FwSetFade` fills. -/
structure cmd_set_fade where
  addr : List Nat
  red : Nat
  green : Nat
  blue : Nat
  fadeTmms : Nat
  parallelFade : Nat
deriving DecidableEq

/-- The union `led.data` of a command frame: the member `set_fade`, or other content. -/
inductive FrameData where
  | set_fade (d : cmd_set_fade)
  | other (bytes : List Nat)
deriving DecidableEq

/-- The fields of `struct cmd_frame` (member `mCmdFrame`): the length field and the command
`led.cmd` with its data. -/
structure cmd_frame where
  length : Nat
  cmd : CmdCode
  data : FrameData
deriving DecidableEq

/-- The exceptions of the firmware client: the two exceptions of `FwSend`, and the
`std::bad_alloc` that `FwSetColorDirect` and `FwSetRtc` throw for a null pointer. -/
inductive FwError where
  | FwNoResponseException
  | ScriptBufferFullException
  | bad_alloc
deriving DecidableEq

/-- The transport `mProxy` on the firmware side together with the device behind it:
`respond` gives, for a frame sent after the frames sent so far, the content of the receive
buffer after the call and the number of bytes received; `sent` logs the frames (oldest
first). -/
structure FwProxy where
  respond : List cmd_frame → cmd_frame → List Nat × Nat
  sent : List cmd_frame

/-- Call `mProxy.Send` with a command frame. -/
def FwProxy.Send (p : FwProxy) (frame : cmd_frame) : (List Nat × Nat) × FwProxy :=
  (p.respond p.sent frame, { p with sent := p.sent ++ [frame] })

/-- The methods of class `WiflyResponse` (declared outside the sources) that `FwSend` calls,
for response objects of type `R`: `Init(&buffer, bytesRead)` and the three flags. -/
structure ResponseClass (R : Type) where
  Init : R → List Nat → Nat → R
  IsCrcCheckFailed : R → Bool
  IsValid : R → Bool
  IsScriptBufferFull : R → Bool

/-- The `do ... while` loop of `WiflyControl::FwSend` with `maxCrcRetries = 5`: count the
attempt, send the frame, hand what was received to `response.Init`, and repeat while the CRC
check failed and fewer than 5 attempts were made. The first argument bounds the number of
iterations; the result is the response object and `numCrcRetries` at the end of the loop. -/
def FwSend_loop {R : Type} (cls : ResponseClass R) (pFrame : cmd_frame) :
    Nat → FwProxy → Nat → R → (R × Nat) × FwProxy
  | 0, p, numCrcRetries, response => ((response, numCrcRetries), p)
  | fuel + 1, p, numCrcRetries, response =>
    if cls.IsCrcCheckFailed
          (cls.Init response (p.Send pFrame).1.1 (p.Send pFrame).1.2) = true
        ∧ numCrcRetries + 1 < 5 then
      FwSend_loop cls pFrame fuel (p.Send pFrame).2 (numCrcRetries + 1)
        (cls.Init response (p.Send pFrame).1.1 (p.Send pFrame).1.2)
    else
      ((cls.Init response (p.Send pFrame).1.1 (p.Send pFrame).1.2, numCrcRetries + 1),
        (p.Send pFrame).2)

/-- Method `WiflyControl::FwSend(pFrame, length, response)`: store the length in the frame,
run the retry loop, then classify the response. The length field of the frame is one byte
(`pFrame->length = length + 2; //add cmd and length byte`), so the sum is stored modulo
256. -/
def FwSend {R : Type} (cls : ResponseClass R) (p : FwProxy) (pFrame : cmd_frame)
    (length : Nat) (response : R) : Except FwError R × FwProxy :=
  if cls.IsValid
      (FwSend_loop cls { pFrame with length := uns8 (length + 2) } 5 p 0 response).1.1 = false then
    (Except.error FwError.FwNoResponseException,
      (FwSend_loop cls { pFrame with length := uns8 (length + 2) } 5 p 0 response).2)
  else if cls.IsScriptBufferFull
      (FwSend_loop cls { pFrame with length := uns8 (length + 2) } 5 p 0 response).1.1 = true then
    (Except.error FwError.ScriptBufferFullException,
      (FwSend_loop cls { pFrame with length := uns8 (length + 2) } 5 p 0 response).2)
  else
    (Except.ok (FwSend_loop cls { pFrame with length := uns8 (length + 2) } 5 p 0 response).1.1,
      (FwSend_loop cls { pFrame with length := uns8 (length + 2) } 5 p 0 response).2)

/-- Function `htons` for a 16-bit value: the bytes are swapped on a little-endian host. -/
def htons (cfg : FwCfg) (x : Nat) : Nat :=
  if cfg.hostLittleEndian then (x % 256) * 256 + x / 256 % 256 else x % 2 ^ 16

/-- The local `fadeTmms` of `WiflyControl::FwSetFade` after
`fadeTmms = fadeTmms / calibrationValue; if(fadeTmms < 4) fadeTmms = 4;` (the division is
undefined in the code for `calibrationValue = 0`). -/
def fadeTicks (cfg : FwCfg) (fadeTmms : Nat) : Nat :=
  if fadeTmms / cfg.calibrationValue < 4 then 4 else fadeTmms / cfg.calibrationValue

/-- The value `(uint16_t)fadeTmms` that `FwSetFade` hands to `htons`. -/
def fadeTicks16 (cfg : FwCfg) (fadeTmms : Nat) : Nat :=
  fadeTicks cfg fadeTmms % 2 ^ 16

/-- The frame `mCmdFrame` as `WiflyControl::FwSetFade` fills it before the call of `FwSend`
(macro `SetAddrRgb` for the address and the colour). -/
def setFadeFrame (cfg : FwCfg) (mCmdFrame : cmd_frame) (argb fadeTmms addr : Nat)
    (parallelFade : Bool) : cmd_frame :=
  { mCmdFrame with
    cmd := CmdCode.SET_FADE
    data := FrameData.set_fade
      { addr := [addr &&& 0x000000ff, (addr &&& 0x0000ff00) >>> 8,
                 (addr &&& 0x00ff0000) >>> 16, (addr &&& 0xff000000) >>> 24]
        red := (argb &&& 0x00ff0000) >>> 16
        green := (argb &&& 0x0000ff00) >>> 8
        blue := argb &&& 0x000000ff
        fadeTmms := htons cfg (fadeTicks16 cfg fadeTmms)
        parallelFade := if parallelFade then 1 else 0 } }

/-- Method `WiflyControl::FwSetFade(response, argb, fadeTmms, addr, parallelFade)` with the
`uint32_t` arguments. -/
def FwSetFade {R : Type} (cls : ResponseClass R) (cfg : FwCfg) (p : FwProxy)
    (mCmdFrame : cmd_frame) (response : R) (argb fadeTmms addr : Nat) (parallelFade : Bool) :
    Except FwError R × FwProxy :=
  FwSend cls p (setFadeFrame cfg mCmdFrame argb fadeTmms addr parallelFade)
    cfg.SIZEOF_CMD_SET_FADE response

/-! ## Auxiliary definitions used to state the properties of the two clients -/

/-- The response object after the first `i` transmissions of `frame` by a retry loop that
starts from `response` on proxy `p`: each transmission hands what was received to `Init`. -/
def responseAfter {R : Type} (cls : ResponseClass R) (p : FwProxy) (frame : cmd_frame)
    (response : R) : Nat → R
  | 0 => response
  | i + 1 =>
    cls.Init (responseAfter cls p frame response i)
      (p.respond (p.sent ++ List.replicate i frame) frame).1
      (p.respond (p.sent ++ List.replicate i frame) frame).2

/-- A small response class for examples: the object is the flag triple itself, `Init` reads
the three flags from the first three received bytes (absent bytes read as CRC failure, not
valid, buffer not full). -/
def demoResponse : ResponseClass (Bool × Bool × Bool) where
  Init := fun _ buffer bytesRead =>
    ((buffer.take bytesRead).getD 0 1 ≠ 0, (buffer.take bytesRead).getD 1 0 ≠ 0,
      (buffer.take bytesRead).getD 2 0 ≠ 0)
  IsCrcCheckFailed := fun r => r.1
  IsValid := fun r => r.2.1
  IsScriptBufferFull := fun r => r.2.2

/-- A device for examples that answers the `n`-th frame with the `n`-th entry of `answers`
and with nothing once the list is used up. -/
def scriptedFw (answers : List (List Nat)) : FwProxy where
  respond := fun sent _ => (answers.getD sent.length [], (answers.getD sent.length []).length)
  sent := []

/-- An empty command frame for examples. -/
def demoFrame : cmd_frame where
  length := 0
  cmd := CmdCode.SET_FADE
  data := FrameData.other []

/-- Firmware client parameters for examples: calibration value 5 on a little-endian host. -/
def demoFw : FwCfg where
  calibrationValue := 5
  SIZEOF_CMD_SET_FADE := 10
  hostLittleEndian := true

/-- The device model of the programming properties: a flash and an EEPROM whose bytes are
read back as stored, and the boot information the device reports. -/
structure Device where
  flash : Nat → Nat
  eeprom : Nat → Nat
  info : List Nat

/-- The effect of one request on the device: a write stores its data, an erase request sets
the `numPages * FLASH_ERASE_BLOCKSIZE` bytes that end at its end address to `0xff`, a read or
an information request changes nothing. -/
def Device.step (cfg : BlCfg) (d : Device) : BlRequest → Device
  | BlRequest.FlashWrite address data =>
    { d with flash := fun x =>
        if address ≤ x ∧ x < address + data.length then data.getD (x - address) 0xff
        else d.flash x }
  | BlRequest.EepromWrite address data =>
    { d with eeprom := fun x =>
        if address ≤ x ∧ x < address + data.length then data.getD (x - address) 0xff
        else d.eeprom x }
  | BlRequest.FlashErase endAddress numPages =>
    { d with flash := fun x =>
        if x ≤ endAddress ∧ endAddress < x + numPages * cfg.FLASH_ERASE_BLOCKSIZE then 0xff
        else d.flash x }
  | _ => d

/-- The answer of the device to a request: the bytes read, the acknowledge byte of a write
(`0x04` flash, `0x06` EEPROM) or of an erase (`0x03`), or the boot information; the model
holds no application that a `BlRunAppRequest` could start, and does not answer it. -/
def Device.answer (d : Device) : BlRequest → List Nat
  | BlRequest.FlashRead address numBytes =>
    (List.range numBytes).map (fun i => d.flash (address + i))
  | BlRequest.EepromRead address numBytes =>
    (List.range numBytes).map (fun i => d.eeprom (address + i))
  | BlRequest.FlashWrite _ _ => [0x04]
  | BlRequest.EepromWrite _ _ => [0x06]
  | BlRequest.FlashErase _ _ => [0x03]
  | BlRequest.Info => d.info
  | BlRequest.RunApp => []

/-- The device after a sequence of requests. -/
def Device.after (cfg : BlCfg) (d : Device) (requests : List BlRequest) : Device :=
  requests.foldl (Device.step cfg) d

/-- The proxy of a session with device `d`: each request is answered by the device in the
state the earlier requests have left it in. -/
def Device.proxy (cfg : BlCfg) (d : Device) : Proxy where
  respond := fun sent req => (Device.after cfg d sent).answer req
  sent := []

/-- A request is a flash write that covers address `x`. -/
def writesTo (x : Nat) : BlRequest → Bool
  | BlRequest.FlashWrite address data => decide (address ≤ x ∧ x < address + data.length)
  | _ => false

/-- Bootloader client parameters for examples: 1 KiB of flash with blocks of 64 bytes, a
64-bit host, and a boot information of three bytes that holds the boot boundary, low byte
first. -/
def demoBl : BlCfg where
  FLASH_SIZE := 1024
  EEPROM_SIZE := 256
  FLASH_READ_BLOCKSIZE := 64
  EEPROM_READ_BLOCKSIZE := 64
  FLASH_WRITE_BLOCKSIZE := 64
  EEPROM_WRITE_BLOCKSIZE := 64
  SIZE_T_BITS := 64
  FLASH_ERASE_BLOCKSIZE := 64
  FLASH_ERASE_BLOCKS := 4
  BL_AUTOSTART_ADDRESS := 255
  SIZEOF_BLINFO := 3
  GetAddress := fun info => info.getD 0 0 + 256 * info.getD 1 0 + 65536 * info.getD 2 0

/-- A device for examples: the application occupies the flash addresses below `appEnd` with
bytes other than `0xff` (the byte at `x` is `x % 251`), everything else is erased, and the
reported boot boundary is `boundary`. -/
def demoDevice (boundary appEnd : Nat) : Device where
  flash := fun x => if x < appEnd then x % 251 else 0xff
  eeprom := fun _ => 0
  info := [boundary % 256, boundary / 256 % 256, boundary / 65536 % 256]

/-- A hex file for examples: program code at every address from 0 to `last`, the byte at
address `x` being `(x + 1) % 251`. -/
def demoImage (last : Nat) : HexImage where
  endAddress := some last
  firstAddress := 0
  getData := fun x => if x ≤ last then some ((x + 1) % 251) else none

/-- The device behind proxy `p` acknowledges every request: it answers a flash write with
`0x04`, an EEPROM write with `0x06`, an erase with `0x03`, and a request for the boot
information with the bytes `info` of a `BlInfo`. -/
structure Acknowledges (cfg : BlCfg) (p : Proxy) (info : List Nat) : Prop where
  info_size : info.length = cfg.SIZEOF_BLINFO
  info_answer : ∀ sent, p.respond sent BlRequest.Info = info
  flash_write : ∀ sent address data, p.respond sent (BlRequest.FlashWrite address data) = [0x04]
  eeprom_write :
    ∀ sent address data, p.respond sent (BlRequest.EepromWrite address data) = [0x06]
  flash_erase :
    ∀ sent endAddress numPages,
      p.respond sent (BlRequest.FlashErase endAddress numPages) = [0x03]

/-- The constants fit a device with boot boundary `boundary`: a host with `size_t` of at
least 32 bits, memories that are addressed with 32 bits, block sizes with which the chunk
loops advance, the autostart cell inside the EEPROM, and a boot boundary inside the flash with
room for one write block in front of it. -/
structure ProgramSetting (cfg : BlCfg) (boundary : Nat) : Prop where
  size_t_bits : 32 ≤ cfg.SIZE_T_BITS
  flash_size : cfg.FLASH_SIZE < 2 ^ 32
  eeprom_size : cfg.EEPROM_SIZE < 2 ^ 32
  write_block : 4 ≤ cfg.FLASH_WRITE_BLOCKSIZE
  eeprom_block : 0 < cfg.EEPROM_WRITE_BLOCKSIZE
  erase_step : 0 < cfg.FLASH_ERASE_BLOCKSIZE * cfg.FLASH_ERASE_BLOCKS
  autostart : cfg.BL_AUTOSTART_ADDRESS < cfg.EEPROM_SIZE
  boundary_block : cfg.FLASH_WRITE_BLOCKSIZE ≤ boundary
  boundary_flash : boundary ≤ cfg.FLASH_SIZE

/-- The requests `mkReq` for `count` consecutive chunks of `blockSize` bytes of `buffer`, at
the ascending addresses `address`, `address + blockSize`, ... (the last chunk is what is left
of the buffer). -/
def chunkReqs (mkReq : Nat → List Nat → BlRequest) (blockSize address : Nat)
    (buffer : List Nat) (count : Nat) : List BlRequest :=
  (List.range count).map
    (fun i => mkReq (address + i * blockSize) ((buffer.drop (i * blockSize)).take blockSize))

/-- The erase requests with the end addresses `address`, `address - C`, `address - 2 * C`,
... that exceed `C = FLASH_ERASE_BLOCKSIZE * FLASH_ERASE_BLOCKS`. -/
def eraseReqs (cfg : BlCfg) (address : Nat) : List BlRequest :=
  (List.range ((address - 1) / (cfg.FLASH_ERASE_BLOCKSIZE * cfg.FLASH_ERASE_BLOCKS))).map
    (fun i => BlRequest.FlashErase
      (address - i * (cfg.FLASH_ERASE_BLOCKSIZE * cfg.FLASH_ERASE_BLOCKS))
      (cfg.FLASH_ERASE_BLOCKS % 256))

/-- The requests of a full erase for a device with boot boundary `boundary`: the request for
the boot information, the erase requests from `boundary - 1` downwards, and the erase request
for the lowest part. -/
def eraseAllReqs (cfg : BlCfg) (boundary : Nat) : List BlRequest :=
  BlRequest.Info :: eraseReqs cfg ((boundary + 2 ^ 32 - 1) % 2 ^ 32) ++
    [BlRequest.FlashErase
      ((cfg.FLASH_ERASE_BLOCKS * cfg.FLASH_ERASE_BLOCKSIZE + 2 ^ 32 - 1) % 2 ^ 32)
      (cfg.FLASH_ERASE_BLOCKS % 256)]

/-- The flash content that a successful programming run leaves at address `x` of the
application region, for a device with boot boundary `boundary` and a hex file with the bytes
`appVector` at the addresses 0 to 3: inside the last write block in front of the boot boundary
`0xff` and, in its last four places, the application vector; elsewhere the reset vector at
the addresses 0 to 3 and the byte of the hex file (`0xff` where it has none) behind them. -/
def programmedFlash (cfg : BlCfg) (hex : HexImage) (boundary : Nat) (appVector : List Nat)
    (x : Nat) : Nat :=
  if boundary - cfg.FLASH_WRITE_BLOCKSIZE ≤ x then
    if x < boundary - 4 then 0xff else appVector.getD (x - (boundary - 4)) 0xff
  else if x < 4 then (resetVector boundary).getD x 0xff
  else (hex.getData x).getD 0xff

/-! ## Auxiliary definitions for single ticks and for sequences of added commands -/

/-- A buffer of `demoCfg` for concrete instances of a tick: slot 0 holds a `LOOP_OFF` with
`numLoops = 3`, start index 0 and the given `depth` and `counter`; `execute` is at slot 0,
`write` at slot 1, and the buffer is inside a loop. -/
def loopOffWorld (counter depth : Nat) : World :=
  { freshWorld 0 with
    buf := { (freshWorld 0).buf with write := 1, inLoop := true }
    eeprom := { (freshWorld 0).eeprom with
      slot := fun _ => storedLoopOff (loopOffCmd 3) 0 depth counter } }

/-- A buffer of `demoCfg` for concrete instances of a tick: slot 0 holds the command `c`,
`execute` is at slot 0, `write` at slot 1, and `inLoop` is as given. -/
def oneCmdWorld (c : led_cmd) (inLoop : Bool) : World :=
  { freshWorld 0 with
    buf := { (freshWorld 0).buf with write := 1, inLoop := inLoop }
    eeprom := { (freshWorld 0).eeprom with slot := fun _ => c } }

/-- The number of commands that `ScriptCtrl_Write` still accepts in a ring of `n` slots with
the read index `r` and the write index `w`: the slots from `w` on up to two slots in front of
`r`. -/
def freeSlots (n r w : Nat) : Nat := (r + n - 1 - w) % n

/-- A command that is neither `DELETE` nor a loop bracket: `ScriptCtrl_Add` hands it to
`ScriptCtrl_Write` as it is. -/
def IsPlain (c : led_cmd) : Prop :=
  c.cmd ≠ CmdCode.DELETE ∧ c.cmd ≠ CmdCode.LOOP_ON ∧ c.cmd ≠ CmdCode.LOOP_OFF

/-- Properly nested sequences of commands: the empty sequence, a plain command in front of
a nested sequence, and a loop `LOOP_ON body LOOP_OFF` with a nested body in front of a
nested sequence. -/
inductive Nested : List led_cmd → Prop where
  | nil : Nested []
  | plain (c : led_cmd) (rest : List led_cmd) :
      IsPlain c → Nested rest → Nested (c :: rest)
  | loop (onCmd : led_cmd) (body : List led_cmd) (offCmd : led_cmd) (rest : List led_cmd) :
      onCmd.cmd = CmdCode.LOOP_ON → offCmd.cmd = CmdCode.LOOP_OFF →
      Nested body → Nested rest → Nested (onCmd :: body ++ offCmd :: rest)

/-- The loops of a properly nested sequence: `LoopAt cmds i j level onCmd offCmd` says that
the `LOOP_ON` command `onCmd` at index `i` of `cmds` matches the `LOOP_OFF` command `offCmd`
at index `j`, and that this loop lies inside `level` other loops of the sequence. -/
inductive LoopAt : List led_cmd → Nat → Nat → Nat → led_cmd → led_cmd → Prop where
  | here (onCmd : led_cmd) (body : List led_cmd) (offCmd : led_cmd) (rest : List led_cmd) :
      onCmd.cmd = CmdCode.LOOP_ON → offCmd.cmd = CmdCode.LOOP_OFF →
      Nested body → Nested rest →
      LoopAt (onCmd :: body ++ offCmd :: rest) 0 (body.length + 1) 0 onCmd offCmd
  | inside (onCmd : led_cmd) (body : List led_cmd) (offCmd : led_cmd) (rest : List led_cmd)
      (i j level : Nat) (c1 c2 : led_cmd) :
      onCmd.cmd = CmdCode.LOOP_ON → offCmd.cmd = CmdCode.LOOP_OFF →
      Nested body → Nested rest → LoopAt body i j level c1 c2 →
      LoopAt (onCmd :: body ++ offCmd :: rest) (i + 1) (j + 1) (level + 1) c1 c2
  | after (onCmd : led_cmd) (body : List led_cmd) (offCmd : led_cmd) (rest : List led_cmd)
      (i j level : Nat) (c1 c2 : led_cmd) :
      onCmd.cmd = CmdCode.LOOP_ON → offCmd.cmd = CmdCode.LOOP_OFF →
      Nested body → Nested rest → LoopAt rest i j level c1 c2 →
      LoopAt (onCmd :: body ++ offCmd :: rest) (i + (body.length + 2)) (j + (body.length + 2))
        level c1 c2
  | skip (c0 : led_cmd) (rest : List led_cmd) (i j level : Nat) (c1 c2 : led_cmd) :
      IsPlain c0 → Nested rest → LoopAt rest i j level c1 c2 →
      LoopAt (c0 :: rest) (i + 1) (j + 1) level c1 c2

/-- The world `w1` is reached from the non-clearing world `w` by storing `k` commands in a
ring of `2 ^ bits` slots: `write` has advanced by `k` slots and is persisted, the blocks
outside the `k` slots from the old `write` on are untouched, and `read`, `execute`, `inLoop`,
their persistent cells and the strip log are unchanged. -/
structure Extends (bits : Nat) (w w1 : World) (k : Nat) : Prop where
  hread : w1.buf.read = w.buf.read
  hexec : w1.buf.execute = w.buf.execute
  hinLoop : w1.buf.inLoop = w.buf.inLoop
  hclear : w1.buf.isClearing = false
  hwrite : w1.buf.write = slotAt (2 ^ bits) w.buf.write k
  hcellWrite : w1.eeprom.cellWrite = if 0 < k then w1.buf.write else w.eeprom.cellWrite
  hcellRead : w1.eeprom.cellRead = w.eeprom.cellRead
  hcellInLoop : w1.eeprom.cellInLoop = w.eeprom.cellInLoop
  hlog : w1.ledstrip = w.ledstrip
  hothers : ∀ y, (∀ i, i < k → y ≠ slotAt (2 ^ bits) w.buf.write i) →
    w1.eeprom.slot y = w.eeprom.slot y

/-- The conditions under which `n` more commands fit: the buffer is not clearing, its indices
lie in the ring of `2 ^ bits` slots, `n` slots are free, and the loop depth plus `n` stays
within a byte. -/
structure Fits (bits : Nat) (w : World) (n : Nat) : Prop where
  hclear : w.buf.isClearing = false
  hr : w.buf.read < 2 ^ bits
  hw : w.buf.write < 2 ^ bits
  hfree : n ≤ freeSlots (2 ^ bits) w.buf.read w.buf.write
  hdepth : w.buf.loopDepth + n < 256

/-- The buffer of `demoCfg` after a `LOOP_ON` and a `DELETE` were added and one tick has
cleared it: empty and not clearing, with the loop depth the deleted script has left. -/
def staleDepthWorld : World :=
  ScriptCtrl_Run demoCfg (ScriptCtrl_Add demoCfg (plainCmd CmdCode.DELETE [])
    (ScriptCtrl_Add demoCfg (plainCmd CmdCode.LOOP_ON []) (freshWorld 0)))

/-- Four colour commands, one more than the ring of `demoCfg` can hold. -/
def fourColors : List led_cmd :=
  [plainCmd CmdCode.SET_COLOR [1], plainCmd CmdCode.SET_COLOR [2],
    plainCmd CmdCode.SET_COLOR [3], plainCmd CmdCode.SET_COLOR [4]]

/-! ## Bootloader client: starting the application -/

/-- Method `WiflyControl::BlRunApp`: one round trip for 6 bytes, then the test of the command
field of the received `struct response_frame`. The status code `FW_STARTED` and the layout of
the frame come from a header outside the sources and are parameters: `response_cmd` reads the
field `cmd` from the received bytes. -/
def BlRunApp (FW_STARTED : Nat) (response_cmd : List Nat → Nat) (p : Proxy) :
    Except BlError Unit × Proxy :=
  match BlRead p BlRequest.RunApp 6 with
  | (Except.error e, p1) => (Except.error e, p1)
  | (Except.ok buffer, p1) =>
    if 4 ≤ buffer.length then
      if response_cmd buffer = FW_STARTED then (Except.ok (), p1)
      else (Except.error BlError.BlNoResponseException, p1)
    else (Except.error BlError.BlNoResponseException, p1)

/-! ## Auxiliary definitions for transfers that stop at the first refusal -/

/-- Send the requests one after the other, each to be answered by the single byte `ack`, and
stop with a no-response error at the first request that is answered otherwise. -/
def sendAcked (ack : Nat) : Proxy → List BlRequest → Except BlError Unit × Proxy
  | p, [] => (Except.ok (), p)
  | p, r :: rs =>
    if p.respond p.sent r = [ack] then sendAcked ack { p with sent := (p.sent ++ [r]) } rs
    else (Except.error BlError.BlNoResponseException, { p with sent := (p.sent ++ [r]) })

/-- Request `i` of `reqs` is acknowledged: sent after the requests before it, it is answered
by the single byte `ack`. -/
def AckedAt (ack : Nat) (p : Proxy) (reqs : List BlRequest) (i : Nat) : Prop :=
  ∃ r, reqs[i]? = some r ∧ p.respond (p.sent ++ reqs.take i) r = [ack]

/-- The outcome `result` of a method that has to send the requests `reqs` through proxy `p`:
it succeeds, with all requests sent, if and only if every request is acknowledged by `ack`;
otherwise it raises the no-response error at the first request that is not acknowledged, and
this request is the last one sent. -/
structure StopsAtFirstRefusal (ack : Nat) (p : Proxy) (reqs : List BlRequest)
    (result : Except BlError Unit × Proxy) : Prop where
  all_acked : (∀ i, i < reqs.length → AckedAt ack p reqs i) →
    result = (Except.ok (), { p with sent := (p.sent ++ reqs) })
  first_refusal : ∀ i, i < reqs.length → (∀ j, j < i → AckedAt ack p reqs j) →
    ¬ AckedAt ack p reqs i →
    result = (Except.error BlError.BlNoResponseException,
      { p with sent := (p.sent ++ reqs.take (i + 1)) })
  ok_iff : result.1 = Except.ok () ↔ ∀ i, i < reqs.length → AckedAt ack p reqs i

/-- The read requests `mkReq` for `numBytes` bytes from `address` on in blocks of `blockSize`
bytes: request `i` asks for the bytes from `address + i * blockSize` on, a full block or what
is left. -/
def readReqs (mkReq : Nat → Nat → BlRequest) (blockSize address numBytes : Nat) :
    List BlRequest :=
  (List.range ((numBytes - 1) / blockSize + 1)).map
    (fun i => mkReq (address + i * blockSize) (min blockSize (numBytes - i * blockSize)))

/-- The responses to the requests `reqs`, sent one after the other through proxy `p`. -/
def responsesTo (p : Proxy) : List BlRequest → List (List Nat)
  | [] => []
  | r :: rs => p.respond p.sent r :: responsesTo { p with sent := (p.sent ++ [r]) } rs

/-- The erase requests of a full erase for the boot boundary `b`, with
`C = FLASH_ERASE_BLOCKSIZE * FLASH_ERASE_BLOCKS`: the end addresses `b - 1`, `b - 1 - C`, ...
above `C`, then the end address `C - 1`; each request for `FLASH_ERASE_BLOCKS` pages. -/
def fullEraseReqs (cfg : BlCfg) (b : Nat) : List BlRequest :=
  (List.range ((b - 2) / (cfg.FLASH_ERASE_BLOCKSIZE * cfg.FLASH_ERASE_BLOCKS))).map
      (fun i => BlRequest.FlashErase
        (b - 1 - i * (cfg.FLASH_ERASE_BLOCKSIZE * cfg.FLASH_ERASE_BLOCKS))
        cfg.FLASH_ERASE_BLOCKS)
    ++ [BlRequest.FlashErase (cfg.FLASH_ERASE_BLOCKSIZE * cfg.FLASH_ERASE_BLOCKS - 1)
          cfg.FLASH_ERASE_BLOCKS]

/-- The number of bytes a read request asks for. -/
def requested : BlRequest → Nat
  | BlRequest.FlashRead _ numBytes => numBytes
  | BlRequest.EepromRead _ numBytes => numBytes
  | _ => 0

/-- A device for examples that acknowledges the first `n` requests of a session like a flash
write (`0x04`) and answers nothing afterwards. -/
def refusingProxy (n : Nat) : Proxy where
  respond := fun sent _ => if sent.length < n then [0x04] else []
  sent := []

/-- A device for examples that answers every request with the bytes `bytes`. -/
def answeringProxy (bytes : List Nat) : Proxy where
  respond := fun _ _ => bytes
  sent := []

/-! ## Firmware client: the other operations -/

/-- The parts of the command header (outside the sources) on which the firmware operations
other than `FwSetFade` depend: the command codes without a constructor of their own in
`CmdCode`, the sizes of two payload structures, `NUM_OF_LED`, and the stores into the members
of the union `led.data`, whose layout the header fixes (`set_numLoops data v` is `data` after
`led.data.loopEnd.numLoops = v`, and so on). -/
structure FwLayout where
  CLEAR_SCRIPT : CmdCode
  GET_CYCLETIME : CmdCode
  GET_RTC : CmdCode
  GET_TRACE : CmdCode
  GET_FW_VERSION : CmdCode
  START_BL : CmdCode
  SET_RTC : CmdCode
  SET_COLOR_DIRECT : CmdCode
  SIZEOF_RTC_TIME : Nat
  SIZEOF_CMD_SET_COLOR_DIRECT : Nat
  NUM_OF_LED : Nat
  set_numLoops : FrameData → Nat → FrameData
  set_waitTmms : FrameData → Nat → FrameData
  set_rtc : FrameData → List Nat → FrameData
  set_led_array : FrameData → List Nat → FrameData

/-- The fields of `struct tm` that `FwSetRtc` reads; they are of type `int`. -/
structure tm where
  tm_sec : Int
  tm_min : Int
  tm_hour : Int
  tm_mday : Int
  tm_mon : Int
  tm_year : Int
  tm_wday : Int

/-- The cast `(uns8)` of an `int`. -/
def uns8OfInt (x : Int) : Nat := (x % 256).toNat

/-- Method `WiflyControl::FwClearScript`. -/
def FwClearScript {R : Type} (cls : ResponseClass R) (lay : FwLayout) (p : FwProxy)
    (mCmdFrame : cmd_frame) (response : R) : Except FwError R × FwProxy :=
  FwSend cls p { mCmdFrame with cmd := lay.CLEAR_SCRIPT } 0 response

/-- Method `WiflyControl::FwGetCycletime`. -/
def FwGetCycletime {R : Type} (cls : ResponseClass R) (lay : FwLayout) (p : FwProxy)
    (mCmdFrame : cmd_frame) (response : R) : Except FwError R × FwProxy :=
  FwSend cls p { mCmdFrame with cmd := lay.GET_CYCLETIME } 0 response

/-- Method `WiflyControl::FwGetRtc`. -/
def FwGetRtc {R : Type} (cls : ResponseClass R) (lay : FwLayout) (p : FwProxy)
    (mCmdFrame : cmd_frame) (response : R) : Except FwError R × FwProxy :=
  FwSend cls p { mCmdFrame with cmd := lay.GET_RTC } 0 response

/-- Method `WiflyControl::FwGetTracebuffer`. -/
def FwGetTracebuffer {R : Type} (cls : ResponseClass R) (lay : FwLayout) (p : FwProxy)
    (mCmdFrame : cmd_frame) (response : R) : Except FwError R × FwProxy :=
  FwSend cls p { mCmdFrame with cmd := lay.GET_TRACE } 0 response

/-- Method `WiflyControl::FwGetVersion`. -/
def FwGetVersion {R : Type} (cls : ResponseClass R) (lay : FwLayout) (p : FwProxy)
    (mCmdFrame : cmd_frame) (response : R) : Except FwError R × FwProxy :=
  FwSend cls p { mCmdFrame with cmd := lay.GET_FW_VERSION } 0 response

/-- Method `WiflyControl::FwLoopOn`. -/
def FwLoopOn {R : Type} (cls : ResponseClass R) (p : FwProxy)
    (mCmdFrame : cmd_frame) (response : R) : Except FwError R × FwProxy :=
  FwSend cls p { mCmdFrame with cmd := CmdCode.LOOP_ON } 0 response

/-- Method `WiflyControl::FwLoopOff(response, numLoops)`; `numLoops` is an `unsigned char`.
The size handed to `FwSend` is `sizeof(cmd_set_fade)`. -/
def FwLoopOff {R : Type} (cls : ResponseClass R) (cfg : FwCfg) (lay : FwLayout) (p : FwProxy)
    (mCmdFrame : cmd_frame) (response : R) (numLoops : Nat) : Except FwError R × FwProxy :=
  FwSend cls p
    { mCmdFrame with
      cmd := CmdCode.LOOP_OFF
      data := lay.set_numLoops mCmdFrame.data (uns8 numLoops) }
    cfg.SIZEOF_CMD_SET_FADE response

/-- Method `WiflyControl::FwSetColorDirect(response, pBuffer, bufferLength)`: `pBuffer` is
`none` for the null pointer and the memory from the pointer on otherwise. At most
`NUM_OF_LED * 3` bytes are copied, the rest of the array is filled with zeros. -/
def FwSetColorDirect {R : Type} (cls : ResponseClass R) (lay : FwLayout) (p : FwProxy)
    (mCmdFrame : cmd_frame) (response : R) (pBuffer : Option (List Nat)) (bufferLength : Nat) :
    Except FwError R × FwProxy :=
  match pBuffer with
  | none => (Except.error FwError.bad_alloc, p)
  | some buffer =>
    FwSend cls p
      { mCmdFrame with
        cmd := lay.SET_COLOR_DIRECT
        data := lay.set_led_array mCmdFrame.data
          (buffer.take (min bufferLength (lay.NUM_OF_LED * 3)) ++
            List.replicate (lay.NUM_OF_LED * 3 - min bufferLength (lay.NUM_OF_LED * 3)) 0) }
      lay.SIZEOF_CMD_SET_COLOR_DIRECT response

/-- Method `WiflyControl::FwSetRtc(response, timeValue)`: `timeValue` is `none` for the null
pointer. The seven fields are stored as bytes, in the order of the assignments. -/
def FwSetRtc {R : Type} (cls : ResponseClass R) (lay : FwLayout) (p : FwProxy)
    (mCmdFrame : cmd_frame) (response : R) (timeValue : Option tm) :
    Except FwError R × FwProxy :=
  match timeValue with
  | none => (Except.error FwError.bad_alloc, p)
  | some t =>
    FwSend cls p
      { mCmdFrame with
        cmd := lay.SET_RTC
        data := lay.set_rtc mCmdFrame.data
          [uns8OfInt t.tm_sec, uns8OfInt t.tm_min, uns8OfInt t.tm_hour, uns8OfInt t.tm_mday,
            uns8OfInt t.tm_mon, uns8OfInt t.tm_year, uns8OfInt t.tm_wday] }
      lay.SIZEOF_RTC_TIME response

/-- Method `WiflyControl::FwSetWait(response, waitTmms)` with the `uint32_t` argument (the
division is undefined in the code for `calibrationValue = 0`). The size handed to `FwSend` is
`sizeof(cmd_set_fade)`. -/
def FwSetWait {R : Type} (cls : ResponseClass R) (cfg : FwCfg) (lay : FwLayout) (p : FwProxy)
    (mCmdFrame : cmd_frame) (response : R) (waitTmms : Nat) : Except FwError R × FwProxy :=
  FwSend cls p
    { mCmdFrame with
      cmd := CmdCode.WAIT
      data := lay.set_waitTmms mCmdFrame.data
        (htons cfg (waitTmms / cfg.calibrationValue % 2 ^ 16)) }
    cfg.SIZEOF_CMD_SET_FADE response

/-- Method `WiflyControl::FwStartBl`. -/
def FwStartBl {R : Type} (cls : ResponseClass R) (lay : FwLayout) (p : FwProxy)
    (mCmdFrame : cmd_frame) (response : R) : Except FwError R × FwProxy :=
  FwSend cls p { mCmdFrame with cmd := lay.START_BL } 0 response

/-- A command header for examples: the payload of `WAIT` has 2 bytes and that of `LOOP_OFF`
4 bytes (they are not used by the code), the date has 7 bytes, the strip 32 LEDs; the stores
into the union replace its content by the bytes stored. -/
def demoLayout : FwLayout where
  CLEAR_SCRIPT := CmdCode.DELETE
  GET_CYCLETIME := CmdCode.OTHER 0xf8
  GET_RTC := CmdCode.OTHER 0xf9
  GET_TRACE := CmdCode.OTHER 0xfa
  GET_FW_VERSION := CmdCode.OTHER 0xfb
  START_BL := CmdCode.OTHER 0xf5
  SET_RTC := CmdCode.OTHER 0xf7
  SET_COLOR_DIRECT := CmdCode.OTHER 0xf1
  SIZEOF_RTC_TIME := 7
  SIZEOF_CMD_SET_COLOR_DIRECT := 96
  NUM_OF_LED := 32
  set_numLoops := fun _ v => FrameData.other [0, 0, v, 0]
  set_waitTmms := fun _ v => FrameData.other [v % 256, v / 256]
  set_rtc := fun _ bytes => FrameData.other bytes
  set_led_array := fun _ bytes => FrameData.other bytes

/-! ## Auxiliary definitions for the frame properties of `ScriptCtrl_Add` and `ScriptCtrl_Clear` -/

/-- The buffer of `demoCfg` with one open loop: a `LOOP_ON` was added to the empty buffer. -/
def openLoopWorld : World :=
  ScriptCtrl_Add demoCfg (plainCmd CmdCode.LOOP_ON []) (freshWorld 0)

/-- The buffer of `demoCfg` holding a `WAIT` command in front of a colour command. -/
def waitingWorld : World :=
  addAll demoCfg [plainCmd CmdCode.WAIT [], plainCmd CmdCode.SET_COLOR [1]] (freshWorld 0)

/-- A tick, or the addition of a command other than `DELETE`. -/
def ScriptOp.keepsScript : ScriptOp → Prop
  | .Add pCmd => pCmd.cmd ≠ CmdCode.DELETE
  | .Run => True
  | .Clear => False

/-- The state of a buffer that is stuck in front of a command of a kind `ScriptCtrl_Run` does
not know, compared with the state `w` in which it got there. -/
structure Stuck (bits : Nat) (w v : World) : Prop where
  hclr : v.buf.isClearing = false
  hexec : v.buf.execute = w.buf.execute
  hread : v.buf.read = w.buf.read
  hlog : v.ledstrip = w.ledstrip
  hslot : v.eeprom.slot w.buf.execute = w.eeprom.slot w.buf.execute
  hw : v.buf.write < 2 ^ bits
  hne : v.buf.execute ≠ v.buf.write
  harc : onArc (2 ^ bits) v.buf.read v.buf.execute v.buf.write

/-- The requests `g` are those of one read of `numBytes` bytes of flash in blocks of
`blockSize` bytes: flash read requests, as many as the read needs blocks, for `numBytes` bytes
in all. -/
def IsFlashRead (blockSize numBytes : Nat) (g : List BlRequest) : Prop :=
  g.length = (numBytes - 1) / blockSize + 1 ∧ (g.map requested).sum = numBytes ∧
    ∀ r ∈ g, ∃ a k, r = BlRequest.FlashRead a k

/-- The word address to which a two-word `GOTO` instruction jumps, for the four bytes of the
instruction in little-endian order: the low 8 bits of the target are the low byte of the
first word, the high 12 bits of the target are the low 12 bits of the second word. -/
def gotoTarget (v : List Nat) : Nat :=
  ((v.getD 0 0 + 256 * v.getD 1 0) &&& 0xFF)
    + (((v.getD 2 0 + 256 * v.getD 3 0) &&& 0x0FFF) <<< 8)

/-- The operations that show why the loop protocol keeps `LOOP_ON` away from a full ring:
three colours fill the ring of `demoCfg`, the `LOOP_ON` is dropped, the colours are run and
reclaimed, two more colours are added and run, and a `LOOP_OFF` closes the loop that was
never stored. -/
def fullRingOps : List ScriptOp :=
  [ScriptOp.Add (plainCmd CmdCode.SET_COLOR [1]), ScriptOp.Add (plainCmd CmdCode.SET_COLOR [2]),
    ScriptOp.Add (plainCmd CmdCode.SET_COLOR [3]), ScriptOp.Add (plainCmd CmdCode.LOOP_ON []),
    ScriptOp.Run, ScriptOp.Run, ScriptOp.Run,
    ScriptOp.Add (plainCmd CmdCode.SET_COLOR [4]), ScriptOp.Add (plainCmd CmdCode.SET_COLOR [5]),
    ScriptOp.Run, ScriptOp.Run,
    ScriptOp.Add (loopOffCmd 2), ScriptOp.Run]

/-! ## Properties of the script engine -/

/-- C6: when `ScriptBufInc(write) == read`, `ScriptCtrl_Write` drops the command; the indices,
every stored slot and every persistent cell (the whole state) are what they were before. -/
theorem ScriptCtrl_Write_full_drops (cfg : ScriptCfg) (pCmd : led_cmd) (w : World)
    (hfull : ScriptBufInc cfg w.buf.write = w.buf.read) :
    ScriptCtrl_Write cfg pCmd w = w := by
  simp [ScriptCtrl_Write, hfull]

theorem ScriptCtrl_Write_full_drops_witness :
    ScriptBufInc demoCfg fullWorld.buf.write = fullWorld.buf.read ∧
      ScriptCtrl_Write demoCfg (plainCmd CmdCode.SET_COLOR [1, 2, 3]) fullWorld = fullWorld :=
  ⟨by decide, ScriptCtrl_Write_full_drops _ _ _ (by decide)⟩

/-- C7: while `isClearing` is set, `ScriptCtrl_Add` of any command leaves the whole state
(indices, flags, loop stack, stored commands) unchanged. -/
theorem ScriptCtrl_Add_clearing_noop (cfg : ScriptCfg) (pCmd : led_cmd) (w : World)
    (hclr : w.buf.isClearing = true) :
    ScriptCtrl_Add cfg pCmd w = w := by
  simp [ScriptCtrl_Add, hclr]

theorem ScriptCtrl_Add_clearing_noop_witness :
    clearingWorld.buf.isClearing = true ∧
      ScriptCtrl_Add demoCfg (plainCmd CmdCode.LOOP_ON []) clearingWorld = clearingWorld :=
  ⟨rfl, ScriptCtrl_Add_clearing_noop _ _ _ rfl⟩

theorem uns8_of_lt {x : Nat} (h : x < 256) : uns8 x = x := Nat.mod_eq_of_lt h

theorem two_pow_bits_le {bits : Nat} (h8 : bits ≤ 8) : 2 ^ bits ≤ 256 := by
  calc 2 ^ bits ≤ 2 ^ 8 := Nat.pow_le_pow_right (by decide) h8
    _ = 256 := by norm_num

theorem two_le_two_pow_bits {bits : Nat} (h1 : 1 ≤ bits) : 2 ≤ 2 ^ bits := by
  calc 2 = 2 ^ 1 := by norm_num
    _ ≤ 2 ^ bits := Nat.pow_le_pow_right (by decide) h1

/-- With a mask of `bits` bits, `ScriptBufInc` is the successor modulo `2 ^ bits`. -/
theorem ScriptBufInc_eq_mod {cfg : ScriptCfg} {bits : Nat} (hring : RingOfBits cfg bits)
    (x : Nat) : ScriptBufInc cfg x = (x + 1) % 2 ^ bits := by
  obtain ⟨_, h8, hmask⟩ := hring
  have hm : cfg.SCRIPTCTRL_NUM_CMD_MAX = 2 ^ bits - 1 := by omega
  have hpos : 0 < 2 ^ bits := Nat.pow_pos (by decide)
  unfold ScriptBufInc
  rw [hm, Nat.and_pow_two_sub_one_eq_mod]
  exact uns8_of_lt (lt_of_lt_of_le (Nat.mod_lt _ hpos) (two_pow_bits_le h8))

theorem ScriptBufInc_ne_self {cfg : ScriptCfg} {bits : Nat} (hring : RingOfBits cfg bits)
    (x : Nat) : ScriptBufInc cfg x ≠ x := by
  rw [ScriptBufInc_eq_mod hring]
  have h2 := two_le_two_pow_bits hring.1
  have hlt : (x + 1) % 2 ^ bits < 2 ^ bits := Nat.mod_lt _ (by omega)
  rcases Nat.lt_trichotomy (x + 1) (2 ^ bits) with h | h | h
  · rw [Nat.mod_eq_of_lt h]; omega
  · rw [h, Nat.mod_self]; omega
  · omega

/-- C8: a tick on a clearing buffer performs the deferred clear and nothing else: it equals
`ScriptCtrl_Clear`, leaves `read == write == execute == EEPROM_SCRIPTBUF_BASE` with both flags
false, calls no strip actuation, loads and rewrites no command, and the next `ScriptCtrl_Add`
of a command other than `DELETE` is stored at the base slot and advances `write`. -/
theorem ScriptCtrl_Run_clearing (cfg : ScriptCfg) (bits : Nat) (w : World) (pCmd : led_cmd)
    (hring : RingOfBits cfg bits) (hbase : cfg.EEPROM_SCRIPTBUF_BASE < 256)
    (hclr : w.buf.isClearing = true) (hstorable : pCmd.cmd ≠ CmdCode.DELETE) :
    ScriptCtrl_Run cfg w = ScriptCtrl_Clear cfg w ∧
    (ScriptCtrl_Run cfg w).buf.read = cfg.EEPROM_SCRIPTBUF_BASE ∧
    (ScriptCtrl_Run cfg w).buf.write = cfg.EEPROM_SCRIPTBUF_BASE ∧
    (ScriptCtrl_Run cfg w).buf.execute = cfg.EEPROM_SCRIPTBUF_BASE ∧
    (ScriptCtrl_Run cfg w).buf.inLoop = false ∧
    (ScriptCtrl_Run cfg w).buf.isClearing = false ∧
    (ScriptCtrl_Run cfg w).ledstrip = w.ledstrip ∧
    (ScriptCtrl_Run cfg w).nextCmd = w.nextCmd ∧
    (ScriptCtrl_Run cfg w).eeprom.slot = w.eeprom.slot ∧
    (ScriptCtrl_Add cfg pCmd (ScriptCtrl_Run cfg w)).buf.write
      = ScriptBufInc cfg cfg.EEPROM_SCRIPTBUF_BASE ∧
    (ScriptCtrl_Add cfg pCmd (ScriptCtrl_Run cfg w)).buf.write ≠ cfg.EEPROM_SCRIPTBUF_BASE ∧
    ((ScriptCtrl_Add cfg pCmd (ScriptCtrl_Run cfg w)).eeprom.slot cfg.EEPROM_SCRIPTBUF_BASE).cmd
      = pCmd.cmd ∧
    ((ScriptCtrl_Add cfg pCmd (ScriptCtrl_Run cfg w)).eeprom.slot cfg.EEPROM_SCRIPTBUF_BASE).payload
      = pCmd.payload ∧
    (pCmd.cmd ≠ CmdCode.LOOP_OFF →
      (ScriptCtrl_Add cfg pCmd (ScriptCtrl_Run cfg w)).eeprom.slot cfg.EEPROM_SCRIPTBUF_BASE
        = pCmd) := by
  have hrun : ScriptCtrl_Run cfg w = ScriptCtrl_Clear cfg w := by
    simp [ScriptCtrl_Run, hclr, ScriptCtrl_Clear, ScriptBufSetWrite, ScriptBufSetRead,
      ScriptBufSetInLoop]
  have hne := ScriptBufInc_ne_self hring cfg.EEPROM_SCRIPTBUF_BASE
  have hincLt : ScriptBufInc cfg cfg.EEPROM_SCRIPTBUF_BASE < 256 := Nat.mod_lt _ (by decide)
  have hu := uns8_of_lt hbase
  have hu2 := uns8_of_lt hincLt
  rw [hrun]
  refine ⟨rfl, ?_, ?_, ?_, ?_, ?_, ?_, ?_, ?_, ?_⟩
  · simp [ScriptCtrl_Clear, ScriptBufSetWrite, ScriptBufSetRead, ScriptBufSetInLoop, hu]
  · simp [ScriptCtrl_Clear, ScriptBufSetWrite, ScriptBufSetRead, ScriptBufSetInLoop, hu]
  · simp [ScriptCtrl_Clear, ScriptBufSetWrite, ScriptBufSetRead, ScriptBufSetInLoop, hu]
  · simp [ScriptCtrl_Clear, ScriptBufSetWrite, ScriptBufSetRead, ScriptBufSetInLoop]
  · simp [ScriptCtrl_Clear, ScriptBufSetWrite, ScriptBufSetRead, ScriptBufSetInLoop]
  · simp [ScriptCtrl_Clear, ScriptBufSetWrite, ScriptBufSetRead, ScriptBufSetInLoop]
  · simp [ScriptCtrl_Clear, ScriptBufSetWrite, ScriptBufSetRead, ScriptBufSetInLoop]
  · simp [ScriptCtrl_Clear, ScriptBufSetWrite, ScriptBufSetRead, ScriptBufSetInLoop]
  · cases hk : pCmd.cmd <;>
      simp_all [ScriptCtrl_Add, ScriptCtrl_Write, ScriptCtrl_Clear, ScriptBufSetWrite,
        ScriptBufSetRead, ScriptBufSetInLoop, Eeprom_WriteBlock]

theorem demoCfg_ring : RingOfBits demoCfg 2 := ⟨by decide, by decide, by decide⟩

theorem ScriptCtrl_Run_clearing_witness :
    (RingOfBits demoCfg 2 ∧ demoCfg.EEPROM_SCRIPTBUF_BASE < 256 ∧
      clearingWorld.buf.isClearing = true ∧
      (plainCmd CmdCode.SET_FADE [7]).cmd ≠ CmdCode.DELETE) ∧
    ScriptCtrl_Run demoCfg clearingWorld = ScriptCtrl_Clear demoCfg clearingWorld :=
  ⟨⟨demoCfg_ring, by decide, rfl, by decide⟩,
    (ScriptCtrl_Run_clearing demoCfg 2 clearingWorld (plainCmd CmdCode.SET_FADE [7])
      demoCfg_ring (by decide) rfl (by decide)).1⟩

theorem Synced_Write (cfg : ScriptCfg) (pCmd : led_cmd) (w : World) (h : Synced w) :
    Synced (ScriptCtrl_Write cfg pCmd w) := by
  obtain ⟨h1, h2, h3⟩ := h
  unfold ScriptCtrl_Write
  by_cases hf : ScriptBufInc cfg w.buf.write = w.buf.read
  · simp [hf, Synced, h1, h2, h3]
  · simp [hf, Synced, h1, h3, ScriptBufSetWrite, Eeprom_WriteBlock]

theorem Synced_Add (cfg : ScriptCfg) (pCmd : led_cmd) (w : World) (h : Synced w) :
    Synced (ScriptCtrl_Add cfg pCmd w) := by
  unfold ScriptCtrl_Add
  split
  · exact h
  · split
    · exact h
    · exact Synced_Write _ _ _ h
    · exact Synced_Write _ _ _ h
    · exact Synced_Write _ _ _ h

theorem Synced_Clear (cfg : ScriptCfg) (w : World) : Synced (ScriptCtrl_Clear cfg w) := by
  simp [Synced, ScriptCtrl_Clear, ScriptBufSetWrite, ScriptBufSetRead, ScriptBufSetInLoop]

theorem Synced_Run (cfg : ScriptCfg) (w : World) (h : Synced w) :
    Synced (ScriptCtrl_Run cfg w) := by
  have hv : Synced (if w.buf.isClearing = true then ScriptCtrl_Clear cfg w else w) := by
    split
    · exact Synced_Clear cfg w
    · exact h
  unfold ScriptCtrl_Run
  dsimp only
  generalize (if w.buf.isClearing = true then ScriptCtrl_Clear cfg w else w) = v at hv ⊢
  obtain ⟨h1, h2, h3⟩ := hv
  split
  · exact ⟨h1, h2, h3⟩
  · split
    · simp [Synced, ScriptBufSetInLoop, h1, h2]
    · split
      · exact ⟨h1, h2, h3⟩
      · split
        · simp [Synced, Eeprom_WriteBlock, h1, h2, h3]
        · split
          · simp [Synced, ScriptBufSetInLoop, ScriptBufSetRead, h2]
          · simp [Synced, Eeprom_WriteBlock, h1, h2, h3]
    · split
      · exact ⟨h1, h2, h3⟩
      · simp [Synced, ScriptBufSetRead, h2, h3]
    · split
      · exact ⟨h1, h2, h3⟩
      · simp [Synced, ScriptBufSetRead, h2, h3]
    · exact ⟨h1, h2, h3⟩

theorem Synced_applyOps (cfg : ScriptCfg) (ops : List ScriptOp) :
    ∀ w : World, Synced w → Synced (applyOps cfg ops w) := by
  induction ops with
  | nil => intro w h; exact h
  | cons op rest ih =>
    intro w h
    have hstep : Synced (ScriptOp.apply cfg w op) := by
      cases op with
      | Add pCmd => exact Synced_Add cfg pCmd w h
      | Run => exact Synced_Run cfg w h
      | Clear => exact Synced_Clear cfg w
    exact ih _ hstep

/-- C9: starting from a state whose persistent cells equal the `read`, `write` and `inLoop`
fields, every sequence of `ScriptCtrl_Add`, `ScriptCtrl_Run` and `ScriptCtrl_Clear` calls
keeps them equal, and `ScriptCtrl_Init` after a power cycle at that point (whatever the RAM
holds) restores `read`, `write` and `inLoop` to their last values and sets `execute = read`. -/
theorem persisted_fields_survive (cfg : ScriptCfg) (ops : List ScriptOp) (w : World)
    (ram : ScriptBuf) (regs : led_cmd) (hsync : Synced w) :
    Synced (applyOps cfg ops w) ∧
    (ScriptCtrl_Init (powerCycle ram regs (applyOps cfg ops w))).buf.read
      = (applyOps cfg ops w).buf.read ∧
    (ScriptCtrl_Init (powerCycle ram regs (applyOps cfg ops w))).buf.write
      = (applyOps cfg ops w).buf.write ∧
    (ScriptCtrl_Init (powerCycle ram regs (applyOps cfg ops w))).buf.inLoop
      = (applyOps cfg ops w).buf.inLoop ∧
    (ScriptCtrl_Init (powerCycle ram regs (applyOps cfg ops w))).buf.execute
      = (applyOps cfg ops w).buf.read := by
  have hs := Synced_applyOps cfg ops w hsync
  obtain ⟨h1, h2, h3⟩ := hs
  exact ⟨⟨h1, h2, h3⟩, h1, h2, h3, h1⟩

theorem persisted_fields_survive_witness :
    Synced (ScriptCtrl_Init (freshWorld 2)) ∧
    (ScriptCtrl_Init (powerCycle (freshWorld 0).buf (plainCmd CmdCode.WAIT [])
        (applyOps demoCfg demoOps (ScriptCtrl_Init (freshWorld 2))))).buf.inLoop
      = (applyOps demoCfg demoOps (ScriptCtrl_Init (freshWorld 2))).buf.inLoop :=
  ⟨⟨rfl, rfl, rfl⟩,
    (persisted_fields_survive demoCfg demoOps (ScriptCtrl_Init (freshWorld 2))
      (freshWorld 0).buf (plainCmd CmdCode.WAIT []) ⟨rfl, rfl, rfl⟩).2.2.2.1⟩

/-! ### Ring arithmetic and stored scripts -/

theorem uns8_ScriptBufInc (cfg : ScriptCfg) (x : Nat) :
    uns8 (ScriptBufInc cfg x) = ScriptBufInc cfg x := by
  unfold ScriptBufInc uns8
  exact Nat.mod_mod _ _

theorem slotAt_zero {n r : Nat} (h : r < n) : slotAt n r 0 = r := by
  unfold slotAt
  simpa using Nat.mod_eq_of_lt h

theorem slotAt_lt {n : Nat} (r i : Nat) (h : 0 < n) : slotAt n r i < n :=
  Nat.mod_lt _ h

theorem slotAt_inj {n r i j : Nat} (hi : i < n) (hj : j < n)
    (h : slotAt n r i = slotAt n r j) : i = j := by
  unfold slotAt at h
  have h1 : r + i ≡ r + j [MOD n] := h
  have h2 : i ≡ j [MOD n] := Nat.ModEq.add_left_cancel' r h1
  have h3 : i % n = j % n := h2
  rwa [Nat.mod_eq_of_lt hi, Nat.mod_eq_of_lt hj] at h3

theorem slotAt_ne {n r i j : Nat} (hi : i < n) (hj : j < n) (h : i ≠ j) :
    slotAt n r i ≠ slotAt n r j :=
  fun e => h (slotAt_inj hi hj e)

theorem ScriptBufInc_slotAt {cfg : ScriptCfg} {bits : Nat} (hring : RingOfBits cfg bits)
    (r i : Nat) :
    ScriptBufInc cfg (slotAt (2 ^ bits) r i) = slotAt (2 ^ bits) r (i + 1) := by
  rw [ScriptBufInc_eq_mod hring]
  unfold slotAt
  rw [Nat.add_mod, Nat.mod_mod, ← Nat.add_mod, Nat.add_assoc]

theorem Stored_append (slot : Nat → led_cmd) (n r : Nat) (xs ys : List led_cmd) :
    ∀ i, Stored slot n r i (xs ++ ys) ↔
      Stored slot n r i xs ∧ Stored slot n r (i + xs.length) ys := by
  induction xs with
  | nil => intro i; simp [Stored]
  | cons x xs ih =>
    intro i
    have e : i + (xs.length + 1) = i + 1 + xs.length := by omega
    show (slot (slotAt n r i) = x ∧ Stored slot n r (i + 1) (xs ++ ys)) ↔ _
    rw [ih (i + 1)]
    simp only [Stored, List.length_cons, e, and_assoc]

/-- Writing a slot outside the range a stored list occupies keeps the list stored. -/
theorem Stored_write_other (slot : Nat → led_cmd) (n r q : Nat) (c : led_cmd) (hq : q < n)
    (xs : List led_cmd) :
    ∀ i, i + xs.length ≤ n → (q < i ∨ i + xs.length ≤ q) → Stored slot n r i xs →
      Stored (fun y => if y = slotAt n r q then c else slot y) n r i xs := by
  induction xs with
  | nil => intro i _ _ _; trivial
  | cons x xs ih =>
    intro i hlen hout hst
    simp only [List.length_cons] at hlen hout
    obtain ⟨h1, h2⟩ := hst
    refine ⟨?_, ih (i + 1) (by omega) (by omega) h2⟩
    have hne : slotAt n r i ≠ slotAt n r q := slotAt_ne (by omega) hq (by omega)
    simp [hne, h1]

/-- The command at offset `pre.length` of a stored script. -/
theorem Stored_at (slot : Nat → led_cmd) (n r : Nat) (pre post : List led_cmd) (c : led_cmd)
    (h : Stored slot n r 0 (pre ++ c :: post)) : slot (slotAt n r pre.length) = c := by
  have h2 := ((Stored_append slot n r pre (c :: post) 0).1 h).2
  simp only [Nat.zero_add] at h2
  exact h2.1

/-- Appending a command by writing the slot behind the stored script. -/
theorem Stored_snoc (slot : Nat → led_cmd) (n r : Nat) (xs : List led_cmd) (c : led_cmd)
    (hlen : xs.length < n) (h : Stored slot n r 0 xs) :
    Stored (fun y => if y = slotAt n r xs.length then c else slot y) n r 0 (xs ++ [c]) := by
  refine (Stored_append _ n r xs [c] 0).2 ⟨?_, ?_⟩
  · exact Stored_write_other slot n r xs.length c hlen xs 0 (by omega) (by omega) h
  · simp [Stored]

/-! ### One tick, seen through `View` -/

theorem View.exec_ne_write {bits r : Nat} {a : Abs} {w : World} (hv : View bits r a w)
    (hpc : a.pc < a.prog.length) (hlen : a.prog.length < 2 ^ bits) :
    w.buf.execute ≠ w.buf.write := by
  rw [hv.hexec, hv.hwrite]
  exact slotAt_ne (by omega) hlen (by omega)

theorem View.slot_exec {bits r : Nat} {a : Abs} {w : World} (hv : View bits r a w)
    {pre post : List led_cmd} {c : led_cmd} (hprog : a.prog = pre ++ c :: post)
    (hpc : a.pc = pre.length) : w.eeprom.slot w.buf.execute = c := by
  rw [hv.hexec, hpc]
  exact Stored_at _ _ _ pre post c (hprog ▸ hv.hstored)

theorem View.inc_exec {cfg : ScriptCfg} {bits r : Nat} {a : Abs} {w : World}
    (hring : RingOfBits cfg bits) (hv : View bits r a w) :
    ScriptBufInc cfg w.buf.execute = slotAt (2 ^ bits) r (a.pc + 1) := by
  rw [hv.hexec]
  exact ScriptBufInc_slotAt hring r a.pc

theorem pc_lt_of_split {a : Abs} {pre post : List led_cmd} {c : led_cmd}
    (hprog : a.prog = pre ++ c :: post) (hpc : a.pc = pre.length) : a.pc < a.prog.length := by
  rw [hprog, hpc]
  simp

/-- A `SET_COLOR` / `SET_FADE` command at `execute`: actuate, advance, reclaim outside loops. -/
theorem View.run_set {cfg : ScriptCfg} {bits r : Nat} {a : Abs} {w : World}
    (pre : List led_cmd) (c : led_cmd) (post : List led_cmd) (hring : RingOfBits cfg bits)
    (hv : View bits r a w)
    (hprog : a.prog = pre ++ c :: post) (hpc : a.pc = pre.length)
    (hlen : a.prog.length < 2 ^ bits) (hc : IsSet c) :
    View bits r
      { a with pc := a.pc + 1, rd := if a.inLoop then a.rd else a.pc + 1,
               log := a.log ++ actuationOf c }
      (ScriptCtrl_Run cfg w) := by
  have hne := hv.exec_ne_write (pc_lt_of_split hprog hpc) hlen
  have hslot := hv.slot_exec hprog hpc
  have hinc := hv.inc_exec hring
  have hu := uns8_ScriptBufInc cfg w.buf.execute
  obtain ⟨h1, h2, h3, h4, h5, h6, h7, h8, h9⟩ := hv
  rcases hc with hc | hc <;> cases hil : a.inLoop <;>
    constructor <;>
    simp_all [ScriptCtrl_Run, ScriptBufSetRead, actuationOf]

/-- A command of any other kind at `execute` is loaded and nothing else happens. -/
theorem View.run_other {cfg : ScriptCfg} {bits r : Nat} {a : Abs} {w : World}
    {pre post : List led_cmd} {c : led_cmd} (hv : View bits r a w)
    (hprog : a.prog = pre ++ c :: post) (hpc : a.pc = pre.length)
    (h1 : c.cmd ≠ CmdCode.LOOP_ON) (h2 : c.cmd ≠ CmdCode.LOOP_OFF)
    (h3 : c.cmd ≠ CmdCode.SET_COLOR) (h4 : c.cmd ≠ CmdCode.SET_FADE) :
    View bits r a (ScriptCtrl_Run cfg w) := by
  have hslot := hv.slot_exec hprog hpc
  obtain ⟨g1, g2, g3, g4, g5, g6, g7, g8, g9⟩ := hv
  have hrun : ScriptCtrl_Run cfg w = w ∨ ScriptCtrl_Run cfg w = { w with nextCmd := c } := by
    by_cases he : w.buf.execute = w.buf.write
    · left
      simp [ScriptCtrl_Run, g5, he]
    · right
      simp only [ScriptCtrl_Run, g5, he, hslot]
      cases hk : c.cmd <;> simp_all
  rcases hrun with e | e <;> rw [e] <;> constructor <;> assumption

/-- With nothing left to execute a tick changes nothing. -/
theorem ScriptCtrl_Run_idle (cfg : ScriptCfg) (w : World) (hclr : w.buf.isClearing = false)
    (he : w.buf.execute = w.buf.write) : ScriptCtrl_Run cfg w = w := by
  simp [ScriptCtrl_Run, hclr, he]

theorem runTicks_idle (cfg : ScriptCfg) (w : World) (hclr : w.buf.isClearing = false)
    (he : w.buf.execute = w.buf.write) (t : Nat) : runTicks cfg t w = w := by
  unfold runTicks
  exact Function.iterate_fixed (ScriptCtrl_Run_idle cfg w hclr he) t

theorem runTicks_add (cfg : ScriptCfg) (s t : Nat) (w : World) :
    runTicks cfg (s + t) w = runTicks cfg t (runTicks cfg s w) := by
  unfold runTicks
  rw [Nat.add_comm, Function.iterate_add_apply]

theorem runTicks_succ (cfg : ScriptCfg) (t : Nat) (w : World) :
    runTicks cfg (t + 1) w = ScriptCtrl_Run cfg (runTicks cfg t w) := by
  unfold runTicks
  exact Function.iterate_succ_apply' _ _ _

theorem runTicks_succ_left (cfg : ScriptCfg) (t : Nat) (w : World) :
    runTicks cfg (t + 1) w = runTicks cfg t (ScriptCtrl_Run cfg w) := by
  unfold runTicks
  exact Function.iterate_succ_apply _ _ _

/-! ### Adding commands, seen through `View` -/

/-- With room for it, `ScriptCtrl_Write` stores the command behind the script. -/
theorem View.write {cfg : ScriptCfg} {bits r : Nat} {a : Abs} {w : World}
    (hring : RingOfBits cfg bits) (hv : View bits r a w) (c : led_cmd)
    (hroom : a.prog.length + 1 < 2 ^ bits) (hrd : a.rd ≤ a.prog.length) :
    View bits r { a with prog := a.prog ++ [c] } (ScriptCtrl_Write cfg c w) := by
  have hinc : ScriptBufInc cfg w.buf.write = slotAt (2 ^ bits) r (a.prog.length + 1) := by
    rw [hv.hwrite]
    exact ScriptBufInc_slotAt hring r a.prog.length
  have hne : ScriptBufInc cfg w.buf.write ≠ w.buf.read := by
    rw [hinc, hv.hread]
    exact slotAt_ne hroom (by omega) (by omega)
  have hu := uns8_ScriptBufInc cfg w.buf.write
  have hst := Stored_snoc w.eeprom.slot (2 ^ bits) r a.prog c (by omega) hv.hstored
  obtain ⟨h1, h2, h3, h4, h5, h6, h7, h8, h9⟩ := hv
  constructor <;> simp_all [ScriptCtrl_Write, ScriptBufSetWrite, Eeprom_WriteBlock]

/-- Adding a command that is neither `DELETE` nor a loop bracket. -/
theorem View.add_other {cfg : ScriptCfg} {bits r : Nat} {a : Abs} {w : World}
    (hring : RingOfBits cfg bits) (hv : View bits r a w) (c : led_cmd)
    (hroom : a.prog.length + 1 < 2 ^ bits) (hrd : a.rd ≤ a.prog.length)
    (h1 : c.cmd ≠ CmdCode.DELETE) (h2 : c.cmd ≠ CmdCode.LOOP_ON)
    (h3 : c.cmd ≠ CmdCode.LOOP_OFF) :
    View bits r { a with prog := a.prog ++ [c] } (ScriptCtrl_Add cfg c w) := by
  have e : ScriptCtrl_Add cfg c w = ScriptCtrl_Write cfg c w := by
    unfold ScriptCtrl_Add
    rw [hv.hclear]
    cases hk : c.cmd <;> simp_all
  rw [e]
  exact hv.write hring c hroom hrd

/-- Adding a list of `SET_COLOR` / `SET_FADE` commands that fits. -/
theorem View.addAll_set {cfg : ScriptCfg} {bits r : Nat} (hring : RingOfBits cfg bits)
    (cs : List led_cmd) (hcs : ∀ c ∈ cs, IsSet c) :
    ∀ (a : Abs) (w : World), View bits r a w → a.prog.length + cs.length < 2 ^ bits →
      a.rd ≤ a.prog.length → View bits r { a with prog := a.prog ++ cs } (addAll cfg cs w) := by
  induction cs with
  | nil =>
    intro a w hv _ _
    simpa [addAll] using hv
  | cons c cs ih =>
    intro a w hv hroom hrd
    have hc : IsSet c := hcs c (List.mem_cons_self _ _)
    have h1 : c.cmd ≠ CmdCode.DELETE := by rcases hc with h | h <;> simp [h]
    have h2 : c.cmd ≠ CmdCode.LOOP_ON := by rcases hc with h | h <;> simp [h]
    have h3 : c.cmd ≠ CmdCode.LOOP_OFF := by rcases hc with h | h <;> simp [h]
    simp only [List.length_cons] at hroom
    have hstep := hv.add_other hring c (by omega) hrd h1 h2 h3
    have hrest := ih (fun x hx => hcs x (List.mem_cons_of_mem _ hx)) _ _ hstep
      (by simp only [List.length_append, List.length_singleton]; omega)
      (by simp only [List.length_append, List.length_singleton]; omega)
    simpa [addAll, List.append_assoc] using hrest

theorem addAll_cons (cfg : ScriptCfg) (c : led_cmd) (cs : List led_cmd) (w : World) :
    addAll cfg (c :: cs) w = addAll cfg cs (ScriptCtrl_Add cfg c w) := rfl

theorem addAll_append (cfg : ScriptCfg) (xs ys : List led_cmd) (w : World) :
    addAll cfg (xs ++ ys) w = addAll cfg ys (addAll cfg xs w) := by
  unfold addAll
  exact List.foldl_append _ _ _ _

theorem View.of_empty (bits : Nat) {r : Nat} {w : World} (he : EmptyAt r w)
    (hr : r < 2 ^ bits) :
    View bits r
      { prog := [], pc := 0, rd := 0, inLoop := false, depth := 0, stack := w.buf.loopStart,
        log := w.ledstrip } w := by
  obtain ⟨h1, h2, h3, h4, h5, h6⟩ := he
  have hz := slotAt_zero hr
  constructor <;> simp_all [Stored]

theorem demoCfg8_ring : RingOfBits demoCfg8 3 := ⟨by decide, by decide, by decide⟩

/-- Outside a loop, with `read` at `execute`, the ticks that run over a stretch of
`SET_COLOR` / `SET_FADE` commands actuate each of them in order and reclaim their slots. -/
theorem View.run_sets {cfg : ScriptCfg} {bits r : Nat} (hring : RingOfBits cfg bits)
    (body : List led_cmd) (hbody : ∀ c ∈ body, IsSet c) :
    ∀ (pre post : List led_cmd) (a : Abs) (w : World), View bits r a w →
      a.prog = pre ++ body ++ post → a.pc = pre.length → a.rd = a.pc →
      a.prog.length < 2 ^ bits → a.inLoop = false →
      View bits r
        { a with pc := a.pc + body.length, rd := a.pc + body.length,
                 log := a.log ++ actuationsOf body }
        (runTicks cfg body.length w) := by
  induction body with
  | nil =>
    intro pre post a w hv _ _ hrd _ _
    obtain ⟨h1, h2, h3, h4, h5, h6, h7, h8, h9⟩ := hv
    constructor <;> simp_all [runTicks, actuationsOf]
  | cons c cs ih =>
    intro pre post a w hv hprog hpc hrd hlen hil
    have hc : IsSet c := hbody c (List.mem_cons_self _ _)
    have hprog1 : a.prog = pre ++ c :: (cs ++ post) := by simpa using hprog
    have hstep := hv.run_set _ _ _ hring hprog1 hpc hlen hc
    have hrest := ih (fun x hx => hbody x (List.mem_cons_of_mem _ hx)) (pre ++ [c]) post _ _ hstep
      (by simpa using hprog) (by simp [hpc]) (by simp [hil]) hlen hil
    rw [List.length_cons, runTicks_succ_left]
    have e : a.pc + 1 + cs.length = a.pc + (cs.length + 1) := by omega
    simpa [hil, actuationsOf, List.append_assoc, e] using hrest

/-- Commands that `ScriptCtrl_Run` executes are executed exactly once, in the order added:
`n` `SET_COLOR` / `SET_FADE` commands (`n <= SCRIPTCTRL_NUM_CMD_MAX`) added to an empty buffer
are all actuated in order after `n` ticks, and then `read == execute == write`. -/
theorem set_commands_run_fifo (cfg : ScriptCfg) (bits r : Nat) (w : World)
    (cmds : List led_cmd) (t : Nat) (hring : RingOfBits cfg bits) (hempty : EmptyAt r w)
    (hr : r < 2 ^ bits) (hcmds : ∀ c ∈ cmds, IsSet c) (hfit : cmds.length < 2 ^ bits)
    (ht : cmds.length ≤ t) :
    (runTicks cfg t (addAll cfg cmds w)).ledstrip = w.ledstrip ++ actuationsOf cmds ∧
    (runTicks cfg t (addAll cfg cmds w)).buf.execute
      = (runTicks cfg t (addAll cfg cmds w)).buf.write ∧
    (runTicks cfg t (addAll cfg cmds w)).buf.read
      = (runTicks cfg t (addAll cfg cmds w)).buf.write := by
  have h0 := View.of_empty bits hempty hr
  have h1 := View.addAll_set hring cmds hcmds _ _ h0 (by simpa using hfit) (by simp)
  have h2 := View.run_sets hring cmds hcmds [] [] _ _ h1 (by simp) (by simp) (by simp)
    (by simpa using hfit) (by simp)
  obtain ⟨d, rfl⟩ : ∃ d, t = cmds.length + d := ⟨t - cmds.length, by omega⟩
  have hidle : (runTicks cfg cmds.length (addAll cfg cmds w)).buf.execute
      = (runTicks cfg cmds.length (addAll cfg cmds w)).buf.write := by
    rw [h2.hexec, h2.hwrite]
    simp
  rw [runTicks_add, runTicks_idle cfg _ h2.hclear hidle]
  refine ⟨?_, hidle, ?_⟩
  · simpa using h2.hlog
  · rw [h2.hread, h2.hwrite]
    simp

/-- A stored command of a kind `ScriptCtrl_Run` has no case for stays at `execute` for ever. -/
theorem View.runTicks_other (cfg : ScriptCfg) {bits r : Nat} {a : Abs} {w : World}
    (pre : List led_cmd) (c : led_cmd) (post : List led_cmd) (hv : View bits r a w)
    (hprog : a.prog = pre ++ c :: post) (hpc : a.pc = pre.length)
    (h1 : c.cmd ≠ CmdCode.LOOP_ON) (h2 : c.cmd ≠ CmdCode.LOOP_OFF)
    (h3 : c.cmd ≠ CmdCode.SET_COLOR) (h4 : c.cmd ≠ CmdCode.SET_FADE) :
    ∀ t, View bits r a (runTicks cfg t w) := by
  intro t
  induction t with
  | zero => exact hv
  | succ t ih =>
    rw [runTicks_succ]
    exact ih.run_other hprog hpc h1 h2 h3 h4

/-- C1 (failing input): a `WAIT` command followed by a `SET_COLOR` command, both added to an
empty buffer: `ScriptCtrl_Add` stores both, but however many ticks run, `execute` stays on the
`WAIT` command, `write` is two slots ahead and the strip is never actuated. -/
theorem wait_command_blocks_queue :
    ∀ t,
      (runTicks demoCfg t
        (addAll demoCfg [plainCmd CmdCode.WAIT [], plainCmd CmdCode.SET_COLOR [1]]
          (freshWorld 0))).buf.execute = 0 ∧
      (runTicks demoCfg t
        (addAll demoCfg [plainCmd CmdCode.WAIT [], plainCmd CmdCode.SET_COLOR [1]]
          (freshWorld 0))).buf.write = 2 ∧
      (runTicks demoCfg t
        (addAll demoCfg [plainCmd CmdCode.WAIT [], plainCmd CmdCode.SET_COLOR [1]]
          (freshWorld 0))).ledstrip = [] := by
  intro t
  have h0 := View.of_empty 2 (r := 0) (w := freshWorld 0)
    ⟨rfl, rfl, rfl, rfl, rfl, rfl⟩ (by decide)
  have h1 := h0.add_other demoCfg_ring (plainCmd CmdCode.WAIT []) (by decide) (by decide)
    (by decide) (by decide) (by decide)
  have h2 := h1.add_other demoCfg_ring (plainCmd CmdCode.SET_COLOR [1]) (by decide) (by decide)
    (by decide) (by decide) (by decide)
  have h3 := h2.runTicks_other demoCfg ([]) (plainCmd CmdCode.WAIT [])
    ([plainCmd CmdCode.SET_COLOR [1]]) rfl rfl (by decide) (by decide) (by decide)
    (by decide) t
  exact ⟨h3.hexec, h3.hwrite, h3.hlog⟩

/-! ### The arc invariant -/

theorem slotAt_add_ring (n r x : Nat) : slotAt n r (x + n) = slotAt n r x := by
  unfold slotAt
  rw [← Nat.add_assoc, Nat.add_mod_right]

/-- Positions less than one ring size apart live in different slots. -/
theorem slotAt_inj_window {n r x y : Nat} (hxy : x ≤ y) (hwin : y < x + n)
    (h : slotAt n r x = slotAt n r y) : x = y := by
  obtain ⟨d, rfl⟩ : ∃ d, y = x + d := ⟨y - x, by omega⟩
  have hd : d < n := by omega
  unfold slotAt at h
  have h1 : r + x + 0 ≡ r + x + d [MOD n] := by
    show (r + x + 0) % n = (r + x + d) % n
    rw [Nat.add_zero, Nat.add_assoc]
    exact h
  have h2 : 0 ≡ d [MOD n] := Nat.ModEq.add_left_cancel' (r + x) h1
  have h3 : 0 % n = d % n := h2
  rw [Nat.mod_eq_of_lt hd, Nat.zero_mod] at h3
  omega

theorem slotAt_ne_window {n r x y : Nat} (hxy : x < y) (hwin : y < x + n) :
    slotAt n r x ≠ slotAt n r y :=
  fun h => by
    have := slotAt_inj_window (Nat.le_of_lt hxy) hwin h
    omega

/-- The offset of a position `x` from a position `R` at most one ring size behind it. -/
theorem arc_offset {n r R x : Nat} (hRx : R ≤ x) (hwin : x < R + n) :
    (slotAt n r x + n - slotAt n r R) % n = x - R := by
  have hn : 0 < n := by omega
  have hu : slotAt n r R < n := slotAt_lt r R hn
  obtain ⟨d, rfl⟩ : ∃ d, x = R + d := ⟨x - R, by omega⟩
  have hd : d < n := by omega
  have h1 : slotAt n r (R + d) + n - slotAt n r R + slotAt n r R ≡ d + slotAt n r R [MOD n] := by
    have e : slotAt n r (R + d) + n - slotAt n r R + slotAt n r R = slotAt n r (R + d) + n := by
      omega
    rw [e]
    show (slotAt n r (R + d) + n) % n = (d + slotAt n r R) % n
    unfold slotAt
    rw [Nat.add_mod_right, Nat.mod_mod, Nat.add_mod d, Nat.mod_mod, ← Nat.add_mod]
    congr 1
    omega
  have h2 := Nat.ModEq.add_right_cancel' _ h1
  have h3 : (slotAt n r (R + d) + n - slotAt n r R) % n = d % n := h2
  rw [h3, Nat.mod_eq_of_lt hd]
  omega

theorem onArc_of_positions {n r R E W : Nat} (hRE : R ≤ E) (hEW : E ≤ W) (hWR : W < R + n) :
    onArc n (slotAt n r R) (slotAt n r E) (slotAt n r W) := by
  unfold onArc
  rw [arc_offset hRE (by omega), arc_offset (by omega) hWR]
  omega

/-- What one tick does to the indices and the flag of a buffer that is not clearing; `c` is
the command stored at `execute`. -/
theorem ScriptCtrl_Run_effect (cfg : ScriptCfg) (w : World) (hclr : w.buf.isClearing = false) :
    (ScriptCtrl_Run cfg w).buf.loopDepth = w.buf.loopDepth ∧
    (ScriptCtrl_Run cfg w).buf.loopStart = w.buf.loopStart ∧
    (ScriptCtrl_Run cfg w).buf.write = w.buf.write ∧
    (ScriptCtrl_Run cfg w).buf.isClearing = false ∧
    (((ScriptCtrl_Run cfg w).buf.execute = w.buf.execute ∧
        (ScriptCtrl_Run cfg w).buf.read = w.buf.read ∧
        (ScriptCtrl_Run cfg w).buf.inLoop = w.buf.inLoop) ∨
      (w.buf.execute ≠ w.buf.write ∧
        (ScriptCtrl_Run cfg w).buf.execute = ScriptBufInc cfg w.buf.execute ∧
        (ScriptCtrl_Run cfg w).buf.read = w.buf.read ∧
        ((ScriptCtrl_Run cfg w).buf.inLoop = true ∨
          ((ScriptCtrl_Run cfg w).buf.inLoop = w.buf.inLoop ∧
            (w.eeprom.slot w.buf.execute).cmd = CmdCode.LOOP_OFF))) ∨
      (w.buf.execute ≠ w.buf.write ∧
        (w.eeprom.slot w.buf.execute).cmd = CmdCode.LOOP_OFF ∧
        (ScriptCtrl_Run cfg w).buf.execute = (w.eeprom.slot w.buf.execute).loopEnd.startIndex ∧
        (ScriptCtrl_Run cfg w).buf.read = w.buf.read ∧
        (ScriptCtrl_Run cfg w).buf.inLoop = w.buf.inLoop) ∨
      (w.buf.execute ≠ w.buf.write ∧
        (ScriptCtrl_Run cfg w).buf.execute = ScriptBufInc cfg w.buf.execute ∧
        (ScriptCtrl_Run cfg w).buf.read = ScriptBufInc cfg w.buf.execute ∧
        (ScriptCtrl_Run cfg w).buf.inLoop = false ∧
        ((IsSet (w.eeprom.slot w.buf.execute) ∧ w.buf.inLoop = false) ∨
          ((w.eeprom.slot w.buf.execute).cmd = CmdCode.LOOP_OFF ∧
            (w.eeprom.slot w.buf.execute).loopEnd.depth = 0)))) := by
  have hu := uns8_ScriptBufInc cfg w.buf.execute
  by_cases he : w.buf.execute = w.buf.write
  · simp [ScriptCtrl_Run, hclr, he]
  · cases hk : (w.eeprom.slot w.buf.execute).cmd with
    | LOOP_ON => simp [ScriptCtrl_Run, hclr, he, hk, ScriptBufSetInLoop]
    | LOOP_OFF =>
      by_cases h1 : (w.eeprom.slot w.buf.execute).loopEnd.counter = cfg.LOOP_INFINITE
      · simp [ScriptCtrl_Run, hclr, he, hk, h1]
      · by_cases h2 : (w.eeprom.slot w.buf.execute).loopEnd.counter > 1
        · simp [ScriptCtrl_Run, hclr, he, hk, h1, h2]
        · by_cases h3 : (w.eeprom.slot w.buf.execute).loopEnd.depth = 0
          · simp [ScriptCtrl_Run, hclr, he, hk, h1, h2, h3, ScriptBufSetInLoop,
              ScriptBufSetRead, hu]
          · simp [ScriptCtrl_Run, hclr, he, hk, h1, h2, h3]
    | SET_COLOR =>
      cases hil : w.buf.inLoop <;>
        simp [ScriptCtrl_Run, hclr, he, hk, hil, ScriptBufSetRead, hu, IsSet]
    | SET_FADE =>
      cases hil : w.buf.inLoop <;>
        simp [ScriptCtrl_Run, hclr, he, hk, hil, ScriptBufSetRead, hu, IsSet]
    | DELETE => simp [ScriptCtrl_Run, hclr, he, hk]
    | WAIT => simp [ScriptCtrl_Run, hclr, he, hk]
    | OTHER code => simp [ScriptCtrl_Run, hclr, he, hk]

/-- A tick rewrites at most the counter of a stored command. -/
theorem ScriptCtrl_Run_slot (cfg : ScriptCfg) (w : World) (x : Nat) :
    ((ScriptCtrl_Run cfg w).eeprom.slot x).cmd = (w.eeprom.slot x).cmd ∧
    ((ScriptCtrl_Run cfg w).eeprom.slot x).loopEnd.startIndex
      = (w.eeprom.slot x).loopEnd.startIndex ∧
    ((ScriptCtrl_Run cfg w).eeprom.slot x).loopEnd.depth = (w.eeprom.slot x).loopEnd.depth := by
  unfold ScriptCtrl_Run
  dsimp only
  have hs : (if w.buf.isClearing = true then ScriptCtrl_Clear cfg w else w).eeprom.slot
      = w.eeprom.slot := by
    split <;> simp [ScriptCtrl_Clear, ScriptBufSetWrite, ScriptBufSetRead, ScriptBufSetInLoop]
  generalize (if w.buf.isClearing = true then ScriptCtrl_Clear cfg w else w) = v at hs ⊢
  rw [← hs]
  split
  · simp
  · split
    · simp [ScriptBufSetInLoop]
    · split
      · simp
      · split
        · by_cases hx : x = v.buf.execute <;> simp [Eeprom_WriteBlock, hx]
        · split
          · simp [ScriptBufSetInLoop, ScriptBufSetRead]
          · by_cases hx : x = v.buf.execute <;> simp [Eeprom_WriteBlock, hx]
    · split <;> simp [ScriptBufSetRead]
    · split <;> simp [ScriptBufSetRead]
    · simp

theorem LoopInv.exec_lt {bits : Nat} {buf : ScriptBuf} {kind : Nat → CmdCode}
    {start depthF : Nat → Nat} {base R E W : Nat} {tpos tq : Nat → Nat}
    (h : LoopInv bits buf kind start depthF base R E W tpos tq)
    (hne : buf.execute ≠ buf.write) : E < W := by
  rcases Nat.lt_or_ge E W with hlt | hge
  · exact hlt
  · have e : E = W := Nat.le_antisymm h.hEW hge
    exact absurd (by rw [h.hexec, h.hwrite, e]) hne

/-- Outside a loop no `LOOP_OFF` sits at `execute`. -/
theorem LoopInv.not_loopOff_outside {bits : Nat} {buf : ScriptBuf} {kind : Nat → CmdCode}
    {start depthF : Nat → Nat} {base R E W : Nat} {tpos tq : Nat → Nat}
    (h : LoopInv bits buf kind start depthF base R E W tpos tq) (hEW : E < W)
    (hk : kind buf.execute = CmdCode.LOOP_OFF) : buf.inLoop = true := by
  cases hil : buf.inLoop with
  | true => rfl
  | false =>
    rw [h.hexec] at hk
    have h1 := (h.hoff E h.hRE hEW hk).2.1
    have h2 := (h.hout hil).1 E (le_refl _) hEW hk
    omega

/-- Nothing the invariant looks at changed, except possibly the clearing flag. -/
theorem LoopInv.stay {bits : Nat} {buf buf2 : ScriptBuf} {kind : Nat → CmdCode}
    {start depthF : Nat → Nat} {base R E W : Nat} {tpos tq : Nat → Nat}
    (h : LoopInv bits buf kind start depthF base R E W tpos tq)
    (e1 : buf2.loopDepth = buf.loopDepth) (e2 : buf2.loopStart = buf.loopStart)
    (e3 : buf2.write = buf.write) (e4 : buf2.isClearing = true → buf2.loopDepth = 0)
    (e5 : buf2.execute = buf.execute) (e6 : buf2.read = buf.read)
    (e7 : buf2.inLoop = buf.inLoop) :
    LoopInv bits buf2 kind start depthF base R E W tpos tq := by
  obtain ⟨a1, a2, a3, a4, a5, a6, a7, a8, a9, a10, a11, a12⟩ := h
  constructor
  · exact a1
  · exact a2
  · exact a3
  · rw [e6, a4]
  · rw [e5, a5]
  · rw [e3, a6]
  · exact e4
  · rw [e1, e2]; exact a8
  · rw [e1]; exact a9
  · exact a10
  · rw [e7, e1]; exact a11
  · rw [e1]; exact a12

/-- Open loops were taken from the top of the loop stack and nothing else changed. -/
theorem LoopInv.pop {bits : Nat} {buf buf2 : ScriptBuf} {kind : Nat → CmdCode}
    {start depthF : Nat → Nat} {base R E W : Nat} {tpos tq : Nat → Nat}
    (h : LoopInv bits buf kind start depthF base R E W tpos tq)
    (e1 : buf2.loopDepth ≤ buf.loopDepth) (e2 : buf2.loopStart = buf.loopStart)
    (e3 : buf2.write = buf.write) (e4 : buf2.isClearing = true → buf2.loopDepth = 0)
    (e5 : buf2.execute = buf.execute) (e6 : buf2.read = buf.read)
    (e7 : buf2.inLoop = buf.inLoop) :
    LoopInv bits buf2 kind start depthF base R E W tpos tq := by
  obtain ⟨a1, a2, a3, a4, a5, a6, a7, a8, a9, a10, a11, a12⟩ := h
  constructor
  · exact a1
  · exact a2
  · exact a3
  · rw [e6, a4]
  · rw [e5, a5]
  · rw [e3, a6]
  · exact e4
  · intro l hl
    rw [e2]
    exact a8 l (Nat.lt_of_lt_of_le hl e1)
  · intro l l2 hl hl2
    exact a9 l l2 hl (Nat.lt_of_lt_of_le hl2 e1)
  · exact a10
  · intro hil
    rw [e7] at hil
    exact ⟨(a11 hil).1, fun l hl => (a11 hil).2 l (Nat.lt_of_lt_of_le hl e1)⟩
  · intro q h1 h2 h3 h4
    exact ⟨(a12 q h1 h2 h3 h4).1, fun l hl => (a12 q h1 h2 h3 h4).2 l (Nat.lt_of_lt_of_le hl e1)⟩

/-- The tick advanced `execute` by one slot and left `read` alone. -/
theorem LoopInv.advance {cfg : ScriptCfg} {bits : Nat} {buf buf2 : ScriptBuf}
    {kind : Nat → CmdCode} {start depthF : Nat → Nat} {base R E W : Nat} {tpos tq : Nat → Nat}
    (hring : RingOfBits cfg bits)
    (h : LoopInv bits buf kind start depthF base R E W tpos tq)
    (hne : buf.execute ≠ buf.write)
    (e1 : buf2.loopDepth = buf.loopDepth) (e2 : buf2.loopStart = buf.loopStart)
    (e3 : buf2.write = buf.write) (e4 : buf2.isClearing = buf.isClearing)
    (e5 : buf2.execute = ScriptBufInc cfg buf.execute) (e6 : buf2.read = buf.read)
    (e7 : buf2.inLoop = true ∨
      (buf2.inLoop = buf.inLoop ∧ kind buf.execute = CmdCode.LOOP_OFF)) :
    LoopInv bits buf2 kind start depthF base R (E + 1) W tpos tq := by
  have hEW := h.exec_lt hne
  have hil : buf2.inLoop = true := by
    rcases e7 with e | ⟨e, hk⟩
    · exact e
    · rw [e]
      exact h.not_loopOff_outside hEW hk
  have hinc : ScriptBufInc cfg buf.execute = slotAt (2 ^ bits) base (E + 1) := by
    rw [h.hexec]
    exact ScriptBufInc_slotAt hring base E
  obtain ⟨a1, a2, a3, a4, a5, a6, a7, a8, a9, a10, a11, a12⟩ := h
  constructor
  · omega
  · omega
  · exact a3
  · rw [e6, a4]
  · rw [e5, hinc]
  · rw [e3, a6]
  · rw [e4, e1]; exact a7
  · rw [e1, e2]; exact a8
  · rw [e1]; exact a9
  · exact a10
  · intro hf
    rw [hil] at hf
    exact absurd hf (by decide)
  · rw [e1]; exact a12

/-- The tick executed a `LOOP_OFF` that jumped back to the start of its loop. -/
theorem LoopInv.jump {bits : Nat} {buf buf2 : ScriptBuf}
    {kind : Nat → CmdCode} {start depthF : Nat → Nat} {base R E W : Nat} {tpos tq : Nat → Nat}
    (h : LoopInv bits buf kind start depthF base R E W tpos tq)
    (hne : buf.execute ≠ buf.write) (hk : kind buf.execute = CmdCode.LOOP_OFF)
    (e1 : buf2.loopDepth = buf.loopDepth) (e2 : buf2.loopStart = buf.loopStart)
    (e3 : buf2.write = buf.write) (e4 : buf2.isClearing = buf.isClearing)
    (e5 : buf2.execute = start buf.execute) (e6 : buf2.read = buf.read)
    (e7 : buf2.inLoop = buf.inLoop) :
    LoopInv bits buf2 kind start depthF base R (tq E + 1) W tpos tq := by
  have hEW := h.exec_lt hne
  have hil := h.not_loopOff_outside hEW hk
  have hk2 := hk
  rw [h.hexec] at hk2
  obtain ⟨b1, b2, b3, _⟩ := h.hoff E h.hRE hEW hk2
  obtain ⟨a1, a2, a3, a4, a5, a6, a7, a8, a9, a10, a11, a12⟩ := h
  constructor
  · omega
  · omega
  · exact a3
  · rw [e6, a4]
  · rw [e5, a5, b3]
  · rw [e3, a6]
  · rw [e4, e1]; exact a7
  · rw [e1, e2]; exact a8
  · rw [e1]; exact a9
  · exact a10
  · intro hf
    rw [e7, hil] at hf
    exact absurd hf (by decide)
  · rw [e1]; exact a12

/-- The tick advanced `execute` and moved `read` up to it: a set command outside any loop,
or the `LOOP_OFF` of an outermost loop on its last pass. -/
theorem LoopInv.reclaim {cfg : ScriptCfg} {bits : Nat} {buf buf2 : ScriptBuf}
    {kind : Nat → CmdCode} {start depthF : Nat → Nat} {base R E W : Nat} {tpos tq : Nat → Nat}
    (hring : RingOfBits cfg bits)
    (h : LoopInv bits buf kind start depthF base R E W tpos tq)
    (hne : buf.execute ≠ buf.write)
    (e1 : buf2.loopDepth = buf.loopDepth) (e2 : buf2.loopStart = buf.loopStart)
    (e3 : buf2.write = buf.write) (e4 : buf2.isClearing = buf.isClearing)
    (e5 : buf2.execute = ScriptBufInc cfg buf.execute)
    (e6 : buf2.read = ScriptBufInc cfg buf.execute)
    (hcase : ((kind buf.execute = CmdCode.SET_COLOR ∨ kind buf.execute = CmdCode.SET_FADE) ∧
        buf.inLoop = false) ∨
      (kind buf.execute = CmdCode.LOOP_OFF ∧ depthF buf.execute = 0)) :
    LoopInv bits buf2 kind start depthF base (E + 1) (E + 1) W tpos tq := by
  have hEW := h.exec_lt hne
  have hinc : ScriptBufInc cfg buf.execute = slotAt (2 ^ bits) base (E + 1) := by
    rw [h.hexec]
    exact ScriptBufInc_slotAt hring base E
  have key : (∀ q, E + 1 ≤ q → q < W → kind (slotAt (2 ^ bits) base q) = CmdCode.LOOP_OFF →
        E + 1 ≤ tq q) ∧
      (∀ l, l < buf.loopDepth → E + 1 ≤ tpos l) := by
    rcases hcase with ⟨hset, hil⟩ | ⟨hk, hd⟩
    · have hkE : kind (slotAt (2 ^ bits) base E) ≠ CmdCode.LOOP_ON := by
        rw [← h.hexec]
        rcases hset with e | e <;> rw [e] <;> decide
      obtain ⟨o1, o2⟩ := h.hout hil
      constructor
      · intro q hq hqW hkq
        have hb := o1 q (by omega) hqW hkq
        have hon := (h.hoff q (by have := h.hRE; omega) hqW hkq).2.2.2
        rcases Nat.lt_or_ge E (tq q) with hlt | hge
        · omega
        · have e : tq q = E := by omega
          rw [e] at hon
          exact absurd hon hkE
      · intro l hl
        have hb := o2 l hl
        have hon := (h.hstack l hl).2.2.2
        rcases Nat.lt_or_ge E (tpos l) with hlt | hge
        · omega
        · have e : tpos l = E := by omega
          rw [e] at hon
          exact absurd hon hkE
    · rw [h.hexec] at hk hd
      obtain ⟨t1, t2⟩ := h.htop E h.hRE hEW hk hd
      exact ⟨fun q hq hqW hkq => t1 q (by omega) hqW hkq, fun l hl => t2 l hl⟩
  obtain ⟨k1, k2⟩ := key
  obtain ⟨a1, a2, a3, a4, a5, a6, a7, a8, a9, a10, a11, a12⟩ := h
  constructor
  · omega
  · omega
  · omega
  · rw [e6, hinc]
  · rw [e5, hinc]
  · rw [e3, a6]
  · rw [e4, e1]; exact a7
  · intro l hl
    rw [e1] at hl
    obtain ⟨s1, s2, s3, s4⟩ := a8 l hl
    exact ⟨k2 l hl, s2, by rw [e2]; exact s3, s4⟩
  · rw [e1]; exact a9
  · intro q hq hqW hkq
    obtain ⟨s1, s2, s3, s4⟩ := a10 q (by omega) hqW hkq
    exact ⟨k1 q hq hqW hkq, s2, s3, s4⟩
  · intro _
    exact ⟨k1, by rw [e1]; exact k2⟩
  · intro q hq hqW hkq hdq
    rw [e1]
    exact a12 q (by omega) hqW hkq hdq

/-- The state right after `ScriptCtrl_Clear`, for a buffer on which no loop was open. -/
theorem LoopInv.cleared {bits : Nat} {buf2 : ScriptBuf} (kind : Nat → CmdCode)
    (start depthF : Nat → Nat) (b : Nat) (tpos tq : Nat → Nat) (hb : b < 2 ^ bits)
    (e1 : buf2.loopDepth = 0) (e3 : buf2.write = b) (e5 : buf2.execute = b)
    (e6 : buf2.read = b) :
    LoopInv bits buf2 kind start depthF b 0 0 0 tpos tq := by
  have hz := slotAt_zero hb
  constructor
  · exact le_refl _
  · exact le_refl _
  · omega
  · rw [e6, hz]
  · rw [e5, hz]
  · rw [e3, hz]
  · intro _; exact e1
  · intro l hl; omega
  · intro l l2 _ hl; omega
  · intro q _ hq; omega
  · intro _
    exact ⟨fun q _ hq => by omega, fun l hl => by omega⟩
  · intro q _ hq; omega

/-- The loop stack is never deeper than the number of stored commands. -/
theorem LoopInv.depth_le {bits : Nat} {buf : ScriptBuf} {kind : Nat → CmdCode}
    {start depthF : Nat → Nat} {base R E W : Nat} {tpos tq : Nat → Nat}
    (h : LoopInv bits buf kind start depthF base R E W tpos tq) :
    R + buf.loopDepth ≤ W := by
  have hlow : ∀ l, l < buf.loopDepth → R + l ≤ tpos l := by
    intro l
    induction l with
    | zero => intro hl; exact (h.hstack 0 hl).1
    | succ l ih =>
      intro hl
      have h1 := ih (by omega)
      have h2 := h.hmono l (l + 1) (by omega) hl
      omega
  rcases Nat.eq_zero_or_pos buf.loopDepth with h0 | hpos
  · rw [h0]
    have := h.hRE
    have := h.hEW
    omega
  · have h1 := hlow (buf.loopDepth - 1) (by omega)
    have h2 := (h.hstack (buf.loopDepth - 1) (by omega)).2.1
    omega

/-- A ring that is not full has room for one more position. -/
theorem LoopInv.room {cfg : ScriptCfg} {bits : Nat} {buf : ScriptBuf} {kind : Nat → CmdCode}
    {start depthF : Nat → Nat} {base R E W : Nat} {tpos tq : Nat → Nat}
    (hring : RingOfBits cfg bits)
    (h : LoopInv bits buf kind start depthF base R E W tpos tq)
    (hfree : ScriptBufInc cfg buf.write ≠ buf.read) : W + 1 < R + 2 ^ bits := by
  rcases Nat.lt_or_ge (W + 1) (R + 2 ^ bits) with hlt | hge
  · exact hlt
  · have e : W + 1 = R + 2 ^ bits := by
      have := h.hWR
      omega
    exfalso
    apply hfree
    rw [h.hwrite, h.hread, ScriptBufInc_slotAt hring, e, slotAt_add_ring]

/-- Storing a command other than `LOOP_OFF` at `write` without touching the loop stack. -/
theorem LoopInv.store_plain {bits : Nat} {buf buf2 : ScriptBuf}
    {kind kind2 : Nat → CmdCode} {start start2 depthF depthF2 : Nat → Nat}
    {base R E W : Nat} {tpos tq : Nat → Nat}
    (h : LoopInv bits buf kind start depthF base R E W tpos tq)
    (hroom : W + 1 < R + 2 ^ bits)
    (hold : ∀ x, R ≤ x → x < W →
      kind2 (slotAt (2 ^ bits) base x) = kind (slotAt (2 ^ bits) base x) ∧
      start2 (slotAt (2 ^ bits) base x) = start (slotAt (2 ^ bits) base x) ∧
      depthF2 (slotAt (2 ^ bits) base x) = depthF (slotAt (2 ^ bits) base x))
    (hnew2 : kind2 (slotAt (2 ^ bits) base W) ≠ CmdCode.LOOP_OFF)
    (e1 : buf2.loopDepth = buf.loopDepth) (e2 : buf2.loopStart = buf.loopStart)
    (e3 : buf2.write = slotAt (2 ^ bits) base (W + 1))
    (e4 : buf2.isClearing = buf.isClearing)
    (e5 : buf2.execute = buf.execute) (e6 : buf2.read = buf.read)
    (e7 : buf2.inLoop = buf.inLoop) :
    LoopInv bits buf2 kind2 start2 depthF2 base R E (W + 1) tpos tq := by
  obtain ⟨a1, a2, a3, a4, a5, a6, a7, a8, a9, a10, a11, a12⟩ := h
  have hoffq : ∀ q, q < W + 1 → kind2 (slotAt (2 ^ bits) base q) = CmdCode.LOOP_OFF →
      q < W := by
    intro q hq hk
    rcases Nat.lt_or_ge q W with hlt | hge
    · exact hlt
    · have e : q = W := by omega
      rw [e] at hk
      exact absurd hk hnew2
  constructor
  · exact a1
  · omega
  · exact hroom
  · rw [e6, a4]
  · rw [e5, a5]
  · exact e3
  · rw [e4, e1]; exact a7
  · intro l hl
    rw [e1] at hl
    obtain ⟨s1, s2, s3, s4⟩ := a8 l hl
    exact ⟨s1, by omega, by rw [e2]; exact s3, by rw [(hold _ s1 s2).1]; exact s4⟩
  · rw [e1]; exact a9
  · intro q hq hqW hkq
    have hlt := hoffq q hqW hkq
    obtain ⟨k1, k2, k3⟩ := hold q hq hlt
    rw [k1] at hkq
    obtain ⟨s1, s2, s3, s4⟩ := a10 q hq hlt hkq
    exact ⟨s1, s2, by rw [k2]; exact s3, by rw [(hold _ s1 (by omega)).1]; exact s4⟩
  · intro hil
    rw [e7] at hil
    obtain ⟨o1, o2⟩ := a11 hil
    refine ⟨?_, by rw [e1]; exact o2⟩
    intro q hq hqW hkq
    have hlt := hoffq q hqW hkq
    rw [(hold q (by omega) hlt).1] at hkq
    exact o1 q hq hlt hkq
  · intro q hq hqW hkq hdq
    have hlt := hoffq q hqW hkq
    obtain ⟨k1, _, k3⟩ := hold q hq hlt
    rw [k1] at hkq
    rw [k3] at hdq
    obtain ⟨t1, t2⟩ := a12 q hq hlt hkq hdq
    refine ⟨?_, by rw [e1]; exact t2⟩
    intro q2 hq2 hq2W hkq2
    have hlt2 := hoffq q2 hq2W hkq2
    rw [(hold q2 (by omega) hlt2).1] at hkq2
    exact t1 q2 hq2 hlt2 hkq2

/-- Storing a `LOOP_ON` at `write` and pushing its position on the loop stack. -/
theorem LoopInv.store_loopOn {bits : Nat} {buf buf2 : ScriptBuf}
    {kind kind2 : Nat → CmdCode} {start start2 depthF depthF2 : Nat → Nat}
    {base R E W : Nat} {tpos tq : Nat → Nat}
    (h : LoopInv bits buf kind start depthF base R E W tpos tq)
    (hroom : W + 1 < R + 2 ^ bits)
    (hold : ∀ x, R ≤ x → x < W →
      kind2 (slotAt (2 ^ bits) base x) = kind (slotAt (2 ^ bits) base x) ∧
      start2 (slotAt (2 ^ bits) base x) = start (slotAt (2 ^ bits) base x) ∧
      depthF2 (slotAt (2 ^ bits) base x) = depthF (slotAt (2 ^ bits) base x))
    (hnew : kind2 (slotAt (2 ^ bits) base W) = CmdCode.LOOP_ON)
    (hnc : buf.isClearing = false)
    (e1 : buf2.loopDepth = buf.loopDepth + 1)
    (e2 : ∀ l, buf2.loopStart l
      = if l = buf.loopDepth then slotAt (2 ^ bits) base W else buf.loopStart l)
    (e3 : buf2.write = slotAt (2 ^ bits) base (W + 1))
    (e4 : buf2.isClearing = buf.isClearing)
    (e5 : buf2.execute = buf.execute) (e6 : buf2.read = buf.read)
    (e7 : buf2.inLoop = buf.inLoop) :
    LoopInv bits buf2 kind2 start2 depthF2 base R E (W + 1)
      (fun l => if l = buf.loopDepth then W else tpos l) tq := by
  obtain ⟨a1, a2, a3, a4, a5, a6, a7, a8, a9, a10, a11, a12⟩ := h
  have hnew2 : kind2 (slotAt (2 ^ bits) base W) ≠ CmdCode.LOOP_OFF := by rw [hnew]; decide
  have hoffq : ∀ q, q < W + 1 → kind2 (slotAt (2 ^ bits) base q) = CmdCode.LOOP_OFF →
      q < W := by
    intro q hq hk
    rcases Nat.lt_or_ge q W with hlt | hge
    · exact hlt
    · have e : q = W := by omega
      rw [e] at hk
      exact absurd hk hnew2
  constructor
  · exact a1
  · omega
  · exact hroom
  · rw [e6, a4]
  · rw [e5, a5]
  · exact e3
  · intro hc
    rw [e4, hnc] at hc
    exact absurd hc (by decide)
  · intro l hl
    rw [e1] at hl
    by_cases hld : l = buf.loopDepth
    · simp only [hld, if_true]
      exact ⟨by omega, by omega, by rw [e2]; simp, hnew⟩
    · simp only [hld, if_false]
      obtain ⟨s1, s2, s3, s4⟩ := a8 l (by omega)
      exact ⟨s1, by omega, by rw [e2]; simp [hld, s3], by rw [(hold _ s1 s2).1]; exact s4⟩
  · intro l l2 hll hl2
    rw [e1] at hl2
    by_cases hld : l2 = buf.loopDepth
    · have hl : l ≠ buf.loopDepth := by omega
      simp only [hld, hl, if_true, if_false]
      exact (a8 l (by omega)).2.1
    · have hl : l ≠ buf.loopDepth := by omega
      simp only [hld, hl, if_false]
      exact a9 l l2 hll (by omega)
  · intro q hq hqW hkq
    have hlt := hoffq q hqW hkq
    obtain ⟨k1, k2, k3⟩ := hold q hq hlt
    rw [k1] at hkq
    obtain ⟨s1, s2, s3, s4⟩ := a10 q hq hlt hkq
    exact ⟨s1, s2, by rw [k2]; exact s3, by rw [(hold _ s1 (by omega)).1]; exact s4⟩
  · intro hil
    rw [e7] at hil
    obtain ⟨o1, o2⟩ := a11 hil
    constructor
    · intro q hq hqW hkq
      have hlt := hoffq q hqW hkq
      rw [(hold q (by omega) hlt).1] at hkq
      exact o1 q hq hlt hkq
    · intro l hl
      rw [e1] at hl
      by_cases hld : l = buf.loopDepth
      · simp only [hld, if_true]; exact a2
      · simp only [hld, if_false]; exact o2 l (by omega)
  · intro q hq hqW hkq hdq
    have hlt := hoffq q hqW hkq
    obtain ⟨k1, _, k3⟩ := hold q hq hlt
    rw [k1] at hkq
    rw [k3] at hdq
    obtain ⟨t1, t2⟩ := a12 q hq hlt hkq hdq
    constructor
    · intro q2 hq2 hq2W hkq2
      have hlt2 := hoffq q2 hq2W hkq2
      rw [(hold q2 (by omega) hlt2).1] at hkq2
      exact t1 q2 hq2 hlt2 hkq2
    · intro l hl
      rw [e1] at hl
      by_cases hld : l = buf.loopDepth
      · simp only [hld, if_true]; exact hlt
      · simp only [hld, if_false]; exact t2 l (by omega)

/-- Storing a `LOOP_OFF` at `write` and popping the loop stack. -/
theorem LoopInv.store_loopOff {bits : Nat} {buf buf2 : ScriptBuf}
    {kind kind2 : Nat → CmdCode} {start start2 depthF depthF2 : Nat → Nat}
    {base R E W : Nat} {tpos tq : Nat → Nat}
    (h : LoopInv bits buf kind start depthF base R E W tpos tq)
    (hroom : W + 1 < R + 2 ^ bits)
    (hold : ∀ x, R ≤ x → x < W →
      kind2 (slotAt (2 ^ bits) base x) = kind (slotAt (2 ^ bits) base x) ∧
      start2 (slotAt (2 ^ bits) base x) = start (slotAt (2 ^ bits) base x) ∧
      depthF2 (slotAt (2 ^ bits) base x) = depthF (slotAt (2 ^ bits) base x))
    (hopen : buf.loopDepth ≠ 0)
    (hnewS : start2 (slotAt (2 ^ bits) base W)
      = slotAt (2 ^ bits) base (tpos (buf.loopDepth - 1) + 1))
    (hnewD : depthF2 (slotAt (2 ^ bits) base W) = buf.loopDepth - 1)
    (hnc : buf.isClearing = false)
    (e1 : buf2.loopDepth = buf.loopDepth - 1) (e2 : buf2.loopStart = buf.loopStart)
    (e3 : buf2.write = slotAt (2 ^ bits) base (W + 1))
    (e4 : buf2.isClearing = buf.isClearing)
    (e5 : buf2.execute = buf.execute) (e6 : buf2.read = buf.read)
    (e7 : buf2.inLoop = buf.inLoop) :
    LoopInv bits buf2 kind2 start2 depthF2 base R E (W + 1) tpos
      (fun q => if q = W then tpos (buf.loopDepth - 1) else tq q) := by
  obtain ⟨a1, a2, a3, a4, a5, a6, a7, a8, a9, a10, a11, a12⟩ := h
  obtain ⟨p1, p2, p3, p4⟩ := a8 (buf.loopDepth - 1) (by omega)
  constructor
  · exact a1
  · omega
  · exact hroom
  · rw [e6, a4]
  · rw [e5, a5]
  · exact e3
  · intro hc
    rw [e4, hnc] at hc
    exact absurd hc (by decide)
  · intro l hl
    rw [e1] at hl
    obtain ⟨s1, s2, s3, s4⟩ := a8 l (by omega)
    exact ⟨s1, by omega, by rw [e2]; exact s3, by rw [(hold _ s1 s2).1]; exact s4⟩
  · intro l l2 hll hl2
    rw [e1] at hl2
    exact a9 l l2 hll (by omega)
  · intro q hq hqW hkq
    by_cases hqe : q = W
    · simp only [hqe, if_true]
      exact ⟨p1, p2, hnewS, by rw [(hold _ p1 p2).1]; exact p4⟩
    · simp only [hqe, if_false]
      have hlt : q < W := by omega
      obtain ⟨k1, k2, k3⟩ := hold q hq hlt
      rw [k1] at hkq
      obtain ⟨s1, s2, s3, s4⟩ := a10 q hq hlt hkq
      exact ⟨s1, s2, by rw [k2]; exact s3, by rw [(hold _ s1 (by omega)).1]; exact s4⟩
  · intro hil
    rw [e7] at hil
    obtain ⟨o1, o2⟩ := a11 hil
    constructor
    · intro q hq hqW hkq
      by_cases hqe : q = W
      · simp only [hqe, if_true]
        exact o2 _ (by omega)
      · simp only [hqe, if_false]
        have hlt : q < W := by omega
        rw [(hold q (by omega) hlt).1] at hkq
        exact o1 q hq hlt hkq
    · intro l hl
      rw [e1] at hl
      exact o2 l (by omega)
  · intro q hq hqW hkq hdq
    by_cases hqe : q = W
    · rw [hqe, hnewD] at hdq
      constructor
      · intro q2 hq2 hq2W _
        omega
      · intro l hl
        rw [e1] at hl
        omega
    · have hlt : q < W := by omega
      obtain ⟨k1, _, k3⟩ := hold q hq hlt
      rw [k1] at hkq
      rw [k3] at hdq
      obtain ⟨t1, t2⟩ := a12 q hq hlt hkq hdq
      constructor
      · intro q2 hq2 hq2W hkq2
        by_cases hq2e : q2 = W
        · simp only [hq2e, if_true]
          exact t2 _ (by omega)
        · simp only [hq2e, if_false]
          have hlt2 : q2 < W := by omega
          rw [(hold q2 (by omega) hlt2).1] at hkq2
          exact t1 q2 hq2 hlt2 hkq2
      · intro l hl
        rw [e1] at hl
        exact t2 l (by omega)

theorem ArcInv_run {cfg : ScriptCfg} {bits : Nat} {w : World} (hring : RingOfBits cfg bits)
    (hbase : cfg.EEPROM_SCRIPTBUF_BASE < 2 ^ bits) (h : ArcInv bits w) :
    ArcInv bits (ScriptCtrl_Run cfg w) := by
  obtain ⟨base, R, E, W, tpos, tq, hinv⟩ := h
  cases hclr : w.buf.isClearing with
  | true =>
    have hu : uns8 cfg.EEPROM_SCRIPTBUF_BASE = cfg.EEPROM_SCRIPTBUF_BASE :=
      uns8_of_lt (lt_of_lt_of_le hbase (two_pow_bits_le hring.2.1))
    have hd := hinv.hclr hclr
    refine ⟨cfg.EEPROM_SCRIPTBUF_BASE, 0, 0, 0, tpos, tq, ?_⟩
    apply LoopInv.cleared _ _ _ _ _ _ hbase <;>
      simp [ScriptCtrl_Run, hclr, ScriptCtrl_Clear, ScriptBufSetWrite, ScriptBufSetRead,
        ScriptBufSetInLoop, hu, hd]
  | false =>
    have hk : (fun x => ((ScriptCtrl_Run cfg w).eeprom.slot x).cmd)
        = (fun x => (w.eeprom.slot x).cmd) :=
      funext fun x => (ScriptCtrl_Run_slot cfg w x).1
    have hs : (fun x => ((ScriptCtrl_Run cfg w).eeprom.slot x).loopEnd.startIndex)
        = (fun x => (w.eeprom.slot x).loopEnd.startIndex) :=
      funext fun x => (ScriptCtrl_Run_slot cfg w x).2.1
    have hdp : (fun x => ((ScriptCtrl_Run cfg w).eeprom.slot x).loopEnd.depth)
        = (fun x => (w.eeprom.slot x).loopEnd.depth) :=
      funext fun x => (ScriptCtrl_Run_slot cfg w x).2.2
    obtain ⟨e1, e2, e3, e4, hcases⟩ := ScriptCtrl_Run_effect cfg w hclr
    have e4b : (ScriptCtrl_Run cfg w).buf.isClearing = w.buf.isClearing := by rw [e4, hclr]
    have e4c : (ScriptCtrl_Run cfg w).buf.isClearing = true →
        (ScriptCtrl_Run cfg w).buf.loopDepth = 0 := by
      intro hc
      rw [e4] at hc
      exact absurd hc (by decide)
    unfold ArcInv
    rw [hk, hs, hdp]
    rcases hcases with ⟨e5, e6, e7⟩ | ⟨hne, e5, e6, e7⟩ | ⟨hne, hko, e5, e6, e7⟩ |
      ⟨hne, e5, e6, e7, hcase⟩
    · exact ⟨base, R, E, W, tpos, tq, hinv.stay e1 e2 e3 e4c e5 e6 e7⟩
    · exact ⟨base, R, E + 1, W, tpos, tq, hinv.advance hring hne e1 e2 e3 e4b e5 e6 e7⟩
    · exact ⟨base, R, tq E + 1, W, tpos, tq, hinv.jump hne hko e1 e2 e3 e4b e5 e6 e7⟩
    · exact ⟨base, E + 1, E + 1, W, tpos, tq,
        hinv.reclaim hring hne e1 e2 e3 e4b e5 e6 (by
          rcases hcase with ⟨hset, hil⟩ | hoff
          · exact Or.inl ⟨hset, hil⟩
          · exact Or.inr hoff)⟩

/-- What `ScriptCtrl_Write` does when the ring has room. -/
theorem ScriptCtrl_Write_effect (cfg : ScriptCfg) (c : led_cmd) (w : World)
    (hfree : ScriptBufInc cfg w.buf.write ≠ w.buf.read) :
    (ScriptCtrl_Write cfg c w).buf = { w.buf with write := ScriptBufInc cfg w.buf.write } ∧
    (ScriptCtrl_Write cfg c w).eeprom.slot
      = fun y => if y = w.buf.write then c else w.eeprom.slot y := by
  have hu := uns8_ScriptBufInc cfg w.buf.write
  simp [ScriptCtrl_Write, hfree, ScriptBufSetWrite, Eeprom_WriteBlock, hu]

/-- The blocks stored at the positions from `read` up to `write` are not touched by a write
to the slot of `write`. -/
theorem LoopInv.hold_of_write {bits : Nat} {buf : ScriptBuf} {kind : Nat → CmdCode}
    {start depthF : Nat → Nat} {base R E W : Nat} {tpos tq : Nat → Nat}
    (h : LoopInv bits buf kind start depthF base R E W tpos tq) (slot : Nat → led_cmd)
    (c : led_cmd) :
    ∀ x, R ≤ x → x < W →
      (if slotAt (2 ^ bits) base x = buf.write then c
        else slot (slotAt (2 ^ bits) base x)).cmd = (slot (slotAt (2 ^ bits) base x)).cmd ∧
      (if slotAt (2 ^ bits) base x = buf.write then c
        else slot (slotAt (2 ^ bits) base x)).loopEnd.startIndex
          = (slot (slotAt (2 ^ bits) base x)).loopEnd.startIndex ∧
      (if slotAt (2 ^ bits) base x = buf.write then c
        else slot (slotAt (2 ^ bits) base x)).loopEnd.depth
          = (slot (slotAt (2 ^ bits) base x)).loopEnd.depth := by
  intro x hx hxW
  have hne : slotAt (2 ^ bits) base x ≠ buf.write := by
    rw [h.hwrite]
    exact slotAt_ne_window hxW (by have := h.hWR; omega)
  simp [hne]

theorem ArcInv_add {cfg : ScriptCfg} {bits : Nat} {w : World} (hring : RingOfBits cfg bits)
    (c : led_cmd) (h : ArcInv bits w) (hallowed : AddAllowed cfg c w) :
    ArcInv bits (ScriptCtrl_Add cfg c w) := by
  obtain ⟨base, R, E, W, tpos, tq, hinv⟩ := h
  cases hclr : w.buf.isClearing with
  | true =>
    have e : ScriptCtrl_Add cfg c w = w := by simp [ScriptCtrl_Add, hclr]
    rw [e]
    exact ⟨base, R, E, W, tpos, tq, hinv⟩
  | false =>
    have hguard : match c.cmd with
        | .LOOP_ON => ScriptBufInc cfg w.buf.write ≠ w.buf.read
        | .LOOP_OFF => w.buf.loopDepth ≠ 0
        | .DELETE => w.buf.loopDepth = 0
        | _ => True := by
      rcases hallowed with hc | hg
      · rw [hclr] at hc
        exact absurd hc (by decide)
      · exact hg
    have hN := two_pow_bits_le hring.2.1
    have hdepth := hinv.depth_le
    have hWR := hinv.hWR
    have hincW : ScriptBufInc cfg w.buf.write = slotAt (2 ^ bits) base (W + 1) := by
      rw [hinv.hwrite]
      exact ScriptBufInc_slotAt hring base W
    -- storing a command that is no loop bracket, or dropping it when the ring is full
    have hplain : c.cmd ≠ CmdCode.LOOP_OFF →
        ScriptCtrl_Add cfg c w = ScriptCtrl_Write cfg c w →
        ArcInv bits (ScriptCtrl_Add cfg c w) := by
      intro hk2 e
      rw [e]
      by_cases hfree : ScriptBufInc cfg w.buf.write = w.buf.read
      · have e2 : ScriptCtrl_Write cfg c w = w := by simp [ScriptCtrl_Write, hfree]
        rw [e2]
        exact ⟨base, R, E, W, tpos, tq, hinv⟩
      · obtain ⟨eb, es⟩ := ScriptCtrl_Write_effect cfg c w hfree
        have hroom := hinv.room hring hfree
        refine ⟨base, R, E, W + 1, tpos, tq, ?_⟩
        rw [es, eb]
        refine hinv.store_plain hroom (hinv.hold_of_write w.eeprom.slot c) ?_ rfl rfl hincW rfl
          rfl rfl rfl
        simp [hinv.hwrite, hk2]
    cases hk : c.cmd with
    | DELETE =>
      rw [hk] at hguard
      have e : ScriptCtrl_Add cfg c w = { w with buf := { w.buf with isClearing := true } } := by
        simp [ScriptCtrl_Add, hclr, hk]
      rw [e]
      exact ⟨base, R, E, W, tpos, tq, hinv.stay rfl rfl rfl (fun _ => hguard) rfl rfl rfl⟩
    | LOOP_ON =>
      rw [hk] at hguard
      have hroom := hinv.room hring hguard
      have hud : uns8 (w.buf.loopDepth + 1) = w.buf.loopDepth + 1 := uns8_of_lt (by omega)
      have e : ScriptCtrl_Add cfg c w = ScriptCtrl_Write cfg c
          { w with buf := { w.buf with
              loopStart := fun i => if i = w.buf.loopDepth then w.buf.write else w.buf.loopStart i
              loopDepth := uns8 (w.buf.loopDepth + 1) } } := by
        simp [ScriptCtrl_Add, hclr, hk]
      obtain ⟨eb, es⟩ := ScriptCtrl_Write_effect cfg c
        { w with buf := { w.buf with
            loopStart := fun i => if i = w.buf.loopDepth then w.buf.write else w.buf.loopStart i
            loopDepth := uns8 (w.buf.loopDepth + 1) } } hguard
      refine ⟨base, R, E, W + 1, fun l => if l = w.buf.loopDepth then W else tpos l, tq, ?_⟩
      rw [e, es, eb]
      refine hinv.store_loopOn hroom (hinv.hold_of_write w.eeprom.slot c) ?_ hclr hud ?_ hincW
        rfl rfl rfl rfl
      · simp [hinv.hwrite, hk]
      · intro l
        simp [hinv.hwrite]
    | LOOP_OFF =>
      rw [hk] at hguard
      have hopen := hguard
      have hud : uns8 (w.buf.loopDepth + 255) = w.buf.loopDepth - 1 := by
        unfold uns8
        omega
      obtain ⟨_, _, p3, _⟩ := hinv.hstack (w.buf.loopDepth - 1) (by omega)
      have e : ScriptCtrl_Add cfg c w = ScriptCtrl_Write cfg
          { c with loopEnd :=
              { startIndex := ScriptBufInc cfg (w.buf.loopStart (w.buf.loopDepth - 1))
                depth := w.buf.loopDepth - 1
                counter := c.loopEnd.numLoops
                numLoops := c.loopEnd.numLoops } }
          { w with buf := { w.buf with loopDepth := w.buf.loopDepth - 1 } } := by
        simp [ScriptCtrl_Add, hclr, hk, hud]
      by_cases hfree : ScriptBufInc cfg w.buf.write = w.buf.read
      · -- the ring is full: the command is dropped, the loop it would close is popped
        have e2 : ScriptCtrl_Write cfg
            { c with loopEnd :=
                { startIndex := ScriptBufInc cfg (w.buf.loopStart (w.buf.loopDepth - 1))
                  depth := w.buf.loopDepth - 1
                  counter := c.loopEnd.numLoops
                  numLoops := c.loopEnd.numLoops } }
            { w with buf := { w.buf with loopDepth := w.buf.loopDepth - 1 } }
            = { w with buf := { w.buf with loopDepth := w.buf.loopDepth - 1 } } := by
          simp [ScriptCtrl_Write, hfree]
        rw [e, e2]
        exact ⟨base, R, E, W, tpos, tq,
          hinv.pop (Nat.sub_le _ _) rfl rfl (fun hc => by
            have hc2 : w.buf.isClearing = true := hc
            rw [hclr] at hc2
            exact absurd hc2 (by decide)) rfl rfl rfl⟩
      · have hroom := hinv.room hring hfree
        obtain ⟨eb, es⟩ := ScriptCtrl_Write_effect cfg
          { c with loopEnd :=
              { startIndex := ScriptBufInc cfg (w.buf.loopStart (w.buf.loopDepth - 1))
                depth := w.buf.loopDepth - 1
                counter := c.loopEnd.numLoops
                numLoops := c.loopEnd.numLoops } }
          { w with buf := { w.buf with loopDepth := w.buf.loopDepth - 1 } } hfree
        refine ⟨base, R, E, W + 1, tpos,
          fun q => if q = W then tpos (w.buf.loopDepth - 1) else tq q, ?_⟩
        rw [e, es, eb]
        refine hinv.store_loopOff hroom (hinv.hold_of_write w.eeprom.slot _) hopen ?_ ?_ hclr rfl
          rfl hincW rfl rfl rfl rfl
        · simp [hinv.hwrite, p3, ScriptBufInc_slotAt hring]
        · simp [hinv.hwrite]
    | SET_COLOR =>
      exact hplain (by rw [hk]; decide) (by simp [ScriptCtrl_Add, hclr, hk])
    | SET_FADE =>
      exact hplain (by rw [hk]; decide) (by simp [ScriptCtrl_Add, hclr, hk])
    | WAIT =>
      exact hplain (by rw [hk]; decide) (by simp [ScriptCtrl_Add, hclr, hk])
    | OTHER code =>
      exact hplain (by rw [hk]; simp) (by simp [ScriptCtrl_Add, hclr, hk])

/-- C5 (counterexample): a `DELETE` requested while a loop is open leaves the loop stack
behind; after the clear, two colours are run and reclaimed, and the next `LOOP_OFF` jumps
back to a slot that `read` has already passed: `read = 2`, `write = 3`, `execute = 1` in a
ring of four slots, so `execute` is not on the arc from `read` to `write`. -/
theorem execute_leaves_arc :
    (applyOps demoCfg arcDemoOps (freshWorld 0)).buf.read = 2 ∧
    (applyOps demoCfg arcDemoOps (freshWorld 0)).buf.write = 3 ∧
    (applyOps demoCfg arcDemoOps (freshWorld 0)).buf.execute = 1 ∧
    ¬ onArc 4 (applyOps demoCfg arcDemoOps (freshWorld 0)).buf.read
        (applyOps demoCfg arcDemoOps (freshWorld 0)).buf.execute
        (applyOps demoCfg arcDemoOps (freshWorld 0)).buf.write := by
  unfold onArc
  decide

/-- C5 (amended): a ring of `2 ^ bits` slots with `EEPROM_SCRIPTBUF_BASE` one of its slot
indices. In every state reachable from an initialized empty script buffer (loop depth 0) by
`ScriptCtrl_Run` ticks and by `ScriptCtrl_Add` calls that respect the loop protocol
(`AddAllowed`: no `LOOP_ON` is added to a full ring, `LOOP_OFF` only while a loop is open,
`DELETE` only while none is; a `LOOP_OFF` may be added to a full ring), the `execute` index
lies on the circular arc from `read` (inclusive) forward to `write` (inclusive). -/
theorem execute_on_arc_when_well_used (cfg : ScriptCfg) (bits r : Nat) (w0 w : World)
    (hring : RingOfBits cfg bits) (hbase : cfg.EEPROM_SCRIPTBUF_BASE < 2 ^ bits)
    (hempty : EmptyAt r w0) (hr : r < 2 ^ bits) (hreach : WellUsed cfg w0 w) :
    onArc (2 ^ bits) w.buf.read w.buf.execute w.buf.write := by
  have hinv : ArcInv bits w := by
    induction hreach with
    | start =>
      obtain ⟨h1, h2, h3, _, _, h6⟩ := hempty
      exact ⟨r, 0, 0, 0, fun _ => 0, fun _ => 0, LoopInv.cleared _ _ _ r _ _ hr h6 h2 h3 h1⟩
    | run w1 _ ih => exact ArcInv_run hring hbase ih
    | add w1 c _ hallowed ih => exact ArcInv_add hring c ih hallowed
  obtain ⟨base, R, E, W, tpos, tq, h⟩ := hinv
  rw [h.hread, h.hexec, h.hwrite]
  exact onArc_of_positions h.hRE h.hEW h.hWR

theorem execute_on_arc_when_well_used_witness :
    (RingOfBits demoCfg 2 ∧ demoCfg.EEPROM_SCRIPTBUF_BASE < 2 ^ 2 ∧ EmptyAt 3 (freshWorld 3) ∧
      3 < 2 ^ 2 ∧
      WellUsed demoCfg (freshWorld 3)
        (ScriptCtrl_Run demoCfg
          (ScriptCtrl_Add demoCfg (plainCmd CmdCode.LOOP_ON []) (freshWorld 3)))) ∧
    onArc (2 ^ 2)
      (ScriptCtrl_Run demoCfg
        (ScriptCtrl_Add demoCfg (plainCmd CmdCode.LOOP_ON []) (freshWorld 3))).buf.read
      (ScriptCtrl_Run demoCfg
        (ScriptCtrl_Add demoCfg (plainCmd CmdCode.LOOP_ON []) (freshWorld 3))).buf.execute
      (ScriptCtrl_Run demoCfg
        (ScriptCtrl_Add demoCfg (plainCmd CmdCode.LOOP_ON []) (freshWorld 3))).buf.write :=
  ⟨⟨demoCfg_ring, by decide, ⟨rfl, rfl, rfl, rfl, rfl, rfl⟩, by decide,
      WellUsed.run _
        (WellUsed.add _ _ WellUsed.start (Or.inr (show ScriptBufInc demoCfg 3 ≠ 3 by decide)))⟩,
    execute_on_arc_when_well_used demoCfg 2 3 (freshWorld 3) _ demoCfg_ring (by decide)
      ⟨rfl, rfl, rfl, rfl, rfl, rfl⟩ (by decide)
      (WellUsed.run _
        (WellUsed.add _ _ WellUsed.start (Or.inr (show ScriptBufInc demoCfg 3 ≠ 3 by decide))))⟩

/-! ## Properties of the bootloader client -/

theorem BlRead_sent (p : Proxy) (req : BlRequest) (n : Nat) :
    (BlRead p req n).2.sent = p.sent ++ [req] := by
  unfold BlRead
  split <;> rfl

theorem BlRead_not_validation (p : Proxy) (req : BlRequest) (n : Nat) :
    (BlRead p req n).1 ≠ Except.error BlError.WiflyControlException := by
  unfold BlRead
  split <;> simp

/-- The chunk loop of the read transfers never raises the range error and never takes a
request back. -/
theorem readChunks_spec (blockSize : Nat) (mkReq : Nat → Nat → BlRequest) :
    ∀ (fuel : Nat) (p : Proxy) (address numBytes sum : Nat) (buffer : List Nat),
      (readChunks blockSize mkReq fuel p address numBytes sum buffer).1
          ≠ Except.error BlError.WiflyControlException ∧
        p.sent.length ≤
          (readChunks blockSize mkReq fuel p address numBytes sum buffer).2.sent.length ∧
        (0 < fuel ∨ numBytes ≤ blockSize →
          p.sent.length <
            (readChunks blockSize mkReq fuel p address numBytes sum buffer).2.sent.length) := by
  intro fuel
  induction fuel with
  | zero =>
    intro p address numBytes sum buffer
    unfold readChunks
    by_cases h : numBytes > blockSize
    · simp only [h, if_true]
      exact ⟨by simp, le_refl _, fun hh => by omega⟩
    · simp only [h, if_false]
      have hs := BlRead_sent p (mkReq address numBytes) numBytes
      have hn := BlRead_not_validation p (mkReq address numBytes) numBytes
      rcases hr : BlRead p (mkReq address numBytes) numBytes with ⟨res, p1⟩
      rw [hr] at hs hn
      simp only at hs hn
      cases res with
      | error e => simp [hs]; exact fun he => hn (by rw [he])
      | ok bytes => simp [hs]
  | succ fuel ih =>
    intro p address numBytes sum buffer
    unfold readChunks
    by_cases h : numBytes > blockSize
    · simp only [h, if_true]
      have hs := BlRead_sent p (mkReq address blockSize) blockSize
      have hn := BlRead_not_validation p (mkReq address blockSize) blockSize
      rcases hr : BlRead p (mkReq address blockSize) blockSize with ⟨res, p1⟩
      rw [hr] at hs hn
      simp only at hs hn
      cases res with
      | error e => simp [hs]; exact fun he => hn (by rw [he])
      | ok bytes =>
        simp only
        obtain ⟨h1, h2, _⟩ := ih p1 ((address + blockSize) % 2 ^ 32) (numBytes - blockSize)
          (sum + blockSize) (buffer ++ bytes)
        have hl : p1.sent.length = p.sent.length + 1 := by simp [hs]
        exact ⟨h1, by omega, fun _ => by omega⟩
    · simp only [h, if_false]
      have hs := BlRead_sent p (mkReq address numBytes) numBytes
      have hn := BlRead_not_validation p (mkReq address numBytes) numBytes
      rcases hr : BlRead p (mkReq address numBytes) numBytes with ⟨res, p1⟩
      rw [hr] at hs hn
      simp only at hs hn
      cases res with
      | error e => simp [hs]; exact fun he => hn (by rw [he])
      | ok bytes => simp [hs]

/-- The chunk loop of the write transfers never raises the range error and never takes a
request back. -/
theorem writeChunks_spec (blockSize ack : Nat) (mkReq : Nat → List Nat → BlRequest) :
    ∀ (fuel : Nat) (p : Proxy) (address : Nat) (pBuffer : List Nat) (bytesLeft : Nat),
      (writeChunks blockSize ack mkReq fuel p address pBuffer bytesLeft).1
          ≠ Except.error BlError.WiflyControlException ∧
        p.sent.length ≤
          (writeChunks blockSize ack mkReq fuel p address pBuffer bytesLeft).2.sent.length ∧
        (0 < fuel ∨ bytesLeft ≤ blockSize →
          p.sent.length <
            (writeChunks blockSize ack mkReq fuel p address pBuffer bytesLeft).2.sent.length) := by
  intro fuel
  induction fuel with
  | zero =>
    intro p address pBuffer bytesLeft
    unfold writeChunks
    by_cases h : bytesLeft > blockSize
    · simp only [h, if_true]
      exact ⟨by simp, le_refl _, fun hh => by omega⟩
    · simp only [h, if_false]
      have hs := BlRead_sent p (mkReq address (pBuffer.take bytesLeft)) 1
      have hn := BlRead_not_validation p (mkReq address (pBuffer.take bytesLeft)) 1
      rcases hr : BlRead p (mkReq address (pBuffer.take bytesLeft)) 1 with ⟨res, p1⟩
      rw [hr] at hs hn
      simp only at hs hn
      cases res with
      | error e => simp [hs]; exact fun he => hn (by rw [he])
      | ok response => by_cases ha : response = [ack] <;> simp [hs, ha]
  | succ fuel ih =>
    intro p address pBuffer bytesLeft
    unfold writeChunks
    by_cases h : bytesLeft > blockSize
    · simp only [h, if_true]
      have hs := BlRead_sent p (mkReq address (pBuffer.take blockSize)) 1
      have hn := BlRead_not_validation p (mkReq address (pBuffer.take blockSize)) 1
      rcases hr : BlRead p (mkReq address (pBuffer.take blockSize)) 1 with ⟨res, p1⟩
      rw [hr] at hs hn
      simp only at hs hn
      cases res with
      | error e => simp [hs]; exact fun he => hn (by rw [he])
      | ok response =>
        by_cases ha : response = [ack]
        · simp only [ha, ne_eq, not_true_eq_false, if_false]
          obtain ⟨h1, h2, _⟩ := ih p1 ((address + blockSize) % 2 ^ 32)
            (pBuffer.drop blockSize) (bytesLeft - blockSize)
          have hl : p1.sent.length = p.sent.length + 1 := by simp [hs]
          exact ⟨h1, by omega, fun _ => by omega⟩
        · simp [hs, ha]
    · simp only [h, if_false]
      have hs := BlRead_sent p (mkReq address (pBuffer.take bytesLeft)) 1
      have hn := BlRead_not_validation p (mkReq address (pBuffer.take bytesLeft)) 1
      rcases hr : BlRead p (mkReq address (pBuffer.take bytesLeft)) 1 with ⟨res, p1⟩
      rw [hr] at hs hn
      simp only at hs hn
      cases res with
      | error e => simp [hs]; exact fun he => hn (by rw [he])
      | ok response => by_cases ha : response = [ack] <;> simp [hs, ha]

theorem wrap_sum (w : Nat) : (2 ^ w - 1 + 1) % 2 ^ w = 0 := by
  have h : 0 < 2 ^ w := Nat.pow_pos (by decide)
  rw [Nat.sub_add_cancel h, Nat.mod_self]

/-- Without wrap-around of the `size_t` sum, a transfer that ends behind the physical memory
is rejected with the range error before any request is sent. -/
theorem range_check_rejects (cfg : BlCfg) (p : Proxy) (address length : Nat)
    (pBuffer : List Nat) (hnowrap : length + address < 2 ^ cfg.SIZE_T_BITS) :
    (cfg.FLASH_SIZE < length + address →
      BlReadFlash cfg p address length = (Except.error BlError.WiflyControlException, p) ∧
      BlWriteFlash cfg p address pBuffer length
        = (Except.error BlError.WiflyControlException, p)) ∧
    (cfg.EEPROM_SIZE < length + address →
      BlReadEeprom cfg p address length = (Except.error BlError.WiflyControlException, p) ∧
      BlWriteEeprom cfg p address pBuffer length
        = (Except.error BlError.WiflyControlException, p)) := by
  have hm := Nat.mod_eq_of_lt hnowrap
  constructor <;> intro h <;>
    simp [BlReadFlash, BlWriteFlash, BlReadEeprom, BlWriteEeprom, hm, h]

/-- C10 (failing input): with `address = 1` and the largest `size_t` value as length, the sum
`length + address` is `2 ^ SIZE_T_BITS`, beyond every memory size, but it wraps to 0 in the
range check: none of the four transfers raises the range error and each of them sends at
least one request to the device. -/
theorem range_check_wraps_around (cfg : BlCfg) (p : Proxy) (pBuffer : List Nat) :
    ((BlReadFlash cfg p 1 (2 ^ cfg.SIZE_T_BITS - 1)).1
        ≠ Except.error BlError.WiflyControlException ∧
      p.sent.length < (BlReadFlash cfg p 1 (2 ^ cfg.SIZE_T_BITS - 1)).2.sent.length) ∧
    ((BlWriteFlash cfg p 1 pBuffer (2 ^ cfg.SIZE_T_BITS - 1)).1
        ≠ Except.error BlError.WiflyControlException ∧
      p.sent.length < (BlWriteFlash cfg p 1 pBuffer (2 ^ cfg.SIZE_T_BITS - 1)).2.sent.length) ∧
    ((BlReadEeprom cfg p 1 (2 ^ cfg.SIZE_T_BITS - 1)).1
        ≠ Except.error BlError.WiflyControlException ∧
      p.sent.length < (BlReadEeprom cfg p 1 (2 ^ cfg.SIZE_T_BITS - 1)).2.sent.length) ∧
    ((BlWriteEeprom cfg p 1 pBuffer (2 ^ cfg.SIZE_T_BITS - 1)).1
        ≠ Except.error BlError.WiflyControlException ∧
      p.sent.length < (BlWriteEeprom cfg p 1 pBuffer (2 ^ cfg.SIZE_T_BITS - 1)).2.sent.length) := by
  have hw := wrap_sum cfg.SIZE_T_BITS
  have hfuel : ∀ B : Nat, 0 < 2 ^ cfg.SIZE_T_BITS - 1 ∨ 2 ^ cfg.SIZE_T_BITS - 1 ≤ B := by
    intro B
    omega
  refine ⟨?_, ?_, ?_, ?_⟩
  · have h := readChunks_spec cfg.FLASH_READ_BLOCKSIZE BlRequest.FlashRead
      (2 ^ cfg.SIZE_T_BITS - 1) p 1 (2 ^ cfg.SIZE_T_BITS - 1) 0 []
    simp only [BlReadFlash, hw, Nat.not_lt_zero, if_false, gt_iff_lt]
    exact ⟨h.1, h.2.2 (hfuel _)⟩
  · have h := writeChunks_spec cfg.FLASH_WRITE_BLOCKSIZE 0x04 BlRequest.FlashWrite
      (2 ^ cfg.SIZE_T_BITS - 1) p 1 pBuffer (2 ^ cfg.SIZE_T_BITS - 1)
    simp only [BlWriteFlash, hw, Nat.not_lt_zero, if_false, gt_iff_lt]
    exact ⟨h.1, h.2.2 (hfuel _)⟩
  · have h := readChunks_spec cfg.EEPROM_READ_BLOCKSIZE BlRequest.EepromRead
      (2 ^ cfg.SIZE_T_BITS - 1) p 1 (2 ^ cfg.SIZE_T_BITS - 1) 0 []
    simp only [BlReadEeprom, hw, Nat.not_lt_zero, if_false, gt_iff_lt]
    exact ⟨h.1, h.2.2 (hfuel _)⟩
  · have h := writeChunks_spec cfg.EEPROM_WRITE_BLOCKSIZE 0x06 BlRequest.EepromWrite
      (2 ^ cfg.SIZE_T_BITS - 1) p 1 pBuffer (2 ^ cfg.SIZE_T_BITS - 1)
    simp only [BlWriteEeprom, hw, Nat.not_lt_zero, if_false, gt_iff_lt]
    exact ⟨h.1, h.2.2 (hfuel _)⟩

/-! ## Properties of the erase request -/

theorem BlFlashErase_sent (p : Proxy) (endAddress numPages : Nat) :
    (BlFlashErase p endAddress numPages).2.sent
      = p.sent ++ [BlRequest.FlashErase endAddress numPages] := by
  have hs := BlRead_sent p (BlRequest.FlashErase endAddress numPages) 1
  unfold BlFlashErase
  rcases hr : BlRead p (BlRequest.FlashErase endAddress numPages) 1 with ⟨res, p1⟩
  rw [hr] at hs
  cases res with
  | error e => exact hs
  | ok response => by_cases ha : response = [0x03] <;> simp [ha] <;> exact hs

theorem BlFlashErase_not_validation (p : Proxy) (endAddress numPages : Nat) :
    (BlFlashErase p endAddress numPages).1 ≠ Except.error BlError.WiflyControlException := by
  have hn := BlRead_not_validation p (BlRequest.FlashErase endAddress numPages) 1
  unfold BlFlashErase
  rcases hr : BlRead p (BlRequest.FlashErase endAddress numPages) 1 with ⟨res, p1⟩
  rw [hr] at hn
  cases res with
  | error e =>
    simp only [ne_eq, Except.error.injEq] at hn ⊢
    exact hn
  | ok response => by_cases ha : response = [0x03] <;> simp [ha]

/-- C11 (failing input): `BlFlashErase(endAddress, numPages)` has no range check. For every
end address at or behind the end of the flash and every page count, the method does not
raise the range error and sends the erase request to the device. -/
theorem BlFlashErase_beyond_flash_is_sent (cfg : BlCfg) (p : Proxy) (excess numPages : Nat) :
    (BlFlashErase p (cfg.FLASH_SIZE + excess) numPages).1
        ≠ Except.error BlError.WiflyControlException ∧
      (BlFlashErase p (cfg.FLASH_SIZE + excess) numPages).2.sent
        = p.sent ++ [BlRequest.FlashErase (cfg.FLASH_SIZE + excess) numPages] :=
  ⟨BlFlashErase_not_validation p _ _, BlFlashErase_sent p _ _⟩

/-! ## Properties of the firmware client -/

theorem responseAfter_shift {R : Type} (cls : ResponseClass R) (p : FwProxy)
    (frame : cmd_frame) (response : R) (i : Nat) :
    responseAfter cls (p.Send frame).2 frame
        (cls.Init response (p.Send frame).1.1 (p.Send frame).1.2) i
      = responseAfter cls p frame response (i + 1) := by
  induction i with
  | zero => simp [responseAfter, FwProxy.Send]
  | succ i ih =>
    have hl : p.sent ++ [frame] ++ List.replicate i frame
        = p.sent ++ List.replicate (i + 1) frame := by
      simp [List.replicate_succ]
    rw [responseAfter, ih]
    conv_rhs => rw [responseAfter]
    simp only [FwProxy.Send, hl]

/-- The retry loop of `FwSend`, started with enough fuel: it makes `k` transmissions of the
frame with `1 ≤ k`, stops at the first response that passes the CRC check and after the fifth
attempt at the latest. -/
theorem FwSend_loop_spec {R : Type} (cls : ResponseClass R) (frame : cmd_frame) :
    ∀ (fuel : Nat) (p : FwProxy) (n : Nat) (response : R), n < 5 → 5 ≤ n + fuel →
      ∃ k, 1 ≤ k ∧ n + k ≤ 5 ∧
        (FwSend_loop cls frame fuel p n response).1.2 = n + k ∧
        (FwSend_loop cls frame fuel p n response).2.sent = p.sent ++ List.replicate k frame ∧
        (FwSend_loop cls frame fuel p n response).2.respond = p.respond ∧
        (FwSend_loop cls frame fuel p n response).1.1 = responseAfter cls p frame response k ∧
        (∀ i, 1 ≤ i → i < k →
          cls.IsCrcCheckFailed (responseAfter cls p frame response i) = true) ∧
        (n + k < 5 → cls.IsCrcCheckFailed (responseAfter cls p frame response k) = false) := by
  intro fuel
  induction fuel with
  | zero => intro p n response h1 h2; omega
  | succ fuel ih =>
    intro p n response h1 h2
    unfold FwSend_loop
    by_cases hc : cls.IsCrcCheckFailed
          (cls.Init response (p.Send frame).1.1 (p.Send frame).1.2) = true ∧ n + 1 < 5
    · rw [if_pos hc]
      obtain ⟨k, hk1, hk2, hk3, hk4, hk5, hk6, hk7, hk8⟩ :=
        ih (p.Send frame).2 (n + 1)
          (cls.Init response (p.Send frame).1.1 (p.Send frame).1.2) hc.2 (by omega)
      refine ⟨k + 1, by omega, by omega, by omega, ?_, ?_, ?_, ?_, ?_⟩
      · rw [hk4]
        simp [FwProxy.Send, List.replicate_succ]
      · rw [hk5]
        rfl
      · rw [hk6, responseAfter_shift]
      · intro i hi1 hi2
        rcases Nat.exists_eq_add_of_le hi1 with ⟨j, rfl⟩
        rw [Nat.add_comm 1 j, ← responseAfter_shift]
        by_cases hj : j = 0
        · subst hj
          exact hc.1
        · exact hk7 j (by omega) (by omega)
      · intro hlt
        rw [← responseAfter_shift]
        exact hk8 (by omega)
    · rw [if_neg hc]
      refine ⟨1, le_refl 1, by omega, rfl, ?_, rfl, ?_, ?_, ?_⟩
      · simp [FwProxy.Send]
      · simp [responseAfter, FwProxy.Send]
      · intro i hi1 hi2
        omega
      · intro hlt
        have hr : responseAfter cls p frame response 1
            = cls.Init response (p.Send frame).1.1 (p.Send frame).1.2 := by
          simp [responseAfter, FwProxy.Send]
        rw [hr]
        by_cases hf : cls.IsCrcCheckFailed
            (cls.Init response (p.Send frame).1.1 (p.Send frame).1.2) = true
        · exact absurd ⟨hf, by omega⟩ hc
        · simpa using hf

/-- The retry loop of `FwSend` does not depend on the bound of its iterations once the bound
covers the five attempts. -/
theorem FwSend_loop_fuel {R : Type} (cls : ResponseClass R) (frame : cmd_frame) :
    ∀ (fuel : Nat) (p : FwProxy) (n : Nat) (response : R), n < 5 → 5 ≤ n + fuel →
      FwSend_loop cls frame (fuel + 1) p n response
        = FwSend_loop cls frame fuel p n response := by
  intro fuel
  induction fuel with
  | zero => intro p n response h1 h2; omega
  | succ fuel ih =>
    intro p n response h1 h2
    rw [FwSend_loop]
    conv_rhs => rw [FwSend_loop]
    by_cases hc : cls.IsCrcCheckFailed
          (cls.Init response (p.Send frame).1.1 (p.Send frame).1.2) = true ∧ n + 1 < 5
    · rw [if_pos hc, if_pos hc]
      exact ih _ _ _ hc.2 (by omega)
    · rw [if_neg hc, if_neg hc]

/-- C12: `FwSend` transmits one and the same frame (the frame it was given, with the length
field set once before the loop) `n` times with `1 ≤ n ≤ 5`. Every response before the last
transmission failed the CRC check, and unless `n = 5` the response to the last transmission
passed it: the loop stops at the first response that passes and makes exactly 5 transmissions
when every response fails. Each transmission counts as one attempt, whatever was received. -/
theorem FwSend_transmits_one_to_five_times {R : Type} (cls : ResponseClass R) (p : FwProxy)
    (pFrame : cmd_frame) (length : Nat) (response : R) :
    ∃ n, 1 ≤ n ∧ n ≤ 5 ∧
      (FwSend cls p pFrame length response).2.sent
        = p.sent ++ List.replicate n { pFrame with length := uns8 (length + 2) } ∧
      (∀ i, 1 ≤ i → i < n →
        cls.IsCrcCheckFailed
          (responseAfter cls p { pFrame with length := uns8 (length + 2) } response i) = true) ∧
      (n < 5 →
        cls.IsCrcCheckFailed
          (responseAfter cls p { pFrame with length := uns8 (length + 2) } response n) = false) := by
  obtain ⟨k, hk1, hk2, _, hk4, _, _, hk7, hk8⟩ :=
    FwSend_loop_spec cls { pFrame with length := uns8 (length + 2) } 5 p 0 response
      (by decide) (by decide)
  refine ⟨k, hk1, by omega, ?_, hk7, fun h => hk8 (by omega)⟩
  unfold FwSend
  split
  · exact hk4
  · split <;> exact hk4

/-- C13: after the `n` transmissions of its retry loop, `FwSend` classifies the last response
object: not valid gives `FwNoResponseException`, also when the script buffer flag is set;
valid with the script buffer flag set gives `ScriptBufferFullException`; otherwise the
response is returned. -/
theorem FwSend_classifies_last_response {R : Type} (cls : ResponseClass R) (p : FwProxy)
    (pFrame : cmd_frame) (length : Nat) (response : R) :
    ∃ n, 1 ≤ n ∧ n ≤ 5 ∧
      (FwSend cls p pFrame length response).2.sent.length = p.sent.length + n ∧
      (cls.IsValid (responseAfter cls p { pFrame with length := uns8 (length + 2) } response n)
          = false →
        (FwSend cls p pFrame length response).1
          = Except.error FwError.FwNoResponseException) ∧
      (cls.IsValid (responseAfter cls p { pFrame with length := uns8 (length + 2) } response n)
          = true →
        cls.IsScriptBufferFull
          (responseAfter cls p { pFrame with length := uns8 (length + 2) } response n) = true →
        (FwSend cls p pFrame length response).1
          = Except.error FwError.ScriptBufferFullException) ∧
      (cls.IsValid (responseAfter cls p { pFrame with length := uns8 (length + 2) } response n)
          = true →
        cls.IsScriptBufferFull
          (responseAfter cls p { pFrame with length := uns8 (length + 2) } response n) = false →
        (FwSend cls p pFrame length response).1
          = Except.ok
            (responseAfter cls p { pFrame with length := uns8 (length + 2) } response n)) := by
  obtain ⟨k, hk1, hk2, _, hk4, _, hk6, _, _⟩ :=
    FwSend_loop_spec cls { pFrame with length := uns8 (length + 2) } 5 p 0 response
      (by decide) (by decide)
  refine ⟨k, hk1, by omega, ?_, ?_, ?_, ?_⟩
  · have hs : (FwSend cls p pFrame length response).2.sent
        = p.sent ++ List.replicate k { pFrame with length := uns8 (length + 2) } := by
      unfold FwSend
      split
      · exact hk4
      · split <;> exact hk4
    rw [hs]
    simp
  · intro hv
    rw [← hk6] at hv
    simp [FwSend, hv]
  · intro hv hf
    rw [← hk6] at hv hf
    simp [FwSend, hv, hf]
  · intro hv hf
    rw [← hk6] at hv hf ⊢
    simp [FwSend, hv, hf]

/-- A run of `FwSend` on a device whose first two answers fail the CRC check and whose third
answer is valid: three transmissions of the frame with the length field set, and the third
response is returned. -/
theorem FwSend_example_third_answer :
    (FwSend demoResponse (scriptedFw [[1], [1, 1, 1], [0, 1, 0]]) demoFrame 10
        (true, false, false)).1 = Except.ok (false, true, false) ∧
      (FwSend demoResponse (scriptedFw [[1], [1, 1, 1], [0, 1, 0]]) demoFrame 10
        (true, false, false)).2.sent
        = List.replicate 3 { demoFrame with length := 12 } := by
  constructor <;> rfl

/-- A run of `FwSend` on a device that never answers: five transmissions, then
`FwNoResponseException`. -/
theorem FwSend_example_no_answer :
    (FwSend demoResponse (scriptedFw []) demoFrame 10 (true, false, false)).1
        = Except.error FwError.FwNoResponseException ∧
      (FwSend demoResponse (scriptedFw []) demoFrame 10 (true, false, false)).2.sent
        = List.replicate 5 { demoFrame with length := 12 } := by
  constructor <;> rfl

theorem fadeTicks_eq_max (cfg : FwCfg) (fadeTmms : Nat) :
    fadeTicks cfg fadeTmms = max 4 (fadeTmms / cfg.calibrationValue) := by
  unfold fadeTicks
  split <;> omega

theorem setFadeFrame_fadeTmms (cfg : FwCfg) (mCmdFrame : cmd_frame) (argb fadeTmms addr : Nat)
    (parallelFade : Bool) :
    ∃ d, (setFadeFrame cfg mCmdFrame argb fadeTmms addr parallelFade).data
        = FrameData.set_fade d ∧
      d.fadeTmms = htons cfg (fadeTicks cfg fadeTmms % 2 ^ 16) :=
  ⟨_, rfl, rfl⟩

/-- C14 (failing input): for every calibration value from 1 to 65535, the 32-bit duration
`fadeTmms = 65536 * calibrationValue` gives the tick count 65536, which the conversion to
`uint16_t` turns into 0: the value handed to `htons` is 0, and so is the `fadeTmms` field of
the SET_FADE frame. -/
theorem FwSetFade_tick_truncated_to_zero (cfg : FwCfg) (mCmdFrame : cmd_frame)
    (argb addr : Nat) (parallelFade : Bool)
    (hpos : 0 < cfg.calibrationValue) (hsmall : cfg.calibrationValue < 65536) :
    65536 * cfg.calibrationValue < 2 ^ 32 ∧
      fadeTicks cfg (65536 * cfg.calibrationValue) = 65536 ∧
      fadeTicks16 cfg (65536 * cfg.calibrationValue) = 0 ∧
      (setFadeFrame cfg mCmdFrame argb (65536 * cfg.calibrationValue) addr parallelFade).data
        = FrameData.set_fade
          { addr := [addr &&& 0x000000ff, (addr &&& 0x0000ff00) >>> 8,
                     (addr &&& 0x00ff0000) >>> 16, (addr &&& 0xff000000) >>> 24]
            red := (argb &&& 0x00ff0000) >>> 16
            green := (argb &&& 0x0000ff00) >>> 8
            blue := argb &&& 0x000000ff
            fadeTmms := 0
            parallelFade := if parallelFade then 1 else 0 } := by
  have hq : 65536 * cfg.calibrationValue / cfg.calibrationValue = 65536 :=
    Nat.mul_div_cancel 65536 hpos
  have ht : fadeTicks cfg (65536 * cfg.calibrationValue) = 65536 := by
    unfold fadeTicks
    rw [hq]
    rfl
  have h16 : fadeTicks16 cfg (65536 * cfg.calibrationValue) = 0 := by
    unfold fadeTicks16
    rw [ht]
    rfl
  refine ⟨by omega, ht, h16, ?_⟩
  unfold setFadeFrame
  rw [h16]
  cases hle : cfg.hostLittleEndian <;> simp [htons, hle]

theorem FwSetFade_tick_truncated_to_zero_witness :
    fadeTicks16 demoFw 327680 = 0 ∧ 327680 < 2 ^ 32 :=
  ⟨(FwSetFade_tick_truncated_to_zero demoFw demoFrame 0 0 false
      (by decide) (by decide)).2.2.1,
    by decide⟩

/-- C15: for a positive calibration value, the tick count that `FwSetFade` computes from
`fadeTmms` is `max(4, fadeTmms / calibrationValue)` with the floor division of the natural
numbers, it is the value whose low 16 bits go into the frame, and for `fadeTmms = 10` with the
calibration value 5 it is 4. -/
theorem FwSetFade_tick_count (cfg : FwCfg) (mCmdFrame : cmd_frame)
    (argb fadeTmms addr : Nat) (parallelFade : Bool) (hpos : 0 < cfg.calibrationValue) :
    fadeTicks cfg fadeTmms = max 4 (fadeTmms / cfg.calibrationValue) ∧
      fadeTmms / cfg.calibrationValue * cfg.calibrationValue ≤ fadeTmms ∧
      fadeTmms < (fadeTmms / cfg.calibrationValue + 1) * cfg.calibrationValue ∧
      (∃ d, (setFadeFrame cfg mCmdFrame argb fadeTmms addr parallelFade).data
          = FrameData.set_fade d ∧
        d.fadeTmms = htons cfg (max 4 (fadeTmms / cfg.calibrationValue) % 2 ^ 16)) ∧
      (cfg.calibrationValue = 5 → fadeTicks cfg 10 = 4) := by
  refine ⟨fadeTicks_eq_max cfg fadeTmms, Nat.div_mul_le_self _ _, ?_, ?_, ?_⟩
  · have h1 := Nat.div_add_mod fadeTmms cfg.calibrationValue
    have h2 := Nat.mod_lt fadeTmms hpos
    rw [Nat.add_mul, Nat.one_mul, Nat.mul_comm]
    omega
  · obtain ⟨d, hd1, hd2⟩ := setFadeFrame_fadeTmms cfg mCmdFrame argb fadeTmms addr parallelFade
    exact ⟨d, hd1, by rw [hd2, fadeTicks_eq_max]⟩
  · intro h5
    unfold fadeTicks
    rw [h5]
    rfl

theorem FwSetFade_tick_count_witness :
    0 < demoFw.calibrationValue ∧ fadeTicks demoFw 10 = 4 :=
  ⟨by decide,
    (FwSetFade_tick_count demoFw demoFrame 0 10 0 false (by decide)).2.2.2.2 rfl⟩

/-! ## Transfers on a device that acknowledges every request -/

theorem BlRead_ok (p : Proxy) (req : BlRequest) (n : Nat)
    (h : (p.respond p.sent req).length = n) :
    BlRead p req n = (Except.ok (p.respond p.sent req), { p with sent := p.sent ++ [req] }) := by
  unfold BlRead
  simp [Proxy.Send, h]

theorem chunkReqs_succ (mkReq : Nat → List Nat → BlRequest) (blockSize address : Nat)
    (buffer : List Nat) (count : Nat) :
    chunkReqs mkReq blockSize address buffer (count + 1)
      = mkReq address (buffer.take blockSize)
        :: chunkReqs mkReq blockSize (address + blockSize) (buffer.drop blockSize) count := by
  unfold chunkReqs
  rw [List.range_succ_eq_map, List.map_cons, List.map_map]
  congr 1
  · simp
  · apply List.map_congr_left
    intro i _
    have e : (i + 1) * blockSize = i * blockSize + blockSize := Nat.succ_mul i blockSize
    simp only [Function.comp, Nat.succ_eq_add_one, e, List.drop_drop]
    rw [Nat.add_comm (i * blockSize) blockSize, Nat.add_assoc]

/-- The chunk loop of the write transfers on a device that acknowledges every chunk: it
succeeds and sends the buffer in consecutive chunks at ascending addresses. -/
theorem writeChunks_acked (blockSize ack : Nat) (mkReq : Nat → List Nat → BlRequest)
    (hB : 0 < blockSize) :
    ∀ (fuel : Nat) (p : Proxy) (address : Nat) (pBuffer : List Nat) (bytesLeft : Nat),
      (∀ sent a d, p.respond sent (mkReq a d) = [ack]) →
      bytesLeft ≤ fuel + blockSize → address + bytesLeft ≤ 2 ^ 32 →
      writeChunks blockSize ack mkReq fuel p address pBuffer bytesLeft
        = (Except.ok (),
            { p with sent := (p.sent ++ chunkReqs mkReq blockSize address
                (pBuffer.take bytesLeft) ((bytesLeft - 1) / blockSize + 1)) }) := by
  intro fuel
  induction fuel with
  | zero =>
    intro p address pBuffer bytesLeft hack hfuel hwrap
    have hle : ¬ bytesLeft > blockSize := by omega
    have hd : (bytesLeft - 1) / blockSize = 0 := Nat.div_eq_of_lt (by omega)
    unfold writeChunks
    rw [if_neg hle, BlRead_ok p _ 1 (by rw [hack]; rfl), hack, hd]
    simp [chunkReqs, List.range_succ, List.take_take, Nat.min_eq_right (Nat.le_of_not_gt hle)]
  | succ fuel ih =>
    intro p address pBuffer bytesLeft hack hfuel hwrap
    unfold writeChunks
    by_cases hgt : bytesLeft > blockSize
    · rw [if_pos hgt, BlRead_ok p _ 1 (by rw [hack]; rfl), hack]
      simp only [ne_eq, not_true_eq_false, if_false]
      have hmod : (address + blockSize) % 2 ^ 32 = address + blockSize :=
        Nat.mod_eq_of_lt (by omega)
      have hd : (bytesLeft - 1) / blockSize = (bytesLeft - blockSize - 1) / blockSize + 1 := by
        have : bytesLeft - 1 = (bytesLeft - blockSize - 1) + blockSize := by omega
        rw [this, Nat.add_div_right _ hB]
      rw [hmod, ih ⟨p.respond, p.sent ++ [mkReq address (pBuffer.take blockSize)]⟩ _ _ _
        hack (by omega) (by omega), hd]
      conv_rhs => rw [chunkReqs_succ]
      simp only [List.append_assoc, List.singleton_append, List.take_take,
        Nat.min_eq_left (Nat.le_of_lt hgt), List.drop_take]
    · have hd : (bytesLeft - 1) / blockSize = 0 := Nat.div_eq_of_lt (by omega)
      rw [if_neg hgt, BlRead_ok p _ 1 (by rw [hack]; rfl), hack, hd]
      simp [chunkReqs, List.range_succ, List.take_take,
        Nat.min_eq_right (Nat.le_of_not_gt hgt)]

theorem BlFlashErase_acked (p : Proxy) (endAddress numPages : Nat)
    (hack : ∀ sent e n, p.respond sent (BlRequest.FlashErase e n) = [0x03]) :
    BlFlashErase p endAddress numPages
      = (Except.ok (),
          { p with sent := (p.sent ++ [BlRequest.FlashErase endAddress numPages]) }) := by
  unfold BlFlashErase
  rw [BlRead_ok p _ 1 (by rw [hack]; rfl), hack]
  simp

theorem eraseReqs_step (cfg : BlCfg) (address : Nat)
    (hgt : address > cfg.FLASH_ERASE_BLOCKSIZE * cfg.FLASH_ERASE_BLOCKS)
    (hC : 0 < cfg.FLASH_ERASE_BLOCKSIZE * cfg.FLASH_ERASE_BLOCKS) :
    eraseReqs cfg address
      = BlRequest.FlashErase address (cfg.FLASH_ERASE_BLOCKS % 256)
        :: eraseReqs cfg (address - cfg.FLASH_ERASE_BLOCKSIZE * cfg.FLASH_ERASE_BLOCKS) := by
  unfold eraseReqs
  generalize cfg.FLASH_ERASE_BLOCKSIZE * cfg.FLASH_ERASE_BLOCKS = C at hgt hC
  have hd : (address - 1) / C = (address - C - 1) / C + 1 := by
    have : address - 1 = (address - C - 1) + C := by omega
    rw [this, Nat.add_div_right _ hC]
  rw [hd, List.range_succ_eq_map, List.map_cons, List.map_map]
  congr 1
  · simp
  · apply List.map_congr_left
    intro i hi
    have hi2 : i < (address - C - 1) / C := List.mem_range.mp hi
    have hle : i * C + C ≤ address := by
      have h1 : (i + 1) * C ≤ (address - C - 1) / C * C := Nat.mul_le_mul_right C hi2
      have h2 := Nat.div_mul_le_self (address - C - 1) C
      rw [Nat.succ_mul] at h1
      omega
    simp only [Function.comp, Nat.succ_eq_add_one, Nat.succ_mul]
    congr 1
    omega

theorem eraseReqs_small (cfg : BlCfg) (address : Nat)
    (hle : ¬ address > cfg.FLASH_ERASE_BLOCKSIZE * cfg.FLASH_ERASE_BLOCKS)
    (hC : 0 < cfg.FLASH_ERASE_BLOCKSIZE * cfg.FLASH_ERASE_BLOCKS) :
    eraseReqs cfg address = [] := by
  unfold eraseReqs
  rw [Nat.div_eq_of_lt (by omega)]
  rfl

/-- The loop of the full erase on a device that acknowledges every erase request: it ends and
sends the erase requests for the addresses `address`, `address - C`, ... above `C`. -/
theorem eraseLoop_acked (cfg : BlCfg)
    (hC : 0 < cfg.FLASH_ERASE_BLOCKSIZE * cfg.FLASH_ERASE_BLOCKS) :
    ∀ (fuel : Nat) (p : Proxy) (address : Nat),
      (∀ sent e n, p.respond sent (BlRequest.FlashErase e n) = [0x03]) →
      address ≤ fuel + cfg.FLASH_ERASE_BLOCKSIZE * cfg.FLASH_ERASE_BLOCKS →
      ∃ last, eraseLoop cfg fuel p address
        = (Except.ok last, { p with sent := (p.sent ++ eraseReqs cfg address) }) := by
  intro fuel
  induction fuel with
  | zero =>
    intro p address hack hfuel
    have hle : ¬ address > cfg.FLASH_ERASE_BLOCKSIZE * cfg.FLASH_ERASE_BLOCKS := by omega
    unfold eraseLoop
    rw [if_neg hle, eraseReqs_small cfg address hle hC]
    exact ⟨address, by simp⟩
  | succ fuel ih =>
    intro p address hack hfuel
    unfold eraseLoop
    by_cases hgt : address > cfg.FLASH_ERASE_BLOCKSIZE * cfg.FLASH_ERASE_BLOCKS
    · rw [if_pos hgt, BlFlashErase_acked p _ _ hack]
      obtain ⟨last, hl⟩ := ih
        ⟨p.respond, p.sent ++ [BlRequest.FlashErase address (cfg.FLASH_ERASE_BLOCKS % 256)]⟩
        (address - cfg.FLASH_ERASE_BLOCKSIZE * cfg.FLASH_ERASE_BLOCKS) hack (by omega)
      refine ⟨last, ?_⟩
      simp only
      rw [hl, eraseReqs_step cfg address hgt hC]
      simp
    · rw [if_neg hgt, eraseReqs_small cfg address hgt hC]
      exact ⟨address, by simp⟩

/-- The request for the boot information on a device that answers it with `info`. -/
theorem BlReadInfo_acked (cfg : BlCfg) (p : Proxy) (info : List Nat)
    (hack : Acknowledges cfg p info) :
    BlReadInfo cfg p = (Except.ok info, { p with sent := (p.sent ++ [BlRequest.Info]) }) := by
  unfold BlReadInfo
  rw [BlRead_ok p _ _ (by rw [hack.info_answer]; exact hack.info_size), hack.info_answer]

theorem Acknowledges.log (cfg : BlCfg) (p : Proxy) (info : List Nat)
    (hack : Acknowledges cfg p info) (sent : List BlRequest) :
    Acknowledges cfg { p with sent := sent } info :=
  ⟨hack.info_size, hack.info_answer, hack.flash_write, hack.eeprom_write, hack.flash_erase⟩

theorem eraseFrom_acked (cfg : BlCfg) (p : Proxy) (firstAddress : Nat)
    (hack : ∀ sent e n, p.respond sent (BlRequest.FlashErase e n) = [0x03])
    (hC : 0 < cfg.FLASH_ERASE_BLOCKSIZE * cfg.FLASH_ERASE_BLOCKS) :
    eraseFrom cfg p firstAddress
      = (Except.ok (),
          { p with sent := (p.sent ++ eraseReqs cfg firstAddress ++
              [BlRequest.FlashErase
                ((cfg.FLASH_ERASE_BLOCKS * cfg.FLASH_ERASE_BLOCKSIZE + 2 ^ 32 - 1) % 2 ^ 32)
                (cfg.FLASH_ERASE_BLOCKS % 256)]) }) := by
  unfold eraseFrom
  obtain ⟨last, hl⟩ := eraseLoop_acked cfg hC firstAddress p firstAddress hack
    (Nat.le_add_right _ _)
  rw [hl]
  simp only
  rw [BlFlashErase_acked ⟨p.respond, p.sent ++ eraseReqs cfg firstAddress⟩ _ _ hack]

theorem append_cons_append {α : Type} (l : List α) (a : α) (m : List α) (z : α) :
    l ++ [a] ++ m ++ [z] = l ++ (a :: m ++ [z]) := by
  simp

/-- The full erase on a device that acknowledges every request: it succeeds and sends the
requests `eraseAllReqs`. -/
theorem BlFlashEraseAll_acked (cfg : BlCfg) (p : Proxy) (info : List Nat)
    (hack : Acknowledges cfg p info)
    (hC : 0 < cfg.FLASH_ERASE_BLOCKSIZE * cfg.FLASH_ERASE_BLOCKS) :
    BlFlashEraseAll cfg p
      = (Except.ok (),
          { p with sent := (p.sent ++ eraseAllReqs cfg (BlInfo_GetAddress cfg info)) }) := by
  unfold BlFlashEraseAll eraseAllReqs
  rw [BlReadInfo_acked cfg p info hack]
  simp only
  rw [eraseFrom_acked cfg ⟨p.respond, p.sent ++ [BlRequest.Info]⟩ _ hack.flash_erase hC]
  simp only
  rw [append_cons_append]

/-- The autostart write on a device that acknowledges every request: one EEPROM write of the
byte `0xff` to the autostart cell. -/
theorem BlEnableAutostart_acked (cfg : BlCfg) (p : Proxy) (info : List Nat) (boundary : Nat)
    (hack : Acknowledges cfg p info) (hset : ProgramSetting cfg boundary) :
    BlEnableAutostart cfg p
      = (Except.ok (),
          { p with sent :=
              (p.sent ++ [BlRequest.EepromWrite cfg.BL_AUTOSTART_ADDRESS [0xff]]) }) := by
  have h1 := hset.autostart
  have h2 := hset.eeprom_size
  have h3 := hset.eeprom_block
  have hw : (2 : Nat) ^ 32 ≤ 2 ^ cfg.SIZE_T_BITS :=
    Nat.pow_le_pow_right (by decide) hset.size_t_bits
  have hA : cfg.BL_AUTOSTART_ADDRESS % 2 ^ 32 = cfg.BL_AUTOSTART_ADDRESS :=
    Nat.mod_eq_of_lt (by omega)
  have hsum : (1 + cfg.BL_AUTOSTART_ADDRESS) % 2 ^ cfg.SIZE_T_BITS
      = 1 + cfg.BL_AUTOSTART_ADDRESS := Nat.mod_eq_of_lt (by omega)
  unfold BlEnableAutostart BlWriteEeprom
  rw [hA, hsum, if_neg (by omega),
    writeChunks_acked cfg.EEPROM_WRITE_BLOCKSIZE 0x06 BlRequest.EepromWrite h3 1 p
      cfg.BL_AUTOSTART_ADDRESS [0xff] 1 hack.eeprom_write (by omega) (by omega)]
  have ht : List.take cfg.EEPROM_WRITE_BLOCKSIZE [255] = [255] := by
    rcases Nat.exists_eq_add_of_lt h3 with ⟨k, hk⟩
    rw [hk]
    simp
  simp [chunkReqs, List.range_succ, ht]

theorem readAppVector_some (hex : HexImage) (b0 b1 b2 b3 : Nat)
    (h0 : hex.getData 0 = some b0) (h1 : hex.getData 1 = some b1)
    (h2 : hex.getData 2 = some b2) (h3 : hex.getData 3 = some b3) :
    readAppVector hex = some [b0, b1, b2, b3] := by
  unfold readAppVector
  rw [h0, h1, h2, h3]

theorem flashBuffer_length (hex : HexImage) (boundary endAddress : Nat) :
    (flashBuffer hex boundary endAddress).length = 4 + (endAddress % 2 ^ 32 + 1 - 4) := by
  simp [flashBuffer, resetVector]
  omega

theorem writeChunks_acked_at (blockSize ack : Nat) (mkReq : Nat → List Nat → BlRequest)
    (hB : 0 < blockSize) (fuel : Nat) (respond : List BlRequest → BlRequest → List Nat)
    (sent : List BlRequest) (address : Nat) (pBuffer : List Nat) (bytesLeft : Nat)
    (hack : ∀ sent a d, respond sent (mkReq a d) = [ack])
    (hfuel : bytesLeft ≤ fuel + blockSize) (hwrap : address + bytesLeft ≤ 2 ^ 32) :
    writeChunks blockSize ack mkReq fuel ⟨respond, sent⟩ address pBuffer bytesLeft
      = (Except.ok (),
          ⟨respond, sent ++ chunkReqs mkReq blockSize address (pBuffer.take bytesLeft)
            ((bytesLeft - 1) / blockSize + 1)⟩) :=
  writeChunks_acked blockSize ack mkReq hB fuel ⟨respond, sent⟩ address pBuffer bytesLeft
    hack hfuel hwrap

theorem chunkReqs_one (mkReq : Nat → List Nat → BlRequest) (blockSize address : Nat)
    (buffer : List Nat) :
    chunkReqs mkReq blockSize address buffer 1 = [mkReq address (buffer.take blockSize)] := by
  simp [chunkReqs, List.range_succ]

/-- A run of `BlProgramFlash` on a device that acknowledges every request, for a hex file that
passes the checks: the method succeeds, and its requests are the request for the boot
information, the autostart write, the requests of the full erase, the chunks of the flash
buffer from address 0 on, and the block with the application vector in front of the boot
boundary. -/
theorem BlProgramFlash_run (cfg : BlCfg) (p : Proxy) (info : List Nat) (hex : HexImage)
    (endAddress b0 b1 b2 b3 : Nat)
    (hack : Acknowledges cfg p info) (hset : ProgramSetting cfg (BlInfo_GetAddress cfg info))
    (hend : hex.endAddress = some endAddress)
    (hlt : endAddress < BlInfo_GetAddress cfg info)
    (hfirst : hex.firstAddress = 0)
    (h0 : hex.getData 0 = some b0) (h1 : hex.getData 1 = some b1)
    (h2 : hex.getData 2 = some b2) (h3 : hex.getData 3 = some b3) :
    BlProgramFlash cfg p (some hex)
      = (Except.ok (),
          { p with sent :=
              (p.sent ++ [BlRequest.Info]
                ++ [BlRequest.EepromWrite cfg.BL_AUTOSTART_ADDRESS [0xff]]
                ++ eraseAllReqs cfg (BlInfo_GetAddress cfg info)
                ++ chunkReqs BlRequest.FlashWrite cfg.FLASH_WRITE_BLOCKSIZE 0
                    ((flashBuffer hex (BlInfo_GetAddress cfg info) endAddress).take
                      (endAddress + 1))
                    (endAddress / cfg.FLASH_WRITE_BLOCKSIZE + 1)
                ++ [BlRequest.FlashWrite
                    (BlInfo_GetAddress cfg info - cfg.FLASH_WRITE_BLOCKSIZE)
                    (List.replicate (cfg.FLASH_WRITE_BLOCKSIZE - 4) 0xff
                      ++ [b0, b1, b2, b3])]) }) := by
  have hB4 := hset.write_block
  have hBb := hset.boundary_block
  have hbF := hset.boundary_flash
  have hF := hset.flash_size
  have hw : (2 : Nat) ^ 32 ≤ 2 ^ cfg.SIZE_T_BITS :=
    Nat.pow_le_pow_right (by decide) hset.size_t_bits
  generalize hb : BlInfo_GetAddress cfg info = b at *
  have hack1 := Acknowledges.log cfg p info hack (p.sent ++ [BlRequest.Info])
  have hack2 := Acknowledges.log cfg p info hack
    (p.sent ++ [BlRequest.Info] ++ [BlRequest.EepromWrite cfg.BL_AUTOSTART_ADDRESS [0xff]])
  have hack3 := Acknowledges.log cfg p info hack
    (p.sent ++ [BlRequest.Info] ++ [BlRequest.EepromWrite cfg.BL_AUTOSTART_ADDRESS [0xff]]
      ++ eraseAllReqs cfg b)
  have hsz : (endAddress + 1) % 2 ^ cfg.SIZE_T_BITS = endAddress + 1 :=
    Nat.mod_eq_of_lt (by omega)
  have he32 : endAddress % 2 ^ 32 = endAddress := Nat.mod_eq_of_lt (by omega)
  have haddr : (b + 2 ^ 32 - cfg.FLASH_WRITE_BLOCKSIZE % 2 ^ 32) % 2 ^ 32
      = b - cfg.FLASH_WRITE_BLOCKSIZE := by
    rw [Nat.mod_eq_of_lt (show cfg.FLASH_WRITE_BLOCKSIZE < 2 ^ 32 by omega)]
    have := Nat.add_mod_right (b - cfg.FLASH_WRITE_BLOCKSIZE) (2 ^ 32)
    rw [show b + 2 ^ 32 - cfg.FLASH_WRITE_BLOCKSIZE
        = b - cfg.FLASH_WRITE_BLOCKSIZE + 2 ^ 32 by omega, this]
    exact Nat.mod_eq_of_lt (by omega)
  unfold BlProgramFlash
  simp only
  rw [BlReadInfo_acked cfg p info hack]
  simp only [hend, hb]
  rw [if_neg (by omega), if_neg (by simp [hfirst]),
    readAppVector_some hex b0 b1 b2 b3 h0 h1 h2 h3]
  simp only
  rw [BlEnableAutostart_acked cfg _ info b hack1 hset]
  simp only
  rw [BlFlashEraseAll_acked cfg _ info hack2 hset.erase_step]
  simp only [hb]
  rw [if_neg (by omega), if_neg (by omega)]
  unfold BlWriteFlash
  rw [hsz, Nat.add_zero, Nat.mod_eq_of_lt (show endAddress + 1 < 2 ^ cfg.SIZE_T_BITS by omega),
    if_neg (by omega),
    writeChunks_acked_at cfg.FLASH_WRITE_BLOCKSIZE 0x04 BlRequest.FlashWrite (by omega)
      (endAddress + 1) p.respond _ 0 _ (endAddress + 1) hack.flash_write (by omega)
      (by omega)]
  simp only [haddr]
  rw [show cfg.FLASH_WRITE_BLOCKSIZE + (b - cfg.FLASH_WRITE_BLOCKSIZE) = b by omega,
    Nat.mod_eq_of_lt (show b < 2 ^ cfg.SIZE_T_BITS by omega), if_neg (by omega),
    writeChunks_acked_at cfg.FLASH_WRITE_BLOCKSIZE 0x04 BlRequest.FlashWrite (by omega)
      cfg.FLASH_WRITE_BLOCKSIZE p.respond _ (b - cfg.FLASH_WRITE_BLOCKSIZE) _
      cfg.FLASH_WRITE_BLOCKSIZE hack.flash_write (by omega) (by omega)]
  have hd : (cfg.FLASH_WRITE_BLOCKSIZE - 1) / cfg.FLASH_WRITE_BLOCKSIZE = 0 :=
    Nat.div_eq_of_lt (by omega)
  have hlen : (appVecBuf cfg [b0, b1, b2, b3]).length = cfg.FLASH_WRITE_BLOCKSIZE := by
    simp [appVecBuf]
    omega
  have htk : List.take cfg.FLASH_WRITE_BLOCKSIZE (appVecBuf cfg [b0, b1, b2, b3])
      = appVecBuf cfg [b0, b1, b2, b3] := List.take_of_length_le (by omega)
  rw [hd, Nat.zero_add, chunkReqs_one, List.take_take, Nat.min_self, htk,
    Nat.add_sub_cancel]
  rfl

/-! ## The device model -/

theorem Device.after_append (cfg : BlCfg) (d : Device) (xs ys : List BlRequest) :
    Device.after cfg d (xs ++ ys) = Device.after cfg (Device.after cfg d xs) ys := by
  simp [Device.after, List.foldl_append]

theorem Device.step_info (cfg : BlCfg) (d : Device) (req : BlRequest) :
    (Device.step cfg d req).info = d.info := by
  cases req <;> rfl

theorem Device.after_info (cfg : BlCfg) (requests : List BlRequest) :
    ∀ d : Device, (Device.after cfg d requests).info = d.info := by
  induction requests with
  | nil => intro d; rfl
  | cons r rs ih =>
    intro d
    show (Device.after cfg (Device.step cfg d r) rs).info = d.info
    rw [ih, Device.step_info]

/-- The device model acknowledges every request. -/
theorem Device.acknowledges (cfg : BlCfg) (d : Device)
    (hinfo : d.info.length = cfg.SIZEOF_BLINFO) :
    Acknowledges cfg (d.proxy cfg) d.info :=
  ⟨hinfo, fun sent => Device.after_info cfg sent d, fun _ _ _ => rfl, fun _ _ _ => rfl,
    fun _ _ _ => rfl⟩

/-- The flash after one write request. -/
theorem Device.flash_write (cfg : BlCfg) (d : Device) (address : Nat) (data : List Nat)
    (x : Nat) :
    (Device.after cfg d [BlRequest.FlashWrite address data]).flash x
      = if address ≤ x ∧ x < address + data.length then data.getD (x - address) 0xff
        else d.flash x := rfl

/-- The flash after the chunk writes of a buffer: the bytes of the buffer from `address` on,
as far as the chunks reach, the old content elsewhere. -/
theorem Device.flash_chunks (cfg : BlCfg) (blockSize : Nat) (x : Nat) :
    ∀ (count : Nat) (d : Device) (address : Nat) (buffer : List Nat),
      (Device.after cfg d
          (chunkReqs BlRequest.FlashWrite blockSize address buffer count)).flash x
        = if address ≤ x ∧ x < address + min (count * blockSize) buffer.length
          then buffer.getD (x - address) 0xff else d.flash x := by
  intro count
  induction count with
  | zero =>
    intro d address buffer
    have h : ¬ (address ≤ x ∧ x < address + min (0 * blockSize) buffer.length) := by
      simp
    rw [if_neg h]
    rfl
  | succ count ih =>
    intro d address buffer
    rw [chunkReqs_succ]
    show (Device.after cfg (Device.after cfg d
        [BlRequest.FlashWrite address (buffer.take blockSize)])
        (chunkReqs BlRequest.FlashWrite blockSize (address + blockSize)
          (buffer.drop blockSize) count)).flash x = _
    rw [ih, Device.flash_write]
    simp only [List.length_take, List.length_drop, Nat.succ_mul]
    by_cases h1 : address + blockSize ≤ x ∧
        x < address + blockSize + min (count * blockSize) (buffer.length - blockSize)
    · rw [if_pos h1, if_pos (by omega)]
      have hx : x - address = blockSize + (x - (address + blockSize)) := by omega
      rw [hx, List.getD_eq_getElem?_getD, List.getD_eq_getElem?_getD, List.getElem?_drop]
    · rw [if_neg h1]
      by_cases h2 : address ≤ x ∧ x < address + min blockSize buffer.length
      · rw [if_pos h2, if_pos (by omega)]
        rw [List.getD_eq_getElem?_getD, List.getD_eq_getElem?_getD, List.getElem?_take]
        rw [if_pos (by omega)]
      · rw [if_neg h2, if_neg (by omega)]

theorem range_map_split (f : Nat → Nat) (k n : Nat) (hk : k ≤ n) :
    (List.range k).map f ++ (List.range (n - k)).map (fun i => f (k + i))
      = (List.range n).map f := by
  have hn : n = k + (n - k) := by omega
  conv_rhs => rw [hn, List.range_add, List.map_append, List.map_map]
  rfl

/-- The chunk loop of the flash read on the device model: the reads leave the device as it is
and return the flash content from `address` on. -/
theorem readChunks_device (cfg : BlCfg) (d : Device) (blockSize : Nat) (hB : 0 < blockSize) :
    ∀ (fuel : Nat) (sent : List BlRequest) (address numBytes sum : Nat) (buffer : List Nat),
      numBytes ≤ fuel + blockSize → address + numBytes ≤ 2 ^ 32 →
      (readChunks blockSize BlRequest.FlashRead fuel ⟨(d.proxy cfg).respond, sent⟩ address
          numBytes sum buffer).1
        = Except.ok (sum + numBytes,
            buffer ++ (List.range numBytes).map
              (fun i => (Device.after cfg d sent).flash (address + i))) := by
  intro fuel
  induction fuel with
  | zero =>
    intro sent address numBytes sum buffer hfuel hwrap
    have hle : ¬ numBytes > blockSize := by omega
    unfold readChunks
    rw [if_neg hle, BlRead_ok _ _ numBytes (by simp [Device.proxy, Device.answer])]
    rfl
  | succ fuel ih =>
    intro sent address numBytes sum buffer hfuel hwrap
    unfold readChunks
    by_cases hgt : numBytes > blockSize
    · rw [if_pos hgt, BlRead_ok _ _ blockSize (by simp [Device.proxy, Device.answer])]
      simp only
      have hmod : (address + blockSize) % 2 ^ 32 = address + blockSize :=
        Nat.mod_eq_of_lt (by omega)
      rw [hmod, ih _ _ _ _ _ (by omega) (by omega)]
      have hst : Device.after cfg d (sent ++ [BlRequest.FlashRead address blockSize])
          = Device.after cfg d sent := by
        rw [Device.after_append]
        rfl
      rw [hst]
      have hsum : sum + blockSize + (numBytes - blockSize) = sum + numBytes := by omega
      rw [hsum, List.append_assoc]
      have hsplit := range_map_split
        (fun i => (Device.after cfg d sent).flash (address + i)) blockSize numBytes
        (Nat.le_of_lt hgt)
      simp only [Nat.add_assoc] at hsplit ⊢
      rw [← hsplit]
      rfl
    · rw [if_neg hgt, BlRead_ok _ _ numBytes (by simp [Device.proxy, Device.answer])]
      rfl

theorem appVecBuf_getD (n : Nat) (v : List Nat) (i : Nat) :
    (List.replicate n 0xff ++ v).getD i 0xff = if i < n then 0xff else v.getD (i - n) 0xff := by
  rw [List.getD_eq_getElem?_getD, List.getD_eq_getElem?_getD]
  by_cases h : i < n
  · rw [if_pos h, List.getElem?_append_left (by simpa using h)]
    simp [List.getElem?_replicate, h]
  · rw [if_neg h, List.getElem?_append_right (by simpa using h)]
    simp

theorem flashBuffer_getD (hex : HexImage) (boundary endAddress x : Nat)
    (he : endAddress < 2 ^ 32) (hx : x ≤ endAddress) :
    ((flashBuffer hex boundary endAddress).take (endAddress + 1)).getD x 0xff
      = if x < 4 then (resetVector boundary).getD x 0xff
        else (hex.getData x).getD 0xff := by
  have he32 : endAddress % 2 ^ 32 = endAddress := Nat.mod_eq_of_lt he
  have hlen : (resetVector boundary).length = 4 := rfl
  rw [List.getD_eq_getElem?_getD, List.getElem?_take, if_pos (by omega)]
  unfold flashBuffer
  rw [he32]
  by_cases h : x < 4
  · rw [if_pos h, List.getElem?_append_left (by omega), List.getD_eq_getElem?_getD]
  · rw [if_neg h, List.getElem?_append_right (by omega), hlen, List.getElem?_map,
      List.getElem?_range (by omega)]
    simp only [Option.map_some', Option.getD_some]
    rw [show x - 4 + 4 = x by omega]

/-- The flash of the device model after the requests of a programming run, at an address of
the application region up to the end address of the hex file. -/
theorem flash_after_program (cfg : BlCfg) (d : Device) (hex : HexImage)
    (boundary endAddress b0 b1 b2 b3 : Nat) (pre : List BlRequest)
    (hB4 : 4 ≤ cfg.FLASH_WRITE_BLOCKSIZE) (hBb : cfg.FLASH_WRITE_BLOCKSIZE ≤ boundary)
    (hlt : endAddress < boundary) (he : endAddress < 2 ^ 32) (x : Nat) (hx : x ≤ endAddress) :
    (Device.after cfg d
        (pre ++ chunkReqs BlRequest.FlashWrite cfg.FLASH_WRITE_BLOCKSIZE 0
            ((flashBuffer hex boundary endAddress).take (endAddress + 1))
            (endAddress / cfg.FLASH_WRITE_BLOCKSIZE + 1)
          ++ [BlRequest.FlashWrite (boundary - cfg.FLASH_WRITE_BLOCKSIZE)
              (List.replicate (cfg.FLASH_WRITE_BLOCKSIZE - 4) 0xff ++ [b0, b1, b2, b3])])).flash x
      = programmedFlash cfg hex boundary [b0, b1, b2, b3] x := by
  have hlen : ((flashBuffer hex boundary endAddress).take (endAddress + 1)).length
      = endAddress + 1 := by
    rw [List.length_take, flashBuffer_length, Nat.mod_eq_of_lt he]
    omega
  have hk : endAddress < (endAddress / cfg.FLASH_WRITE_BLOCKSIZE + 1)
      * cfg.FLASH_WRITE_BLOCKSIZE := by
    have h1 := Nat.div_add_mod endAddress cfg.FLASH_WRITE_BLOCKSIZE
    have h2 := Nat.mod_lt endAddress (show 0 < cfg.FLASH_WRITE_BLOCKSIZE by omega)
    rw [Nat.add_mul, Nat.one_mul, Nat.mul_comm]
    omega
  rw [Device.after_append, Device.after_append, Device.flash_write, Device.flash_chunks, hlen]
  unfold programmedFlash
  simp only [List.length_append, List.length_replicate, List.length_cons, List.length_nil]
  by_cases h1 : boundary - cfg.FLASH_WRITE_BLOCKSIZE ≤ x
  · rw [if_pos h1, if_pos ⟨h1, by omega⟩, appVecBuf_getD]
    by_cases h2 : x < boundary - 4
    · rw [if_pos h2, if_pos (by omega)]
    · rw [if_neg h2, if_neg (by omega)]
      rw [show x - (boundary - cfg.FLASH_WRITE_BLOCKSIZE) - (cfg.FLASH_WRITE_BLOCKSIZE - 4)
        = x - (boundary - 4) by omega]
  · rw [if_neg h1, if_neg (fun h => h1 h.1), if_pos ⟨Nat.zero_le x, by omega⟩, Nat.sub_zero,
      flashBuffer_getD hex boundary endAddress x he hx]

/-! ## Properties of the programming run -/

/-- C19 (amended): on the device model, for a hex file that passes the checks,
`BlProgramFlash` succeeds, and `BlReadFlash(0, endAddress + 1)` then returns `endAddress + 1`
bytes which are, at every offset `x`: inside the last write block in front of the boot
boundary (`boundary - FLASH_WRITE_BLOCKSIZE ≤ x`) the byte `0xff` and, in the last four places
of that block, the application vector `b0 .. b3`; elsewhere the reset vector at the offsets 0
to 3 and the byte of the hex file (`0xff` for an address without data) at the other
offsets. -/
theorem BlProgramFlash_read_back (cfg : BlCfg) (d : Device) (hex : HexImage)
    (endAddress b0 b1 b2 b3 : Nat)
    (hinfo : d.info.length = cfg.SIZEOF_BLINFO)
    (hset : ProgramSetting cfg (BlInfo_GetAddress cfg d.info))
    (hread : 0 < cfg.FLASH_READ_BLOCKSIZE)
    (hend : hex.endAddress = some endAddress)
    (hlt : endAddress < BlInfo_GetAddress cfg d.info)
    (hfirst : hex.firstAddress = 0)
    (h0 : hex.getData 0 = some b0) (h1 : hex.getData 1 = some b1)
    (h2 : hex.getData 2 = some b2) (h3 : hex.getData 3 = some b3) :
    (BlProgramFlash cfg (d.proxy cfg) (some hex)).1 = Except.ok () ∧
      (BlReadFlash cfg (BlProgramFlash cfg (d.proxy cfg) (some hex)).2 0 (endAddress + 1)).1
        = Except.ok (endAddress + 1,
            (List.range (endAddress + 1)).map
              (programmedFlash cfg hex (BlInfo_GetAddress cfg d.info) [b0, b1, b2, b3])) := by
  have hrun := BlProgramFlash_run cfg (d.proxy cfg) d.info hex endAddress b0 b1 b2 b3
    (Device.acknowledges cfg d hinfo) hset hend hlt hfirst h0 h1 h2 h3
  have hf := hset.flash_size
  have hbf := hset.boundary_flash
  have hw : (2 : Nat) ^ 32 ≤ 2 ^ cfg.SIZE_T_BITS :=
    Nat.pow_le_pow_right (by decide) hset.size_t_bits
  have h32 : endAddress < 2 ^ 32 := by omega
  refine ⟨by rw [hrun], ?_⟩
  rw [hrun]
  unfold BlReadFlash
  rw [Nat.add_zero, Nat.mod_eq_of_lt (show endAddress + 1 < 2 ^ cfg.SIZE_T_BITS by omega),
    if_neg (by omega),
    readChunks_device cfg d cfg.FLASH_READ_BLOCKSIZE hread (endAddress + 1) _ 0
      (endAddress + 1) 0 [] (by omega) (by omega),
    Nat.zero_add, List.nil_append]
  congr 2
  apply List.map_congr_left
  intro x hx
  have hx2 : x ≤ endAddress := by
    have := List.mem_range.mp hx
    omega
  rw [Nat.zero_add]
  exact flash_after_program cfg d hex (BlInfo_GetAddress cfg d.info) endAddress b0 b1 b2 b3
    ((d.proxy cfg).sent ++ [BlRequest.Info]
      ++ [BlRequest.EepromWrite cfg.BL_AUTOSTART_ADDRESS [0xff]]
      ++ eraseAllReqs cfg (BlInfo_GetAddress cfg d.info))
    hset.write_block hset.boundary_block hlt h32 x hx2

theorem BlProgramFlash_read_back_witness :
    (BlReadFlash demoBl
        (BlProgramFlash demoBl ((demoDevice 1024 0).proxy demoBl) (some (demoImage 1000))).2
        0 1001).1
      = Except.ok (1001,
          (List.range 1001).map
            (programmedFlash demoBl (demoImage 1000)
              (BlInfo_GetAddress demoBl (demoDevice 1024 0).info) [1, 2, 3, 4])) :=
  (BlProgramFlash_read_back demoBl (demoDevice 1024 0) (demoImage 1000) 1000 1 2 3 4 rfl
    ⟨by decide, by decide, by decide, by decide, by decide, by decide, by decide, by decide,
      by decide⟩
    (by decide) rfl (by decide) rfl rfl rfl rfl rfl).2

/-- C19 (counterexample): boot boundary 1024 with write blocks of 64 bytes, hex file with
program code at the addresses 0 to 1000. Offset 960 is neither one of the offsets 0 to 3 nor
one of the last four bytes 1020 to 1023 of the final write block, and the hex file has the
byte 208 there, but after the programming run `BlReadFlash(0, 1001)` returns `0xff` at
offset 960: the padding of the final write block has replaced the byte. -/
theorem BlProgramFlash_read_back_differs :
    (BlProgramFlash demoBl ((demoDevice 1024 0).proxy demoBl) (some (demoImage 1000))).1
        = Except.ok () ∧
      Except.map (fun r => (r.1, r.2.getD 960 0))
          (BlReadFlash demoBl
            (BlProgramFlash demoBl ((demoDevice 1024 0).proxy demoBl)
              (some (demoImage 1000))).2 0 1001).1
        = Except.ok (1001, 0xff) ∧
      (demoImage 1000).getData 960 = some 208 := by
  refine ⟨rfl, rfl, rfl⟩

/-- The checks of `BlProgramFlash` in front of the first write: a hex file whose end address
is at or above the boot boundary is rejected after the request for the boot information, the
only request sent. -/
theorem BlProgramFlash_boot_area_rejected (cfg : BlCfg) (p : Proxy) (info : List Nat)
    (hex : HexImage) (endAddress : Nat) (hack : Acknowledges cfg p info)
    (hend : hex.endAddress = some endAddress)
    (hge : BlInfo_GetAddress cfg info ≤ endAddress) :
    BlProgramFlash cfg p (some hex)
      = (Except.error BlError.WiflyControlException,
          { p with sent := (p.sent ++ [BlRequest.Info]) }) := by
  unfold BlProgramFlash
  simp only
  rw [BlReadInfo_acked cfg p info hack]
  simp only [hend]
  rw [if_pos hge]

/-- C17 (failing input): the host is built for 1024 bytes of flash, the device reports the
boot boundary 2048, and the hex file ends at address 1025, below the boot boundary and
beyond the flash size. `BlProgramFlash` fails with the range error, but only after it has
sent the autostart write to the EEPROM and all erase requests of the full erase. -/
theorem BlProgramFlash_erases_before_size_check :
    (demoImage 1025).endAddress = some 1025 ∧
      demoBl.FLASH_SIZE < 1025 ∧
      1025 < BlInfo_GetAddress demoBl (demoDevice 2048 0).info ∧
      (BlProgramFlash demoBl ((demoDevice 2048 0).proxy demoBl) (some (demoImage 1025))).1
        = Except.error BlError.WiflyControlException ∧
      (BlProgramFlash demoBl ((demoDevice 2048 0).proxy demoBl)
          (some (demoImage 1025))).2.sent
        = [BlRequest.Info, BlRequest.EepromWrite 255 [0xff], BlRequest.Info,
           BlRequest.FlashErase 2047 4, BlRequest.FlashErase 1791 4,
           BlRequest.FlashErase 1535 4, BlRequest.FlashErase 1279 4,
           BlRequest.FlashErase 1023 4, BlRequest.FlashErase 767 4,
           BlRequest.FlashErase 511 4, BlRequest.FlashErase 255 4] := by
  refine ⟨rfl, by decide, by decide, rfl, rfl⟩

/-- C18 (failing input): boot boundary 1024, hex file with program code at the addresses 0 to
1023. The hex file passes the checks and the run succeeds; the last request is the write of
the block with the application vector at address 960, and among the requests in front of it
there is a flash write that covers each of the addresses 1020 to 1023 of the application
vector (the last chunk of the flash buffer, written to address 960 as well). -/
theorem BlProgramFlash_writes_vector_location_early :
    (demoImage 1023).endAddress = some 1023 ∧
      1023 < BlInfo_GetAddress demoBl (demoDevice 1024 0).info ∧
      (BlProgramFlash demoBl ((demoDevice 1024 0).proxy demoBl) (some (demoImage 1023))).1
        = Except.ok () ∧
      (BlProgramFlash demoBl ((demoDevice 1024 0).proxy demoBl)
          (some (demoImage 1023))).2.sent.getLast?
        = some (BlRequest.FlashWrite 960 (List.replicate 60 0xff ++ [1, 2, 3, 4])) ∧
      (∀ x ∈ [1020, 1021, 1022, 1023],
        (BlProgramFlash demoBl ((demoDevice 1024 0).proxy demoBl)
          (some (demoImage 1023))).2.sent.dropLast.any (writesTo x) = true) ∧
      (BlProgramFlash demoBl ((demoDevice 1024 0).proxy demoBl)
          (some (demoImage 1023))).2.sent.dropLast.getLast?
        = some (BlRequest.FlashWrite 960
            ((List.range 64).map (fun i => (960 + i + 1) % 251))) := by
  refine ⟨rfl, by decide, rfl, rfl, by decide, rfl⟩

/-- C16 (failing input): boot boundary 1024, application in the flash addresses 0 to 999
without any byte `0xff`, `0xff` from address 1000 on. The search probes the addresses 512,
768, 896 and 960 and then reads the 64 bytes from address 928 on, which end in front of the
end of the application: `BlReadFwVersion` returns the flash bytes 984 to 990 and not the bytes
992 to 998 in front of the last byte of the application. -/
theorem BlReadFwVersion_misses_application_end :
    (∀ x, x < 1000 → (demoDevice 1024 1000).flash x ≠ 0xff) ∧
      (∀ x, 1000 ≤ x → (demoDevice 1024 1000).flash x = 0xff) ∧
      (BlReadFwVersion demoBl ((demoDevice 1024 1000).proxy demoBl)).2.sent
        = [BlRequest.Info, BlRequest.FlashRead 512 32, BlRequest.FlashRead 768 32,
           BlRequest.FlashRead 896 32, BlRequest.FlashRead 960 32,
           BlRequest.FlashRead 928 64] ∧
      (BlReadFwVersion demoBl ((demoDevice 1024 1000).proxy demoBl)).1
        = Except.ok ((List.range 7).map (fun i => (demoDevice 1024 1000).flash (984 + i))) ∧
      (List.range 7).map (fun i => (demoDevice 1024 1000).flash (984 + i))
        ≠ (List.range 7).map (fun i => (demoDevice 1024 1000).flash (992 + i)) := by
  refine ⟨?_, ?_, rfl, rfl, by decide⟩
  · intro x hx
    simp only [demoDevice, if_pos hx]
    omega
  · intro x hx
    simp only [demoDevice, if_neg (Nat.not_lt.mpr hx)]

/-- A second failing input of the version lookup: with the application in the flash addresses
0 to 39 the search steps down to address 32, the subtraction of 64 wraps around, and the
final read is rejected with the range error. -/
theorem BlReadFwVersion_small_application_raises :
    (BlReadFwVersion demoBl ((demoDevice 1024 40).proxy demoBl)).1
      = Except.error BlError.WiflyControlException := rfl

/-- A run of the version lookup that finds the version: with the application in the flash
addresses 0 to 599 the method returns the flash bytes 592 to 598. -/
theorem BlReadFwVersion_example_found :
    (BlReadFwVersion demoBl ((demoDevice 1024 600).proxy demoBl)).1
      = Except.ok ((List.range 7).map (fun i => (demoDevice 1024 600).flash (592 + i))) := rfl

/-! ## Single ticks of `ScriptCtrl_Run` -/

/-- C27: a tick that loads a `LOOP_OFF` command `c` at `execute` (buffer not clearing,
`execute != write`). With the infinite sentinel in `counter`, `execute` becomes `startIndex`
and nothing is stored. Otherwise with `counter > 1` the block is stored back in place with
`counter - 1` and `execute` becomes `startIndex`. Otherwise with `depth == 0`, `execute`
advances by one slot, `read` is set to the new `execute` and persisted, `inLoop` is cleared
and persisted, and no block is stored. Otherwise the block is stored back in place with
`counter = numLoops` and `execute` advances by one slot. In all cases but the third, `read`
and `inLoop` keep their values; `write` never changes. -/
theorem ScriptCtrl_Run_loads_loop_off (cfg : ScriptCfg) (w : World)
    (hclear : w.buf.isClearing = false) (hne : w.buf.execute ≠ w.buf.write)
    (hc : (w.eeprom.slot w.buf.execute).cmd = CmdCode.LOOP_OFF) :
    ((w.eeprom.slot w.buf.execute).loopEnd.counter = cfg.LOOP_INFINITE →
        (ScriptCtrl_Run cfg w).buf
            = { w.buf with execute := (w.eeprom.slot w.buf.execute).loopEnd.startIndex } ∧
          (ScriptCtrl_Run cfg w).eeprom = w.eeprom) ∧
      ((w.eeprom.slot w.buf.execute).loopEnd.counter ≠ cfg.LOOP_INFINITE →
        1 < (w.eeprom.slot w.buf.execute).loopEnd.counter →
        (ScriptCtrl_Run cfg w).buf
            = { w.buf with execute := (w.eeprom.slot w.buf.execute).loopEnd.startIndex } ∧
          (ScriptCtrl_Run cfg w).eeprom
            = Eeprom_WriteBlock w.eeprom w.buf.execute
                { w.eeprom.slot w.buf.execute with
                  loopEnd := { (w.eeprom.slot w.buf.execute).loopEnd with
                    counter := (w.eeprom.slot w.buf.execute).loopEnd.counter - 1 } }) ∧
      ((w.eeprom.slot w.buf.execute).loopEnd.counter ≠ cfg.LOOP_INFINITE →
        (w.eeprom.slot w.buf.execute).loopEnd.counter ≤ 1 →
        (w.eeprom.slot w.buf.execute).loopEnd.depth = 0 →
        (ScriptCtrl_Run cfg w).buf
            = { w.buf with
                execute := ScriptBufInc cfg w.buf.execute
                read := ScriptBufInc cfg w.buf.execute
                inLoop := false } ∧
          (ScriptCtrl_Run cfg w).eeprom
            = { w.eeprom with
                cellRead := ScriptBufInc cfg w.buf.execute
                cellInLoop := false }) ∧
      ((w.eeprom.slot w.buf.execute).loopEnd.counter ≠ cfg.LOOP_INFINITE →
        (w.eeprom.slot w.buf.execute).loopEnd.counter ≤ 1 →
        (w.eeprom.slot w.buf.execute).loopEnd.depth ≠ 0 →
        (ScriptCtrl_Run cfg w).buf
            = { w.buf with execute := ScriptBufInc cfg w.buf.execute } ∧
          (ScriptCtrl_Run cfg w).eeprom
            = Eeprom_WriteBlock w.eeprom w.buf.execute
                { w.eeprom.slot w.buf.execute with
                  loopEnd := { (w.eeprom.slot w.buf.execute).loopEnd with
                    counter := (w.eeprom.slot w.buf.execute).loopEnd.numLoops } }) := by
  have hu := uns8_ScriptBufInc cfg w.buf.execute
  refine ⟨?_, ?_, ?_, ?_⟩
  · intro h1
    simp [ScriptCtrl_Run, hclear, hne, hc, h1]
  · intro h1 h2
    simp [ScriptCtrl_Run, hclear, hne, hc, h1, h2]
  · intro h1 h2 h3
    have h2n : ¬ (w.eeprom.slot w.buf.execute).loopEnd.counter > 1 := by omega
    simp [ScriptCtrl_Run, hclear, hne, hc, h1, h2n, h3, ScriptBufSetInLoop, ScriptBufSetRead,
      hu]
  · intro h1 h2 h3
    have h2n : ¬ (w.eeprom.slot w.buf.execute).loopEnd.counter > 1 := by omega
    simp [ScriptCtrl_Run, hclear, hne, hc, h1, h2n, h3]

theorem ScriptCtrl_Run_loads_loop_off_witness :
    (ScriptCtrl_Run demoCfg (loopOffWorld 2 0)).buf.execute = 0 ∧
      ((ScriptCtrl_Run demoCfg (loopOffWorld 2 0)).eeprom.slot 0).loopEnd.counter = 1 := by
  have h := (ScriptCtrl_Run_loads_loop_off demoCfg (loopOffWorld 2 0) rfl (by decide)
    rfl).2.1 (by decide) (by decide)
  exact ⟨by rw [h.1]; rfl, by rw [h.2]; rfl⟩

/-- C28: a tick that loads a `SET_COLOR` or `SET_FADE` command at `execute` (buffer not
clearing, `execute != write`) makes exactly one call of the matching strip function with the
payload of the command, advances `execute` by one slot and changes no stored block; `read` is
set to the new `execute` (and persisted) if `inLoop` is false and keeps its value if `inLoop`
is true. -/
theorem ScriptCtrl_Run_loads_set_command (cfg : ScriptCfg) (w : World)
    (hclear : w.buf.isClearing = false) (hne : w.buf.execute ≠ w.buf.write) :
    ((w.eeprom.slot w.buf.execute).cmd = CmdCode.SET_COLOR →
        (ScriptCtrl_Run cfg w).ledstrip
          = w.ledstrip ++ [LedstripCall.SetColor (w.eeprom.slot w.buf.execute).payload]) ∧
      ((w.eeprom.slot w.buf.execute).cmd = CmdCode.SET_FADE →
        (ScriptCtrl_Run cfg w).ledstrip
          = w.ledstrip ++ [LedstripCall.SetFade (w.eeprom.slot w.buf.execute).payload]) ∧
      (IsSet (w.eeprom.slot w.buf.execute) →
        (ScriptCtrl_Run cfg w).buf.execute = ScriptBufInc cfg w.buf.execute ∧
          (ScriptCtrl_Run cfg w).buf.write = w.buf.write ∧
          (ScriptCtrl_Run cfg w).buf.inLoop = w.buf.inLoop ∧
          (ScriptCtrl_Run cfg w).eeprom.slot = w.eeprom.slot ∧
          (w.buf.inLoop = false →
            (ScriptCtrl_Run cfg w).buf.read = ScriptBufInc cfg w.buf.execute ∧
              (ScriptCtrl_Run cfg w).eeprom.cellRead = ScriptBufInc cfg w.buf.execute) ∧
          (w.buf.inLoop = true →
            (ScriptCtrl_Run cfg w).buf.read = w.buf.read ∧
              (ScriptCtrl_Run cfg w).eeprom.cellRead = w.eeprom.cellRead)) := by
  have hu := uns8_ScriptBufInc cfg w.buf.execute
  refine ⟨?_, ?_, ?_⟩
  · intro hc
    cases hl : w.buf.inLoop <;>
      simp [ScriptCtrl_Run, hclear, hne, hc, hl, ScriptBufSetRead]
  · intro hc
    cases hl : w.buf.inLoop <;>
      simp [ScriptCtrl_Run, hclear, hne, hc, hl, ScriptBufSetRead]
  · intro hs
    rcases hs with hc | hc <;> cases hl : w.buf.inLoop <;>
      simp [ScriptCtrl_Run, hclear, hne, hc, hl, ScriptBufSetRead, hu]

theorem ScriptCtrl_Run_loads_set_command_witness :
    (ScriptCtrl_Run demoCfg (oneCmdWorld (plainCmd CmdCode.SET_COLOR [7, 8, 9]) false)).ledstrip
        = [LedstripCall.SetColor [7, 8, 9]] ∧
      (ScriptCtrl_Run demoCfg
        (oneCmdWorld (plainCmd CmdCode.SET_COLOR [7, 8, 9]) false)).buf.read = 1 := by
  have h := ScriptCtrl_Run_loads_set_command demoCfg
    (oneCmdWorld (plainCmd CmdCode.SET_COLOR [7, 8, 9]) false) rfl (by decide)
  exact ⟨h.1 rfl, ((h.2.2 (Or.inl rfl)).2.2.2.2.1 rfl).1⟩

/-! ## Sequences of added commands -/

theorem slotAt_slotAt (n r i j : Nat) : slotAt n (slotAt n r i) j = slotAt n r (i + j) := by
  unfold slotAt
  rw [Nat.add_mod, Nat.mod_mod, ← Nat.add_mod, Nat.add_assoc]

theorem slotAt_self {n r : Nat} (h : r < n) : slotAt n r 0 = r := slotAt_zero h

theorem freeSlots_eq {n r w : Nat} (hr : r < n) (hw : w < n) :
    freeSlots n r w = if w < r then r - 1 - w else r + n - 1 - w := by
  unfold freeSlots
  by_cases h : w < r
  · rw [if_pos h]
    have e : r + n - 1 - w = (r - 1 - w) + n := by omega
    rw [e, Nat.add_mod_right]
    exact Nat.mod_eq_of_lt (by omega)
  · rw [if_neg h]
    exact Nat.mod_eq_of_lt (by omega)

theorem slotAt_one_eq {n w : Nat} (hw : w < n) :
    slotAt n w 1 = if w + 1 < n then w + 1 else 0 := by
  unfold slotAt
  by_cases h : w + 1 < n
  · rw [if_pos h]
    exact Nat.mod_eq_of_lt h
  · rw [if_neg h]
    have e : w + 1 = n := by omega
    rw [e, Nat.mod_self]

theorem freeSlots_lt {n r w : Nat} (hr : r < n) (hw : w < n) : freeSlots n r w < n := by
  rw [freeSlots_eq hr hw]
  split <;> omega

/-- With a free slot the ring is not full: the successor of `write` is not `read`. -/
theorem room_of_free {n r w : Nat} (hr : r < n) (hw : w < n) (hfree : 0 < freeSlots n r w) :
    slotAt n w 1 ≠ r := by
  rw [freeSlots_eq hr hw] at hfree
  rw [slotAt_one_eq hw]
  split at hfree <;> split <;> omega

/-- Without a free slot the ring is full. -/
theorem full_of_no_free {n r w : Nat} (hr : r < n) (hw : w < n) (hfree : freeSlots n r w = 0) :
    slotAt n w 1 = r := by
  rw [freeSlots_eq hr hw] at hfree
  rw [slotAt_one_eq hw]
  split at hfree <;> split <;> omega

theorem freeSlots_next {n r w : Nat} (hr : r < n) (hw : w < n) (hfree : 0 < freeSlots n r w) :
    freeSlots n r (slotAt n w 1) = freeSlots n r w - 1 := by
  have hs := slotAt_one_eq hw
  rw [freeSlots_eq hr hw] at hfree
  by_cases h1 : w + 1 < n
  · rw [if_pos h1] at hs
    rw [hs, freeSlots_eq hr h1, freeSlots_eq hr hw]
    by_cases h2 : w < r <;> by_cases h3 : w + 1 < r <;>
      simp only [h2, h3, if_true, if_false] at hfree ⊢ <;> omega
  · rw [if_neg h1] at hs
    rw [hs, freeSlots_eq hr (show 0 < n by omega), freeSlots_eq hr hw]
    by_cases h2 : w < r <;> by_cases h3 : 0 < r <;>
      simp only [h2, h3, if_true, if_false] at hfree ⊢ <;> omega

theorem ScriptCtrl_Add_plain (cfg : ScriptCfg) (c : led_cmd) (w : World)
    (hclear : w.buf.isClearing = false) (hc : IsPlain c) :
    ScriptCtrl_Add cfg c w = ScriptCtrl_Write cfg c w := by
  obtain ⟨h1, h2, h3⟩ := hc
  unfold ScriptCtrl_Add
  rw [hclear]
  cases hk : c.cmd <;> simp_all

theorem ScriptCtrl_Add_loopOn (cfg : ScriptCfg) (c : led_cmd) (w : World)
    (hclear : w.buf.isClearing = false) (hc : c.cmd = CmdCode.LOOP_ON) :
    ScriptCtrl_Add cfg c w = ScriptCtrl_Write cfg c
      { w with buf := { w.buf with
          loopStart := fun i => if i = w.buf.loopDepth then w.buf.write else w.buf.loopStart i
          loopDepth := uns8 (w.buf.loopDepth + 1) } } := by
  unfold ScriptCtrl_Add
  rw [hclear]
  simp [hc]

theorem ScriptCtrl_Add_loopOff (cfg : ScriptCfg) (c : led_cmd) (w : World)
    (hclear : w.buf.isClearing = false) (hc : c.cmd = CmdCode.LOOP_OFF) :
    ScriptCtrl_Add cfg c w = ScriptCtrl_Write cfg
      { c with loopEnd :=
          { startIndex := ScriptBufInc cfg (w.buf.loopStart (uns8 (w.buf.loopDepth + 255)))
            depth := uns8 (w.buf.loopDepth + 255)
            counter := c.loopEnd.numLoops
            numLoops := c.loopEnd.numLoops } }
      { w with buf := { w.buf with loopDepth := uns8 (w.buf.loopDepth + 255) } } := by
  unfold ScriptCtrl_Add
  rw [hclear]
  simp [hc]

theorem Extends.refl (bits : Nat) (w : World) (hclear : w.buf.isClearing = false)
    (hw : w.buf.write < 2 ^ bits) : Extends bits w w 0 :=
  ⟨rfl, rfl, rfl, hclear, (slotAt_zero hw).symm, by simp, rfl, rfl, rfl, fun _ _ => rfl⟩

theorem Extends.trans {bits : Nat} {w w1 w2 : World} {k m : Nat}
    (h1 : Extends bits w w1 k) (h2 : Extends bits w1 w2 m) : Extends bits w w2 (k + m) := by
  have hpos : 0 < 2 ^ bits := Nat.pow_pos (by decide)
  refine ⟨h2.hread.trans h1.hread, h2.hexec.trans h1.hexec, h2.hinLoop.trans h1.hinLoop,
    h2.hclear, ?_, ?_, h2.hcellRead.trans h1.hcellRead, h2.hcellInLoop.trans h1.hcellInLoop,
    h2.hlog.trans h1.hlog, ?_⟩
  · rw [h2.hwrite, h1.hwrite, slotAt_slotAt]
  · rw [h2.hcellWrite]
    by_cases hm : 0 < m
    · rw [if_pos hm, if_pos (by omega)]
    · have hm0 : m = 0 := by omega
      subst hm0
      rw [if_neg hm, h1.hcellWrite]
      by_cases hk : 0 < k
      · rw [if_pos hk, if_pos (by omega), h2.hwrite]
        exact (slotAt_zero (by rw [h1.hwrite]; exact slotAt_lt _ _ hpos)).symm
      · rw [if_neg hk, if_neg (by omega)]
  · intro y hy
    rw [h2.hothers y, h1.hothers y]
    · intro i hi
      exact hy i (by omega)
    · intro i hi
      rw [h1.hwrite, slotAt_slotAt]
      exact hy (k + i) (by omega)

/-- A write into a ring with a free slot stores the command at `write` and advances `write`
by one slot. -/
theorem Extends.of_write {cfg : ScriptCfg} {bits : Nat} (hring : RingOfBits cfg bits)
    (c : led_cmd) (w : World) (hclear : w.buf.isClearing = false)
    (hr : w.buf.read < 2 ^ bits) (hw : w.buf.write < 2 ^ bits)
    (hfree : 0 < freeSlots (2 ^ bits) w.buf.read w.buf.write) :
    Extends bits w (ScriptCtrl_Write cfg c w) 1 ∧
      (ScriptCtrl_Write cfg c w).eeprom.slot w.buf.write = c ∧
      (ScriptCtrl_Write cfg c w).buf.loopDepth = w.buf.loopDepth ∧
      (ScriptCtrl_Write cfg c w).buf.loopStart = w.buf.loopStart := by
  have hinc : ScriptBufInc cfg w.buf.write = slotAt (2 ^ bits) w.buf.write 1 := by
    have := ScriptBufInc_slotAt hring w.buf.write 0
    rwa [slotAt_zero hw] at this
  have hne : ScriptBufInc cfg w.buf.write ≠ w.buf.read := by
    rw [hinc]
    exact room_of_free hr hw hfree
  have hu := uns8_ScriptBufInc cfg w.buf.write
  have hdef : ScriptCtrl_Write cfg c w
      = ScriptBufSetWrite (ScriptBufInc cfg w.buf.write)
          { w with eeprom := Eeprom_WriteBlock w.eeprom w.buf.write c } := by
    simp [ScriptCtrl_Write, hne]
  rw [hdef]
  refine ⟨⟨rfl, rfl, rfl, hclear, ?_, ?_, rfl, rfl, rfl, ?_⟩, ?_, rfl, rfl⟩
  · show uns8 (ScriptBufInc cfg w.buf.write) = _
    rw [hu, hinc]
  · simp [ScriptBufSetWrite]
  · intro y hy
    have hy0 : y ≠ w.buf.write := by
      have := hy 0 (by omega)
      rwa [slotAt_zero hw] at this
    simp [ScriptBufSetWrite, Eeprom_WriteBlock, hy0]
  · simp [ScriptBufSetWrite, Eeprom_WriteBlock]

theorem freeSlots_slotAt {n r w : Nat} (hr : r < n) (hw : w < n) :
    ∀ k, k ≤ freeSlots n r w → freeSlots n r (slotAt n w k) = freeSlots n r w - k := by
  intro k
  induction k with
  | zero => intro _; rw [slotAt_zero hw, Nat.sub_zero]
  | succ k ih =>
    intro hk
    have h1 := ih (by omega)
    have hlt : slotAt n w k < n := slotAt_lt w k (by omega)
    rw [← slotAt_slotAt, freeSlots_next hr hlt (by omega), h1]
    omega

theorem Fits.after {bits : Nat} {w w1 : World} {k n : Nat} (hf : Fits bits w (k + n))
    (he : Extends bits w w1 k) (hd : w1.buf.loopDepth ≤ w.buf.loopDepth + k) :
    Fits bits w1 n := by
  have hpos : 0 < 2 ^ bits := Nat.pow_pos (by decide)
  refine ⟨he.hclear, by rw [he.hread]; exact hf.hr, by rw [he.hwrite]; exact slotAt_lt _ _ hpos,
    ?_, by have := hf.hdepth; omega⟩
  rw [he.hread, he.hwrite, freeSlots_slotAt hf.hr hf.hw k (by have := hf.hfree; omega)]
  have := hf.hfree
  omega

theorem Fits.mono {bits : Nat} {w : World} {m n : Nat} (hf : Fits bits w n) (h : m ≤ n) :
    Fits bits w m :=
  ⟨hf.hclear, hf.hr, hf.hw, by have := hf.hfree; omega, by have := hf.hdepth; omega⟩

/-- Adding a plain command that fits. -/
theorem Add_plain_effect {cfg : ScriptCfg} {bits : Nat} (hring : RingOfBits cfg bits)
    (c : led_cmd) (w : World) (hf : Fits bits w 1) (hc : IsPlain c) :
    Extends bits w (ScriptCtrl_Add cfg c w) 1 ∧
      (ScriptCtrl_Add cfg c w).eeprom.slot w.buf.write = c ∧
      (ScriptCtrl_Add cfg c w).buf.loopDepth = w.buf.loopDepth ∧
      (ScriptCtrl_Add cfg c w).buf.loopStart = w.buf.loopStart := by
  rw [ScriptCtrl_Add_plain cfg c w hf.hclear hc]
  exact Extends.of_write hring c w hf.hclear hf.hr hf.hw (lt_of_lt_of_le Nat.zero_lt_one hf.hfree)

/-- Adding a `LOOP_ON` that fits: the command is stored, the old `write` is pushed on the loop
stack. -/
theorem Add_loopOn_effect {cfg : ScriptCfg} {bits : Nat} (hring : RingOfBits cfg bits)
    (c : led_cmd) (w : World) (hf : Fits bits w 1) (hc : c.cmd = CmdCode.LOOP_ON) :
    Extends bits w (ScriptCtrl_Add cfg c w) 1 ∧
      (ScriptCtrl_Add cfg c w).eeprom.slot w.buf.write = c ∧
      (ScriptCtrl_Add cfg c w).buf.loopDepth = w.buf.loopDepth + 1 ∧
      (ScriptCtrl_Add cfg c w).buf.loopStart
        = fun i => if i = w.buf.loopDepth then w.buf.write else w.buf.loopStart i := by
  rw [ScriptCtrl_Add_loopOn cfg c w hf.hclear hc]
  obtain ⟨h1, h2, h3, h4⟩ := Extends.of_write hring c
    { w with buf := { w.buf with
        loopStart := fun i => if i = w.buf.loopDepth then w.buf.write else w.buf.loopStart i
        loopDepth := uns8 (w.buf.loopDepth + 1) } }
    hf.hclear hf.hr hf.hw (lt_of_lt_of_le Nat.zero_lt_one hf.hfree)
  refine ⟨⟨h1.hread, h1.hexec, h1.hinLoop, h1.hclear, h1.hwrite, h1.hcellWrite, h1.hcellRead,
    h1.hcellInLoop, h1.hlog, h1.hothers⟩, h2, ?_, h4⟩
  rw [h3]
  exact uns8_of_lt (by have := hf.hdepth; omega)

/-- Adding a `LOOP_OFF` that fits while a loop is open: the stack is popped and the command
is stored with the `loopEnd` fields filled in. -/
theorem Add_loopOff_effect {cfg : ScriptCfg} {bits : Nat} (hring : RingOfBits cfg bits)
    (c : led_cmd) (w : World) (d : Nat) (hf : Fits bits w 1) (hc : c.cmd = CmdCode.LOOP_OFF)
    (hd : w.buf.loopDepth = d + 1) :
    Extends bits w (ScriptCtrl_Add cfg c w) 1 ∧
      (ScriptCtrl_Add cfg c w).eeprom.slot w.buf.write
        = storedLoopOff c (ScriptBufInc cfg (w.buf.loopStart d)) d c.loopEnd.numLoops ∧
      (ScriptCtrl_Add cfg c w).buf.loopDepth = d ∧
      (ScriptCtrl_Add cfg c w).buf.loopStart = w.buf.loopStart := by
  have hu : uns8 (w.buf.loopDepth + 255) = d := by
    rw [hd]
    unfold uns8
    have := hf.hdepth
    omega
  rw [ScriptCtrl_Add_loopOff cfg c w hf.hclear hc, hu]
  obtain ⟨h1, h2, h3, h4⟩ := Extends.of_write hring
    { c with loopEnd :=
        { startIndex := ScriptBufInc cfg (w.buf.loopStart d)
          depth := d
          counter := c.loopEnd.numLoops
          numLoops := c.loopEnd.numLoops } }
    { w with buf := { w.buf with loopDepth := d } }
    hf.hclear hf.hr hf.hw (lt_of_lt_of_le Nat.zero_lt_one hf.hfree)
  exact ⟨⟨h1.hread, h1.hexec, h1.hinLoop, h1.hclear, h1.hwrite, h1.hcellWrite, h1.hcellRead,
    h1.hcellInLoop, h1.hlog, h1.hothers⟩, h2, h3, h4⟩

theorem Nested.length_loop (onCmd : led_cmd) (body : List led_cmd) (offCmd : led_cmd)
    (rest : List led_cmd) :
    (onCmd :: body ++ offCmd :: rest).length = 1 + (body.length + (1 + rest.length)) := by
  simp only [List.length_cons, List.length_append]
  omega

theorem addAll_loop (cfg : ScriptCfg) (onCmd : led_cmd) (body : List led_cmd)
    (offCmd : led_cmd) (rest : List led_cmd) (w : World) :
    addAll cfg (onCmd :: body ++ offCmd :: rest) w
      = addAll cfg rest
          (ScriptCtrl_Add cfg offCmd (addAll cfg body (ScriptCtrl_Add cfg onCmd w))) := by
  rw [show onCmd :: body ++ offCmd :: rest = onCmd :: (body ++ offCmd :: rest) from rfl,
    addAll_cons, addAll_append, addAll_cons]

/-- Adding a properly nested sequence that fits: every command is stored, the loop depth is
what it was, and the loop stack below that depth is untouched. -/
theorem Nested.effect {cfg : ScriptCfg} {bits : Nat} (hring : RingOfBits cfg bits) :
    ∀ cs, Nested cs → ∀ w : World, Fits bits w cs.length →
      Extends bits w (addAll cfg cs w) cs.length ∧
        (addAll cfg cs w).buf.loopDepth = w.buf.loopDepth ∧
        (∀ i, i < w.buf.loopDepth →
          (addAll cfg cs w).buf.loopStart i = w.buf.loopStart i) := by
  intro cs hn
  induction hn with
  | nil =>
    intro w hf
    exact ⟨Extends.refl bits w hf.hclear hf.hw, rfl, fun _ _ => rfl⟩
  | plain c rest hc _ ih =>
    intro w hf
    rw [addAll_cons]
    have hf1 : Fits bits w (1 + rest.length) := by
      have e : (c :: rest).length = 1 + rest.length := by simp; omega
      rwa [e] at hf
    obtain ⟨e1, _, d1, s1⟩ := Add_plain_effect hring c w (hf1.mono (by omega)) hc
    obtain ⟨e2, d2, s2⟩ := ih (ScriptCtrl_Add cfg c w) (hf1.after e1 (by omega))
    refine ⟨?_, by rw [d2, d1], ?_⟩
    · have := e1.trans e2
      rwa [show (c :: rest).length = 1 + rest.length by simp; omega]
    · intro i hi
      rw [s2 i (by omega), s1]
  | loop onCmd body offCmd rest hon hoff _ _ ihb ihr =>
    intro w hf
    rw [addAll_loop]
    rw [Nested.length_loop] at hf ⊢
    obtain ⟨e1, _, d1, s1⟩ := Add_loopOn_effect hring onCmd w (hf.mono (by omega)) hon
    have hf2 := hf.after e1 (by omega)
    obtain ⟨e2, d2, s2⟩ := ihb (ScriptCtrl_Add cfg onCmd w) (hf2.mono (by omega))
    have hf3 := hf2.after e2 (by omega)
    obtain ⟨e3, _, d3, s3⟩ := Add_loopOff_effect hring offCmd
      (addAll cfg body (ScriptCtrl_Add cfg onCmd w)) w.buf.loopDepth (hf3.mono (by omega)) hoff
      (by rw [d2, d1])
    have hf4 := hf3.after e3 (by omega)
    obtain ⟨e4, d4, s4⟩ := ihr _ hf4
    refine ⟨(e1.trans (e2.trans (e3.trans e4))), by rw [d4, d3], ?_⟩
    intro i hi
    rw [s4 i (by omega), s3, s2 i (by omega), s1]
    simp only [if_neg (show i ≠ w.buf.loopDepth by omega)]

theorem LoopAt.bounds {cs : List led_cmd} {i j level : Nat} {c1 c2 : led_cmd}
    (h : LoopAt cs i j level c1 c2) : i < j ∧ j < cs.length := by
  induction h with
  | here onCmd body offCmd rest _ _ _ _ =>
    rw [Nested.length_loop]
    omega
  | inside onCmd body offCmd rest i j level c1 c2 _ _ _ _ _ ih =>
    rw [Nested.length_loop]
    omega
  | after onCmd body offCmd rest i j level c1 c2 _ _ _ _ _ ih =>
    rw [Nested.length_loop]
    omega
  | skip c0 rest i j level c1 c2 _ _ _ ih =>
    simp only [List.length_cons]
    omega

/-- A block stored by the first `k` commands is not touched by the commands stored behind
them. -/
theorem Extends.keeps {bits : Nat} {w wk wf : World} {k m x : Nat}
    (h1 : Extends bits w wk k) (h2 : Extends bits wk wf m) (hlen : k + m < 2 ^ bits)
    (hx : x < k) :
    wf.eeprom.slot (slotAt (2 ^ bits) w.buf.write x)
      = wk.eeprom.slot (slotAt (2 ^ bits) w.buf.write x) := by
  apply h2.hothers
  intro i hi
  rw [h1.hwrite, slotAt_slotAt]
  exact slotAt_ne (by omega) (by omega) (by omega)

theorem Fits.length_lt {bits : Nat} {w : World} {n : Nat} (hf : Fits bits w n) :
    n < 2 ^ bits :=
  lt_of_le_of_lt hf.hfree (freeSlots_lt hf.hr hf.hw)

/-- The blocks that adding a properly nested sequence stores for a loop of the sequence: the
`LOOP_ON` as it was given, and the `LOOP_OFF` with the slot behind the `LOOP_ON` as start
index, the loop depth of the buffer plus the nesting level as depth, and `numLoops` as
counter. -/
theorem LoopAt.stored {cfg : ScriptCfg} {bits : Nat} (hring : RingOfBits cfg bits) :
    ∀ (cs : List led_cmd) (i j level : Nat) (c1 c2 : led_cmd), LoopAt cs i j level c1 c2 →
      ∀ w : World, Fits bits w cs.length →
        (addAll cfg cs w).eeprom.slot (slotAt (2 ^ bits) w.buf.write i) = c1 ∧
          (addAll cfg cs w).eeprom.slot (slotAt (2 ^ bits) w.buf.write j)
            = storedLoopOff c2 (slotAt (2 ^ bits) w.buf.write (i + 1))
                (w.buf.loopDepth + level) c2.loopEnd.numLoops := by
  intro cs i j level c1 c2 h
  induction h with
  | here onCmd body offCmd rest hon hoff hnb hnr =>
    intro w hf
    have hN := hf.length_lt
    rw [addAll_loop]
    rw [Nested.length_loop] at hf hN
    obtain ⟨e1, t1, d1, s1⟩ := Add_loopOn_effect hring onCmd w (hf.mono (by omega)) hon
    have hf2 := hf.after e1 (by omega)
    obtain ⟨e2, d2, s2⟩ := Nested.effect hring body hnb (ScriptCtrl_Add cfg onCmd w)
      (hf2.mono (by omega))
    have hf3 := hf2.after e2 (by omega)
    obtain ⟨e3, t3, d3, s3⟩ := Add_loopOff_effect hring offCmd
      (addAll cfg body (ScriptCtrl_Add cfg onCmd w)) w.buf.loopDepth (hf3.mono (by omega)) hoff
      (by rw [d2, d1])
    have hf4 := hf3.after e3 (by omega)
    obtain ⟨e4, d4, s4⟩ := Nested.effect hring rest hnr _ hf4
    constructor
    · rw [Extends.keeps e1 (e2.trans (e3.trans e4)) (by omega) (by omega), slotAt_zero hf.hw]
      exact t1
    · rw [Extends.keeps (e1.trans (e2.trans e3)) e4 (by omega) (by omega)]
      have hw2 : (addAll cfg body (ScriptCtrl_Add cfg onCmd w)).buf.write
          = slotAt (2 ^ bits) w.buf.write (body.length + 1) := by
        rw [e2.hwrite, e1.hwrite, slotAt_slotAt, Nat.add_comm]
      have hst : (addAll cfg body (ScriptCtrl_Add cfg onCmd w)).buf.loopStart w.buf.loopDepth
          = w.buf.write := by
        rw [s2 _ (by omega), s1]
        simp
      have hinc : ScriptBufInc cfg w.buf.write = slotAt (2 ^ bits) w.buf.write (0 + 1) := by
        have := ScriptBufInc_slotAt hring w.buf.write 0
        rwa [slotAt_zero hf.hw] at this
      rw [← hw2, t3, hst, hinc]
      rfl
  | inside onCmd body offCmd rest i j level c1 c2 hon hoff hnb hnr hin ih =>
    intro w hf
    have hN := hf.length_lt
    have hb := hin.bounds
    rw [addAll_loop]
    rw [Nested.length_loop] at hf hN
    obtain ⟨e1, t1, d1, s1⟩ := Add_loopOn_effect hring onCmd w (hf.mono (by omega)) hon
    have hf2 := hf.after e1 (by omega)
    obtain ⟨e2, d2, s2⟩ := Nested.effect hring body hnb (ScriptCtrl_Add cfg onCmd w)
      (hf2.mono (by omega))
    obtain ⟨q1, q2⟩ := ih (ScriptCtrl_Add cfg onCmd w) (hf2.mono (by omega))
    have hf3 := hf2.after e2 (by omega)
    obtain ⟨e3, t3, d3, s3⟩ := Add_loopOff_effect hring offCmd
      (addAll cfg body (ScriptCtrl_Add cfg onCmd w)) w.buf.loopDepth (hf3.mono (by omega)) hoff
      (by rw [d2, d1])
    have hf4 := hf3.after e3 (by omega)
    obtain ⟨e4, d4, s4⟩ := Nested.effect hring rest hnr _ hf4
    have hpos : ∀ x, slotAt (2 ^ bits) (ScriptCtrl_Add cfg onCmd w).buf.write x
        = slotAt (2 ^ bits) w.buf.write (x + 1) := by
      intro x
      rw [e1.hwrite, slotAt_slotAt, Nat.add_comm]
    rw [hpos, hpos, d1] at q2
    rw [hpos] at q1
    constructor
    · rw [Extends.keeps (e1.trans e2) (e3.trans e4) (by omega) (by omega)]
      exact q1
    · rw [Extends.keeps (e1.trans e2) (e3.trans e4) (by omega) (by omega), q2]
      rw [show w.buf.loopDepth + 1 + level = w.buf.loopDepth + (level + 1) by omega]
  | after onCmd body offCmd rest i j level c1 c2 hon hoff hnb hnr hin ih =>
    intro w hf
    have hN := hf.length_lt
    rw [addAll_loop]
    rw [Nested.length_loop] at hf hN
    obtain ⟨e1, t1, d1, s1⟩ := Add_loopOn_effect hring onCmd w (hf.mono (by omega)) hon
    have hf2 := hf.after e1 (by omega)
    obtain ⟨e2, d2, s2⟩ := Nested.effect hring body hnb (ScriptCtrl_Add cfg onCmd w)
      (hf2.mono (by omega))
    have hf3 := hf2.after e2 (by omega)
    obtain ⟨e3, t3, d3, s3⟩ := Add_loopOff_effect hring offCmd
      (addAll cfg body (ScriptCtrl_Add cfg onCmd w)) w.buf.loopDepth (hf3.mono (by omega)) hoff
      (by rw [d2, d1])
    have hf4 := hf3.after e3 (by omega)
    obtain ⟨q1, q2⟩ := ih _ hf4
    have hpos : ∀ x, slotAt (2 ^ bits)
        (ScriptCtrl_Add cfg offCmd (addAll cfg body (ScriptCtrl_Add cfg onCmd w))).buf.write x
        = slotAt (2 ^ bits) w.buf.write (x + (body.length + 2)) := by
      intro x
      rw [(e1.trans (e2.trans e3)).hwrite, slotAt_slotAt]
      congr 1
      omega
    rw [hpos, hpos, d3] at q2
    rw [hpos] at q1
    refine ⟨q1, ?_⟩
    rw [q2]
    congr 2
    omega
  | skip c0 rest i j level c1 c2 hc hnr hin ih =>
    intro w hf
    rw [addAll_cons]
    have hf1 : Fits bits w (1 + rest.length) := by
      have e : (c0 :: rest).length = 1 + rest.length := by simp; omega
      rwa [e] at hf
    obtain ⟨e1, _, d1, s1⟩ := Add_plain_effect hring c0 w (hf1.mono (by omega)) hc
    obtain ⟨q1, q2⟩ := ih (ScriptCtrl_Add cfg c0 w) (hf1.after e1 (by omega))
    have hpos : ∀ x, slotAt (2 ^ bits) (ScriptCtrl_Add cfg c0 w).buf.write x
        = slotAt (2 ^ bits) w.buf.write (x + 1) := by
      intro x
      rw [e1.hwrite, slotAt_slotAt, Nat.add_comm]
    rw [hpos, hpos, d1] at q2
    rw [hpos] at q1
    exact ⟨q1, q2⟩

/-- The indices of `LoopAt` point at the two commands of the loop. -/
theorem LoopAt.get {cs : List led_cmd} {i j level : Nat} {c1 c2 : led_cmd}
    (h : LoopAt cs i j level c1 c2) :
    cs[i]? = some c1 ∧ cs[j]? = some c2 ∧ c1.cmd = CmdCode.LOOP_ON ∧
      c2.cmd = CmdCode.LOOP_OFF := by
  induction h with
  | here onCmd body offCmd rest hon hoff _ _ =>
    refine ⟨by simp, ?_, hon, hoff⟩
    rw [List.cons_append, List.getElem?_cons_succ, List.getElem?_append_right (le_refl _),
      Nat.sub_self, List.getElem?_cons_zero]
  | inside onCmd body offCmd rest i j level c1 c2 _ _ _ _ hin ih =>
    have hb := hin.bounds
    obtain ⟨g1, g2, g3, g4⟩ := ih
    refine ⟨?_, ?_, g3, g4⟩
    · rw [List.cons_append, List.getElem?_cons_succ, List.getElem?_append_left (by omega)]
      exact g1
    · rw [List.cons_append, List.getElem?_cons_succ, List.getElem?_append_left (by omega)]
      exact g2
  | after onCmd body offCmd rest i j level c1 c2 _ _ _ _ hin ih =>
    obtain ⟨g1, g2, g3, g4⟩ := ih
    have key : ∀ x, (onCmd :: body ++ offCmd :: rest)[x + (body.length + 2)]? = rest[x]? := by
      intro x
      rw [show x + (body.length + 2) = (x + 1 + body.length) + 1 by omega,
        List.cons_append, List.getElem?_cons_succ, List.getElem?_append_right (by omega),
        show x + 1 + body.length - body.length = x + 1 by omega, List.getElem?_cons_succ]
    exact ⟨by rw [key]; exact g1, by rw [key]; exact g2, g3, g4⟩
  | skip c0 rest i j level c1 c2 _ _ _ ih =>
    obtain ⟨g1, g2, g3, g4⟩ := ih
    exact ⟨by rw [List.getElem?_cons_succ]; exact g1,
      by rw [List.getElem?_cons_succ]; exact g2, g3, g4⟩

/-- Every `LOOP_OFF` of a properly nested sequence closes a loop of the sequence. -/
theorem Nested.loopAt {cs : List led_cmd} (h : Nested cs) :
    ∀ j c2, cs[j]? = some c2 → c2.cmd = CmdCode.LOOP_OFF →
      ∃ i level c1, LoopAt cs i j level c1 c2 := by
  induction h with
  | nil =>
    intro j c2 hj
    simp at hj
  | plain c rest hc hn ih =>
    intro j c2 hj hoff
    cases j with
    | zero =>
      simp only [List.getElem?_cons_zero, Option.some.injEq] at hj
      subst hj
      exact absurd hoff hc.2.2
    | succ j =>
      rw [List.getElem?_cons_succ] at hj
      obtain ⟨i, level, c1, hl⟩ := ih j c2 hj hoff
      exact ⟨i + 1, level, c1, LoopAt.skip c rest i j level c1 c2 hc hn hl⟩
  | loop onCmd body offCmd rest hon hoff hnb hnr ihb ihr =>
    intro j c2 hj hc2
    cases j with
    | zero =>
      simp only [List.cons_append, List.getElem?_cons_zero, Option.some.injEq] at hj
      subst hj
      rw [hon] at hc2
      cases hc2
    | succ j =>
      rw [List.cons_append, List.getElem?_cons_succ] at hj
      by_cases h1 : j < body.length
      · rw [List.getElem?_append_left h1] at hj
        obtain ⟨i, level, c1, hl⟩ := ihb j c2 hj hc2
        exact ⟨i + 1, level + 1, c1,
          LoopAt.inside onCmd body offCmd rest i j level c1 c2 hon hoff hnb hnr hl⟩
      · rw [List.getElem?_append_right (by omega)] at hj
        by_cases h2 : j = body.length
        · subst h2
          rw [Nat.sub_self] at hj
          simp only [List.getElem?_cons_zero, Option.some.injEq] at hj
          subst hj
          exact ⟨0, 0, onCmd, LoopAt.here onCmd body offCmd rest hon hoff hnb hnr⟩
        · obtain ⟨x, hx⟩ : ∃ x, j = x + body.length + 1 := ⟨j - body.length - 1, by omega⟩
          subst hx
          rw [show x + body.length + 1 - body.length = x + 1 by omega,
            List.getElem?_cons_succ] at hj
          obtain ⟨i, level, c1, hl⟩ := ihr x c2 hj hc2
          refine ⟨i + (body.length + 2), level, c1, ?_⟩
          have := LoopAt.after onCmd body offCmd rest i x level c1 c2 hon hoff hnb hnr hl
          rwa [show x + (body.length + 2) = x + body.length + 1 + 1 by omega] at this

/-- C29 (amended): a properly nested sequence of `LOOP_ON` / `LOOP_OFF` / plain commands
(no `DELETE`) is added to a buffer that is not clearing and has room for all of them. Then the
loop depth is back at its initial value, every `LOOP_OFF` of the sequence closes a loop of the
sequence, and for each loop (the `LOOP_ON` at index `i`, its `LOOP_OFF` at index `j`, inside
`level` other loops of the sequence) the block stored for the `LOOP_OFF`, in the slot `j`
slots behind the initial `write`, has the slot right behind its `LOOP_ON` as `startIndex`,
the initial loop depth plus `level` as `depth` (so `level` itself when the buffer starts at
loop depth 0), and `numLoops` as `counter`. -/
theorem ScriptCtrl_Add_nested_loops (cfg : ScriptCfg) (bits : Nat) (hring : RingOfBits cfg bits)
    (cmds : List led_cmd) (w : World) (hn : Nested cmds) (hf : Fits bits w cmds.length) :
    (addAll cfg cmds w).buf.loopDepth = w.buf.loopDepth ∧
      (∀ j offCmd, cmds[j]? = some offCmd → offCmd.cmd = CmdCode.LOOP_OFF →
        ∃ i level onCmd, LoopAt cmds i j level onCmd offCmd) ∧
      ∀ i j level onCmd offCmd, LoopAt cmds i j level onCmd offCmd →
        cmds[i]? = some onCmd ∧ cmds[j]? = some offCmd ∧
        (addAll cfg cmds w).eeprom.slot (slotAt (2 ^ bits) w.buf.write i) = onCmd ∧
        ((addAll cfg cmds w).eeprom.slot (slotAt (2 ^ bits) w.buf.write j)).cmd
          = CmdCode.LOOP_OFF ∧
        ((addAll cfg cmds w).eeprom.slot (slotAt (2 ^ bits) w.buf.write j)).loopEnd.startIndex
          = slotAt (2 ^ bits) w.buf.write (i + 1) ∧
        ((addAll cfg cmds w).eeprom.slot (slotAt (2 ^ bits) w.buf.write j)).loopEnd.depth
          = w.buf.loopDepth + level ∧
        ((addAll cfg cmds w).eeprom.slot (slotAt (2 ^ bits) w.buf.write j)).loopEnd.counter
          = offCmd.loopEnd.numLoops := by
  refine ⟨(Nested.effect hring cmds hn w hf).2.1, hn.loopAt, ?_⟩
  intro i j level onCmd offCmd hl
  obtain ⟨g1, g2, _, g4⟩ := hl.get
  obtain ⟨q1, q2⟩ := LoopAt.stored hring cmds i j level onCmd offCmd hl w hf
  rw [q2]
  exact ⟨g1, g2, q1, g4, rfl, rfl, rfl⟩

theorem nestedDemo_nested : Nested nestedDemo :=
  Nested.loop _ [plainCmd CmdCode.LOOP_ON [], plainCmd CmdCode.SET_FADE [1], loopOffCmd 2] _ []
    rfl rfl
    (Nested.loop _ [plainCmd CmdCode.SET_FADE [1]] _ [] rfl rfl
      (Nested.plain _ [] ⟨by decide, by decide, by decide⟩ Nested.nil) Nested.nil)
    Nested.nil

theorem nestedDemo_fits : Fits 3 (freshWorld 6) nestedDemo.length :=
  ⟨rfl, by decide, by decide, by decide, by decide⟩

theorem nestedDemo_inner :
    LoopAt nestedDemo 1 3 1 (plainCmd CmdCode.LOOP_ON []) (loopOffCmd 2) :=
  LoopAt.inside _ [plainCmd CmdCode.LOOP_ON [], plainCmd CmdCode.SET_FADE [1], loopOffCmd 2]
    _ [] 0 2 0 _ _ rfl rfl
    (Nested.loop _ [plainCmd CmdCode.SET_FADE [1]] _ [] rfl rfl
      (Nested.plain _ [] ⟨by decide, by decide, by decide⟩ Nested.nil) Nested.nil)
    Nested.nil
    (LoopAt.here _ [plainCmd CmdCode.SET_FADE [1]] _ [] rfl rfl
      (Nested.plain _ [] ⟨by decide, by decide, by decide⟩ Nested.nil) Nested.nil)

theorem ScriptCtrl_Add_nested_loops_witness :
    (RingOfBits demoCfg8 3 ∧ Nested nestedDemo ∧ Fits 3 (freshWorld 6) nestedDemo.length ∧
      LoopAt nestedDemo 1 3 1 (plainCmd CmdCode.LOOP_ON []) (loopOffCmd 2)) ∧
    ((addAll demoCfg8 nestedDemo (freshWorld 6)).eeprom.slot 1).loopEnd.startIndex = 0 ∧
    ((addAll demoCfg8 nestedDemo (freshWorld 6)).eeprom.slot 1).loopEnd.depth = 1 ∧
    ((addAll demoCfg8 nestedDemo (freshWorld 6)).eeprom.slot 1).loopEnd.counter = 2 ∧
    (addAll demoCfg8 nestedDemo (freshWorld 6)).buf.loopDepth = 0 :=
  have h := ScriptCtrl_Add_nested_loops demoCfg8 3 demoCfg8_ring nestedDemo (freshWorld 6)
    nestedDemo_nested nestedDemo_fits
  have g := h.2.2 1 3 1 _ _ nestedDemo_inner
  ⟨⟨demoCfg8_ring, nestedDemo_nested, nestedDemo_fits, nestedDemo_inner⟩,
    g.2.2.2.2.1, g.2.2.2.2.2.1, g.2.2.2.2.2.2, h.1⟩

/-- The buffer of `demoCfg` after a `LOOP_ON` and a `DELETE` were added and one tick has
cleared it: empty and not clearing, with the loop depth of the deleted script. -/
theorem staleDepth_state :
    (ScriptCtrl_Run demoCfg (ScriptCtrl_Add demoCfg (plainCmd CmdCode.DELETE [])
      (ScriptCtrl_Add demoCfg (plainCmd CmdCode.LOOP_ON []) (freshWorld 0)))).buf.loopDepth
      = 1 := by
  decide

/-- Counterexample to C29 as worded: the buffer is empty and not clearing, the sequence
`LOOP_ON, LOOP_OFF` is properly nested and its loop is an outermost one, yet the stored
`LOOP_OFF` has depth 1, because the loop depth left behind by a deleted script is not reset. -/
theorem ScriptCtrl_Add_nested_stale_depth :
    staleDepthWorld.buf.isClearing = false ∧
      staleDepthWorld.buf.read = 0 ∧ staleDepthWorld.buf.write = 0 ∧
      staleDepthWorld.buf.execute = 0 ∧
      Nested [plainCmd CmdCode.LOOP_ON [], loopOffCmd 2] ∧
      LoopAt [plainCmd CmdCode.LOOP_ON [], loopOffCmd 2] 0 1 0 (plainCmd CmdCode.LOOP_ON [])
        (loopOffCmd 2) ∧
      ((addAll demoCfg [plainCmd CmdCode.LOOP_ON [], loopOffCmd 2] staleDepthWorld).eeprom.slot
        1).cmd = CmdCode.LOOP_OFF ∧
      ((addAll demoCfg [plainCmd CmdCode.LOOP_ON [], loopOffCmd 2] staleDepthWorld).eeprom.slot
        1).loopEnd.depth = 1 ∧
      (addAll demoCfg [plainCmd CmdCode.LOOP_ON [], loopOffCmd 2] staleDepthWorld).buf.loopDepth
        = 1 :=
  ⟨rfl, rfl, rfl, rfl, Nested.loop _ [] _ [] rfl rfl Nested.nil Nested.nil,
    LoopAt.here _ [] _ [] rfl rfl Nested.nil Nested.nil, rfl, rfl, rfl⟩

/-- Plain commands that find room are stored one after the other from `write` on, whatever
the loop depth is. -/
theorem addAll_plain {cfg : ScriptCfg} {bits : Nat} (hring : RingOfBits cfg bits) :
    ∀ (cs : List led_cmd), (∀ c ∈ cs, IsPlain c) → ∀ w : World,
      w.buf.isClearing = false → w.buf.read < 2 ^ bits → w.buf.write < 2 ^ bits →
      cs.length ≤ freeSlots (2 ^ bits) w.buf.read w.buf.write →
      Extends bits w (addAll cfg cs w) cs.length ∧
        ∀ i, i < cs.length →
          some ((addAll cfg cs w).eeprom.slot (slotAt (2 ^ bits) w.buf.write i)) = cs[i]? := by
  intro cs
  induction cs with
  | nil =>
    intro _ w hclear _ hw _
    exact ⟨Extends.refl bits w hclear hw, fun i hi => absurd hi (Nat.not_lt_zero i)⟩
  | cons c rest ih =>
    intro hp w hclear hr hw hfree
    have hlen : (c :: rest).length = 1 + rest.length := by
      rw [List.length_cons, Nat.add_comm]
    rw [hlen] at hfree ⊢
    have hN := lt_of_le_of_lt hfree (freeSlots_lt hr hw)
    rw [addAll_cons, ScriptCtrl_Add_plain cfg c w hclear (hp c (List.mem_cons_self _ _))]
    obtain ⟨e1, t1, _, _⟩ := Extends.of_write hring c w hclear hr hw (by omega)
    have hw1 : (ScriptCtrl_Write cfg c w).buf.write < 2 ^ bits := by
      rw [e1.hwrite]
      exact slotAt_lt _ _ (by omega)
    obtain ⟨e2, t2⟩ := ih (fun x hx => hp x (List.mem_cons_of_mem _ hx))
      (ScriptCtrl_Write cfg c w) e1.hclear (by rw [e1.hread]; exact hr) hw1 (by
        rw [e1.hread, e1.hwrite, freeSlots_next hr hw (by omega)]
        omega)
    refine ⟨e1.trans e2, ?_⟩
    intro i hi
    cases i with
    | zero =>
      rw [Extends.keeps e1 e2 hN (by omega), slotAt_zero hw, t1, List.getElem?_cons_zero]
    | succ i =>
      have := t2 i (by omega)
      rw [e1.hwrite, slotAt_slotAt, Nat.add_comm] at this
      rw [this, List.getElem?_cons_succ]

/-- A write into a full ring changes nothing. -/
theorem ScriptCtrl_Write_full (cfg : ScriptCfg) (pCmd : led_cmd) (w : World)
    (hfull : ScriptBufInc cfg w.buf.write = w.buf.read) :
    ScriptCtrl_Write cfg pCmd w = w := by
  simp [ScriptCtrl_Write, hfull]

theorem freeSlots_empty {n r : Nat} (hr : r < n) : freeSlots n r r = n - 1 := by
  rw [freeSlots_eq hr hr, if_neg (Nat.lt_irrefl r)]
  omega

/-- C30: a buffer that is not clearing has `read == write` within the ring of
`SCRIPTCTRL_NUM_CMD_MAX + 1 = 2 ^ bits` slots, and `SCRIPTCTRL_NUM_CMD_MAX + 1` plain commands
(no loop command, no `DELETE`) are added without a tick in between. After the first `k` of
them, for every `k` up to `SCRIPTCTRL_NUM_CMD_MAX`, `write` is `k` slots behind its initial
value and persisted, `read` and `execute` are unchanged, the `k` commands sit in the `k`
consecutive slots from the initial `write` on and no other block has changed; adding the last
command changes nothing. -/
theorem ScriptCtrl_Add_fills_empty_ring (cfg : ScriptCfg) (bits : Nat)
    (hring : RingOfBits cfg bits) (w : World) (cmds : List led_cmd)
    (hclear : w.buf.isClearing = false) (heq : w.buf.read = w.buf.write)
    (hr : w.buf.read ≤ cfg.SCRIPTCTRL_NUM_CMD_MAX) (hplain : ∀ c ∈ cmds, IsPlain c)
    (hlen : cmds.length = cfg.SCRIPTCTRL_NUM_CMD_MAX + 1) :
    (∀ k, k ≤ cfg.SCRIPTCTRL_NUM_CMD_MAX →
      (addAll cfg (cmds.take k) w).buf.write = slotAt (2 ^ bits) w.buf.write k ∧
      (0 < k → (addAll cfg (cmds.take k) w).eeprom.cellWrite
        = slotAt (2 ^ bits) w.buf.write k) ∧
      (addAll cfg (cmds.take k) w).buf.read = w.buf.read ∧
      (addAll cfg (cmds.take k) w).buf.execute = w.buf.execute ∧
      (∀ i, i < k → some ((addAll cfg (cmds.take k) w).eeprom.slot
        (slotAt (2 ^ bits) w.buf.write i)) = cmds[i]?) ∧
      (∀ y, (∀ i, i < k → y ≠ slotAt (2 ^ bits) w.buf.write i) →
        (addAll cfg (cmds.take k) w).eeprom.slot y = w.eeprom.slot y)) ∧
      (∀ i j, i < j → j < cfg.SCRIPTCTRL_NUM_CMD_MAX + 1 →
        slotAt (2 ^ bits) w.buf.write i ≠ slotAt (2 ^ bits) w.buf.write j) ∧
      addAll cfg cmds w = addAll cfg (cmds.take cfg.SCRIPTCTRL_NUM_CMD_MAX) w := by
  obtain ⟨hb1, hb2, hN⟩ := hring
  have hring : RingOfBits cfg bits := ⟨hb1, hb2, hN⟩
  have hr' : w.buf.read < 2 ^ bits := by omega
  have hw' : w.buf.write < 2 ^ bits := by omega
  have hfree : freeSlots (2 ^ bits) w.buf.read w.buf.write = cfg.SCRIPTCTRL_NUM_CMD_MAX := by
    rw [← heq, freeSlots_empty hr']
    omega
  have hstep : ∀ k, k ≤ cfg.SCRIPTCTRL_NUM_CMD_MAX →
      Extends bits w (addAll cfg (cmds.take k) w) k ∧
        ∀ i, i < k → some ((addAll cfg (cmds.take k) w).eeprom.slot
          (slotAt (2 ^ bits) w.buf.write i)) = cmds[i]? := by
    intro k hk
    have hl : (cmds.take k).length = k := by
      rw [List.length_take]
      omega
    obtain ⟨e, t⟩ := addAll_plain hring (cmds.take k)
      (fun c hc => hplain c (List.mem_of_mem_take hc)) w hclear hr' hw' (by omega)
    rw [hl] at e t
    refine ⟨e, fun i hi => ?_⟩
    rw [t i hi, List.getElem?_take_of_lt hi]
  refine ⟨?_, ?_, ?_⟩
  · intro k hk
    obtain ⟨e, t⟩ := hstep k hk
    refine ⟨e.hwrite, ?_, e.hread, e.hexec, t, e.hothers⟩
    intro hpos
    rw [e.hcellWrite, if_pos hpos, e.hwrite]
  · intro i j hij hj
    exact slotAt_ne (by omega) (by omega) (by omega)
  · obtain ⟨e, _⟩ := hstep cfg.SCRIPTCTRL_NUM_CMD_MAX (le_refl _)
    have hsplit : cmds = cmds.take cfg.SCRIPTCTRL_NUM_CMD_MAX
        ++ cmds.drop cfg.SCRIPTCTRL_NUM_CMD_MAX := (List.take_append_drop _ _).symm
    obtain ⟨c, hc⟩ : ∃ c, cmds.drop cfg.SCRIPTCTRL_NUM_CMD_MAX = [c] := by
      have hl : (cmds.drop cfg.SCRIPTCTRL_NUM_CMD_MAX).length = 1 := by
        rw [List.length_drop]
        omega
      exact List.length_eq_one.mp hl
    have hcp : IsPlain c := by
      apply hplain
      apply List.mem_of_mem_drop (n := cfg.SCRIPTCTRL_NUM_CMD_MAX)
      rw [hc]
      exact List.mem_singleton_self c
    conv_lhs => rw [hsplit, hc, addAll_append]
    show ScriptCtrl_Add cfg c _ = _
    rw [ScriptCtrl_Add_plain cfg c _ e.hclear hcp]
    apply ScriptCtrl_Write_full
    have hwk : (addAll cfg (cmds.take cfg.SCRIPTCTRL_NUM_CMD_MAX) w).buf.write < 2 ^ bits := by
      rw [e.hwrite]
      exact slotAt_lt _ _ (by omega)
    have hinc := ScriptBufInc_slotAt hring
      (addAll cfg (cmds.take cfg.SCRIPTCTRL_NUM_CMD_MAX) w).buf.write 0
    rw [slotAt_zero hwk] at hinc
    rw [hinc, e.hread]
    apply full_of_no_free hr' hwk
    rw [e.hwrite, freeSlots_slotAt hr' hw' _ (by omega), hfree, Nat.sub_self]

theorem ScriptCtrl_Add_fills_empty_ring_witness :
    (RingOfBits demoCfg 2 ∧ (freshWorld 0).buf.isClearing = false ∧
      (freshWorld 0).buf.read = (freshWorld 0).buf.write ∧
      (freshWorld 0).buf.read ≤ demoCfg.SCRIPTCTRL_NUM_CMD_MAX ∧
      (∀ c ∈ fourColors, IsPlain c) ∧
      fourColors.length = demoCfg.SCRIPTCTRL_NUM_CMD_MAX + 1) ∧
    (addAll demoCfg fourColors (freshWorld 0)).buf.write = 3 ∧
    (addAll demoCfg fourColors (freshWorld 0)).eeprom.slot 2 = plainCmd CmdCode.SET_COLOR [3] ∧
    (addAll demoCfg fourColors (freshWorld 0)).eeprom.slot 3 = plainCmd (CmdCode.OTHER 0) [] :=
  have hp : ∀ c ∈ fourColors, IsPlain c := by
    intro c hc
    simp only [fourColors, List.mem_cons, List.mem_singleton, List.not_mem_nil, or_false] at hc
    rcases hc with h | h | h | h <;> subst h <;> exact ⟨by decide, by decide, by decide⟩
  have h := ScriptCtrl_Add_fills_empty_ring demoCfg 2 demoCfg_ring (freshWorld 0) fourColors
    rfl rfl (by decide) hp rfl
  ⟨⟨demoCfg_ring, rfl, rfl, by decide, hp, rfl⟩, by rw [h.2.2]; rfl, by rw [h.2.2]; rfl,
    by rw [h.2.2]; rfl⟩

/-! ## Transfers that stop at the first refusal -/

theorem sendAcked_cons (ack : Nat) (p : Proxy) (r : BlRequest) (rs : List BlRequest) :
    sendAcked ack p (r :: rs)
      = if p.respond p.sent r = [ack] then
          sendAcked ack { p with sent := (p.sent ++ [r]) } rs
        else (Except.error BlError.BlNoResponseException,
          { p with sent := (p.sent ++ [r]) }) := rfl

theorem sendAcked_nil (ack : Nat) (p : Proxy) : sendAcked ack p [] = (Except.ok (), p) := rfl

theorem sendAcked_append (ack : Nat) :
    ∀ (xs ys : List BlRequest) (p : Proxy),
      sendAcked ack p (xs ++ ys)
        = match sendAcked ack p xs with
          | (Except.ok _, p1) => sendAcked ack p1 ys
          | (Except.error e, p1) => (Except.error e, p1) := by
  intro xs
  induction xs with
  | nil => intro ys p; rfl
  | cons x xs ih =>
    intro ys p
    rw [List.cons_append, sendAcked_cons, sendAcked_cons]
    by_cases h : p.respond p.sent x = [ack]
    · rw [if_pos h, if_pos h, ih]
    · rw [if_neg h, if_neg h]

theorem AckedAt.zero {ack : Nat} {p : Proxy} {r : BlRequest} {rs : List BlRequest} :
    AckedAt ack p (r :: rs) 0 ↔ p.respond p.sent r = [ack] := by
  unfold AckedAt
  simp

theorem AckedAt.succ {ack : Nat} {p : Proxy} {r : BlRequest} {rs : List BlRequest} {i : Nat} :
    AckedAt ack p (r :: rs) (i + 1)
      ↔ AckedAt ack { p with sent := (p.sent ++ [r]) } rs i := by
  unfold AckedAt
  simp

theorem sendAcked_all (ack : Nat) :
    ∀ (reqs : List BlRequest) (p : Proxy), (∀ i, i < reqs.length → AckedAt ack p reqs i) →
      sendAcked ack p reqs = (Except.ok (), { p with sent := (p.sent ++ reqs) }) := by
  intro reqs
  induction reqs with
  | nil => intro p _; simp [sendAcked_nil]
  | cons r rs ih =>
    intro p h
    have h0 := AckedAt.zero.mp (h 0 (by simp))
    rw [sendAcked_cons, if_pos h0, ih _ (fun i hi => AckedAt.succ.mp (h (i + 1) (by simpa using hi)))]
    simp

theorem sendAcked_first (ack : Nat) :
    ∀ (reqs : List BlRequest) (p : Proxy) (i : Nat), i < reqs.length →
      (∀ j, j < i → AckedAt ack p reqs j) → ¬ AckedAt ack p reqs i →
      sendAcked ack p reqs = (Except.error BlError.BlNoResponseException,
        { p with sent := (p.sent ++ reqs.take (i + 1)) }) := by
  intro reqs
  induction reqs with
  | nil => intro p i hi; simp at hi
  | cons r rs ih =>
    intro p i hi hbefore hbad
    rw [sendAcked_cons]
    cases i with
    | zero =>
      rw [if_neg (fun h => hbad (AckedAt.zero.mpr h))]
      simp
    | succ i =>
      have h0 := AckedAt.zero.mp (hbefore 0 (by omega))
      rw [if_pos h0, ih _ i (by simpa using hi)
        (fun j hj => AckedAt.succ.mp (hbefore (j + 1) (by omega)))
        (fun h => hbad (AckedAt.succ.mpr h))]
      simp

/-- What `sendAcked` does, in terms of the acknowledged requests. -/
theorem sendAcked_stops (ack : Nat) (p : Proxy) (reqs : List BlRequest) :
    StopsAtFirstRefusal ack p reqs (sendAcked ack p reqs) := by
  refine ⟨sendAcked_all ack reqs p, sendAcked_first ack reqs p, ?_⟩
  constructor
  · intro hok
    by_contra hne
    obtain ⟨i, hi⟩ : ∃ i, i < reqs.length ∧ ¬ AckedAt ack p reqs i := by
      by_contra hn
      exact hne (fun i hi => by
        by_contra hb
        exact hn ⟨i, hi, hb⟩)
    classical
    have hex : ∃ i, i < reqs.length ∧ ¬ AckedAt ack p reqs i := ⟨i, hi⟩
    have hmin := Nat.find_spec hex
    have hlt : ∀ j, j < Nat.find hex → AckedAt ack p reqs j := by
      intro j hj
      by_contra hb
      exact Nat.find_min hex hj ⟨by omega, hb⟩
    rw [sendAcked_first ack reqs p (Nat.find hex) hmin.1 hlt hmin.2] at hok
    cases hok
  · intro h
    rw [sendAcked_all ack reqs p h]

/-- One acknowledged round trip of a write or erase request. -/
theorem BlRead_ack_ok (p : Proxy) (req : BlRequest) (ack : Nat)
    (h : p.respond p.sent req = [ack]) :
    BlRead p req 1 = (Except.ok [ack], { p with sent := (p.sent ++ [req]) }) := by
  rw [BlRead_ok p req 1 (by rw [h]; rfl), h]

/-- A round trip of a write or erase request that is not acknowledged: the request is sent,
and either nothing of the right size comes back or the byte is not the acknowledge byte. -/
theorem BlRead_ack_bad (p : Proxy) (req : BlRequest) (ack : Nat)
    (h : p.respond p.sent req ≠ [ack]) :
    BlRead p req 1
        = (Except.error BlError.BlNoResponseException, { p with sent := (p.sent ++ [req]) }) ∨
      ∃ response, response ≠ [ack] ∧
        BlRead p req 1 = (Except.ok response, { p with sent := (p.sent ++ [req]) }) := by
  unfold BlRead
  by_cases hl : 1 ≠ (p.Send req).1.length
  · rw [if_pos hl]
    exact Or.inl rfl
  · rw [if_neg hl]
    exact Or.inr ⟨_, h, rfl⟩

/-- The chunk loop of the write transfers sends the chunks of the buffer one after the other
and stops at the first chunk that is not acknowledged. -/
theorem writeChunks_sendAcked (blockSize ack : Nat) (mkReq : Nat → List Nat → BlRequest)
    (hB : 0 < blockSize) :
    ∀ (fuel : Nat) (p : Proxy) (address : Nat) (pBuffer : List Nat) (bytesLeft : Nat),
      bytesLeft ≤ fuel + blockSize → address + bytesLeft ≤ 2 ^ 32 →
      writeChunks blockSize ack mkReq fuel p address pBuffer bytesLeft
        = sendAcked ack p (chunkReqs mkReq blockSize address (pBuffer.take bytesLeft)
            ((bytesLeft - 1) / blockSize + 1)) := by
  have hlast : ∀ (p : Proxy) (address : Nat) (pBuffer : List Nat) (bytesLeft : Nat),
      ¬ bytesLeft > blockSize →
      (match BlRead p (mkReq address (pBuffer.take bytesLeft)) 1 with
        | (Except.error e, p1) => (Except.error e, p1)
        | (Except.ok response, p1) =>
          if response ≠ [ack] then (Except.error BlError.BlNoResponseException, p1)
          else (Except.ok (), p1))
        = sendAcked ack p (chunkReqs mkReq blockSize address (pBuffer.take bytesLeft)
            ((bytesLeft - 1) / blockSize + 1)) := by
    intro p address pBuffer bytesLeft hle
    have hd : (bytesLeft - 1) / blockSize = 0 := Nat.div_eq_of_lt (by omega)
    rw [hd, chunkReqs_one, List.take_take, Nat.min_eq_right (Nat.le_of_not_gt hle),
      sendAcked_cons]
    by_cases hack : p.respond p.sent (mkReq address (pBuffer.take bytesLeft)) = [ack]
    · rw [if_pos hack, BlRead_ack_ok p _ ack hack]
      simp [sendAcked_nil]
    · rw [if_neg hack]
      rcases BlRead_ack_bad p _ ack hack with h | ⟨response, hr, h⟩
      · rw [h]
      · rw [h]
        simp [hr]
  intro fuel
  induction fuel with
  | zero =>
    intro p address pBuffer bytesLeft hfuel hwrap
    have hle : ¬ bytesLeft > blockSize := by omega
    unfold writeChunks
    rw [if_neg hle]
    exact hlast p address pBuffer bytesLeft hle
  | succ fuel ih =>
    intro p address pBuffer bytesLeft hfuel hwrap
    unfold writeChunks
    by_cases hgt : bytesLeft > blockSize
    · rw [if_pos hgt]
      have hmod : (address + blockSize) % 2 ^ 32 = address + blockSize :=
        Nat.mod_eq_of_lt (by omega)
      have hd : (bytesLeft - 1) / blockSize = (bytesLeft - blockSize - 1) / blockSize + 1 := by
        have : bytesLeft - 1 = (bytesLeft - blockSize - 1) + blockSize := by omega
        rw [this, Nat.add_div_right _ hB]
      rw [hd]
      conv_rhs => rw [chunkReqs_succ]
      rw [List.take_take, Nat.min_eq_left (Nat.le_of_lt hgt), List.drop_take]
      rw [sendAcked_cons]
      by_cases hack : p.respond p.sent (mkReq address (pBuffer.take blockSize)) = [ack]
      · rw [if_pos hack, BlRead_ack_ok p _ ack hack]
        simp only [ne_eq, not_true_eq_false, if_false]
        rw [hmod, ih _ _ _ _ (by omega) (by omega)]
      · rw [if_neg hack]
        rcases BlRead_ack_bad p _ ack hack with h | ⟨response, hr, h⟩
        · rw [h]
        · rw [h]
          simp [hr]
    · rw [if_neg hgt]
      exact hlast p address pBuffer bytesLeft hgt

theorem chunkReqs_length (mkReq : Nat → List Nat → BlRequest) (blockSize address : Nat)
    (buffer : List Nat) (count : Nat) :
    (chunkReqs mkReq blockSize address buffer count).length = count := by
  simp [chunkReqs]

/-- C21: `BlWriteFlash` and `BlWriteEeprom`, called for a range inside the memory, send the
buffer as the consecutive chunks `chunkReqs` (chunk `i` carries the at most `blockSize` bytes
from offset `i * blockSize` on, for the address `address + i * blockSize`). They succeed if
and only if every chunk is answered by the single byte `0x04` (flash) or `0x06` (EEPROM); if
chunk `i` is the first one answered by anything else, or by nothing, they raise
`BlNoResponseException` with chunk `i` as the last request sent. -/
theorem BlWrite_stops_at_first_refusal (cfg : BlCfg) (p : Proxy) (address : Nat)
    (pBuffer : List Nat) (bufferLength : Nat) :
    (0 < cfg.FLASH_WRITE_BLOCKSIZE → cfg.FLASH_SIZE ≤ 2 ^ 32 →
      bufferLength + address ≤ cfg.FLASH_SIZE →
      StopsAtFirstRefusal 0x04 p
        (chunkReqs BlRequest.FlashWrite cfg.FLASH_WRITE_BLOCKSIZE address
          (pBuffer.take bufferLength) ((bufferLength - 1) / cfg.FLASH_WRITE_BLOCKSIZE + 1))
        (BlWriteFlash cfg p address pBuffer bufferLength)) ∧
    (0 < cfg.EEPROM_WRITE_BLOCKSIZE → cfg.EEPROM_SIZE ≤ 2 ^ 32 →
      bufferLength + address ≤ cfg.EEPROM_SIZE →
      StopsAtFirstRefusal 0x06 p
        (chunkReqs BlRequest.EepromWrite cfg.EEPROM_WRITE_BLOCKSIZE address
          (pBuffer.take bufferLength) ((bufferLength - 1) / cfg.EEPROM_WRITE_BLOCKSIZE + 1))
        (BlWriteEeprom cfg p address pBuffer bufferLength)) := by
  constructor
  · intro hB hsize hrange
    have hchk : ¬ (bufferLength + address) % 2 ^ cfg.SIZE_T_BITS > cfg.FLASH_SIZE :=
      Nat.not_lt.mpr (le_trans (Nat.mod_le _ _) hrange)
    unfold BlWriteFlash
    rw [if_neg hchk, writeChunks_sendAcked _ _ _ hB _ _ _ _ _ (by omega) (by omega)]
    exact sendAcked_stops _ _ _
  · intro hB hsize hrange
    have hchk : ¬ (bufferLength + address) % 2 ^ cfg.SIZE_T_BITS > cfg.EEPROM_SIZE :=
      Nat.not_lt.mpr (le_trans (Nat.mod_le _ _) hrange)
    unfold BlWriteEeprom
    rw [if_neg hchk, writeChunks_sendAcked _ _ _ hB _ _ _ _ _ (by omega) (by omega)]
    exact sendAcked_stops _ _ _

theorem BlWrite_stops_at_first_refusal_witness :
    (0 < demoBl.FLASH_WRITE_BLOCKSIZE ∧ demoBl.FLASH_SIZE ≤ 2 ^ 32 ∧
      200 + 0 ≤ demoBl.FLASH_SIZE) ∧
    BlWriteFlash demoBl (refusingProxy 1) 0 (List.replicate 200 7) 200
      = (Except.error BlError.BlNoResponseException,
          { refusingProxy 1 with sent :=
              [BlRequest.FlashWrite 0 (List.replicate 64 7),
                BlRequest.FlashWrite 64 (List.replicate 64 7)] }) :=
  ⟨⟨by decide, by decide, by decide⟩,
    ((BlWrite_stops_at_first_refusal demoBl (refusingProxy 1) 0 (List.replicate 200 7) 200).1
      (by decide) (by decide) (by decide)).first_refusal 1 (by decide)
      (fun j hj => by
        have hj0 : j = 0 := by omega
        subst hj0
        exact ⟨_, rfl, rfl⟩)
      (fun ⟨r, _, hr⟩ => by
        have : (refusingProxy 1).respond
            ((refusingProxy 1).sent ++ List.take 1 (chunkReqs BlRequest.FlashWrite
              demoBl.FLASH_WRITE_BLOCKSIZE 0 (List.take 200 (List.replicate 200 7))
              ((200 - 1) / demoBl.FLASH_WRITE_BLOCKSIZE + 1))) r = [] := rfl
        rw [this] at hr
        cases hr)⟩

theorem readReqs_succ (mkReq : Nat → Nat → BlRequest) (blockSize address numBytes : Nat)
    (hB : 0 < blockSize) (hgt : numBytes > blockSize) :
    readReqs mkReq blockSize address numBytes
      = mkReq address blockSize
        :: readReqs mkReq blockSize (address + blockSize) (numBytes - blockSize) := by
  unfold readReqs
  have hd : (numBytes - 1) / blockSize = (numBytes - blockSize - 1) / blockSize + 1 := by
    have : numBytes - 1 = (numBytes - blockSize - 1) + blockSize := by omega
    rw [this, Nat.add_div_right _ hB]
  rw [hd, List.range_succ_eq_map, List.map_cons, List.map_map]
  congr 1
  · simp only [Nat.zero_mul, Nat.add_zero, Nat.sub_zero]
    rw [Nat.min_eq_left (Nat.le_of_lt hgt)]
  · apply List.map_congr_left
    intro i _
    have e : (i + 1) * blockSize = i * blockSize + blockSize := Nat.succ_mul i blockSize
    simp only [Function.comp, Nat.succ_eq_add_one, e]
    rw [Nat.add_comm (i * blockSize) blockSize, Nat.add_assoc, Nat.sub_add_eq]

theorem readReqs_last (mkReq : Nat → Nat → BlRequest) (blockSize address numBytes : Nat)
    (hB : 0 < blockSize) (hle : ¬ numBytes > blockSize) :
    readReqs mkReq blockSize address numBytes = [mkReq address numBytes] := by
  unfold readReqs
  have hd : (numBytes - 1) / blockSize = 0 := Nat.div_eq_of_lt (by omega)
  rw [hd]
  simp only [Nat.zero_add, List.range_succ, List.range_zero, List.nil_append, List.map_cons,
    List.map_nil, Nat.zero_mul, Nat.add_zero, Nat.sub_zero]
  rw [Nat.min_eq_right (Nat.le_of_not_gt hle)]

theorem responsesTo_cons (p : Proxy) (r : BlRequest) (rs : List BlRequest) :
    responsesTo p (r :: rs)
      = p.respond p.sent r :: responsesTo { p with sent := (p.sent ++ [r]) } rs := rfl

/-- The chunk loop of the read transfers on a device that answers every read request with as
many bytes as requested: it sends the requests `readReqs` and returns the number of bytes and
the concatenation of the responses. -/
theorem readChunks_answered (blockSize : Nat) (mkReq : Nat → Nat → BlRequest)
    (hB : 0 < blockSize) :
    ∀ (fuel : Nat) (p : Proxy) (address numBytes sum : Nat) (buffer : List Nat),
      (∀ sent a k, (p.respond sent (mkReq a k)).length = k) →
      numBytes ≤ fuel + blockSize → address + numBytes ≤ 2 ^ 32 →
      readChunks blockSize mkReq fuel p address numBytes sum buffer
        = (Except.ok (sum + numBytes,
            buffer ++ (responsesTo p (readReqs mkReq blockSize address numBytes)).flatten),
          { p with sent := (p.sent ++ readReqs mkReq blockSize address numBytes) }) := by
  have hlast : ∀ (p : Proxy) (address numBytes sum : Nat) (buffer : List Nat),
      (∀ sent a k, (p.respond sent (mkReq a k)).length = k) → ¬ numBytes > blockSize →
      (match BlRead p (mkReq address numBytes) numBytes with
        | (Except.error e, p1) => ((Except.error e, p1) : Except BlError (Nat × List Nat) × Proxy)
        | (Except.ok bytes, p1) => (Except.ok (sum + numBytes, buffer ++ bytes), p1))
        = (Except.ok (sum + numBytes,
            buffer ++ (responsesTo p (readReqs mkReq blockSize address numBytes)).flatten),
          { p with sent := (p.sent ++ readReqs mkReq blockSize address numBytes) }) := by
    intro p address numBytes sum buffer hdev hle
    rw [readReqs_last mkReq blockSize address numBytes hB hle,
      BlRead_ok p _ numBytes (hdev _ _ _)]
    simp [responsesTo]
  intro fuel
  induction fuel with
  | zero =>
    intro p address numBytes sum buffer hdev hfuel hwrap
    have hle : ¬ numBytes > blockSize := by omega
    unfold readChunks
    rw [if_neg hle]
    exact hlast p address numBytes sum buffer hdev hle
  | succ fuel ih =>
    intro p address numBytes sum buffer hdev hfuel hwrap
    unfold readChunks
    by_cases hgt : numBytes > blockSize
    · rw [if_pos hgt, BlRead_ok p _ blockSize (hdev _ _ _)]
      simp only
      have hmod : (address + blockSize) % 2 ^ 32 = address + blockSize :=
        Nat.mod_eq_of_lt (by omega)
      rw [hmod, ih ⟨p.respond, p.sent ++ [mkReq address blockSize]⟩ _ _ _ _ hdev (by omega)
        (by omega), readReqs_succ mkReq blockSize address numBytes hB hgt, responsesTo_cons,
        List.flatten_cons]
      have hsum : sum + blockSize + (numBytes - blockSize) = sum + numBytes := by omega
      rw [hsum, List.append_assoc, List.append_assoc]
      rfl
    · rw [if_neg hgt]
      exact hlast p address numBytes sum buffer hdev hgt

theorem readReqs_length (mkReq : Nat → Nat → BlRequest) (blockSize address numBytes : Nat)
    (hB : 0 < blockSize) (hn : 1 ≤ numBytes) :
    (readReqs mkReq blockSize address numBytes).length
      = (numBytes + blockSize - 1) / blockSize := by
  unfold readReqs
  rw [List.length_map, List.length_range,
    show numBytes + blockSize - 1 = (numBytes - 1) + blockSize by omega,
    Nat.add_div_right _ hB]

theorem readReqs_get (mkReq : Nat → Nat → BlRequest) (blockSize address numBytes i : Nat)
    (hi : i < (readReqs mkReq blockSize address numBytes).length) :
    (readReqs mkReq blockSize address numBytes)[i]?
      = some (mkReq (address + i * blockSize) (min blockSize (numBytes - i * blockSize))) := by
  unfold readReqs at hi ⊢
  rw [List.length_map, List.length_range] at hi
  rw [List.getElem?_map, List.getElem?_range hi]
  rfl

theorem readReqs_full_block (mkReq : Nat → Nat → BlRequest)
    (blockSize address numBytes i : Nat) (hB : 0 < blockSize)
    (hi : i + 1 < (readReqs mkReq blockSize address numBytes).length) :
    min blockSize (numBytes - i * blockSize) = blockSize := by
  unfold readReqs at hi
  rw [List.length_map, List.length_range] at hi
  have h1 : i + 1 ≤ (numBytes - 1) / blockSize := by omega
  have h2 := Nat.mul_le_of_le_div _ _ _ h1
  have h3 : (i + 1) * blockSize = i * blockSize + blockSize := Nat.succ_mul i blockSize
  apply Nat.min_eq_left
  omega

theorem readReqs_sum (mkReq : Nat → Nat → BlRequest) (blockSize : Nat) (hB : 0 < blockSize)
    (hreq : ∀ a k, requested (mkReq a k) = k) :
    ∀ (numBytes address : Nat),
      ((readReqs mkReq blockSize address numBytes).map requested).sum = numBytes := by
  intro numBytes
  induction numBytes using Nat.strong_induction_on with
  | _ n ih =>
    intro address
    by_cases hgt : n > blockSize
    · rw [readReqs_succ mkReq blockSize address n hB hgt, List.map_cons, List.sum_cons,
        ih (n - blockSize) (by omega), hreq]
      omega
    · rw [readReqs_last mkReq blockSize address n hB hgt]
      simp [hreq]

/-- C22: `BlReadFlash` and `BlReadEeprom`, called for `numBytes ≥ 1` bytes of a range inside
the memory on a device that answers every read request with exactly the requested number of
bytes, send the requests `readReqs` and nothing else: `ceil(numBytes / B)` requests, request
`i` for `min B (numBytes - i * B)` bytes at `address + i * B` (a full block of `B` bytes
unless it is the last request), the requested lengths summing up to `numBytes`. They return
`numBytes`, and the output buffer is the concatenation of the responses in request order. -/
theorem BlRead_chunks_answered (cfg : BlCfg) (p : Proxy) (address numBytes : Nat)
    (hn : 1 ≤ numBytes) :
    (0 < cfg.FLASH_READ_BLOCKSIZE → cfg.FLASH_SIZE ≤ 2 ^ 32 →
      numBytes + address ≤ cfg.FLASH_SIZE →
      (∀ sent a k, (p.respond sent (BlRequest.FlashRead a k)).length = k) →
      BlReadFlash cfg p address numBytes
          = (Except.ok (numBytes,
              (responsesTo p (readReqs BlRequest.FlashRead cfg.FLASH_READ_BLOCKSIZE address
                numBytes)).flatten),
            { p with sent := (p.sent ++ readReqs BlRequest.FlashRead cfg.FLASH_READ_BLOCKSIZE
                address numBytes) }) ∧
        (readReqs BlRequest.FlashRead cfg.FLASH_READ_BLOCKSIZE address numBytes).length
          = (numBytes + cfg.FLASH_READ_BLOCKSIZE - 1) / cfg.FLASH_READ_BLOCKSIZE ∧
        (∀ i, i < (readReqs BlRequest.FlashRead cfg.FLASH_READ_BLOCKSIZE address
            numBytes).length →
          (readReqs BlRequest.FlashRead cfg.FLASH_READ_BLOCKSIZE address numBytes)[i]?
            = some (BlRequest.FlashRead (address + i * cfg.FLASH_READ_BLOCKSIZE)
                (min cfg.FLASH_READ_BLOCKSIZE (numBytes - i * cfg.FLASH_READ_BLOCKSIZE)))) ∧
        (∀ i, i + 1 < (readReqs BlRequest.FlashRead cfg.FLASH_READ_BLOCKSIZE address
            numBytes).length →
          min cfg.FLASH_READ_BLOCKSIZE (numBytes - i * cfg.FLASH_READ_BLOCKSIZE)
            = cfg.FLASH_READ_BLOCKSIZE) ∧
        ((readReqs BlRequest.FlashRead cfg.FLASH_READ_BLOCKSIZE address numBytes).map
          requested).sum = numBytes) ∧
    (0 < cfg.EEPROM_READ_BLOCKSIZE → cfg.EEPROM_SIZE ≤ 2 ^ 32 →
      numBytes + address ≤ cfg.EEPROM_SIZE →
      (∀ sent a k, (p.respond sent (BlRequest.EepromRead a k)).length = k) →
      BlReadEeprom cfg p address numBytes
          = (Except.ok (numBytes,
              (responsesTo p (readReqs BlRequest.EepromRead cfg.EEPROM_READ_BLOCKSIZE address
                numBytes)).flatten),
            { p with sent := (p.sent ++ readReqs BlRequest.EepromRead
                cfg.EEPROM_READ_BLOCKSIZE address numBytes) }) ∧
        (readReqs BlRequest.EepromRead cfg.EEPROM_READ_BLOCKSIZE address numBytes).length
          = (numBytes + cfg.EEPROM_READ_BLOCKSIZE - 1) / cfg.EEPROM_READ_BLOCKSIZE ∧
        (∀ i, i < (readReqs BlRequest.EepromRead cfg.EEPROM_READ_BLOCKSIZE address
            numBytes).length →
          (readReqs BlRequest.EepromRead cfg.EEPROM_READ_BLOCKSIZE address numBytes)[i]?
            = some (BlRequest.EepromRead (address + i * cfg.EEPROM_READ_BLOCKSIZE)
                (min cfg.EEPROM_READ_BLOCKSIZE (numBytes - i * cfg.EEPROM_READ_BLOCKSIZE)))) ∧
        (∀ i, i + 1 < (readReqs BlRequest.EepromRead cfg.EEPROM_READ_BLOCKSIZE address
            numBytes).length →
          min cfg.EEPROM_READ_BLOCKSIZE (numBytes - i * cfg.EEPROM_READ_BLOCKSIZE)
            = cfg.EEPROM_READ_BLOCKSIZE) ∧
        ((readReqs BlRequest.EepromRead cfg.EEPROM_READ_BLOCKSIZE address numBytes).map
          requested).sum = numBytes) := by
  constructor
  · intro hB hsize hrange hdev
    have hchk : ¬ (numBytes + address) % 2 ^ cfg.SIZE_T_BITS > cfg.FLASH_SIZE :=
      Nat.not_lt.mpr (le_trans (Nat.mod_le _ _) hrange)
    refine ⟨?_, readReqs_length _ _ _ _ hB hn, fun i hi => readReqs_get _ _ _ _ i hi,
      fun i hi => readReqs_full_block _ _ _ _ i hB hi,
      readReqs_sum BlRequest.FlashRead _ hB (fun _ _ => rfl) _ _⟩
    unfold BlReadFlash
    rw [if_neg hchk, readChunks_answered _ _ hB _ _ _ _ _ _ hdev (by omega) (by omega),
      Nat.zero_add, List.nil_append]
  · intro hB hsize hrange hdev
    have hchk : ¬ (numBytes + address) % 2 ^ cfg.SIZE_T_BITS > cfg.EEPROM_SIZE :=
      Nat.not_lt.mpr (le_trans (Nat.mod_le _ _) hrange)
    refine ⟨?_, readReqs_length _ _ _ _ hB hn, fun i hi => readReqs_get _ _ _ _ i hi,
      fun i hi => readReqs_full_block _ _ _ _ i hB hi,
      readReqs_sum BlRequest.EepromRead _ hB (fun _ _ => rfl) _ _⟩
    unfold BlReadEeprom
    rw [if_neg hchk, readChunks_answered _ _ hB _ _ _ _ _ _ hdev (by omega) (by omega),
      Nat.zero_add, List.nil_append]

theorem BlRead_chunks_answered_witness :
    (1 ≤ 100 ∧ 0 < demoBl.FLASH_READ_BLOCKSIZE ∧ demoBl.FLASH_SIZE ≤ 2 ^ 32 ∧
      100 + 10 ≤ demoBl.FLASH_SIZE) ∧
    (BlReadFlash demoBl ((demoDevice 512 300).proxy demoBl) 10 100).2.sent
      = [BlRequest.FlashRead 10 64, BlRequest.FlashRead 74 36] ∧
    (BlReadFlash demoBl ((demoDevice 512 300).proxy demoBl) 10 100).1
      = Except.ok (100, (List.range 100).map (fun i => (10 + i) % 251)) := by
  have h := ((BlRead_chunks_answered demoBl ((demoDevice 512 300).proxy demoBl) 10 100
    (by decide)).1 (by decide) (by decide) (by decide)
    (by intro sent a k; simp [Device.proxy, Device.answer])).1
  refine ⟨⟨by decide, by decide, by decide, by decide⟩, ?_, ?_⟩
  · rw [h]
    rfl
  · rw [h]
    rfl

/-! ## The full erase, request by request -/

theorem BlFlashErase_sendAcked (p : Proxy) (endAddress numPages : Nat) :
    BlFlashErase p endAddress numPages
      = sendAcked 0x03 p [BlRequest.FlashErase endAddress numPages] := by
  unfold BlFlashErase
  rw [sendAcked_cons]
  by_cases hack : p.respond p.sent (BlRequest.FlashErase endAddress numPages) = [0x03]
  · rw [if_pos hack, BlRead_ack_ok p _ 0x03 hack]
    simp [sendAcked_nil]
  · rw [if_neg hack]
    rcases BlRead_ack_bad p _ 0x03 hack with h | ⟨response, hr, h⟩
    · rw [h]
    · rw [h]
      simp [hr]

/-- The loop of the full erase sends the erase requests for the addresses above `C` one after
the other and stops at the first one that is not acknowledged. -/
theorem eraseLoop_sendAcked (cfg : BlCfg)
    (hC : 0 < cfg.FLASH_ERASE_BLOCKSIZE * cfg.FLASH_ERASE_BLOCKS) :
    ∀ (fuel : Nat) (p : Proxy) (address : Nat),
      address ≤ fuel + cfg.FLASH_ERASE_BLOCKSIZE * cfg.FLASH_ERASE_BLOCKS →
      sendAcked 0x03 p (eraseReqs cfg address)
        = ((eraseLoop cfg fuel p address).1.map (fun _ => ()),
            (eraseLoop cfg fuel p address).2) := by
  intro fuel
  induction fuel with
  | zero =>
    intro p address hfuel
    have hle : ¬ address > cfg.FLASH_ERASE_BLOCKSIZE * cfg.FLASH_ERASE_BLOCKS := by omega
    unfold eraseLoop
    rw [if_neg hle, eraseReqs_small cfg address hle hC, sendAcked_nil]
    rfl
  | succ fuel ih =>
    intro p address hfuel
    unfold eraseLoop
    by_cases hgt : address > cfg.FLASH_ERASE_BLOCKSIZE * cfg.FLASH_ERASE_BLOCKS
    · rw [if_pos hgt, eraseReqs_step cfg address hgt hC, sendAcked_cons,
        BlFlashErase_sendAcked, sendAcked_cons, sendAcked_nil]
      by_cases hack : p.respond p.sent
          (BlRequest.FlashErase address (cfg.FLASH_ERASE_BLOCKS % 256)) = [0x03]
      · simp only [if_pos hack]
        exact ih _ _ (by omega)
      · simp only [if_neg hack]
        rfl
    · rw [if_neg hgt, eraseReqs_small cfg address hgt hC, sendAcked_nil]
      rfl

theorem eraseFrom_sendAcked (cfg : BlCfg) (p : Proxy) (firstAddress : Nat)
    (hC : 0 < cfg.FLASH_ERASE_BLOCKSIZE * cfg.FLASH_ERASE_BLOCKS) :
    eraseFrom cfg p firstAddress
      = sendAcked 0x03 p (eraseReqs cfg firstAddress ++
          [BlRequest.FlashErase
            ((cfg.FLASH_ERASE_BLOCKS * cfg.FLASH_ERASE_BLOCKSIZE + 2 ^ 32 - 1) % 2 ^ 32)
            (cfg.FLASH_ERASE_BLOCKS % 256)]) := by
  unfold eraseFrom
  rw [sendAcked_append, eraseLoop_sendAcked cfg hC firstAddress p firstAddress
    (Nat.le_add_right _ _)]
  rcases eraseLoop cfg firstAddress p firstAddress with ⟨res, p2⟩
  cases res with
  | error e => rfl
  | ok last =>
    simp only [Except.map]
    rw [BlFlashErase_sendAcked]

theorem eraseReqs_clean (cfg : BlCfg) (b : Nat) (hb1 : 1 ≤ b) (hb2 : b < 2 ^ 32)
    (hC : 0 < cfg.FLASH_ERASE_BLOCKSIZE * cfg.FLASH_ERASE_BLOCKS)
    (hC32 : cfg.FLASH_ERASE_BLOCKSIZE * cfg.FLASH_ERASE_BLOCKS ≤ 2 ^ 32)
    (hblocks : cfg.FLASH_ERASE_BLOCKS < 256) :
    eraseReqs cfg ((b + 2 ^ 32 - 1) % 2 ^ 32) ++
        [BlRequest.FlashErase
          ((cfg.FLASH_ERASE_BLOCKS * cfg.FLASH_ERASE_BLOCKSIZE + 2 ^ 32 - 1) % 2 ^ 32)
          (cfg.FLASH_ERASE_BLOCKS % 256)]
      = fullEraseReqs cfg b := by
  have h1 : (b + 2 ^ 32 - 1) % 2 ^ 32 = b - 1 := by
    rw [show b + 2 ^ 32 - 1 = (b - 1) + 2 ^ 32 by omega, Nat.add_mod_right]
    exact Nat.mod_eq_of_lt (by omega)
  have h2 : (cfg.FLASH_ERASE_BLOCKS * cfg.FLASH_ERASE_BLOCKSIZE + 2 ^ 32 - 1) % 2 ^ 32
      = cfg.FLASH_ERASE_BLOCKSIZE * cfg.FLASH_ERASE_BLOCKS - 1 := by
    rw [Nat.mul_comm cfg.FLASH_ERASE_BLOCKS cfg.FLASH_ERASE_BLOCKSIZE]
    generalize cfg.FLASH_ERASE_BLOCKSIZE * cfg.FLASH_ERASE_BLOCKS = C at hC hC32
    rw [show C + 2 ^ 32 - 1 = (C - 1) + 2 ^ 32 by omega, Nat.add_mod_right]
    exact Nat.mod_eq_of_lt (by omega)
  have h3 : cfg.FLASH_ERASE_BLOCKS % 256 = cfg.FLASH_ERASE_BLOCKS := Nat.mod_eq_of_lt hblocks
  have h4 : b - 1 - 1 = b - 2 := by omega
  rw [h1, h2]
  unfold eraseReqs fullEraseReqs
  rw [h3, h4]

/-- The full erase, for a device that reports the boot boundary: the requests behind the
request for the boot information are sent one after the other until one is refused. -/
theorem BlFlashEraseAll_sendAcked (cfg : BlCfg) (p : Proxy) (info : List Nat)
    (hC : 0 < cfg.FLASH_ERASE_BLOCKSIZE * cfg.FLASH_ERASE_BLOCKS)
    (hC32 : cfg.FLASH_ERASE_BLOCKSIZE * cfg.FLASH_ERASE_BLOCKS ≤ 2 ^ 32)
    (hblocks : cfg.FLASH_ERASE_BLOCKS < 256)
    (hsize : info.length = cfg.SIZEOF_BLINFO)
    (hinfo : p.respond p.sent BlRequest.Info = info)
    (hb : 1 ≤ BlInfo_GetAddress cfg info) :
    BlFlashEraseAll cfg p
      = sendAcked 0x03 { p with sent := (p.sent ++ [BlRequest.Info]) }
          (fullEraseReqs cfg (BlInfo_GetAddress cfg info)) := by
  have hb2 : BlInfo_GetAddress cfg info < 2 ^ 32 := Nat.mod_lt _ (by decide)
  unfold BlFlashEraseAll BlReadInfo
  rw [BlRead_ok p _ _ (by rw [hinfo]; exact hsize), hinfo]
  simp only
  rw [eraseFrom_sendAcked cfg _ _ hC,
    eraseReqs_clean cfg (BlInfo_GetAddress cfg info) hb hb2 hC hC32 hblocks]

theorem erase_walk (b C : Nat) (hC : 0 < C) :
    (∀ i, i < (b - 2) / C → C < b - 1 - i * C) ∧ b - 1 - (b - 2) / C * C ≤ C := by
  have hdm := Nat.div_add_mod (b - 2) C
  have hml := Nat.mod_lt (b - 2) hC
  rw [Nat.mul_comm] at hdm
  refine ⟨?_, by omega⟩
  intro i hi
  have h1 : (i + 1) * C ≤ (b - 2) / C * C := Nat.mul_le_mul_right C hi
  rw [Nat.succ_mul] at h1
  omega

/-- C23: the full `BlFlashErase()` on a device that reports the boot boundary `b ≥ 1`, with
`C = FLASH_ERASE_BLOCKSIZE * FLASH_ERASE_BLOCKS`. Behind the request for the boot information
it has to send the erase requests `fullEraseReqs`: the end addresses `b - 1`, `b - 1 - C`,
`b - 1 - 2 * C`, ... for as long as the address exceeds `C`, then the end address `C - 1`,
every request with `numPages = FLASH_ERASE_BLOCKS`. It succeeds if and only if every request
is answered by the single byte `0x03`; the first other answer raises `BlNoResponseException`
and no further request is sent. For `b - 1 = 0x1FFFF` (and `C` below that address) the first
erase request has the end address `0x1FFFF`. -/
theorem BlFlashEraseAll_requests (cfg : BlCfg) (p : Proxy) (info : List Nat)
    (hC : 0 < cfg.FLASH_ERASE_BLOCKSIZE * cfg.FLASH_ERASE_BLOCKS)
    (hC32 : cfg.FLASH_ERASE_BLOCKSIZE * cfg.FLASH_ERASE_BLOCKS ≤ 2 ^ 32)
    (hblocks : cfg.FLASH_ERASE_BLOCKS < 256)
    (hsize : info.length = cfg.SIZEOF_BLINFO)
    (hinfo : p.respond p.sent BlRequest.Info = info)
    (hb : 1 ≤ BlInfo_GetAddress cfg info) :
    StopsAtFirstRefusal 0x03 { p with sent := (p.sent ++ [BlRequest.Info]) }
        (fullEraseReqs cfg (BlInfo_GetAddress cfg info)) (BlFlashEraseAll cfg p) ∧
      (∀ i, i < (BlInfo_GetAddress cfg info - 2)
            / (cfg.FLASH_ERASE_BLOCKSIZE * cfg.FLASH_ERASE_BLOCKS) →
        cfg.FLASH_ERASE_BLOCKSIZE * cfg.FLASH_ERASE_BLOCKS
          < BlInfo_GetAddress cfg info - 1
            - i * (cfg.FLASH_ERASE_BLOCKSIZE * cfg.FLASH_ERASE_BLOCKS)) ∧
      BlInfo_GetAddress cfg info - 1
          - (BlInfo_GetAddress cfg info - 2)
              / (cfg.FLASH_ERASE_BLOCKSIZE * cfg.FLASH_ERASE_BLOCKS)
            * (cfg.FLASH_ERASE_BLOCKSIZE * cfg.FLASH_ERASE_BLOCKS)
        ≤ cfg.FLASH_ERASE_BLOCKSIZE * cfg.FLASH_ERASE_BLOCKS ∧
      (BlInfo_GetAddress cfg info - 1 = 0x1FFFF →
        cfg.FLASH_ERASE_BLOCKSIZE * cfg.FLASH_ERASE_BLOCKS < 0x1FFFF →
        (fullEraseReqs cfg (BlInfo_GetAddress cfg info)).head?
          = some (BlRequest.FlashErase 0x1FFFF cfg.FLASH_ERASE_BLOCKS)) := by
  have hw := erase_walk (BlInfo_GetAddress cfg info)
    (cfg.FLASH_ERASE_BLOCKSIZE * cfg.FLASH_ERASE_BLOCKS) hC
  refine ⟨?_, hw.1, hw.2, ?_⟩
  · rw [BlFlashEraseAll_sendAcked cfg p info hC hC32 hblocks hsize hinfo hb]
    exact sendAcked_stops _ _ _
  · intro h1 h2
    unfold fullEraseReqs
    generalize cfg.FLASH_ERASE_BLOCKSIZE * cfg.FLASH_ERASE_BLOCKS = C at hC h2
    generalize BlInfo_GetAddress cfg info = b at h1
    have hk : 1 ≤ (b - 2) / C := by
      rw [Nat.le_div_iff_mul_le hC]
      omega
    obtain ⟨k, hk2⟩ : ∃ k, (b - 2) / C = k + 1 := ⟨(b - 2) / C - 1, by omega⟩
    rw [hk2, List.range_succ_eq_map, List.map_cons, List.cons_append, List.head?_cons,
      Nat.zero_mul, Nat.sub_zero, h1]

theorem BlFlashEraseAll_requests_witness :
    (0 < demoBl.FLASH_ERASE_BLOCKSIZE * demoBl.FLASH_ERASE_BLOCKS ∧
      demoBl.FLASH_ERASE_BLOCKSIZE * demoBl.FLASH_ERASE_BLOCKS ≤ 2 ^ 32 ∧
      demoBl.FLASH_ERASE_BLOCKS < 256 ∧
      (demoDevice 1024 300).info.length = demoBl.SIZEOF_BLINFO ∧
      1 ≤ BlInfo_GetAddress demoBl (demoDevice 1024 300).info) ∧
    BlFlashEraseAll demoBl ((demoDevice 1024 300).proxy demoBl)
      = (Except.ok (),
          { (demoDevice 1024 300).proxy demoBl with sent :=
              [BlRequest.Info, BlRequest.FlashErase 1023 4, BlRequest.FlashErase 767 4,
                BlRequest.FlashErase 511 4, BlRequest.FlashErase 255 4] }) :=
  ⟨⟨by decide, by decide, by decide, rfl, by decide⟩,
    (BlFlashEraseAll_requests demoBl ((demoDevice 1024 300).proxy demoBl)
      (demoDevice 1024 300).info (by decide) (by decide) (by decide) rfl rfl
      (by decide)).1.all_acked (fun i hi => by
        have hi4 : i < 4 := hi
        interval_cases i <;> exact ⟨_, rfl, rfl⟩)⟩

theorem fullEraseReqs_mem (cfg : BlCfg) (b : Nat) (r : BlRequest)
    (h : r ∈ fullEraseReqs cfg b) :
    r = BlRequest.FlashErase (cfg.FLASH_ERASE_BLOCKSIZE * cfg.FLASH_ERASE_BLOCKS - 1)
          cfg.FLASH_ERASE_BLOCKS ∨
      ∃ i, i < (b - 2) / (cfg.FLASH_ERASE_BLOCKSIZE * cfg.FLASH_ERASE_BLOCKS) ∧
        r = BlRequest.FlashErase
          (b - 1 - i * (cfg.FLASH_ERASE_BLOCKSIZE * cfg.FLASH_ERASE_BLOCKS))
          cfg.FLASH_ERASE_BLOCKS := by
  unfold fullEraseReqs at h
  rw [List.mem_append, List.mem_map, List.mem_singleton] at h
  rcases h with ⟨i, hi, hr⟩ | h
  · exact Or.inr ⟨i, List.mem_range.mp hi, hr.symm⟩
  · exact Or.inl h

/-- Requests that leave the flash byte at `x` alone, one by one, leave it alone together. -/
theorem Device.after_flash_keep (cfg : BlCfg) (x : Nat) :
    ∀ (reqs : List BlRequest) (d : Device),
      (∀ r ∈ reqs, ∀ d1 : Device, (Device.step cfg d1 r).flash x = d1.flash x) →
      (Device.after cfg d reqs).flash x = d.flash x := by
  intro reqs
  induction reqs with
  | nil => intro d _; rfl
  | cons r rs ih =>
    intro d h
    show (Device.after cfg (Device.step cfg d r) rs).flash x = d.flash x
    rw [ih _ (fun r1 hr1 => h r1 (List.mem_cons_of_mem _ hr1)), h r (List.mem_cons_self _ _)]

/-- The device model acknowledges erase requests wherever they stand in a session. -/
theorem Device.ackedAt_erase (cfg : BlCfg) (d : Device) (sent reqs : List BlRequest)
    (h : ∀ r ∈ reqs, ∃ e n, r = BlRequest.FlashErase e n) :
    ∀ i, i < reqs.length → AckedAt 0x03 ⟨(d.proxy cfg).respond, sent⟩ reqs i := by
  intro i hi
  refine ⟨reqs[i], List.getElem?_eq_getElem hi, ?_⟩
  obtain ⟨e, n, hr⟩ := h _ (List.getElem_mem hi)
  rw [hr]
  rfl

/-- C24 fails: whenever the boot boundary `b` reported by the device lies one above a positive
multiple of `C = FLASH_ERASE_BLOCKSIZE * FLASH_ERASE_BLOCKS` (`b - 1 = (m + 1) * C`), the full
`BlFlashErase()` succeeds, yet the flash byte at address `C`, an address of the application
region (`C ≤ b - 1`), is what it was before: the loop stops at the address `C` without
erasing, and the last request erases the `C` bytes that end at `C - 1`. -/
theorem BlFlashEraseAll_skips_address (cfg : BlCfg) (d : Device) (m : Nat)
    (hC : 0 < cfg.FLASH_ERASE_BLOCKSIZE * cfg.FLASH_ERASE_BLOCKS)
    (hblocks : cfg.FLASH_ERASE_BLOCKS < 256)
    (hsize : d.info.length = cfg.SIZEOF_BLINFO)
    (hb : BlInfo_GetAddress cfg d.info
      = (m + 1) * (cfg.FLASH_ERASE_BLOCKSIZE * cfg.FLASH_ERASE_BLOCKS) + 1) :
    BlFlashEraseAll cfg (d.proxy cfg)
        = (Except.ok (),
            { d.proxy cfg with sent :=
                (BlRequest.Info :: fullEraseReqs cfg (BlInfo_GetAddress cfg d.info)) }) ∧
      cfg.FLASH_ERASE_BLOCKSIZE * cfg.FLASH_ERASE_BLOCKS ≤ BlInfo_GetAddress cfg d.info - 1 ∧
      (Device.after cfg d (BlFlashEraseAll cfg (d.proxy cfg)).2.sent).flash
          (cfg.FLASH_ERASE_BLOCKSIZE * cfg.FLASH_ERASE_BLOCKS)
        = d.flash (cfg.FLASH_ERASE_BLOCKSIZE * cfg.FLASH_ERASE_BLOCKS) := by
  have hb2 : BlInfo_GetAddress cfg d.info < 2 ^ 32 := Nat.mod_lt _ (by decide)
  have hmul : (m + 1) * (cfg.FLASH_ERASE_BLOCKSIZE * cfg.FLASH_ERASE_BLOCKS)
      = m * (cfg.FLASH_ERASE_BLOCKSIZE * cfg.FLASH_ERASE_BLOCKS)
        + cfg.FLASH_ERASE_BLOCKSIZE * cfg.FLASH_ERASE_BLOCKS := Nat.succ_mul _ _
  have hC32 : cfg.FLASH_ERASE_BLOCKSIZE * cfg.FLASH_ERASE_BLOCKS ≤ 2 ^ 32 := by omega
  have hrun : BlFlashEraseAll cfg (d.proxy cfg)
      = (Except.ok (),
          { d.proxy cfg with sent :=
              (BlRequest.Info :: fullEraseReqs cfg (BlInfo_GetAddress cfg d.info)) }) := by
    rw [BlFlashEraseAll_sendAcked cfg (d.proxy cfg) d.info hC hC32 hblocks hsize rfl
      (by omega)]
    rw [sendAcked_all 0x03 _ _ (Device.ackedAt_erase cfg d _ _ (fun r hr => by
      rcases fullEraseReqs_mem cfg _ r hr with h | ⟨i, _, h⟩
      · exact ⟨_, _, h⟩
      · exact ⟨_, _, h⟩))]
    rfl
  refine ⟨hrun, by omega, ?_⟩
  rw [hrun]
  apply Device.after_flash_keep
  intro r hr d1
  rcases List.mem_cons.mp hr with h | h
  · rw [h]
    rfl
  · rcases fullEraseReqs_mem cfg _ r h with h | ⟨i, hi, h⟩
    · rw [h]
      simp only [Device.step]
      rw [if_neg]
      intro hcon
      omega
    · rw [h]
      simp only [Device.step]
      rw [if_neg]
      intro hcon
      have hcomm : cfg.FLASH_ERASE_BLOCKS * cfg.FLASH_ERASE_BLOCKSIZE
          = cfg.FLASH_ERASE_BLOCKSIZE * cfg.FLASH_ERASE_BLOCKS := Nat.mul_comm _ _
      rw [hcomm] at hcon
      rw [hb] at hi hcon
      have him : i + 2 ≤ m + 1 := by
        have := (Nat.div_lt_iff_lt_mul hC).mpr
          (show (m + 1) * (cfg.FLASH_ERASE_BLOCKSIZE * cfg.FLASH_ERASE_BLOCKS) + 1 - 2
            < (m + 1) * (cfg.FLASH_ERASE_BLOCKSIZE * cfg.FLASH_ERASE_BLOCKS) by omega)
        omega
      have hi2 : (i + 2) * (cfg.FLASH_ERASE_BLOCKSIZE * cfg.FLASH_ERASE_BLOCKS)
          ≤ (m + 1) * (cfg.FLASH_ERASE_BLOCKSIZE * cfg.FLASH_ERASE_BLOCKS) :=
        Nat.mul_le_mul_right _ him
      rw [Nat.add_mul] at hi2
      omega

theorem BlFlashEraseAll_skips_address_witness :
    (0 < demoBl.FLASH_ERASE_BLOCKSIZE * demoBl.FLASH_ERASE_BLOCKS ∧
      demoBl.FLASH_ERASE_BLOCKS < 256 ∧
      (demoDevice 257 300).info.length = demoBl.SIZEOF_BLINFO ∧
      BlInfo_GetAddress demoBl (demoDevice 257 300).info
        = (0 + 1) * (demoBl.FLASH_ERASE_BLOCKSIZE * demoBl.FLASH_ERASE_BLOCKS) + 1) ∧
    (BlFlashEraseAll demoBl ((demoDevice 257 300).proxy demoBl)).1 = Except.ok () ∧
    (BlFlashEraseAll demoBl ((demoDevice 257 300).proxy demoBl)).2.sent
      = [BlRequest.Info, BlRequest.FlashErase 255 4] ∧
    (Device.after demoBl (demoDevice 257 300)
      (BlFlashEraseAll demoBl ((demoDevice 257 300).proxy demoBl)).2.sent).flash 256 = 5 := by
  have h := BlFlashEraseAll_skips_address demoBl (demoDevice 257 300) 0 (by decide)
    (by decide) rfl (by decide)
  refine ⟨⟨by decide, by decide, rfl, by decide⟩, ?_, ?_, ?_⟩
  · rw [h.1]
  · rw [h.1]
    rfl
  · exact h.2.2

/-! ## Starting the application -/

/-- C25 (amended): `BlRunApp` performs one round trip, whatever comes back. It succeeds if
and only if the response is exactly 6 bytes long (the size `BlRead` is called with; the test
for at least 4 bytes behind it never fails) and the command field of the response equals
`FW_STARTED`; in every other case it raises `BlNoResponseException`. -/
theorem BlRunApp_needs_six_bytes (FW_STARTED : Nat) (response_cmd : List Nat → Nat)
    (p : Proxy) :
    (BlRunApp FW_STARTED response_cmd p).2.sent = p.sent ++ [BlRequest.RunApp] ∧
      ((BlRunApp FW_STARTED response_cmd p).1 = Except.ok () ↔
        (p.respond p.sent BlRequest.RunApp).length = 6 ∧
          response_cmd (p.respond p.sent BlRequest.RunApp) = FW_STARTED) ∧
      ((BlRunApp FW_STARTED response_cmd p).1 ≠ Except.ok () →
        (BlRunApp FW_STARTED response_cmd p).1
          = Except.error BlError.BlNoResponseException) := by
  unfold BlRunApp
  by_cases hlen : (p.respond p.sent BlRequest.RunApp).length = 6
  · rw [BlRead_ok p _ 6 hlen]
    simp only
    have h4 : 4 ≤ (p.respond p.sent BlRequest.RunApp).length := by omega
    rw [if_pos h4]
    by_cases hcmd : response_cmd (p.respond p.sent BlRequest.RunApp) = FW_STARTED
    · rw [if_pos hcmd]
      exact ⟨rfl, ⟨fun _ => ⟨hlen, hcmd⟩, fun _ => rfl⟩, fun h => absurd rfl h⟩
    · rw [if_neg hcmd]
      refine ⟨rfl, ⟨fun h => ?_, fun h => absurd h.2 hcmd⟩, fun _ => rfl⟩
      cases h
  · have hbad : BlRead p BlRequest.RunApp 6
        = (Except.error BlError.BlNoResponseException,
            { p with sent := (p.sent ++ [BlRequest.RunApp]) }) := by
      unfold BlRead
      rw [if_pos (fun h => hlen h.symm)]
      rfl
    rw [hbad]
    refine ⟨rfl, ⟨fun h => ?_, fun h => absurd h.1 hlen⟩, fun _ => rfl⟩
    cases h

/-- Counterexample to C25 as worded: a response of 4 bytes whose command field is
`FW_STARTED` (here the status code 7 in the second byte) is refused. -/
theorem BlRunApp_refuses_four_bytes :
    4 ≤ ((answeringProxy [4, 7, 0, 0]).respond [] BlRequest.RunApp).length ∧
      ((answeringProxy [4, 7, 0, 0]).respond [] BlRequest.RunApp).getD 1 0 = 7 ∧
      BlRunApp 7 (fun bytes => bytes.getD 1 0) (answeringProxy [4, 7, 0, 0])
        = (Except.error BlError.BlNoResponseException,
            { answeringProxy [4, 7, 0, 0] with sent := [BlRequest.RunApp] }) :=
  ⟨by decide, by decide, rfl⟩

theorem BlRunApp_example_started :
    BlRunApp 7 (fun bytes => bytes.getD 1 0) (answeringProxy [6, 7, 0, 0, 0, 0])
      = (Except.ok (), { answeringProxy [6, 7, 0, 0, 0, 0] with sent := [BlRequest.RunApp] }) :=
  rfl

/-! ## The length field of the firmware frames -/

/-- The frames `FwSend` hands to the transport: between one and five copies of the frame it
was given, with the length field set to the size argument plus 2 (as a byte). -/
theorem FwSend_frames {R : Type} (cls : ResponseClass R) (p : FwProxy) (pFrame : cmd_frame)
    (length : Nat) (response : R) :
    ∃ n, 1 ≤ n ∧ n ≤ 5 ∧
      (FwSend cls p pFrame length response).2.sent
        = p.sent ++ List.replicate n { pFrame with length := uns8 (length + 2) } := by
  obtain ⟨k, hk1, hk2, _, hk4, _⟩ :=
    FwSend_loop_spec cls { pFrame with length := uns8 (length + 2) } 5 p 0 response
      (by decide) (by decide)
  refine ⟨k, hk1, by omega, ?_⟩
  unfold FwSend
  split
  · exact hk4
  · split <;> exact hk4

/-- The operations without payload hand frames with the length field 2 to the transport, and
`FwSetRtc` and `FwSetColorDirect` frames with the size of their payload structure plus 2,
stored in the length byte. -/
theorem Fw_frame_length_of_payload {R : Type} (cls : ResponseClass R) (lay : FwLayout)
    (p : FwProxy) (mCmdFrame : cmd_frame) (response : R) (t : tm) (buffer : List Nat)
    (bufferLength : Nat) :
    (∀ f ∈ (FwClearScript cls lay p mCmdFrame response).2.sent.drop p.sent.length,
        f.length = 2 ∧ f.cmd = lay.CLEAR_SCRIPT) ∧
      (∀ f ∈ (FwLoopOn cls p mCmdFrame response).2.sent.drop p.sent.length,
        f.length = 2 ∧ f.cmd = CmdCode.LOOP_ON) ∧
      (∀ f ∈ (FwGetCycletime cls lay p mCmdFrame response).2.sent.drop p.sent.length,
        f.length = 2 ∧ f.cmd = lay.GET_CYCLETIME) ∧
      (∀ f ∈ (FwGetRtc cls lay p mCmdFrame response).2.sent.drop p.sent.length,
        f.length = 2 ∧ f.cmd = lay.GET_RTC) ∧
      (∀ f ∈ (FwGetTracebuffer cls lay p mCmdFrame response).2.sent.drop p.sent.length,
        f.length = 2 ∧ f.cmd = lay.GET_TRACE) ∧
      (∀ f ∈ (FwGetVersion cls lay p mCmdFrame response).2.sent.drop p.sent.length,
        f.length = 2 ∧ f.cmd = lay.GET_FW_VERSION) ∧
      (∀ f ∈ (FwStartBl cls lay p mCmdFrame response).2.sent.drop p.sent.length,
        f.length = 2 ∧ f.cmd = lay.START_BL) ∧
      (∀ f ∈ (FwSetRtc cls lay p mCmdFrame response (some t)).2.sent.drop p.sent.length,
        f.length = uns8 (lay.SIZEOF_RTC_TIME + 2) ∧ f.cmd = lay.SET_RTC) ∧
      (∀ f ∈ (FwSetColorDirect cls lay p mCmdFrame response (some buffer)
          bufferLength).2.sent.drop p.sent.length,
        f.length = uns8 (lay.SIZEOF_CMD_SET_COLOR_DIRECT + 2) ∧
          f.cmd = lay.SET_COLOR_DIRECT) := by
  have key : ∀ (frame : cmd_frame) (length : Nat),
      ∀ f ∈ (FwSend cls p frame length response).2.sent.drop p.sent.length,
        f.length = uns8 (length + 2) ∧ f.cmd = frame.cmd := by
    intro frame length f hf
    obtain ⟨n, _, _, hn⟩ := FwSend_frames cls p frame length response
    rw [hn, List.drop_left] at hf
    rw [List.eq_of_mem_replicate hf]
    exact ⟨rfl, rfl⟩
  exact ⟨key _ 0, key _ 0, key _ 0, key _ 0, key _ 0, key _ 0, key _ 0, key _ _, key _ _⟩

/-- C26 fails for `FwSetWait` and `FwLoopOff`: every frame they hand to the transport (there
is at least one) carries the command `WAIT` resp. `LOOP_OFF` and the length field
`sizeof(cmd_set_fade) + 2`, the value of `FwSetFade`, whatever the size of their own payload
is: for every payload size for which the length byte `size + 2` differs from that of
`cmd_set_fade` (every other size, as long as both fit the byte) the length field is not that
size plus 2. -/
theorem FwSetWait_FwLoopOff_send_fade_length {R : Type} (cls : ResponseClass R) (cfg : FwCfg)
    (lay : FwLayout) (p : FwProxy) (mCmdFrame : cmd_frame) (response : R)
    (waitTmms numLoops sizeofPayload : Nat)
    (hsize : uns8 (sizeofPayload + 2) ≠ uns8 (cfg.SIZEOF_CMD_SET_FADE + 2)) :
    (p.sent.length < (FwSetWait cls cfg lay p mCmdFrame response waitTmms).2.sent.length ∧
      ∀ f ∈ (FwSetWait cls cfg lay p mCmdFrame response waitTmms).2.sent.drop p.sent.length,
        f.cmd = CmdCode.WAIT ∧ f.length = uns8 (cfg.SIZEOF_CMD_SET_FADE + 2) ∧
          f.length ≠ uns8 (sizeofPayload + 2)) ∧
    (p.sent.length < (FwLoopOff cls cfg lay p mCmdFrame response numLoops).2.sent.length ∧
      ∀ f ∈ (FwLoopOff cls cfg lay p mCmdFrame response numLoops).2.sent.drop p.sent.length,
        f.cmd = CmdCode.LOOP_OFF ∧ f.length = uns8 (cfg.SIZEOF_CMD_SET_FADE + 2) ∧
          f.length ≠ uns8 (sizeofPayload + 2)) := by
  have key : ∀ (frame : cmd_frame),
      p.sent.length < (FwSend cls p frame cfg.SIZEOF_CMD_SET_FADE response).2.sent.length ∧
      ∀ f ∈ (FwSend cls p frame cfg.SIZEOF_CMD_SET_FADE response).2.sent.drop p.sent.length,
        f.cmd = frame.cmd ∧ f.length = uns8 (cfg.SIZEOF_CMD_SET_FADE + 2) ∧
          f.length ≠ uns8 (sizeofPayload + 2) := by
    intro frame
    obtain ⟨n, hn1, _, hn⟩ := FwSend_frames cls p frame cfg.SIZEOF_CMD_SET_FADE response
    rw [hn]
    refine ⟨by rw [List.length_append, List.length_replicate]; omega, ?_⟩
    intro f hf
    rw [List.drop_left] at hf
    rw [List.eq_of_mem_replicate hf]
    exact ⟨rfl, rfl, fun h => hsize h.symm⟩
  exact ⟨key _, key _⟩

theorem FwSetWait_FwLoopOff_send_fade_length_witness :
    uns8 (2 + 2) ≠ uns8 (demoFw.SIZEOF_CMD_SET_FADE + 2) ∧
    (0 < (FwSetWait demoResponse demoFw demoLayout (scriptedFw [[0, 1, 0]]) demoFrame
        (true, false, false) 2000).2.sent.length ∧
      ∀ f ∈ (FwSetWait demoResponse demoFw demoLayout (scriptedFw [[0, 1, 0]]) demoFrame
          (true, false, false) 2000).2.sent.drop 0,
        f.cmd = CmdCode.WAIT ∧ f.length = 10 + 2 ∧ f.length ≠ 2 + 2) :=
  ⟨by decide,
    (FwSetWait_FwLoopOff_send_fade_length demoResponse demoFw demoLayout
      (scriptedFw [[0, 1, 0]]) demoFrame (true, false, false) 2000 0 2 (by decide)).1⟩

/-- The frame of a wait of 2000 ms on the example device: 400 ticks in network byte order, a
payload of 2 bytes, and the length field 12. -/
theorem FwSetWait_example_frame :
    (FwSetWait demoResponse demoFw demoLayout (scriptedFw [[0, 1, 0]]) demoFrame
        (true, false, false) 2000).2.sent
      = [{ length := 12, cmd := CmdCode.WAIT, data := FrameData.other [1, 144] }] := rfl

theorem BlRunApp_needs_six_bytes_witness :
    (BlRunApp 7 (fun bytes => bytes.getD 1 0) (answeringProxy [6, 7, 0, 0, 0, 0])).1
        = Except.ok () ∧
      (BlRunApp 7 (fun bytes => bytes.getD 1 0) (answeringProxy [4, 7, 0, 0])).1
        = Except.error BlError.BlNoResponseException :=
  ⟨(BlRunApp_needs_six_bytes 7 (fun bytes => bytes.getD 1 0)
      (answeringProxy [6, 7, 0, 0, 0, 0])).2.1.mpr ⟨rfl, rfl⟩,
    (BlRunApp_needs_six_bytes 7 (fun bytes => bytes.getD 1 0)
      (answeringProxy [4, 7, 0, 0])).2.2 (fun h =>
        absurd ((BlRunApp_needs_six_bytes 7 (fun bytes => bytes.getD 1 0)
          (answeringProxy [4, 7, 0, 0])).2.1.mp h).1 (by decide))⟩

/-! ## Frame properties of `ScriptCtrl_Add` and `ScriptCtrl_Clear` -/

/-- What `ScriptCtrl_Clear` changes. -/
theorem ScriptCtrl_Clear_eq (cfg : ScriptCfg) (w : World) :
    ScriptCtrl_Clear cfg w
      = { w with
          buf := { w.buf with
            inLoop := false
            read := uns8 cfg.EEPROM_SCRIPTBUF_BASE
            write := uns8 cfg.EEPROM_SCRIPTBUF_BASE
            execute := uns8 cfg.EEPROM_SCRIPTBUF_BASE
            isClearing := false }
          eeprom := { w.eeprom with
            cellInLoop := false
            cellRead := uns8 cfg.EEPROM_SCRIPTBUF_BASE
            cellWrite := uns8 cfg.EEPROM_SCRIPTBUF_BASE } } := rfl

/-- A tick on a clearing buffer is the clear. -/
theorem ScriptCtrl_Run_of_clearing (cfg : ScriptCfg) (w : World)
    (hclr : w.buf.isClearing = true) : ScriptCtrl_Run cfg w = ScriptCtrl_Clear cfg w := by
  simp [ScriptCtrl_Run, hclr, ScriptCtrl_Clear, ScriptBufSetWrite, ScriptBufSetRead,
    ScriptBufSetInLoop]

theorem addAll_clearing (cfg : ScriptCfg) (cmds : List led_cmd) :
    ∀ w : World, w.buf.isClearing = true → addAll cfg cmds w = w := by
  induction cmds with
  | nil => intro w _; rfl
  | cons c rest ih =>
    intro w h
    have h1 : ScriptCtrl_Add cfg c w = w := by simp [ScriptCtrl_Add, h]
    rw [addAll_cons, h1]
    exact ih w h

/-- C31: `ScriptCtrl_Add` of a `DELETE` command on a buffer that is not clearing sets
`isClearing` and nothing else: the stored blocks, `read`, `write`, `execute`, `inLoop`, the
loop stack and the persistent cells are what they were, and they stay so whatever is added
before the next tick. The wipe is done by the next `ScriptCtrl_Run`, which is the
`ScriptCtrl_Clear` of the buffer: it resets `read`, `write` and `execute` to
`EEPROM_SCRIPTBUF_BASE` and `inLoop` to false, persists them, and takes `isClearing` back. -/
theorem ScriptCtrl_Add_delete_defers_wipe (cfg : ScriptCfg) (pCmd : led_cmd) (w : World)
    (hclr : w.buf.isClearing = false) (hc : pCmd.cmd = CmdCode.DELETE) :
    ScriptCtrl_Add cfg pCmd w = { w with buf := { w.buf with isClearing := true } } ∧
      (ScriptCtrl_Add cfg pCmd w).eeprom = w.eeprom ∧
      (ScriptCtrl_Add cfg pCmd w).buf.read = w.buf.read ∧
      (ScriptCtrl_Add cfg pCmd w).buf.write = w.buf.write ∧
      (ScriptCtrl_Add cfg pCmd w).buf.execute = w.buf.execute ∧
      (ScriptCtrl_Add cfg pCmd w).buf.inLoop = w.buf.inLoop ∧
      (∀ cmds, addAll cfg cmds (ScriptCtrl_Add cfg pCmd w) = ScriptCtrl_Add cfg pCmd w) ∧
      ScriptCtrl_Run cfg (ScriptCtrl_Add cfg pCmd w)
        = { w with
            buf := { w.buf with
              inLoop := false
              read := uns8 cfg.EEPROM_SCRIPTBUF_BASE
              write := uns8 cfg.EEPROM_SCRIPTBUF_BASE
              execute := uns8 cfg.EEPROM_SCRIPTBUF_BASE
              isClearing := false }
            eeprom := { w.eeprom with
              cellInLoop := false
              cellRead := uns8 cfg.EEPROM_SCRIPTBUF_BASE
              cellWrite := uns8 cfg.EEPROM_SCRIPTBUF_BASE } } := by
  have hadd : ScriptCtrl_Add cfg pCmd w = { w with buf := { w.buf with isClearing := true } } := by
    simp [ScriptCtrl_Add, hclr, hc]
  rw [hadd]
  refine ⟨rfl, rfl, rfl, rfl, rfl, rfl, fun cmds => addAll_clearing cfg cmds _ rfl, ?_⟩
  rw [ScriptCtrl_Run_of_clearing cfg _ rfl]
  rfl

theorem ScriptCtrl_Add_delete_defers_wipe_witness :
    (ScriptCtrl_Add demoCfg (plainCmd CmdCode.DELETE []) waitingWorld).buf.write = 2 ∧
      (ScriptCtrl_Add demoCfg (plainCmd CmdCode.DELETE []) waitingWorld).buf.isClearing = true ∧
      (ScriptCtrl_Run demoCfg
        (ScriptCtrl_Add demoCfg (plainCmd CmdCode.DELETE []) waitingWorld)).buf.write = 0 := by
  have h := ScriptCtrl_Add_delete_defers_wipe demoCfg (plainCmd CmdCode.DELETE []) waitingWorld
    rfl rfl
  refine ⟨?_, ?_, ?_⟩
  · rw [h.2.2.2.1]
    rfl
  · rw [h.1]
  · rw [h.2.2.2.2.2.2.2]
    rfl

/-- C37: a `LOOP_ON` or `LOOP_OFF` given to `ScriptCtrl_Add` while the ring is full
(`ScriptBufInc(write) == read`, not clearing) is not stored: no block and no persistent cell
changes, and `read`, `write` and `execute` keep their values. The loop stack is updated all
the same: for `LOOP_ON` the entry of `loopStart` at the old depth is overwritten with `write`
and the loop depth (a byte) is incremented, for `LOOP_OFF` the loop depth is decremented. -/
theorem ScriptCtrl_Add_full_still_moves_depth (cfg : ScriptCfg) (pCmd : led_cmd) (w : World)
    (hclr : w.buf.isClearing = false)
    (hfull : ScriptBufInc cfg w.buf.write = w.buf.read) :
    (pCmd.cmd = CmdCode.LOOP_ON →
      ScriptCtrl_Add cfg pCmd w
          = { w with buf := { w.buf with
                loopStart := fun i =>
                  if i = w.buf.loopDepth then w.buf.write else w.buf.loopStart i
                loopDepth := uns8 (w.buf.loopDepth + 1) } } ∧
        (w.buf.loopDepth < 255 →
          (ScriptCtrl_Add cfg pCmd w).buf.loopDepth = w.buf.loopDepth + 1) ∧
        (ScriptCtrl_Add cfg pCmd w).buf.loopStart w.buf.loopDepth = w.buf.write) ∧
    (pCmd.cmd = CmdCode.LOOP_OFF →
      ScriptCtrl_Add cfg pCmd w
          = { w with buf := { w.buf with loopDepth := uns8 (w.buf.loopDepth + 255) } } ∧
        (0 < w.buf.loopDepth → w.buf.loopDepth < 256 →
          (ScriptCtrl_Add cfg pCmd w).buf.loopDepth = w.buf.loopDepth - 1)) ∧
    (pCmd.cmd = CmdCode.LOOP_ON ∨ pCmd.cmd = CmdCode.LOOP_OFF →
      (ScriptCtrl_Add cfg pCmd w).eeprom = w.eeprom ∧
        (ScriptCtrl_Add cfg pCmd w).buf.read = w.buf.read ∧
        (ScriptCtrl_Add cfg pCmd w).buf.write = w.buf.write ∧
        (ScriptCtrl_Add cfg pCmd w).buf.execute = w.buf.execute) := by
  have hon : pCmd.cmd = CmdCode.LOOP_ON →
      ScriptCtrl_Add cfg pCmd w
        = { w with buf := { w.buf with
              loopStart := fun i =>
                if i = w.buf.loopDepth then w.buf.write else w.buf.loopStart i
              loopDepth := uns8 (w.buf.loopDepth + 1) } } := by
    intro hc
    rw [ScriptCtrl_Add_loopOn cfg pCmd w hclr hc]
    exact ScriptCtrl_Write_full cfg pCmd _ hfull
  have hoff : pCmd.cmd = CmdCode.LOOP_OFF →
      ScriptCtrl_Add cfg pCmd w
        = { w with buf := { w.buf with loopDepth := uns8 (w.buf.loopDepth + 255) } } := by
    intro hc
    rw [ScriptCtrl_Add_loopOff cfg pCmd w hclr hc]
    exact ScriptCtrl_Write_full cfg _ _ hfull
  refine ⟨fun hc => ⟨hon hc, ?_, ?_⟩, fun hc => ⟨hoff hc, ?_⟩, ?_⟩
  · intro hd
    rw [hon hc]
    exact uns8_of_lt (by omega)
  · rw [hon hc]
    simp
  · intro hd1 hd2
    rw [hoff hc]
    show (w.buf.loopDepth + 255) % 256 = w.buf.loopDepth - 1
    omega
  · rintro (hc | hc)
    · rw [hon hc]
      exact ⟨rfl, rfl, rfl, rfl⟩
    · rw [hoff hc]
      exact ⟨rfl, rfl, rfl, rfl⟩

theorem ScriptCtrl_Add_full_still_moves_depth_witness :
    ScriptBufInc demoCfg fullWorld.buf.write = fullWorld.buf.read ∧
      (ScriptCtrl_Add demoCfg (plainCmd CmdCode.LOOP_ON []) fullWorld).buf.loopDepth = 1 ∧
      (ScriptCtrl_Add demoCfg (plainCmd CmdCode.LOOP_ON []) fullWorld).buf.loopStart 0 = 3 ∧
      (ScriptCtrl_Add demoCfg (plainCmd CmdCode.LOOP_ON []) fullWorld).buf.write = 3 ∧
      (ScriptCtrl_Add demoCfg (plainCmd CmdCode.LOOP_ON []) fullWorld).eeprom
        = fullWorld.eeprom := by
  have h := ScriptCtrl_Add_full_still_moves_depth demoCfg (plainCmd CmdCode.LOOP_ON [])
    fullWorld rfl (by decide)
  exact ⟨by decide, (h.1 rfl).2.1 (by decide), (h.1 rfl).2.2, (h.2.2 (Or.inl rfl)).2.2.1,
    (h.2.2 (Or.inl rfl)).1⟩

theorem addAll_nil (cfg : ScriptCfg) (w : World) : addAll cfg [] w = w := rfl

/-- C36: `ScriptCtrl_Clear` changes `inLoop`, `read`, `write`, `execute` (and the persistent
cells of the first three) and `isClearing`, and nothing else: the loop depth, the loop-start
stack, the stored blocks, the loaded command and the strip log keep their values. So when a
`DELETE` is added to a buffer with loop depth `d` (a loop is still open for `d ≥ 1`), the next
tick clears the buffer, and a `LOOP_ON` and a `LOOP_OFF` are added (ring of at least four
slots), the `LOOP_OFF` is stored, behind the `LOOP_ON` at the base slot, with depth `d`, not
0, and the loop depth is `d` again. -/
theorem ScriptCtrl_Clear_keeps_loop_stack (cfg : ScriptCfg) (bits : Nat)
    (hring : RingOfBits cfg bits) (hbits : 2 ≤ bits) (w : World)
    (delCmd onCmd offCmd : led_cmd)
    (hclr : w.buf.isClearing = false) (hd : w.buf.loopDepth < 256)
    (hdel : delCmd.cmd = CmdCode.DELETE) (hon : onCmd.cmd = CmdCode.LOOP_ON)
    (hoff : offCmd.cmd = CmdCode.LOOP_OFF) :
    (∀ v : World,
      ScriptCtrl_Clear cfg v
        = { v with
            buf := { v.buf with
              inLoop := false
              read := uns8 cfg.EEPROM_SCRIPTBUF_BASE
              write := uns8 cfg.EEPROM_SCRIPTBUF_BASE
              execute := uns8 cfg.EEPROM_SCRIPTBUF_BASE
              isClearing := false }
            eeprom := { v.eeprom with
              cellInLoop := false
              cellRead := uns8 cfg.EEPROM_SCRIPTBUF_BASE
              cellWrite := uns8 cfg.EEPROM_SCRIPTBUF_BASE } } ∧
        (ScriptCtrl_Clear cfg v).buf.loopDepth = v.buf.loopDepth ∧
        (ScriptCtrl_Clear cfg v).buf.loopStart = v.buf.loopStart ∧
        (ScriptCtrl_Clear cfg v).eeprom.slot = v.eeprom.slot) ∧
      (ScriptCtrl_Run cfg (ScriptCtrl_Add cfg delCmd w)).buf.loopDepth = w.buf.loopDepth ∧
      (ScriptCtrl_Run cfg (ScriptCtrl_Add cfg delCmd w)).buf.read
        = (ScriptCtrl_Run cfg (ScriptCtrl_Add cfg delCmd w)).buf.write ∧
      (addAll cfg [onCmd, offCmd]
          (ScriptCtrl_Run cfg (ScriptCtrl_Add cfg delCmd w))).eeprom.slot
            (uns8 cfg.EEPROM_SCRIPTBUF_BASE) = onCmd ∧
      ((addAll cfg [onCmd, offCmd]
          (ScriptCtrl_Run cfg (ScriptCtrl_Add cfg delCmd w))).eeprom.slot
            (ScriptBufInc cfg (uns8 cfg.EEPROM_SCRIPTBUF_BASE))).cmd = CmdCode.LOOP_OFF ∧
      ((addAll cfg [onCmd, offCmd]
          (ScriptCtrl_Run cfg (ScriptCtrl_Add cfg delCmd w))).eeprom.slot
            (ScriptBufInc cfg (uns8 cfg.EEPROM_SCRIPTBUF_BASE))).loopEnd.depth
        = w.buf.loopDepth ∧
      (addAll cfg [onCmd, offCmd]
          (ScriptCtrl_Run cfg (ScriptCtrl_Add cfg delCmd w))).buf.loopDepth
        = w.buf.loopDepth := by
  have hadd : ScriptCtrl_Add cfg delCmd w
      = { w with buf := { w.buf with isClearing := true } } := by
    simp [ScriptCtrl_Add, hclr, hdel]
  have hrun : ScriptCtrl_Run cfg (ScriptCtrl_Add cfg delCmd w)
      = { w with
          buf := { w.buf with
            inLoop := false
            read := uns8 cfg.EEPROM_SCRIPTBUF_BASE
            write := uns8 cfg.EEPROM_SCRIPTBUF_BASE
            execute := uns8 cfg.EEPROM_SCRIPTBUF_BASE
            isClearing := false }
          eeprom := { w.eeprom with
            cellInLoop := false
            cellRead := uns8 cfg.EEPROM_SCRIPTBUF_BASE
            cellWrite := uns8 cfg.EEPROM_SCRIPTBUF_BASE } } := by
    rw [hadd, ScriptCtrl_Run_of_clearing cfg _ rfl]
    rfl
  refine ⟨fun v => ⟨rfl, rfl, rfl, rfl⟩, by rw [hrun], by rw [hrun], ?_⟩
  rw [hrun]
  generalize uns8 cfg.EEPROM_SCRIPTBUF_BASE = base
  have hN : 4 ≤ 2 ^ bits := by
    calc 4 = 2 ^ 2 := by norm_num
      _ ≤ 2 ^ bits := Nat.pow_le_pow_right (by decide) hbits
  have hne1 : ScriptBufInc cfg base ≠ base := ScriptBufInc_ne_self hring base
  have hne2 : ScriptBufInc cfg (ScriptBufInc cfg base) ≠ base := by
    rw [ScriptBufInc_eq_mod hring, ScriptBufInc_eq_mod hring]
    have hlt : ((base + 1) % 2 ^ bits + 1) % 2 ^ bits < 2 ^ bits := Nat.mod_lt _ (by omega)
    by_cases hb : base < 2 ^ bits
    · by_cases h1 : base + 1 < 2 ^ bits
      · rw [Nat.mod_eq_of_lt h1]
        by_cases h2 : base + 1 + 1 < 2 ^ bits
        · rw [Nat.mod_eq_of_lt h2]
          omega
        · rw [show base + 1 + 1 = 2 ^ bits by omega, Nat.mod_self]
          omega
      · rw [show base + 1 = 2 ^ bits by omega, Nat.mod_self,
          Nat.mod_eq_of_lt (show 0 + 1 < 2 ^ bits by omega)]
        omega
    · omega
  simp only [addAll_cons, addAll_nil]
  rw [ScriptCtrl_Add_loopOn cfg onCmd _ rfl hon]
  obtain ⟨hb1, hs1⟩ := ScriptCtrl_Write_effect cfg onCmd
    { w with
      buf := { w.buf with
        inLoop := false, read := base, write := base, execute := base, isClearing := false
        loopStart := fun i => if i = w.buf.loopDepth then base else w.buf.loopStart i
        loopDepth := uns8 (w.buf.loopDepth + 1) }
      eeprom := { w.eeprom with cellInLoop := false, cellRead := base, cellWrite := base } }
    hne1
  generalize hS : ScriptCtrl_Write cfg onCmd
    { w with
      buf := { w.buf with
        inLoop := false, read := base, write := base, execute := base, isClearing := false
        loopStart := fun i => if i = w.buf.loopDepth then base else w.buf.loopStart i
        loopDepth := uns8 (w.buf.loopDepth + 1) }
      eeprom := { w.eeprom with cellInLoop := false, cellRead := base, cellWrite := base } }
    = S at hb1 hs1 ⊢
  have hSclr : S.buf.isClearing = false := by rw [hb1]
  have hSw : S.buf.write = ScriptBufInc cfg base := by rw [hb1]
  have hSr : S.buf.read = base := by rw [hb1]
  have hSd : S.buf.loopDepth = uns8 (w.buf.loopDepth + 1) := by rw [hb1]
  rw [ScriptCtrl_Add_loopOff cfg offCmd S hSclr hoff]
  obtain ⟨hb2, hs2⟩ := ScriptCtrl_Write_effect cfg
    { offCmd with loopEnd :=
        { startIndex := ScriptBufInc cfg (S.buf.loopStart (uns8 (S.buf.loopDepth + 255)))
          depth := uns8 (S.buf.loopDepth + 255)
          counter := offCmd.loopEnd.numLoops
          numLoops := offCmd.loopEnd.numLoops } }
    { S with buf := { S.buf with loopDepth := uns8 (S.buf.loopDepth + 255) } }
    (by
      show ScriptBufInc cfg S.buf.write ≠ S.buf.read
      rw [hSw, hSr]
      exact hne2)
  have hdepth : uns8 (S.buf.loopDepth + 255) = w.buf.loopDepth := by
    rw [hSd]
    show ((w.buf.loopDepth + 1) % 256 + 255) % 256 = w.buf.loopDepth
    omega
  rw [hs2, hb2]
  simp only [hSw, hs1, hdepth]
  refine ⟨?_, ?_, ?_, trivial⟩
  · rw [if_neg (Ne.symm hne1), if_pos trivial]
  · rw [if_pos trivial]
    exact hoff
  · rw [if_pos trivial]

theorem ScriptCtrl_Clear_keeps_loop_stack_witness :
    (RingOfBits demoCfg 2 ∧ openLoopWorld.buf.isClearing = false ∧
      openLoopWorld.buf.loopDepth = 1) ∧
    ((addAll demoCfg [plainCmd CmdCode.LOOP_ON [], loopOffCmd 2]
        (ScriptCtrl_Run demoCfg
          (ScriptCtrl_Add demoCfg (plainCmd CmdCode.DELETE []) openLoopWorld))).eeprom.slot
            1).loopEnd.depth = 1 :=
  ⟨⟨demoCfg_ring, rfl, rfl⟩,
    (ScriptCtrl_Clear_keeps_loop_stack demoCfg 2 demoCfg_ring (by decide) openLoopWorld
      (plainCmd CmdCode.DELETE []) (plainCmd CmdCode.LOOP_ON []) (loopOffCmd 2) rfl (by decide)
      rfl rfl rfl).2.2.2.2.2.1⟩

/-! ## A command that `ScriptCtrl_Run` does not know -/

/-- A tick that loads a command of a kind without a case in the `switch` of `ScriptCtrl_Run`
only loads it. -/
theorem ScriptCtrl_Run_unknown_kind (cfg : ScriptCfg) (w : World)
    (hclr : w.buf.isClearing = false) (hne : w.buf.execute ≠ w.buf.write)
    (h1 : (w.eeprom.slot w.buf.execute).cmd ≠ CmdCode.LOOP_ON)
    (h2 : (w.eeprom.slot w.buf.execute).cmd ≠ CmdCode.LOOP_OFF)
    (h3 : (w.eeprom.slot w.buf.execute).cmd ≠ CmdCode.SET_COLOR)
    (h4 : (w.eeprom.slot w.buf.execute).cmd ≠ CmdCode.SET_FADE) :
    ScriptCtrl_Run cfg w = { w with nextCmd := w.eeprom.slot w.buf.execute } := by
  cases hk : (w.eeprom.slot w.buf.execute).cmd with
  | LOOP_ON => exact absurd hk h1
  | LOOP_OFF => exact absurd hk h2
  | SET_COLOR => exact absurd hk h3
  | SET_FADE => exact absurd hk h4
  | DELETE => simp [ScriptCtrl_Run, hclr, hne, hk]
  | WAIT => simp [ScriptCtrl_Run, hclr, hne, hk]
  | OTHER code => simp [ScriptCtrl_Run, hclr, hne, hk]

/-- What `ScriptCtrl_Write` leaves alone, and its two outcomes. -/
theorem ScriptCtrl_Write_frame (cfg : ScriptCfg) (c : led_cmd) (w : World) :
    (ScriptCtrl_Write cfg c w).ledstrip = w.ledstrip ∧
      (ScriptCtrl_Write cfg c w).buf.read = w.buf.read ∧
      (ScriptCtrl_Write cfg c w).buf.execute = w.buf.execute ∧
      (ScriptCtrl_Write cfg c w).buf.isClearing = w.buf.isClearing ∧
      (((ScriptCtrl_Write cfg c w).buf.write = w.buf.write ∧
          (ScriptCtrl_Write cfg c w).eeprom.slot = w.eeprom.slot) ∨
        (ScriptBufInc cfg w.buf.write ≠ w.buf.read ∧
          (ScriptCtrl_Write cfg c w).buf.write = ScriptBufInc cfg w.buf.write ∧
          ∀ y, y ≠ w.buf.write → (ScriptCtrl_Write cfg c w).eeprom.slot y = w.eeprom.slot y)) := by
  have hu := uns8_ScriptBufInc cfg w.buf.write
  by_cases hfull : ScriptBufInc cfg w.buf.write = w.buf.read
  · rw [ScriptCtrl_Write_full cfg c w hfull]
    exact ⟨rfl, rfl, rfl, rfl, Or.inl ⟨rfl, rfl⟩⟩
  · obtain ⟨hb, hs⟩ := ScriptCtrl_Write_effect cfg c w hfull
    refine ⟨?_, by rw [hb], by rw [hb], by rw [hb], Or.inr ⟨hfull, by rw [hb], ?_⟩⟩
    · simp [ScriptCtrl_Write, hfull, ScriptBufSetWrite]
    · intro y hy
      rw [hs]
      exact if_neg hy

/-- What `ScriptCtrl_Add` of a command other than `DELETE` leaves alone on a buffer that is
not clearing, and its two outcomes. -/
theorem ScriptCtrl_Add_frame (cfg : ScriptCfg) (c : led_cmd) (w : World)
    (hclr : w.buf.isClearing = false) (hc : c.cmd ≠ CmdCode.DELETE) :
    (ScriptCtrl_Add cfg c w).ledstrip = w.ledstrip ∧
      (ScriptCtrl_Add cfg c w).buf.read = w.buf.read ∧
      (ScriptCtrl_Add cfg c w).buf.execute = w.buf.execute ∧
      (ScriptCtrl_Add cfg c w).buf.isClearing = false ∧
      (((ScriptCtrl_Add cfg c w).buf.write = w.buf.write ∧
          (ScriptCtrl_Add cfg c w).eeprom.slot = w.eeprom.slot) ∨
        (ScriptBufInc cfg w.buf.write ≠ w.buf.read ∧
          (ScriptCtrl_Add cfg c w).buf.write = ScriptBufInc cfg w.buf.write ∧
          ∀ y, y ≠ w.buf.write → (ScriptCtrl_Add cfg c w).eeprom.slot y = w.eeprom.slot y)) := by
  by_cases hon : c.cmd = CmdCode.LOOP_ON
  · rw [ScriptCtrl_Add_loopOn cfg c w hclr hon]
    have h := ScriptCtrl_Write_frame cfg c
      { w with buf := { w.buf with
          loopStart := fun i => if i = w.buf.loopDepth then w.buf.write else w.buf.loopStart i
          loopDepth := uns8 (w.buf.loopDepth + 1) } }
    exact ⟨h.1, h.2.1, h.2.2.1, h.2.2.2.1.trans hclr, h.2.2.2.2⟩
  · by_cases hoff : c.cmd = CmdCode.LOOP_OFF
    · rw [ScriptCtrl_Add_loopOff cfg c w hclr hoff]
      have h := ScriptCtrl_Write_frame cfg
        { c with loopEnd :=
            { startIndex := ScriptBufInc cfg (w.buf.loopStart (uns8 (w.buf.loopDepth + 255)))
              depth := uns8 (w.buf.loopDepth + 255)
              counter := c.loopEnd.numLoops
              numLoops := c.loopEnd.numLoops } }
        { w with buf := { w.buf with loopDepth := uns8 (w.buf.loopDepth + 255) } }
      exact ⟨h.1, h.2.1, h.2.2.1, h.2.2.2.1.trans hclr, h.2.2.2.2⟩
    · rw [ScriptCtrl_Add_plain cfg c w hclr ⟨hc, hon, hoff⟩]
      have h := ScriptCtrl_Write_frame cfg c w
      exact ⟨h.1, h.2.1, h.2.2.1, h.2.2.2.1.trans hclr, h.2.2.2.2⟩

theorem ring_dist {n a b : Nat} (ha : a < n) (hb : b < n) :
    (a + n - b) % n = if b ≤ a then a - b else a + n - b := by
  by_cases h : b ≤ a
  · rw [if_pos h, show a + n - b = (a - b) + n by omega, Nat.add_mod_right]
    exact Nat.mod_eq_of_lt (by omega)
  · rw [if_neg h]
    exact Nat.mod_eq_of_lt (by omega)

/-- While `execute` lies on the arc from `read` to `write`, it still does so after `write` has
advanced by one slot without reaching `read`, and the new `write` is not `execute`. -/
theorem onArc_write_advances {n rd ex wr : Nat} (hr : rd < n) (he : ex < n) (hw : wr < n)
    (harc : onArc n rd ex wr) (hroom : (wr + 1) % n ≠ rd) :
    onArc n rd ex ((wr + 1) % n) ∧ ex ≠ (wr + 1) % n := by
  unfold onArc at harc ⊢
  have hlt : (wr + 1) % n < n := Nat.mod_lt _ (by omega)
  have hcase : (wr + 1 < n ∧ (wr + 1) % n = wr + 1) ∨ (wr + 1 = n ∧ (wr + 1) % n = 0) := by
    by_cases h1 : wr + 1 < n
    · exact Or.inl ⟨h1, Nat.mod_eq_of_lt h1⟩
    · have h0 : wr + 1 = n := by omega
      exact Or.inr ⟨h0, by rw [h0, Nat.mod_self]⟩
  generalize (wr + 1) % n = w1 at hlt hcase hroom ⊢
  rw [ring_dist he hr, ring_dist hw hr] at harc
  rw [ring_dist he hr, ring_dist hlt hr]
  rcases hcase with ⟨h1, h2⟩ | ⟨h1, h2⟩ <;> subst h2 <;> split_ifs at harc ⊢ <;>
    constructor <;> omega

theorem Stuck.start {bits : Nat} {w : World} (hclr : w.buf.isClearing = false)
    (hne : w.buf.execute ≠ w.buf.write) (hw : w.buf.write < 2 ^ bits)
    (harc : onArc (2 ^ bits) w.buf.read w.buf.execute w.buf.write) : Stuck bits w w :=
  ⟨hclr, rfl, rfl, rfl, rfl, hw, hne, harc⟩

/-- A tick or the addition of a command other than `DELETE` leaves a stuck buffer stuck. -/
theorem Stuck.step {cfg : ScriptCfg} {bits : Nat} (hring : RingOfBits cfg bits) {w v : World}
    (hr : w.buf.read < 2 ^ bits) (he : w.buf.execute < 2 ^ bits)
    (h1 : (w.eeprom.slot w.buf.execute).cmd ≠ CmdCode.LOOP_ON)
    (h2 : (w.eeprom.slot w.buf.execute).cmd ≠ CmdCode.LOOP_OFF)
    (h3 : (w.eeprom.slot w.buf.execute).cmd ≠ CmdCode.SET_COLOR)
    (h4 : (w.eeprom.slot w.buf.execute).cmd ≠ CmdCode.SET_FADE)
    (hs : Stuck bits w v) (op : ScriptOp) (hop : op.keepsScript) :
    Stuck bits w (ScriptOp.apply cfg v op) := by
  cases op with
  | Clear => exact absurd hop (fun h => h)
  | Run =>
    have hslot : v.eeprom.slot v.buf.execute = w.eeprom.slot w.buf.execute := by
      rw [hs.hexec]
      exact hs.hslot
    have hrun : ScriptCtrl_Run cfg v = { v with nextCmd := v.eeprom.slot v.buf.execute } :=
      ScriptCtrl_Run_unknown_kind cfg v hs.hclr hs.hne (by rw [hslot]; exact h1)
        (by rw [hslot]; exact h2) (by rw [hslot]; exact h3) (by rw [hslot]; exact h4)
    show Stuck bits w (ScriptCtrl_Run cfg v)
    rw [hrun]
    exact ⟨hs.hclr, hs.hexec, hs.hread, hs.hlog, hs.hslot, hs.hw, hs.hne, hs.harc⟩
  | Add pCmd =>
    show Stuck bits w (ScriptCtrl_Add cfg pCmd v)
    obtain ⟨f1, f2, f3, f4, f5⟩ := ScriptCtrl_Add_frame cfg pCmd v hs.hclr hop
    rcases f5 with ⟨g1, g2⟩ | ⟨g0, g1, g2⟩
    · refine ⟨f4, f3.trans hs.hexec, f2.trans hs.hread, f1.trans hs.hlog, ?_, ?_, ?_, ?_⟩
      · rw [g2]
        exact hs.hslot
      · rw [g1]
        exact hs.hw
      · rw [f3, g1]
        exact hs.hne
      · rw [f2, f3, g1]
        exact hs.harc
    · have hinc := ScriptBufInc_eq_mod hring v.buf.write
      have hpos : 0 < 2 ^ bits := Nat.pow_pos (by decide)
      have hadv := @onArc_write_advances (2 ^ bits) v.buf.read v.buf.execute v.buf.write
        (by rw [hs.hread]; exact hr) (by rw [hs.hexec]; exact he) hs.hw
        hs.harc (by rw [← hinc]; exact g0)
      refine ⟨f4, f3.trans hs.hexec, f2.trans hs.hread, f1.trans hs.hlog, ?_, ?_, ?_, ?_⟩
      · rw [g2 _ (by rw [← hs.hexec]; exact hs.hne)]
        exact hs.hslot
      · rw [g1, hinc]
        exact Nat.mod_lt _ hpos
      · rw [f3, g1, hinc]
        exact hadv.2
      · rw [f2, f3, g1, hinc]
        exact hadv.1

theorem Stuck.applyOps {cfg : ScriptCfg} {bits : Nat} (hring : RingOfBits cfg bits) {w : World}
    (hr : w.buf.read < 2 ^ bits) (he : w.buf.execute < 2 ^ bits)
    (h1 : (w.eeprom.slot w.buf.execute).cmd ≠ CmdCode.LOOP_ON)
    (h2 : (w.eeprom.slot w.buf.execute).cmd ≠ CmdCode.LOOP_OFF)
    (h3 : (w.eeprom.slot w.buf.execute).cmd ≠ CmdCode.SET_COLOR)
    (h4 : (w.eeprom.slot w.buf.execute).cmd ≠ CmdCode.SET_FADE) :
    ∀ (ops : List ScriptOp) (v : World), Stuck bits w v → (∀ op ∈ ops, op.keepsScript) →
      Stuck bits w (applyOps cfg ops v) := by
  intro ops
  induction ops with
  | nil => intro v hs _; exact hs
  | cons op rest ih =>
    intro v hs hops
    exact ih _ (Stuck.step hring hr he h1 h2 h3 h4 hs op (hops op (List.mem_cons_self _ _)))
      (fun o ho => hops o (List.mem_cons_of_mem _ ho))

/-- C35: the command stored at `execute` (buffer not clearing, `execute != write`) has a kind
other than `LOOP_ON`, `LOOP_OFF`, `SET_COLOR` and `SET_FADE`, for example `WAIT`. Then a tick
loads the command and changes nothing else, so after any number of ticks the indices, the
stored blocks and the strip log are what they were. With `execute` on the arc from `read` to
`write` the same holds for `execute`, `read`, the strip log and the block at `execute` after
any sequence of ticks and additions of commands other than `DELETE`: the buffer stays stuck
in front of that command until it is cleared. -/
theorem ScriptCtrl_Run_unknown_kind_stalls (cfg : ScriptCfg) (w : World)
    (hclr : w.buf.isClearing = false) (hne : w.buf.execute ≠ w.buf.write)
    (h1 : (w.eeprom.slot w.buf.execute).cmd ≠ CmdCode.LOOP_ON)
    (h2 : (w.eeprom.slot w.buf.execute).cmd ≠ CmdCode.LOOP_OFF)
    (h3 : (w.eeprom.slot w.buf.execute).cmd ≠ CmdCode.SET_COLOR)
    (h4 : (w.eeprom.slot w.buf.execute).cmd ≠ CmdCode.SET_FADE) :
    ScriptCtrl_Run cfg w = { w with nextCmd := w.eeprom.slot w.buf.execute } ∧
      (∀ t, 1 ≤ t → runTicks cfg t w = { w with nextCmd := w.eeprom.slot w.buf.execute }) ∧
      (∀ (bits : Nat) (ops : List ScriptOp), RingOfBits cfg bits →
        w.buf.read < 2 ^ bits → w.buf.write < 2 ^ bits → w.buf.execute < 2 ^ bits →
        onArc (2 ^ bits) w.buf.read w.buf.execute w.buf.write →
        (∀ op ∈ ops, op.keepsScript) →
        (applyOps cfg ops w).buf.execute = w.buf.execute ∧
          (applyOps cfg ops w).buf.read = w.buf.read ∧
          (applyOps cfg ops w).ledstrip = w.ledstrip ∧
          (applyOps cfg ops w).eeprom.slot w.buf.execute = w.eeprom.slot w.buf.execute ∧
          (applyOps cfg ops w).buf.execute ≠ (applyOps cfg ops w).buf.write) := by
  have hrun := ScriptCtrl_Run_unknown_kind cfg w hclr hne h1 h2 h3 h4
  refine ⟨hrun, ?_, ?_⟩
  · intro t ht
    obtain ⟨s, rfl⟩ : ∃ s, t = s + 1 := ⟨t - 1, by omega⟩
    clear ht
    induction s with
    | zero => exact hrun
    | succ s ih =>
      rw [runTicks_succ, ih]
      exact ScriptCtrl_Run_unknown_kind cfg _ hclr hne h1 h2 h3 h4
  · intro bits ops hring hr hw he harc hops
    have hs := Stuck.applyOps hring hr he h1 h2 h3 h4 ops w (Stuck.start hclr hne hw harc) hops
    exact ⟨hs.hexec, hs.hread, hs.hlog, hs.hslot, hs.hne⟩

theorem ScriptCtrl_Run_unknown_kind_stalls_witness :
    (waitingWorld.buf.isClearing = false ∧ waitingWorld.buf.execute ≠ waitingWorld.buf.write ∧
      (waitingWorld.eeprom.slot waitingWorld.buf.execute).cmd = CmdCode.WAIT ∧
      (waitingWorld.eeprom.slot 1).cmd = CmdCode.SET_COLOR) ∧
    (runTicks demoCfg 7 waitingWorld).buf.execute = 0 ∧
    (runTicks demoCfg 7 waitingWorld).buf.write = 2 ∧
    (runTicks demoCfg 7 waitingWorld).ledstrip = [] := by
  have h := (ScriptCtrl_Run_unknown_kind_stalls demoCfg waitingWorld rfl (by decide)
    (by decide) (by decide) (by decide) (by decide)).2.1 7 (by decide)
  refine ⟨⟨rfl, by decide, rfl, rfl⟩, ?_, ?_, ?_⟩
  · rw [h]
    rfl
  · rw [h]
    rfl
  · rw [h]
    rfl

/-! ## The request for the boot information -/

/-- C34: `BlReadInfo` sends exactly one request, the request for the boot information, and
never a second one. It succeeds if and only if the number of bytes received equals
`sizeof(BlInfo)`, and the boot information is then the received bytes; for every other
response length it raises `BlNoResponseException`. -/
theorem BlReadInfo_one_round_trip (cfg : BlCfg) (p : Proxy) :
    (BlReadInfo cfg p).2 = { p with sent := (p.sent ++ [BlRequest.Info]) } ∧
      ((p.respond p.sent BlRequest.Info).length = cfg.SIZEOF_BLINFO →
        (BlReadInfo cfg p).1 = Except.ok (p.respond p.sent BlRequest.Info)) ∧
      ((p.respond p.sent BlRequest.Info).length ≠ cfg.SIZEOF_BLINFO →
        (BlReadInfo cfg p).1 = Except.error BlError.BlNoResponseException) ∧
      ((∃ info, (BlReadInfo cfg p).1 = Except.ok info) ↔
        (p.respond p.sent BlRequest.Info).length = cfg.SIZEOF_BLINFO) := by
  unfold BlReadInfo
  by_cases hlen : (p.respond p.sent BlRequest.Info).length = cfg.SIZEOF_BLINFO
  · rw [BlRead_ok p _ _ hlen]
    exact ⟨rfl, fun _ => rfl, fun h => absurd hlen h, ⟨fun _ => hlen, fun _ => ⟨_, rfl⟩⟩⟩
  · have hbad : BlRead p BlRequest.Info cfg.SIZEOF_BLINFO
        = (Except.error BlError.BlNoResponseException,
            { p with sent := (p.sent ++ [BlRequest.Info]) }) := by
      unfold BlRead
      rw [if_pos (fun h => hlen h.symm)]
      rfl
    rw [hbad]
    refine ⟨rfl, fun h => absurd h hlen, fun _ => rfl, ⟨?_, fun h => absurd h hlen⟩⟩
    rintro ⟨info, h⟩
    cases h

theorem BlReadInfo_one_round_trip_witness :
    BlReadInfo demoBl ((demoDevice 1024 300).proxy demoBl)
        = (Except.ok [0, 4, 0],
            { (demoDevice 1024 300).proxy demoBl with sent := [BlRequest.Info] }) ∧
      (BlReadInfo demoBl (answeringProxy [0, 4])).1
        = Except.error BlError.BlNoResponseException := by
  have h1 := BlReadInfo_one_round_trip demoBl ((demoDevice 1024 300).proxy demoBl)
  have h2 := BlReadInfo_one_round_trip demoBl (answeringProxy [0, 4])
  exact ⟨Prod.ext (h1.2.1 rfl) h1.1, h2.2.2.1 (by decide)⟩

/-! ## The erase requests stay in front of the boot boundary -/

/-- The requests `sendAcked` has sent are a prefix of the requests it was given, and it ends
with success or with the no-response error. -/
theorem sendAcked_prefix (ack : Nat) :
    ∀ (reqs : List BlRequest) (p : Proxy),
      (∃ k, (sendAcked ack p reqs).2 = { p with sent := (p.sent ++ reqs.take k) }) ∧
        ((sendAcked ack p reqs).1 = Except.ok () ∨
          (sendAcked ack p reqs).1 = Except.error BlError.BlNoResponseException) := by
  intro reqs
  induction reqs with
  | nil => intro p; exact ⟨⟨0, by simp [sendAcked_nil]⟩, Or.inl rfl⟩
  | cons r rs ih =>
    intro p
    rw [sendAcked_cons]
    by_cases h : p.respond p.sent r = [ack]
    · rw [if_pos h]
      obtain ⟨⟨k, hk⟩, hres⟩ := ih { p with sent := (p.sent ++ [r]) }
      refine ⟨⟨k + 1, ?_⟩, hres⟩
      rw [hk]
      simp
    · rw [if_neg h]
      exact ⟨⟨1, by simp⟩, Or.inr rfl⟩

theorem eraseReqs_mem (cfg : BlCfg) (address : Nat) (r : BlRequest)
    (hC : 0 < cfg.FLASH_ERASE_BLOCKSIZE * cfg.FLASH_ERASE_BLOCKS)
    (h : r ∈ eraseReqs cfg address) :
    ∃ e, r = BlRequest.FlashErase e (cfg.FLASH_ERASE_BLOCKS % 256) ∧ e ≤ address ∧
      cfg.FLASH_ERASE_BLOCKSIZE * cfg.FLASH_ERASE_BLOCKS < e := by
  unfold eraseReqs at h
  rw [List.mem_map] at h
  obtain ⟨i, hi, hr⟩ := h
  rw [List.mem_range] at hi
  refine ⟨_, hr.symm, Nat.sub_le _ _, ?_⟩
  generalize cfg.FLASH_ERASE_BLOCKSIZE * cfg.FLASH_ERASE_BLOCKS = C at hC hi ⊢
  have h1 : (i + 1) * C ≤ (address - 1) / C * C := Nat.mul_le_mul_right C hi
  have h2 : (address - 1) / C * C ≤ address - 1 := Nat.div_mul_le_self _ _
  rw [Nat.succ_mul] at h1
  omega

/-- C38: the device reports a boot boundary `b` with
`b ≥ C = FLASH_ERASE_BLOCKSIZE * FLASH_ERASE_BLOCKS` (and `C > 0`). Then, whatever the device
answers to the erase requests, the full `BlFlashErase()` ends (with success or with
`BlNoResponseException`), `firstAddress = b - 1` does not wrap around, and every erase request
it has sent has an end address `e < b`; the end addresses sent from inside the loop lie above
`C`, where the subtraction of `C` does not wrap around, and the only other end address is
`C - 1`. -/
theorem BlFlashEraseAll_below_boundary (cfg : BlCfg) (p : Proxy) (info : List Nat)
    (hC : 0 < cfg.FLASH_ERASE_BLOCKSIZE * cfg.FLASH_ERASE_BLOCKS)
    (hsize : info.length = cfg.SIZEOF_BLINFO)
    (hinfo : p.respond p.sent BlRequest.Info = info)
    (hb : cfg.FLASH_ERASE_BLOCKSIZE * cfg.FLASH_ERASE_BLOCKS ≤ BlInfo_GetAddress cfg info) :
    ((BlFlashEraseAll cfg p).1 = Except.ok () ∨
        (BlFlashEraseAll cfg p).1 = Except.error BlError.BlNoResponseException) ∧
      (BlInfo_GetAddress cfg info + 2 ^ 32 - 1) % 2 ^ 32 = BlInfo_GetAddress cfg info - 1 ∧
      (∃ erased, (BlFlashEraseAll cfg p).2.sent = p.sent ++ BlRequest.Info :: erased ∧
        ∀ r ∈ erased, ∃ e n, r = BlRequest.FlashErase e n ∧ e < BlInfo_GetAddress cfg info ∧
          (cfg.FLASH_ERASE_BLOCKSIZE * cfg.FLASH_ERASE_BLOCKS < e ∨
            e = cfg.FLASH_ERASE_BLOCKSIZE * cfg.FLASH_ERASE_BLOCKS - 1)) := by
  have hb2 : BlInfo_GetAddress cfg info < 2 ^ 32 := Nat.mod_lt _ (by decide)
  generalize hbdef : BlInfo_GetAddress cfg info = b at hb hb2 ⊢
  have h1 : (b + 2 ^ 32 - 1) % 2 ^ 32 = b - 1 := by
    rw [show b + 2 ^ 32 - 1 = (b - 1) + 2 ^ 32 by omega, Nat.add_mod_right]
    exact Nat.mod_eq_of_lt (by omega)
  have h2 : (cfg.FLASH_ERASE_BLOCKS * cfg.FLASH_ERASE_BLOCKSIZE + 2 ^ 32 - 1) % 2 ^ 32
      = cfg.FLASH_ERASE_BLOCKSIZE * cfg.FLASH_ERASE_BLOCKS - 1 := by
    rw [Nat.mul_comm cfg.FLASH_ERASE_BLOCKS cfg.FLASH_ERASE_BLOCKSIZE]
    generalize cfg.FLASH_ERASE_BLOCKSIZE * cfg.FLASH_ERASE_BLOCKS = C at hC hb
    rw [show C + 2 ^ 32 - 1 = (C - 1) + 2 ^ 32 by omega, Nat.add_mod_right]
    exact Nat.mod_eq_of_lt (by omega)
  have hrun : BlFlashEraseAll cfg p
      = sendAcked 0x03 { p with sent := (p.sent ++ [BlRequest.Info]) }
          (eraseReqs cfg (b - 1) ++
            [BlRequest.FlashErase (cfg.FLASH_ERASE_BLOCKSIZE * cfg.FLASH_ERASE_BLOCKS - 1)
              (cfg.FLASH_ERASE_BLOCKS % 256)]) := by
    unfold BlFlashEraseAll BlReadInfo
    rw [BlRead_ok p _ _ (by rw [hinfo]; exact hsize), hinfo]
    simp only
    rw [eraseFrom_sendAcked cfg _ _ hC, hbdef, h1, h2]
  obtain ⟨⟨k, hk⟩, hres⟩ := sendAcked_prefix 0x03
    (eraseReqs cfg (b - 1) ++
      [BlRequest.FlashErase (cfg.FLASH_ERASE_BLOCKSIZE * cfg.FLASH_ERASE_BLOCKS - 1)
        (cfg.FLASH_ERASE_BLOCKS % 256)])
    { p with sent := (p.sent ++ [BlRequest.Info]) }
  rw [hrun]
  refine ⟨hres, h1, ⟨List.take k (eraseReqs cfg (b - 1) ++
      [BlRequest.FlashErase (cfg.FLASH_ERASE_BLOCKSIZE * cfg.FLASH_ERASE_BLOCKS - 1)
        (cfg.FLASH_ERASE_BLOCKS % 256)]), ?_, ?_⟩⟩
  · rw [hk]
    exact List.append_assoc _ _ _
  · intro r hr
    have hr2 := List.mem_of_mem_take hr
    rw [List.mem_append, List.mem_singleton] at hr2
    rcases hr2 with hr2 | hr2
    · obtain ⟨e, he, hle, hgt⟩ := eraseReqs_mem cfg (b - 1) r hC hr2
      exact ⟨e, _, he, by omega, Or.inl hgt⟩
    · exact ⟨_, _, hr2, by omega, Or.inr rfl⟩

theorem BlFlashEraseAll_below_boundary_witness :
    (0 < demoBl.FLASH_ERASE_BLOCKSIZE * demoBl.FLASH_ERASE_BLOCKS ∧
      demoBl.FLASH_ERASE_BLOCKSIZE * demoBl.FLASH_ERASE_BLOCKS
        ≤ BlInfo_GetAddress demoBl (demoDevice 1024 300).info) ∧
    ((BlFlashEraseAll demoBl ((demoDevice 1024 300).proxy demoBl)).1 = Except.ok () ∨
      (BlFlashEraseAll demoBl ((demoDevice 1024 300).proxy demoBl)).1
        = Except.error BlError.BlNoResponseException) ∧
    (∃ erased,
      (BlFlashEraseAll demoBl ((demoDevice 1024 300).proxy demoBl)).2.sent
          = ((demoDevice 1024 300).proxy demoBl).sent ++ BlRequest.Info :: erased ∧
        ∀ r ∈ erased, ∃ e n, r = BlRequest.FlashErase e n ∧
          e < BlInfo_GetAddress demoBl (demoDevice 1024 300).info ∧
          (demoBl.FLASH_ERASE_BLOCKSIZE * demoBl.FLASH_ERASE_BLOCKS < e ∨
            e = demoBl.FLASH_ERASE_BLOCKSIZE * demoBl.FLASH_ERASE_BLOCKS - 1)) :=
  ⟨⟨by decide, by decide⟩,
    (BlFlashEraseAll_below_boundary demoBl ((demoDevice 1024 300).proxy demoBl)
      (demoDevice 1024 300).info (by decide) rfl rfl (by decide)).1,
    (BlFlashEraseAll_below_boundary demoBl ((demoDevice 1024 300).proxy demoBl)
      (demoDevice 1024 300).info (by decide) rfl rfl (by decide)).2.2⟩

/-! ## The number of reads of the version lookup -/

/-- The chunk loop of the flash read on a device that answers every read request with as many
bytes as requested: it ends with success and has sent the requests of one read. -/
theorem readChunks_group (blockSize : Nat) (hB : 0 < blockSize) :
    ∀ (fuel : Nat) (p : Proxy) (address numBytes sum : Nat) (buffer : List Nat),
      (∀ sent a k, (p.respond sent (BlRequest.FlashRead a k)).length = k) →
      numBytes ≤ fuel + blockSize →
      ∃ g bytes, IsFlashRead blockSize numBytes g ∧
        readChunks blockSize BlRequest.FlashRead fuel p address numBytes sum buffer
          = (Except.ok (sum + numBytes, buffer ++ bytes),
              { p with sent := (p.sent ++ g) }) := by
  have hlast : ∀ (p : Proxy) (address numBytes sum : Nat) (buffer : List Nat),
      (∀ sent a k, (p.respond sent (BlRequest.FlashRead a k)).length = k) →
      ¬ numBytes > blockSize →
      ∃ g bytes, IsFlashRead blockSize numBytes g ∧
        (match BlRead p (BlRequest.FlashRead address numBytes) numBytes with
          | (Except.error e, p1) =>
            ((Except.error e, p1) : Except BlError (Nat × List Nat) × Proxy)
          | (Except.ok bytes, p1) => (Except.ok (sum + numBytes, buffer ++ bytes), p1))
          = (Except.ok (sum + numBytes, buffer ++ bytes),
              { p with sent := (p.sent ++ g) }) := by
    intro p address numBytes sum buffer hdev hle
    refine ⟨[BlRequest.FlashRead address numBytes],
      p.respond p.sent (BlRequest.FlashRead address numBytes), ⟨?_, ?_, ?_⟩, ?_⟩
    · rw [Nat.div_eq_of_lt (by omega)]
      rfl
    · simp [requested]
    · intro r hr
      exact ⟨_, _, List.mem_singleton.mp hr⟩
    · rw [BlRead_ok p _ numBytes (hdev _ _ _)]
  intro fuel
  induction fuel with
  | zero =>
    intro p address numBytes sum buffer hdev hfuel
    have hle : ¬ numBytes > blockSize := by omega
    unfold readChunks
    rw [if_neg hle]
    exact hlast p address numBytes sum buffer hdev hle
  | succ fuel ih =>
    intro p address numBytes sum buffer hdev hfuel
    unfold readChunks
    by_cases hgt : numBytes > blockSize
    · rw [if_pos hgt, BlRead_ok p _ blockSize (hdev _ _ _)]
      simp only
      obtain ⟨g, bytes, ⟨hg1, hg2, hg3⟩, hrun⟩ :=
        ih ⟨p.respond, p.sent ++ [BlRequest.FlashRead address blockSize]⟩
          ((address + blockSize) % 2 ^ 32) (numBytes - blockSize) (sum + blockSize)
          (buffer ++ p.respond p.sent (BlRequest.FlashRead address blockSize)) hdev (by omega)
      refine ⟨BlRequest.FlashRead address blockSize :: g,
        p.respond p.sent (BlRequest.FlashRead address blockSize) ++ bytes, ⟨?_, ?_, ?_⟩, ?_⟩
      · have hd : (numBytes - 1) / blockSize
            = (numBytes - blockSize - 1) / blockSize + 1 := by
          have : numBytes - 1 = (numBytes - blockSize - 1) + blockSize := by omega
          rw [this, Nat.add_div_right _ hB]
        rw [List.length_cons, hg1, hd]
      · rw [List.map_cons, List.sum_cons, hg2]
        show blockSize + (numBytes - blockSize) = numBytes
        omega
      · intro r hr
        rcases List.mem_cons.mp hr with h | h
        · exact ⟨_, _, h⟩
        · exact hg3 r h
      · rw [hrun]
        have hsum : sum + blockSize + (numBytes - blockSize) = sum + numBytes := by omega
        rw [hsum, List.append_assoc, List.append_assoc]
        rfl
    · rw [if_neg hgt]
      exact hlast p address numBytes sum buffer hdev hgt

/-- A flash read on a device that answers every read request with as many bytes as requested:
either the range check rejects it and nothing is sent, or it succeeds and has sent the
requests of one read. -/
theorem BlReadFlash_group (cfg : BlCfg) (hB : 0 < cfg.FLASH_READ_BLOCKSIZE) (p : Proxy)
    (address numBytes : Nat)
    (hdev : ∀ sent a k, (p.respond sent (BlRequest.FlashRead a k)).length = k) :
    BlReadFlash cfg p address numBytes = (Except.error BlError.WiflyControlException, p) ∨
      ∃ g bytes, IsFlashRead cfg.FLASH_READ_BLOCKSIZE numBytes g ∧
        BlReadFlash cfg p address numBytes
          = (Except.ok (numBytes, bytes), { p with sent := (p.sent ++ g) }) := by
  unfold BlReadFlash
  by_cases hchk : (numBytes + address) % 2 ^ cfg.SIZE_T_BITS > cfg.FLASH_SIZE
  · rw [if_pos hchk]
    exact Or.inl rfl
  · rw [if_neg hchk]
    obtain ⟨g, bytes, hg, hrun⟩ := readChunks_group cfg.FLASH_READ_BLOCKSIZE hB numBytes p
      address numBytes 0 [] hdev (Nat.le_add_right _ _)
    refine Or.inr ⟨g, bytes, hg, ?_⟩
    rw [hrun, Nat.zero_add, List.nil_append]

/-- The search loop of the version lookup on a device that answers every read request with as
many bytes as requested: with enough fuel it ends, after at most `log2 readblock` probe reads
of 32 bytes, either with `readblock ≤ 32` or with the range error of a probe. -/
theorem fwVersionSearch_groups (cfg : BlCfg) (hB : 0 < cfg.FLASH_READ_BLOCKSIZE) :
    ∀ (fuel : Nat) (p : Proxy) (buffer : List Nat) (readblock address : Nat),
      (∀ sent a k, (p.respond sent (BlRequest.FlashRead a k)).length = k) →
      readblock < 33 * 2 ^ fuel →
      ∃ groups : List (List BlRequest),
        groups.length ≤ Nat.log 2 readblock ∧
        (∀ g ∈ groups, IsFlashRead cfg.FLASH_READ_BLOCKSIZE 32 g) ∧
        (fwVersionSearch cfg fuel p buffer readblock address).2
          = { p with sent := (p.sent ++ groups.flatten) } ∧
        ((∃ rb a buf, (fwVersionSearch cfg fuel p buffer readblock address).1
            = Except.ok (rb, a, buf)) ∨
          (fwVersionSearch cfg fuel p buffer readblock address).1
            = Except.error BlError.WiflyControlException) := by
  intro fuel
  induction fuel with
  | zero =>
    intro p buffer readblock address hdev hfuel
    have hle : ¬ readblock > 32 := by omega
    unfold fwVersionSearch
    rw [if_neg hle]
    exact ⟨[], Nat.zero_le _, fun g hg => absurd hg (List.not_mem_nil g), by simp,
      Or.inl ⟨_, _, _, rfl⟩⟩
  | succ fuel ih =>
    intro p buffer readblock address hdev hfuel
    unfold fwVersionSearch
    by_cases hgt : readblock > 32
    · rw [if_pos hgt]
      have hlog : Nat.log 2 (readblock / 2) + 1 ≤ Nat.log 2 readblock := by
        rw [Nat.log_div_base]
        have : 1 ≤ Nat.log 2 readblock := by
          have h5 : Nat.log 2 32 ≤ Nat.log 2 readblock := Nat.log_mono_right (by omega)
          have e : Nat.log 2 32 = 5 := by
            rw [show (32 : Nat) = 2 ^ 5 by norm_num, Nat.log_pow (by decide)]
          omega
        omega
      rcases BlReadFlash_group cfg hB p address 32 hdev with hrej | ⟨g, bytes, hg, hread⟩
      · rw [hrej]
        exact ⟨[], Nat.zero_le _, fun g hg => absurd hg (List.not_mem_nil g), by simp,
          Or.inr rfl⟩
      · rw [hread]
        simp only
        have hhalf : readblock / 2 < 33 * 2 ^ fuel := by
          rw [Nat.pow_succ] at hfuel
          omega
        obtain ⟨groups, hlen, hall, hsent, hres⟩ :=
          ih ⟨p.respond, p.sent ++ g⟩ (bytes ++ buffer.drop bytes.length) (readblock / 2)
            (if ((bytes ++ buffer.drop bytes.length).take 32).all (fun x => x == 0xff)
              then (address + 2 ^ 32 - readblock / 2) % 2 ^ 32
              else (address + readblock / 2) % 2 ^ 32) hdev hhalf
        refine ⟨g :: groups, ?_, ?_, ?_, hres⟩
        · rw [List.length_cons]
          omega
        · intro g1 hg1
          rcases List.mem_cons.mp hg1 with h | h
          · rw [h]
            exact hg
          · exact hall g1 h
        · rw [hsent, List.flatten_cons, List.append_assoc]
    · rw [if_neg hgt]
      exact ⟨[], Nat.zero_le _, fun g hg => absurd hg (List.not_mem_nil g), by simp,
        Or.inl ⟨_, _, _, rfl⟩⟩

/-- The reads of `BlReadFwVersion` on a device that answers every flash read request with
as many bytes as requested (read block size above 0), with the boot boundary `b` the device
reports. The search loop ends (32 iterations are never exceeded), and behind the request for the boot
information the method has sent the requests of at most `ceil(log2 b)` probe reads of 32
bytes, followed by the requests of the one final read of 64 bytes. The final read is missing
only where the method raises an exception before it: the no-response error of the boot
information, or the range error of a probe or of the final read itself. -/
theorem BlReadFwVersion_read_count (cfg : BlCfg) (p : Proxy)
    (hB : 0 < cfg.FLASH_READ_BLOCKSIZE)
    (hdev : ∀ sent a k, (p.respond sent (BlRequest.FlashRead a k)).length = k) :
    ∃ (groups : List (List BlRequest)) (final : List BlRequest),
      (BlReadFwVersion cfg p).2.sent
        = p.sent ++ [BlRequest.Info] ++ groups.flatten ++ final ∧
      groups.length ≤ Nat.clog 2 (BlInfo_GetAddress cfg (p.respond p.sent BlRequest.Info)) ∧
      (∀ g ∈ groups, IsFlashRead cfg.FLASH_READ_BLOCKSIZE 32 g) ∧
      (final = [] ∨ IsFlashRead cfg.FLASH_READ_BLOCKSIZE 64 final) ∧
      ((∃ v, (BlReadFwVersion cfg p).1 = Except.ok v) →
        IsFlashRead cfg.FLASH_READ_BLOCKSIZE 64 final) ∧
      (final = [] →
        (BlReadFwVersion cfg p).1 = Except.error BlError.BlNoResponseException ∨
          (BlReadFwVersion cfg p).1 = Except.error BlError.WiflyControlException) ∧
      (BlReadFwVersion cfg p).1 ≠ Except.error BlError.TransferNeverEnds := by
  unfold BlReadFwVersion BlReadInfo
  by_cases hlen : (p.respond p.sent BlRequest.Info).length = cfg.SIZEOF_BLINFO
  · rw [BlRead_ok p _ _ hlen]
    simp only
    generalize hb : BlInfo_GetAddress cfg (p.respond p.sent BlRequest.Info) = b
    have hb32 : b < 2 ^ 32 := by
      rw [← hb]
      exact Nat.mod_lt _ (by decide)
    obtain ⟨groups, hcount, hall, hsent, hres⟩ :=
      fwVersionSearch_groups cfg hB 32 ⟨p.respond, p.sent ++ [BlRequest.Info]⟩
        (List.replicate 256 0xff) (b / 2) (b / 2) hdev (by omega)
    have hbound : groups.length ≤ Nat.clog 2 b :=
      le_trans hcount (le_trans (Nat.log_mono_right (Nat.div_le_self b 2)) (Nat.log_le_clog 2 b))
    rcases hS : fwVersionSearch cfg 32 ⟨p.respond, p.sent ++ [BlRequest.Info]⟩
        (List.replicate 256 0xff) (b / 2) (b / 2) with ⟨res, p2⟩
    rw [hS] at hsent hres
    simp only at hsent hres
    subst hsent
    cases res with
    | error e =>
      rcases hres with ⟨rb, a, buf, h⟩ | h
      · cases h
      · cases h
        refine ⟨groups, [], by simp, hbound, hall, Or.inl rfl, ?_, ?_, ?_⟩
        · rintro ⟨v, hv⟩
          cases hv
        · intro _
          exact Or.inr rfl
        · intro h
          cases h
    | ok val =>
      obtain ⟨rb, a, buf⟩ := val
      simp only
      rcases BlReadFlash_group cfg hB
          ⟨p.respond, p.sent ++ [BlRequest.Info] ++ groups.flatten⟩
          ((a + 2 ^ 32 - rb * 2) % 2 ^ 32) 64 hdev with hrej | ⟨g, bytes, hg, hread⟩
      · rw [hrej]
        refine ⟨groups, [], by simp, hbound, hall, Or.inl rfl, ?_, ?_, ?_⟩
        · rintro ⟨v, hv⟩
          cases hv
        · intro _
          exact Or.inr rfl
        · intro h
          cases h
      · rw [hread]
        refine ⟨groups, g, rfl, hbound, hall, Or.inr hg, fun _ => hg, ?_, ?_⟩
        · intro hnil
          have h1 := hg.1
          rw [hnil] at h1
          simp at h1
        · intro h
          cases h
  · have hbad : BlRead p BlRequest.Info cfg.SIZEOF_BLINFO
        = (Except.error BlError.BlNoResponseException,
            { p with sent := (p.sent ++ [BlRequest.Info]) }) := by
      unfold BlRead
      rw [if_pos (fun h => hlen h.symm)]
      rfl
    rw [hbad]
    refine ⟨[], [], by simp, Nat.zero_le _, fun g hg => absurd hg (List.not_mem_nil g),
      Or.inl rfl, ?_, ?_, ?_⟩
    · rintro ⟨v, hv⟩
      cases hv
    · intro _
      exact Or.inl rfl
    · intro h
      cases h

theorem BlReadFwVersion_read_count_witness :
    (0 < demoBl.FLASH_READ_BLOCKSIZE) ∧
    ∃ (groups : List (List BlRequest)) (final : List BlRequest),
      (BlReadFwVersion demoBl ((demoDevice 1024 1000).proxy demoBl)).2.sent
        = ((demoDevice 1024 1000).proxy demoBl).sent ++ [BlRequest.Info] ++ groups.flatten
          ++ final ∧
      groups.length ≤ Nat.clog 2 (BlInfo_GetAddress demoBl
        (((demoDevice 1024 1000).proxy demoBl).respond
          ((demoDevice 1024 1000).proxy demoBl).sent BlRequest.Info)) ∧
      (∀ g ∈ groups, IsFlashRead demoBl.FLASH_READ_BLOCKSIZE 32 g) ∧
      (final = [] ∨ IsFlashRead demoBl.FLASH_READ_BLOCKSIZE 64 final) :=
  ⟨by decide, by
    obtain ⟨groups, final, h1, h2, h3, h4, _⟩ :=
      BlReadFwVersion_read_count demoBl ((demoDevice 1024 1000).proxy demoBl) (by decide)
        (by intro sent a k; simp [Device.proxy, Device.answer])
    exact ⟨groups, final, h1, h2, h3, h4⟩⟩

/-- The reads of the version lookup on the example device with the application in the flash
addresses 0 to 999: four probes (`ceil(log2 1024) = 10`) and the final read. -/
theorem BlReadFwVersion_example_reads :
    (BlReadFwVersion demoBl ((demoDevice 1024 1000).proxy demoBl)).2.sent
        = [BlRequest.Info] ++ [[BlRequest.FlashRead 512 32], [BlRequest.FlashRead 768 32],
            [BlRequest.FlashRead 896 32], [BlRequest.FlashRead 960 32]].flatten
          ++ [BlRequest.FlashRead 928 64] ∧
      Nat.clog 2 1024 = 10 := by
  refine ⟨rfl, ?_⟩
  rw [show (1024 : Nat) = 2 ^ 10 by norm_num, Nat.clog_pow 2 10 (by decide)]

/-! ## Masks and shifts -/

theorem shiftRight_and (x y s : Nat) : (x &&& y) >>> s = (x >>> s) &&& (y >>> s) := by
  apply Nat.eq_of_testBit_eq
  intro i
  simp only [Nat.testBit_shiftRight, Nat.testBit_and]

theorem shiftRight_or (x y s : Nat) : (x ||| y) >>> s = (x >>> s) ||| (y >>> s) := by
  apply Nat.eq_of_testBit_eq
  intro i
  simp only [Nat.testBit_shiftRight, Nat.testBit_or]

theorem or_mod_two_pow (x y n : Nat) : (x ||| y) % 2 ^ n = (x % 2 ^ n) ||| (y % 2 ^ n) := by
  apply Nat.eq_of_testBit_eq
  intro i
  simp only [Nat.testBit_mod_two_pow, Nat.testBit_or, Bool.and_or_distrib_left]

theorem and_255 (x : Nat) : x &&& 255 = x % 256 := Nat.and_pow_two_sub_one_eq_mod x 8

theorem and_4095 (x : Nat) : x &&& 4095 = x % 4096 := Nat.and_pow_two_sub_one_eq_mod x 12

theorem and_15 (x : Nat) : x &&& 15 = x % 16 := Nat.and_pow_two_sub_one_eq_mod x 4

theorem zero_lor (x : Nat) : 0 ||| x = x := by
  apply Nat.eq_of_testBit_eq
  intro i
  simp

theorem lor_zero (x : Nat) : x ||| 0 = x := by
  apply Nat.eq_of_testBit_eq
  intro i
  simp

/-- The byte of `x` that a mask of eight bits and a shift select. -/
theorem masked_byte (x mask s : Nat) (hmask : mask >>> s = 255) :
    (x &&& mask) >>> s = x / 2 ^ s % 256 := by
  rw [shiftRight_and, hmask, and_255, Nat.shiftRight_eq_div_pow]

theorem or_240 : ∀ d, d < 16 → 240 ||| d = 240 + d := by decide

/-! ## The patched reset vector -/

theorem resetVector_bytes (k : Nat) :
    (0xEF00 ||| (k &&& 0xff)) % 2 ^ 16 % 256 = k &&& 0xFF ∧
      (((0xEF00 ||| (k &&& 0xff)) % 2 ^ 16) >>> 8) % 256 = 0xEF ∧
      (0xF000 ||| ((k >>> 8) &&& 0x0FFF)) % 2 ^ 16 % 256 = (k >>> 8) &&& 0xFF ∧
      (((0xF000 ||| ((k >>> 8) &&& 0x0FFF)) % 2 ^ 16) >>> 8) % 256
        = 0xF0 ||| ((k >>> 16) &&& 0x0F) := by
  have hA : (0xEF00 ||| (k &&& 0xff)) % 2 ^ 16 = 0xEF00 ||| (k &&& 0xff) :=
    Nat.mod_eq_of_lt (Nat.or_lt_two_pow (by decide) (Nat.and_lt_two_pow k (by decide)))
  have hB : (0xF000 ||| ((k >>> 8) &&& 0x0FFF)) % 2 ^ 16 = 0xF000 ||| ((k >>> 8) &&& 0x0FFF) :=
    Nat.mod_eq_of_lt (Nat.or_lt_two_pow (by decide) (Nat.and_lt_two_pow _ (by decide)))
  have h256 : (256 : Nat) = 2 ^ 8 := by norm_num
  refine ⟨?_, ?_, ?_, ?_⟩
  · rw [hA, h256, or_mod_two_pow, ← h256, show (0xEF00 : Nat) % 256 = 0 by decide, zero_lor,
      and_255, Nat.mod_mod]
  · rw [hA, shiftRight_or, show (0xEF00 : Nat) >>> 8 = 0xEF by decide, and_255,
      Nat.shiftRight_eq_div_pow (k % 256) 8,
      Nat.div_eq_of_lt (show k % 256 < 2 ^ 8 by omega), lor_zero]
  · rw [hB, h256, or_mod_two_pow, ← h256, show (0xF000 : Nat) % 256 = 0 by decide, zero_lor,
      and_4095, and_255]
    omega
  · rw [hB, shiftRight_or, show (0xF000 : Nat) >>> 8 = 0xF0 by decide, shiftRight_and,
      show (0x0FFF : Nat) >>> 8 = 0x0F by decide, ← Nat.shiftRight_add]
    exact Nat.mod_eq_of_lt (Nat.or_lt_two_pow (n := 8) (by decide)
      (Nat.and_lt_two_pow _ (by decide)))

theorem gotoTarget_of_bytes (k : Nat) (hk : k < 2 ^ 20) :
    gotoTarget [k &&& 0xFF, 0xEF, (k >>> 8) &&& 0xFF, 0xF0 ||| ((k >>> 16) &&& 0x0F)] = k := by
  have hd : (k >>> 16) &&& 0x0F < 16 := by
    rw [and_15]
    omega
  have ho := or_240 _ hd
  show ((k &&& 0xFF) + 256 * 0xEF &&& 0xFF)
    + ((((k >>> 8) &&& 0xFF) + 256 * (0xF0 ||| ((k >>> 16) &&& 0x0F))) &&& 0x0FFF) <<< 8 = k
  rw [ho, and_255, and_255, and_255, and_4095, and_15, Nat.shiftLeft_eq,
    Nat.shiftRight_eq_div_pow, Nat.shiftRight_eq_div_pow]
  omega

/-- C33: for every boot boundary `b` with `k = (b + 2) / 2 < 2 ^ 20`, the reset vector that
`BlProgramFlash` computes is `[k & 0xFF, 0xEF, (k >> 8) & 0xFF, 0xF0 | ((k >> 16) & 0x0F)]`.
Decoded as a two-word `GOTO` it yields the word address `k`, whose byte address `2 * k` lies
behind the boot boundary and at most two bytes behind it. The vector is what a successful
programming run writes to the flash addresses 0 to 3: the flash buffer starts with it, and
the first write of the buffer, at address 0, carries it in front (for a hex file that ends
at address 3 or later). -/
theorem resetVector_encodes_goto (b : Nat) (hk : (b + 2) / 2 < 2 ^ 20) :
    resetVector b
        = [((b + 2) / 2) &&& 0xFF, 0xEF, (((b + 2) / 2) >>> 8) &&& 0xFF,
            0xF0 ||| ((((b + 2) / 2) >>> 16) &&& 0x0F)] ∧
      gotoTarget (resetVector b) = (b + 2) / 2 ∧
      b < 2 * ((b + 2) / 2) ∧ 2 * ((b + 2) / 2) ≤ b + 2 ∧
      (∀ (hex : HexImage) (endAddress : Nat),
        (flashBuffer hex b endAddress).take 4 = resetVector b) ∧
      (∀ (cfg : BlCfg) (p : Proxy) (info : List Nat) (hex : HexImage)
          (endAddress b0 b1 b2 b3 : Nat),
        Acknowledges cfg p info → ProgramSetting cfg (BlInfo_GetAddress cfg info) →
        BlInfo_GetAddress cfg info = b →
        hex.endAddress = some endAddress → 3 ≤ endAddress → endAddress < b →
        hex.firstAddress = 0 →
        hex.getData 0 = some b0 → hex.getData 1 = some b1 →
        hex.getData 2 = some b2 → hex.getData 3 = some b3 →
        ∃ data, BlRequest.FlashWrite 0 data ∈ (BlProgramFlash cfg p (some hex)).2.sent ∧
          data.take 4 = resetVector b) := by
  have hmod : (b + 2) % 2 ^ 32 = b + 2 := Nat.mod_eq_of_lt (by omega)
  have hvec : resetVector b
      = [((b + 2) / 2) &&& 0xFF, 0xEF, (((b + 2) / 2) >>> 8) &&& 0xFF,
          0xF0 ||| ((((b + 2) / 2) >>> 16) &&& 0x0F)] := by
    obtain ⟨e0, e1, e2, e3⟩ := resetVector_bytes ((b + 2) / 2)
    unfold resetVector
    rw [hmod, e0, e1, e2, e3]
  have htake : ∀ (hex : HexImage) (endAddress : Nat),
      (flashBuffer hex b endAddress).take 4 = resetVector b := by
    intro hex endAddress
    unfold flashBuffer
    rw [hvec]
    rfl
  refine ⟨hvec, ?_, by omega, by omega, htake, ?_⟩
  · rw [hvec]
    exact gotoTarget_of_bytes _ hk
  · intro cfg p info hex endAddress b0 b1 b2 b3 hack hset hb hend h3 hlt hfirst g0 g1 g2 g3
    have hrun := BlProgramFlash_run cfg p info hex endAddress b0 b1 b2 b3 hack hset hend
      (by rw [hb]; exact hlt) hfirst g0 g1 g2 g3
    have hB4 := hset.write_block
    refine ⟨(((flashBuffer hex (BlInfo_GetAddress cfg info) endAddress).take
      (endAddress + 1)).take cfg.FLASH_WRITE_BLOCKSIZE), ?_, ?_⟩
    · rw [hrun, chunkReqs_succ]
      simp
    · rw [List.take_take, List.take_take, hb, Nat.min_eq_left (by omega),
        Nat.min_eq_left (by omega)]
      exact htake hex endAddress

theorem resetVector_encodes_goto_witness :
    ((1024 + 2) / 2 < 2 ^ 20) ∧ resetVector 1024 = [0x01, 0xEF, 0x02, 0xF0] ∧
      gotoTarget (resetVector 1024) = 513 := by
  have h := resetVector_encodes_goto 1024 (by decide)
  refine ⟨by decide, ?_, h.2.1⟩
  rw [h.1]
  decide

/-! ## The address and the colour of a fade frame -/

/-- The frame of `FwSetFade` spelled out with divisions: every field stored by the macro
`SetAddrRgb` is one byte of its argument. -/
theorem setFadeFrame_bytes (cfg : FwCfg) (mCmdFrame : cmd_frame) (argb fadeTmms addr : Nat)
    (parallelFade : Bool) :
    setFadeFrame cfg mCmdFrame argb fadeTmms addr parallelFade
      = { mCmdFrame with
          cmd := CmdCode.SET_FADE
          data := FrameData.set_fade
            { addr := [addr % 256, addr / 2 ^ 8 % 256, addr / 2 ^ 16 % 256, addr / 2 ^ 24 % 256]
              red := argb / 2 ^ 16 % 256
              green := argb / 2 ^ 8 % 256
              blue := argb % 256
              fadeTmms := htons cfg (fadeTicks16 cfg fadeTmms)
              parallelFade := if parallelFade then 1 else 0 } } := by
  unfold setFadeFrame
  rw [masked_byte addr 0x0000ff00 8 (by decide), masked_byte addr 0x00ff0000 16 (by decide),
    masked_byte addr 0xff000000 24 (by decide), masked_byte argb 0x00ff0000 16 (by decide),
    masked_byte argb 0x0000ff00 8 (by decide), and_255 addr, and_255 argb]

/-- C40: for a 32-bit value `addr` and every colour `argb` the macro `SetAddrRgb`, as
`FwSetFade` applies it to the frame, stores four address bytes `a0, a1, a2, a3` with
`a0 + 2^8 a1 + 2^16 a2 + 2^24 a3 = addr` and sets red, green and blue to the bits 23..16,
15..8 and 7..0 of `argb`. The bits 31..24 of `argb` do not reach the frame: a second colour
with the same low 24 bits gives the same frame, and with it the same transmission. -/
theorem SetAddrRgb_little_endian (cfg : FwCfg) (mCmdFrame : cmd_frame)
    (argb fadeTmms addr : Nat) (parallelFade : Bool) (haddr : addr < 2 ^ 32) :
    (∃ a0 a1 a2 a3 : Nat,
      setFadeFrame cfg mCmdFrame argb fadeTmms addr parallelFade
        = { mCmdFrame with
            cmd := CmdCode.SET_FADE
            data := FrameData.set_fade
              { addr := [a0, a1, a2, a3]
                red := argb / 2 ^ 16 % 2 ^ 8
                green := argb / 2 ^ 8 % 2 ^ 8
                blue := argb % 2 ^ 8
                fadeTmms := htons cfg (fadeTicks16 cfg fadeTmms)
                parallelFade := if parallelFade then 1 else 0 } } ∧
        a0 < 256 ∧ a1 < 256 ∧ a2 < 256 ∧ a3 < 256 ∧
        a0 + 2 ^ 8 * a1 + 2 ^ 16 * a2 + 2 ^ 24 * a3 = addr) ∧
      ∀ argb2 : Nat, argb2 % 2 ^ 24 = argb % 2 ^ 24 →
        setFadeFrame cfg mCmdFrame argb2 fadeTmms addr parallelFade
            = setFadeFrame cfg mCmdFrame argb fadeTmms addr parallelFade ∧
          ∀ (R : Type) (cls : ResponseClass R) (p : FwProxy) (response : R),
            FwSetFade cls cfg p mCmdFrame response argb2 fadeTmms addr parallelFade
              = FwSetFade cls cfg p mCmdFrame response argb fadeTmms addr parallelFade := by
  constructor
  · refine ⟨addr % 256, addr / 2 ^ 8 % 256, addr / 2 ^ 16 % 256, addr / 2 ^ 24 % 256,
      setFadeFrame_bytes cfg mCmdFrame argb fadeTmms addr parallelFade, ?_, ?_, ?_, ?_, ?_⟩
    · omega
    · omega
    · omega
    · omega
    · norm_num at haddr ⊢
      omega
  · intro argb2 hlow
    have hframe : setFadeFrame cfg mCmdFrame argb2 fadeTmms addr parallelFade
        = setFadeFrame cfg mCmdFrame argb fadeTmms addr parallelFade := by
      have hr : argb2 / 2 ^ 16 % 256 = argb / 2 ^ 16 % 256 := by
        norm_num at hlow ⊢
        omega
      have hg : argb2 / 2 ^ 8 % 256 = argb / 2 ^ 8 % 256 := by
        norm_num at hlow ⊢
        omega
      have hb : argb2 % 256 = argb % 256 := by
        norm_num at hlow ⊢
        omega
      rw [setFadeFrame_bytes, setFadeFrame_bytes, hr, hg, hb]
    refine ⟨hframe, ?_⟩
    intro R cls p response
    unfold FwSetFade
    rw [hframe]

theorem SetAddrRgb_little_endian_witness :
    (0x12345678 < 2 ^ 32) ∧
      setFadeFrame demoFw demoFrame 0x00AABBCC 400 0x12345678 true
        = setFadeFrame demoFw demoFrame 0xFFAABBCC 400 0x12345678 true :=
  ⟨by decide,
    ((SetAddrRgb_little_endian demoFw demoFrame 0xFFAABBCC 400 0x12345678 true
      (by decide)).2 0x00AABBCC (by decide)).1⟩

/-- The fade frame of the example: the address bytes in little-endian order, then the
colour without its alpha byte. -/
theorem setFadeFrame_example :
    (setFadeFrame demoFw demoFrame 0xFFAABBCC 400 0x12345678 true).data
      = FrameData.set_fade
          { addr := [0x78, 0x56, 0x34, 0x12], red := 0xAA, green := 0xBB, blue := 0xCC,
            fadeTmms := 20480, parallelFade := 1 } := by
  decide

/-! ## The LED array of `FwSetColorDirect` -/

/-- The array that `memcpy` and `memset` leave behind: `m` entries, the first `min n m` of them
from the buffer, zeros after them. -/
theorem ledArray_spec (buffer : List Nat) (n m : Nat) (hn : n ≤ buffer.length) :
    (buffer.take (min n m) ++ List.replicate (m - min n m) 0).length = m ∧
      (∀ i, i < min n m →
        (buffer.take (min n m) ++ List.replicate (m - min n m) 0)[i]? = buffer[i]?) ∧
      (∀ i, min n m ≤ i → i < m →
        (buffer.take (min n m) ++ List.replicate (m - min n m) 0)[i]? = some 0) := by
  have hlen : (buffer.take (min n m)).length = min n m := by
    rw [List.length_take]
    omega
  refine ⟨?_, ?_, ?_⟩
  · rw [List.length_append, hlen, List.length_replicate]
    omega
  · intro i hi
    rw [List.getElem?_append_left (by rw [hlen]; exact hi), List.getElem?_take_of_lt hi]
  · intro i hi him
    rw [List.getElem?_append_right (by rw [hlen]; exact hi), hlen, List.getElem?_replicate,
      if_pos (by omega)]

/-- C39: for a buffer of `n` bytes (not the null pointer) `FwSetColorDirect` is the
transmission of the frame with the command `SET_COLOR_DIRECT` and an LED array `arr` of
exactly `NUM_OF_LED * 3` bytes; the first `min n (NUM_OF_LED * 3)` bytes of `arr` are those
of the buffer and all bytes behind them are 0. Every frame handed to the transport (there is
at least one) carries this array. Bytes of the input behind `NUM_OF_LED * 3` are ignored: a
call with another buffer and another length that agree in the bytes copied is the same
call. For the null pointer the method raises `bad_alloc` and hands nothing to the
transport. -/
theorem FwSetColorDirect_led_array {R : Type} (cls : ResponseClass R) (lay : FwLayout)
    (p : FwProxy) (mCmdFrame : cmd_frame) (response : R) (buffer : List Nat) (n : Nat)
    (hn : n ≤ buffer.length) :
    (∃ arr : List Nat,
      FwSetColorDirect cls lay p mCmdFrame response (some buffer) n
        = FwSend cls p
            { mCmdFrame with
              cmd := lay.SET_COLOR_DIRECT
              data := lay.set_led_array mCmdFrame.data arr }
            lay.SIZEOF_CMD_SET_COLOR_DIRECT response ∧
      arr.length = lay.NUM_OF_LED * 3 ∧
      (∀ i, i < min n (lay.NUM_OF_LED * 3) → arr[i]? = buffer[i]?) ∧
      (∀ i, min n (lay.NUM_OF_LED * 3) ≤ i → i < lay.NUM_OF_LED * 3 → arr[i]? = some 0) ∧
      p.sent.length
        < (FwSetColorDirect cls lay p mCmdFrame response (some buffer) n).2.sent.length ∧
      ∀ f ∈ (FwSetColorDirect cls lay p mCmdFrame response (some buffer) n).2.sent.drop
          p.sent.length,
        f.cmd = lay.SET_COLOR_DIRECT ∧ f.data = lay.set_led_array mCmdFrame.data arr) ∧
    (∀ (buffer2 : List Nat) (n2 : Nat),
      min n2 (lay.NUM_OF_LED * 3) = min n (lay.NUM_OF_LED * 3) →
      buffer2.take (min n (lay.NUM_OF_LED * 3)) = buffer.take (min n (lay.NUM_OF_LED * 3)) →
      FwSetColorDirect cls lay p mCmdFrame response (some buffer2) n2
        = FwSetColorDirect cls lay p mCmdFrame response (some buffer) n) ∧
    FwSetColorDirect cls lay p mCmdFrame response none n
      = (Except.error FwError.bad_alloc, p) := by
  obtain ⟨hlen, hcopy, hzero⟩ := ledArray_spec buffer n (lay.NUM_OF_LED * 3) hn
  refine ⟨⟨buffer.take (min n (lay.NUM_OF_LED * 3)) ++
      List.replicate (lay.NUM_OF_LED * 3 - min n (lay.NUM_OF_LED * 3)) 0,
    rfl, hlen, hcopy, hzero, ?_, ?_⟩, ?_, rfl⟩
  · obtain ⟨k, hk1, _, hk⟩ := FwSend_frames cls p
      { mCmdFrame with
        cmd := lay.SET_COLOR_DIRECT
        data := lay.set_led_array mCmdFrame.data
          (buffer.take (min n (lay.NUM_OF_LED * 3)) ++
            List.replicate (lay.NUM_OF_LED * 3 - min n (lay.NUM_OF_LED * 3)) 0) }
      lay.SIZEOF_CMD_SET_COLOR_DIRECT response
    show p.sent.length < (FwSend cls p _ _ response).2.sent.length
    rw [hk, List.length_append, List.length_replicate]
    omega
  · intro f hf
    obtain ⟨k, _, _, hk⟩ := FwSend_frames cls p
      { mCmdFrame with
        cmd := lay.SET_COLOR_DIRECT
        data := lay.set_led_array mCmdFrame.data
          (buffer.take (min n (lay.NUM_OF_LED * 3)) ++
            List.replicate (lay.NUM_OF_LED * 3 - min n (lay.NUM_OF_LED * 3)) 0) }
      lay.SIZEOF_CMD_SET_COLOR_DIRECT response
    change f ∈ (FwSend cls p _ _ response).2.sent.drop p.sent.length at hf
    rw [hk, List.drop_left] at hf
    rw [List.eq_of_mem_replicate hf]
    exact ⟨rfl, rfl⟩
  · intro buffer2 n2 hmin htake
    unfold FwSetColorDirect
    simp only [hmin, htake]

theorem FwSetColorDirect_led_array_witness :
    (2 ≤ [7, 8, 9].length) ∧
      FwSetColorDirect demoResponse demoLayout (scriptedFw [[0, 1, 0]]) demoFrame
          (true, false, false) (some [7, 8, 5]) 2
        = FwSetColorDirect demoResponse demoLayout (scriptedFw [[0, 1, 0]]) demoFrame
          (true, false, false) (some [7, 8, 9]) 2 :=
  ⟨by decide,
    (FwSetColorDirect_led_array demoResponse demoLayout (scriptedFw [[0, 1, 0]]) demoFrame
      (true, false, false) [7, 8, 9] 2 (by decide)).2.1 [7, 8, 5] 2 rfl rfl⟩

/-- The frame of a direct colour command with a buffer of 2 bytes on a strip of 32 LEDs: the
two bytes, then 94 zeros. -/
theorem FwSetColorDirect_example_frame :
    (FwSetColorDirect demoResponse demoLayout (scriptedFw [[0, 1, 0]]) demoFrame
        (true, false, false) (some [7, 8, 9]) 2).2.sent
      = [{ length := 98, cmd := CmdCode.OTHER 0xf1,
           data := FrameData.other (7 :: 8 :: List.replicate 94 0) }] ∧
    (FwSetColorDirect demoResponse demoLayout (scriptedFw [[0, 1, 0]]) demoFrame
        (true, false, false) (some (List.replicate 100 3)) 100).2.sent
      = [{ length := 98, cmd := CmdCode.OTHER 0xf1,
           data := FrameData.other (List.replicate 96 3) }] := by
  constructor <;> rfl

/-- C32 (failing input): on the example device with the boot boundary 1024 and the
application in the flash addresses 0 to 39 the version lookup sends four probe reads of 32
bytes (at 512, 256, 128 and 64) and no read of 64 bytes behind them: the search ends with
`address = 32`, the subtraction `address -= readblock * 2` wraps around below 0, the final
read is rejected by the range check before a request is sent, and the method raises the
range error. -/
theorem BlReadFwVersion_final_read_missing :
    (BlReadFwVersion demoBl ((demoDevice 1024 40).proxy demoBl)).2.sent
        = [BlRequest.Info, BlRequest.FlashRead 512 32, BlRequest.FlashRead 256 32,
            BlRequest.FlashRead 128 32, BlRequest.FlashRead 64 32] ∧
      (BlReadFwVersion demoBl ((demoDevice 1024 40).proxy demoBl)).1
        = Except.error BlError.WiflyControlException ∧
      BlInfo_GetAddress demoBl
        (((demoDevice 1024 40).proxy demoBl).respond [] BlRequest.Info) = 1024 :=
  ⟨rfl, rfl, rfl⟩

/-! ## Failing inputs of the loop, arc and programming properties -/

/-- Why the loop protocol of C5 keeps `LOOP_ON` away from a full ring: the dropped `LOOP_ON`
still opens a loop (the loop depth becomes 1, `loopStart[0]` is the `write` index 3), and the
`LOOP_OFF` that closes it later jumps to slot 0, which `read` has passed: `read = 1`,
`write = 2`, `execute = 0` in a ring of four slots. Every other command of the run respects
the protocol. -/
theorem dropped_loop_on_leaves_arc :
    (applyOps demoCfg fullRingOps (freshWorld 0)).buf.read = 1 ∧
    (applyOps demoCfg fullRingOps (freshWorld 0)).buf.write = 2 ∧
    (applyOps demoCfg fullRingOps (freshWorld 0)).buf.execute = 0 ∧
    ¬ onArc 4 (applyOps demoCfg fullRingOps (freshWorld 0)).buf.read
        (applyOps demoCfg fullRingOps (freshWorld 0)).buf.execute
        (applyOps demoCfg fullRingOps (freshWorld 0)).buf.write := by
  unfold onArc
  decide

/-- The length field is one byte: for a size argument of 254 the frame that `FwSend` hands
to the transport carries the length 0. -/
theorem FwSend_length_wraps :
    (FwSend demoResponse (scriptedFw [[0, 1, 0]]) demoFrame 254 (true, false, false)).2.sent
      = [{ demoFrame with length := 0 }] := rfl

end WiflyLight
